import Mathlib

/-! # webdfu: DFU / DfuSe protocol engine

A shallow embedding of `src/DFU.js` and `src/DFUse.js`, and what is proved of it.

* JavaScript strings are lists of characters; numbers are the integers that
  doubles hold: every sum, difference, product and `parseInt` is rounded to 53
  significant bits (`JS.toDouble`), so that integers up to `2^53` are exact and
  larger ones are rounded as the code rounds them; a `NaN` operand and a loop
  that outlives its budget end a run as `stuck`.
* The two regular expressions of `DFUse.parseMemoryDescriptor` are written as
  syntax trees and run by a backtracking matcher that follows the ECMAScript
  pattern semantics (continuation passing, greedy quantifiers, the
  empty-iteration check and the capture reset of `RepeatMatcher`).
* Device sessions are run against an arbitrary USB device: a device is a family
  of functions from the history of events so far to the response it gives. A
  session appends what it does to that history; console logging is left out.
-/

set_option autoImplicit false

namespace JS

/-! ## JavaScript string helpers -/

/-- White space and line terminators of ECMAScript: the characters matched by
`\s` and removed by `String.prototype.trim`. -/
def isJsSpace (c : Char) : Bool :=
  let n := c.toNat
  n == 0x09 || n == 0x0A || n == 0x0B || n == 0x0C || n == 0x0D || n == 0x20 ||
  n == 0xA0 || n == 0x1680 || (0x2000 ≤ n && n ≤ 0x200A) || n == 0x2028 ||
  n == 0x2029 || n == 0x202F || n == 0x205F || n == 0x3000 || n == 0xFEFF

/-- The class `[0-9]`. -/
def isDecDigit (c : Char) : Bool := 48 ≤ c.toNat && c.toNat ≤ 57

/-- The class `[0-9a-fA-F]`. -/
def isHexDigit (c : Char) : Bool :=
  isDecDigit c || (97 ≤ c.toNat && c.toNat ≤ 102) || (65 ≤ c.toNat && c.toNat ≤ 70)

/-- `s.indexOf(c)` for a one-character needle; `none` stands for `-1`. -/
def indexOf (c : Char) : List Char → Option Nat
  | [] => none
  | x :: xs => if x = c then some 0 else (indexOf c xs).map (· + 1)

/-- `s.startsWith(c)` for a one-character prefix. -/
def startsWith (c : Char) : List Char → Bool
  | [] => false
  | x :: _ => x == c

/-- `s.substring(a, b)` on non-negative integer arguments. -/
def substring (s : List Char) (a b : Nat) : List Char :=
  let a1 := min a s.length
  let b1 := min b s.length
  (s.drop (min a1 b1)).take (max a1 b1 - min a1 b1)

/-- `s.substring(a)`. -/
def substringFrom (s : List Char) (a : Nat) : List Char := s.drop (min a s.length)

/-- `s.trim()`. -/
def trim (s : List Char) : List Char :=
  ((s.dropWhile isJsSpace).reverse.dropWhile isJsSpace).reverse

/-- Value of a digit character in the given radix, if it is one. -/
def digitValue (radix : Nat) (c : Char) : Option Nat :=
  let n := c.toNat
  let v : Option Nat :=
    if 48 ≤ n ∧ n ≤ 57 then some (n - 48)
    else if 97 ≤ n ∧ n ≤ 122 then some (n - 97 + 10)
    else if 65 ≤ n ∧ n ≤ 90 then some (n - 65 + 10)
    else none
  v.bind fun d => if d < radix then some d else none

/-- Longest prefix of valid digits, read most significant first:
returns the value read so far and whether any digit was seen. -/
def parseDigits (radix : Nat) : List Char → Nat → Bool → Nat × Bool
  | [], acc, seen => (acc, seen)
  | c :: cs, acc, seen =>
    match digitValue radix c with
    | some d => parseDigits radix cs (acc * radix + d) true
    | none => (acc, seen)

/-! ## JavaScript numbers

The numbers of the engine are integers held in IEEE 754 doubles: the result of every
addition, subtraction, multiplication and `parseInt` is rounded to 53 significant bits,
to nearest, ties to even. Integers up to `2^53` in magnitude are not changed. The
exponent range is not bounded here: magnitudes from `2^1024` on, which a double turns
into `Infinity`, are rounded like the others. -/

/-- The number of times `n` is halved to get below `2^53`: the binary exponent of the
unit in the last place of the double nearest to `n`. The first argument bounds the
count. -/
def excessBits : Nat → Nat → Nat
  | 0, _ => 0
  | fuel + 1, n => if n < 9007199254740992 then 0 else excessBits fuel (n / 2) + 1

/-- The integer nearest to `num / den`, the even one of the two when both are as
near. -/
def roundHalfEven (num den : Nat) : Nat :=
  if den < 2 * (num % den) ∨ (2 * (num % den) = den ∧ num / den % 2 = 1) then num / den + 1
  else num / den

/-- The double nearest to a natural number. -/
def toDoubleNat (n : Nat) : Nat :=
  roundHalfEven n (2 ^ excessBits n n) * 2 ^ excessBits n n

/-- The double nearest to an integer: the value of a sum, a difference or a product
computed by the engine. -/
def toDouble (n : Int) : Int :=
  if n < 0 then -((toDoubleNat n.natAbs : Nat) : Int) else ((toDoubleNat n.natAbs : Nat) : Int)

/-- The number of times `num` is doubled for `num / den` to reach `2^52`. The first
argument bounds the count. -/
def deficitBits : Nat → Nat → Nat → Nat
  | 0, _, _ => 0
  | fuel + 1, num, den =>
    if den * 4503599627370496 ≤ num then 0 else deficitBits fuel (2 * num) den + 1

/-- `Math.floor(num / den)` (`Math.ceil(num / den)` when `up` is set) for positive
`num` and `den`: the quotient is first rounded to the nearest double. When the
quotient is `2^53` or more the double is an integer; below, it is the 53-bit
significand `roundHalfEven (num * 2^s) den` divided by `2^s`. -/
def quotientToInteger (num den : Nat) (up : Bool) : Nat :=
  if den * 9007199254740992 ≤ num then
    roundHalfEven num (den * 2 ^ excessBits (num / den) (num / den)) *
      2 ^ excessBits (num / den) (num / den)
  else
    let s := deficitBits (den + 52) num den
    let m := roundHalfEven (num * 2 ^ s) den
    if up then (m + 2 ^ s - 1) / 2 ^ s else m / 2 ^ s

/-- `Math.floor(a / b)` for integers `a` and `b`, `b` not zero. -/
def floorDiv (a b : Int) : Int :=
  if a = 0 then 0
  else if decide (a < 0) = decide (b < 0) then ((quotientToInteger a.natAbs b.natAbs false : Nat) : Int)
  else -((quotientToInteger a.natAbs b.natAbs true : Nat) : Int)

/-! ## `parseInt` -/

/-- `parseInt(s, radix)` for radix 10 or 16 on unsigned text: leading white
space is skipped, a `0x`/`0X` prefix is skipped when the radix is 16, then the
longest prefix of digits is read and the double nearest to its value is
returned. `none` stands for `NaN`. (`parseInt(s)` without radix is
`parseInt(s, 10)` unless the text starts with `0x`.) -/
def parseInt (s : List Char) (radix : Nat) : Option Nat :=
  let t := s.dropWhile isJsSpace
  let t := if radix = 16 then
      match t with
      | '0' :: 'x' :: r => r
      | '0' :: 'X' :: r => r
      | _ => t
    else t
  match parseDigits radix t 0 false with
  | (v, true) => some (toDoubleNat v)
  | (_, false) => none

/-! ## Outcomes -/

/-- A thrown value: an error object (`Error`, `TypeError`, `RangeError`) with
its name and message, or a plain string used as a rejection reason. -/
inductive Thrown where
  | error (name : String) (message : String)
  | value (text : String)
  deriving Repr, DecidableEq

/-- The text of a thrown value when it is concatenated to a string. -/
def Thrown.toString : Thrown → String
  | .error name message => name ++ ": " ++ message
  | .value text => text

/-- The value thrown by `throw new Error(message)`. -/
def newError (message : String) : Thrown := .error "Error" message

/-- Outcome of a run: a value, a thrown error (or rejected promise), or a run
that the model cannot follow (a loop that exceeds its budget or arithmetic on
`NaN`). -/
inductive Outcome (α : Type) where
  | ok (value : α)
  | throw (error : Thrown)
  | stuck
  deriving Repr, DecidableEq

/-! ## Regular expressions -/

/-- One-character atoms of a pattern. -/
inductive CharSet where
  | lit (c : Char)
  | space
  | digit
  | hexDigit
  | anyOf (cs : List Char)

/-- Membership test of a character atom. -/
def CharSet.test : CharSet → Char → Bool
  | .lit c, x => x == c
  | .space, x => isJsSpace x
  | .digit, x => isDecDigit x
  | .hexDigit, x => isHexDigit x
  | .anyOf cs, x => cs.contains x

/-- Pattern syntax: atoms, concatenation, greedy quantifier `{min,max}`
(`max = none` is unbounded) and capture groups. -/
inductive Regex where
  | set (cs : CharSet)
  | seq (a b : Regex)
  | rep (r : Regex) (min : Nat) (max : Option Nat)
  | group (i : Nat) (r : Regex)

/-- Greedy `r*`. -/
def Regex.star (r : Regex) : Regex := .rep r 0 none
/-- Greedy `r+`. -/
def Regex.plus (r : Regex) : Regex := .rep r 1 none
/-- Greedy `r?`. -/
def Regex.opt (r : Regex) : Regex := .rep r 0 (some 1)
/-- A literal character. -/
def Regex.chr (c : Char) : Regex := .set (.lit c)

/-- Capture groups opened inside a pattern. -/
def Regex.groups : Regex → List Nat
  | .set _ => []
  | .seq a b => a.groups ++ b.groups
  | .rep r _ _ => r.groups
  | .group i r => i :: r.groups

/-- Captures: the most recent binding of a group comes first. -/
abbrev Captures := List (Nat × List Char)

/-- A match state: the rest of the input and the captures. -/
abbrev MatchState := List Char × Captures

/-- Continuation of a matcher. -/
abbrev Cont := List Char → Captures → Option MatchState

/-- ECMAScript `RepeatMatcher` for a greedy quantifier. `m` matches one
iteration, `grp` are the groups reset at the start of each iteration. An
iteration that consumes nothing once `min` is reached is rejected. The first
argument bounds the number of iterations; `min + x.length + 1` is enough. -/
def repeatMatcher (m : List Char → Captures → Cont → Option MatchState) (grp : List Nat) :
    Nat → Nat → Option Nat → List Char → Captures → Cont → Option MatchState
  | 0, _, _, _, _, _ => none
  | fuel + 1, min, max, x, caps, c =>
    if max = some 0 then c x caps
    else
      let d : Cont := fun y caps1 =>
        if min = 0 ∧ y.length = x.length then none
        else repeatMatcher m grp fuel (min - 1) (max.map (· - 1)) y caps1 c
      let xr := caps.filter (fun p => !grp.contains p.1)
      if min ≠ 0 then m x xr d
      else
        match m x xr d with
        | some z => some z
        | none => c x caps

/-- Backtracking matcher: `matchRegex r x caps c` matches `r` at the front of
`x` and hands the rest to `c`, trying the alternatives in priority order. -/
def matchRegex : Regex → List Char → Captures → Cont → Option MatchState
  | .set cs, x, caps, c =>
    match x with
    | [] => none
    | ch :: rest => if cs.test ch then c rest caps else none
  | .seq a b, x, caps, c => matchRegex a x caps (fun y caps1 => matchRegex b y caps1 c)
  | .rep r min max, x, caps, c =>
    repeatMatcher (fun y caps1 c1 => matchRegex r y caps1 c1) r.groups
      (min + x.length + 1) min max x caps c
  | .group i r, x, caps, c =>
    matchRegex r x caps (fun y caps1 => c y ((i, x.take (x.length - y.length)) :: caps1))

/-- Result of `RegExp.prototype.exec`: match start, the matched text
(`match[0]`), the end of the match and the captures. -/
structure MatchResult where
  index : Nat
  text : List Char
  endIndex : Nat
  caps : Captures

/-- `match[i]` for a capture group; `none` stands for `undefined`. -/
def MatchResult.cap (m : MatchResult) (i : Nat) : Option (List Char) := m.caps.lookup i

/-- One attempt of `exec` at position `i`, where `x` is the input from
position `i` on. -/
def matchAt (re : Regex) (i : Nat) (x : List Char) : Option MatchResult :=
  match matchRegex re x [] (fun y caps => some (y, caps)) with
  | some (y, caps) =>
    some { index := i, text := x.take (x.length - y.length),
           endIndex := i + (x.length - y.length), caps := caps }
  | none => none

/-- Leftmost match at or after the current position `i`, where `x` is the
input from position `i` on: the positions are tried in order, the end of the
input included. -/
def search (re : Regex) : Nat → List Char → Option MatchResult
  | i, [] => matchAt re i []
  | i, ch :: t =>
    match matchAt re i (ch :: t) with
    | some m => some m
    | none => search re (i + 1) t

/-- `re.exec(s)` for a global pattern whose `lastIndex` is `lastIndex`. -/
def exec (re : Regex) (s : List Char) (lastIndex : Nat) : Option MatchResult :=
  if s.length < lastIndex then none else search re lastIndex (s.drop lastIndex)

/-- The loop `while ((m = re.exec(s))) ...` on a fresh global pattern: all
matches in order. `none` when the loop does not finish within the budget. -/
def execAll (re : Regex) (s : List Char) : Nat → Nat → Option (List MatchResult)
  | 0, _ => none
  | fuel + 1, lastIndex =>
    match exec re s lastIndex with
    | none => some []
    | some m => (execAll re s fuel m.endIndex).map (m :: ·)

end JS

namespace DFU
open JS

/-! ## Protocol constants -/

def DETACH : Nat := 0x00
def DNLOAD : Nat := 0x01
def UPLOAD : Nat := 0x02
def GETSTATUS : Nat := 0x03
def CLRSTATUS : Nat := 0x04
def GETSTATE : Nat := 0x05
def ABORT : Nat := 0x06

def appIDLE : Nat := 0
def appDETACH : Nat := 1
def dfuIDLE : Nat := 2
def dfuDNLOAD_SYNC : Nat := 3
def dfuDNBUSY : Nat := 4
def dfuDNLOAD_IDLE : Nat := 5
def dfuMANIFEST_SYNC : Nat := 6
def dfuMANIFEST : Nat := 7
def dfuMANIFEST_WAIT_RESET : Nat := 8
def dfuUPLOAD_IDLE : Nat := 9
def dfuERROR : Nat := 10

def STATUS_OK : Nat := 0x0

/-! ## The USB device and the trace of a session -/

/-- Direction argument of `clearHalt`. -/
inductive Direction where
  | «in»
  | out
  deriving Repr, DecidableEq

/-- What a session does that is visible from outside, in the order it happens.
`dfuseCommand` is not a USB request: it marks the entry into
`DFUse.Device.dfuseCommand` with the arguments the caller passed. -/
inductive Event where
  | controlTransferOut (request value index : Nat) (data : Option (List Nat))
  | controlTransferIn (request value index length : Nat)
  | clearHalt (direction : Direction) (interfaceNumber : Nat)
  | reset
  | sleep (ms : Nat)
  | dfuseCommand (command : Nat) (param : Option Int) (len : Option Nat)
  deriving Repr, DecidableEq

/-- The `status` field of a transfer result. -/
inductive TransferStatus where
  | ok
  | stall
  | babble
  deriving Repr, DecidableEq

/-- Result of `controlTransferOut`. -/
structure USBOutTransferResult where
  status : TransferStatus
  bytesWritten : Nat
  deriving Repr, DecidableEq

/-- Result of `controlTransferIn`; `data` is a `DataView` or `null`. -/
structure USBInTransferResult where
  status : TransferStatus
  data : Option (List Nat)
  deriving Repr, DecidableEq

/-- The USB device behind `this.device_`: every response is a function of the
events that happened before the request and of the request itself; `error`
stands for a rejected promise. -/
structure USBDevice where
  controlTransferOut : List Event → Nat → Nat → Nat → Option (List Nat) →
    Except Thrown USBOutTransferResult
  controlTransferIn : List Event → Nat → Nat → Nat → Nat → Except Thrown USBInTransferResult
  clearHalt : List Event → Direction → Nat → Except Thrown Unit
  reset : List Event → Except Thrown Unit

/-- A computation of a session: from the trace so far to the trace after it
and its outcome. -/
def Run (α : Type) : Type := List Event → List Event × Outcome α

/-- Sequencing: the second computation runs only when the first returns. -/
def Run.bind {α β : Type} (x : Run α) (f : α → Run β) : Run β := fun tr =>
  match x tr with
  | (tr1, .ok a) => f a tr1
  | (tr1, .throw e) => (tr1, .throw e)
  | (tr1, .stuck) => (tr1, .stuck)

/-- A computation that returns at once. -/
def Run.pure {α : Type} (a : α) : Run α := fun tr => (tr, .ok a)

/-- A computation that throws. -/
def Run.throw {α : Type} (e : Thrown) : Run α := fun tr => (tr, .throw e)

/-- A computation the model cannot follow any further. -/
def Run.stuck {α : Type} : Run α := fun tr => (tr, .stuck)

/-- JavaScript `try x catch (error) h error`. -/
def Run.tryCatch {α : Type} (x : Run α) (h : Thrown → Run α) : Run α := fun tr =>
  match x tr with
  | (tr1, .ok a) => (tr1, .ok a)
  | (tr1, .throw e) => h e tr1
  | (tr1, .stuck) => (tr1, .stuck)

instance : Monad Run where
  pure := Run.pure
  bind := Run.bind

/-- Records an event and returns the answer the device gives to it. -/
def Run.call {α : Type} (e : Event) (answer : List Event → Except Thrown α) : Run α := fun tr =>
  (tr ++ [e],
    match answer tr with
    | .ok a => .ok a
    | .error err => .throw err)

/-- Records an event. -/
def Run.emit (e : Event) : Run Unit := fun tr => (tr ++ [e], .ok ())

/-! ## `DFU.Device` -/

/-- The fields of a session: the USB device and the interface number used on
every class request. -/
structure Device where
  device_ : USBDevice
  intfNumber : Nat

/-- The value returned by `getStatus`. -/
structure Status where
  status : Nat
  pollTimeout : Nat
  state : Nat
  deriving Repr, DecidableEq

namespace Device

/-- `requestOut(bRequest, data, wValue)`. -/
def requestOut (d : Device) (bRequest : Nat) (data : Option (List Nat)) (wValue : Nat) :
    Run Nat := do
  let result ← Run.call (.controlTransferOut bRequest wValue d.intfNumber data)
    (fun tr => d.device_.controlTransferOut tr bRequest wValue d.intfNumber data)
  if result.status = .stall then
    Run.call (.clearHalt .out d.intfNumber) (fun tr => d.device_.clearHalt tr .out d.intfNumber)
    Run.throw (newError "stall")
  else
    pure result.bytesWritten

/-- `requestIn(bRequest, wLength, wValue)`. -/
def requestIn (d : Device) (bRequest : Nat) (wLength : Nat) (wValue : Nat) :
    Run (Option (List Nat)) := do
  let result ← Run.call (.controlTransferIn bRequest wValue d.intfNumber wLength)
    (fun tr => d.device_.controlTransferIn tr bRequest wValue d.intfNumber wLength)
  if result.status = .stall then
    Run.call (.clearHalt .in d.intfNumber) (fun tr => d.device_.clearHalt tr .in d.intfNumber)
    Run.throw (newError "stall")
  else
    pure result.data

/-- `download(data, blockNum)`. -/
def download (d : Device) (data : List Nat) (blockNum : Nat) : Run Nat :=
  d.requestOut DNLOAD (some data) blockNum

/-- `DataView.getUint8(i)`; throws when the view is `null` or too short. -/
def getUint8 (data : Option (List Nat)) (i : Nat) : Outcome Nat :=
  match data with
  | none => .throw (.error "TypeError" "Cannot read properties of null")
  | some bytes =>
    match bytes.get? i with
    | some b => .ok (b % 256)
    | none => .throw (.error "RangeError" "Offset is outside the bounds of the DataView")

/-- `DataView.getUint32(i, true)`: four bytes, little-endian. -/
def getUint32LE (data : Option (List Nat)) (i : Nat) : Outcome Nat :=
  match data with
  | none => .throw (.error "TypeError" "Cannot read properties of null")
  | some bytes =>
    match bytes.get? i, bytes.get? (i + 1), bytes.get? (i + 2), bytes.get? (i + 3) with
    | some b0, some b1, some b2, some b3 =>
      .ok (b0 % 256 + 256 * (b1 % 256) + 65536 * (b2 % 256) + 16777216 * (b3 % 256))
    | _, _, _, _ => .throw (.error "RangeError" "Offset is outside the bounds of the DataView")

/-- The decoding step of `getStatus`: the object built from the response. -/
def decodeStatus (data : Option (List Nat)) : Outcome Status :=
  match getUint8 data 0 with
  | .ok status =>
    match getUint32LE data 1 with
    | .ok word =>
      match getUint8 data 4 with
      | .ok state => .ok { status := status, pollTimeout := word &&& 0xFFFFFF, state := state }
      | .throw e => .throw e
      | .stuck => .stuck
    | .throw e => .throw e
    | .stuck => .stuck
  | .throw e => .throw e
  | .stuck => .stuck

/-- `getStatus()`. -/
def getStatus (d : Device) : Run Status :=
  Run.bind
    (Run.tryCatch (d.requestIn GETSTATUS 6 0)
      (fun error => Run.throw (.value ("DFU GETSTATUS failed: " ++ error.toString))))
    (fun data => fun tr => (tr, decodeStatus data))

/-- The loop of `poll_until`, entered with the status read last; the first
argument bounds the number of iterations. -/
def pollLoop (d : Device) (state_predicate : Nat → Bool) : Nat → Status → Run Status
  | fuel, dfu_status =>
    if !state_predicate dfu_status.state && dfu_status.state != dfuERROR then
      match fuel with
      | 0 => Run.stuck
      | fuel1 + 1 => do
        Run.emit (.sleep dfu_status.pollTimeout)
        let next ← d.getStatus
        pollLoop d state_predicate fuel1 next
    else
      pure dfu_status

/-- `poll_until(state_predicate)`. -/
def poll_until (d : Device) (fuel : Nat) (state_predicate : Nat → Bool) : Run Status := do
  let dfu_status ← d.getStatus
  pollLoop d state_predicate fuel dfu_status

/-- `poll_until_idle(idle_state)`. -/
def poll_until_idle (d : Device) (fuel : Nat) (idle_state : Nat) : Run Status :=
  d.poll_until fuel (fun state => state == idle_state)

/-- The `while (bytes_sent < expected_size)` loop of `do_download`; returns
the final `bytes_sent` and `transaction`. The first argument bounds the number
of iterations, `pollFuel` the iterations of each status poll. -/
def downloadLoop (d : Device) (pollFuel : Nat) (xfer_size : Nat) (data : List Nat) :
    Nat → Nat → Nat → Run (Nat × Nat)
  | fuel, bytes_sent, transaction =>
    let expected_size := data.length
    if bytes_sent < expected_size then
      match fuel with
      | 0 => Run.stuck
      | fuel1 + 1 => do
        let bytes_left := expected_size - bytes_sent
        let chunk_size := min bytes_left xfer_size
        let (bytes_written, dfu_status) ← Run.tryCatch
          (do
            let bytes_written ← d.download ((data.drop bytes_sent).take chunk_size) transaction
            let dfu_status ← d.poll_until_idle pollFuel dfuDNLOAD_IDLE
            pure (bytes_written, dfu_status))
          (fun error => Run.throw (newError ("Error during DFU download: " ++ error.toString)))
        if dfu_status.status ≠ STATUS_OK then
          Run.throw (newError ("DFU DOWNLOAD failed state=" ++ toString dfu_status.state ++
            ", status=" ++ toString dfu_status.status))
        else
          downloadLoop d pollFuel xfer_size data fuel1 (bytes_sent + bytes_written)
            (transaction + 1)
    else
      pure (bytes_sent, transaction)

/-- The manifestation step of `do_download`, after the final empty block: when
the device is manifestation tolerant, wait until it is idle again (a vanished
device is tolerated); otherwise poll the status once, ignoring failures. -/
def manifestPoll (d : Device) (pollFuel : Nat) (manifestationTolerant : Bool) : Run Unit :=
  if manifestationTolerant then
    Run.tryCatch
      (do
        let dfu_status ← d.poll_until pollFuel
          (fun state => state == dfuIDLE || state == dfuMANIFEST_WAIT_RESET)
        if dfu_status.status ≠ STATUS_OK then
          Run.throw (newError ("DFU MANIFEST failed state=" ++ toString dfu_status.state ++
            ", status=" ++ toString dfu_status.status))
        else pure ())
      (fun error =>
        match error with
        | .value text =>
          if "ControlTransferIn failed: NotFoundError: Device unavailable.".toList.isSuffixOf
                text.toList ||
              "ControlTransferIn failed: NotFoundError: The device was disconnected.".toList.isSuffixOf
                text.toList then
            pure ()
          else Run.throw (newError ("Error during DFU manifest: " ++ text))
        | .error _ _ => Run.throw (.error "TypeError" "error.endsWith is not a function"))
  else
    Run.tryCatch (do let _ ← d.getStatus; pure ()) (fun _ => pure ())

/-- The last step of `do_download`: reset the device, ignoring the errors of a
device that is already gone. -/
def resetDevice (d : Device) : Run Unit :=
  Run.tryCatch (Run.call .reset (fun tr => d.device_.reset tr))
    (fun error =>
      if error = .value "NetworkError: Unable to reset the device." ∨
          error = .value "NotFoundError: Device unavailable." ∨
          error = .value "NotFoundError: The device was disconnected." then
        pure ()
      else Run.throw (newError ("Error during reset for manifestation: " ++ error.toString)))

/-- `do_download(xfer_size, data, manifestationTolerant)`. `fuel` bounds the
iterations of every loop of the run. -/
def do_download (d : Device) (fuel : Nat) (xfer_size : Nat) (data : List Nat)
    (manifestationTolerant : Bool) : Run Unit := do
  let (_, transaction) ← downloadLoop d fuel xfer_size data fuel 0 0
  let _ ← Run.tryCatch (d.download [] transaction)
    (fun error => Run.throw (newError ("Error during final DFU download: " ++ error.toString)))
  manifestPoll d fuel manifestationTolerant
  resetDevice d

/-- `upload(length, blockNum)`. -/
def upload (d : Device) (length blockNum : Nat) : Run (Option (List Nat)) :=
  d.requestIn UPLOAD length blockNum

/-- `clearStatus()`: `requestOut(DFU.CLRSTATUS)`, with `data` left `undefined`. -/
def clearStatus (d : Device) : Run Nat :=
  d.requestOut CLRSTATUS none 0

/-- `getState()`. -/
def getState (d : Device) : Run Nat :=
  Run.bind
    (Run.tryCatch (d.requestIn GETSTATE 1 0)
      (fun error => Run.throw (.value ("DFU GETSTATE failed: " ++ error.toString))))
    (fun data => fun tr => (tr, getUint8 data 0))

/-- `abort()`: `requestOut(DFU.ABORT)`. -/
def abort (d : Device) : Run Nat :=
  d.requestOut ABORT none 0

/-- `abortToIdle()`. The message reads `state.state` of a number, which is
`undefined`. -/
def abortToIdle (d : Device) : Run Unit := do
  let _ ← d.abort
  let state ← d.getState
  let state ← (if state = dfuERROR then (do let _ ← d.clearStatus; d.getState) else pure state)
  if state ≠ dfuIDLE then
    Run.throw (newError "Failed to return to idle state after abort: state undefined")
  else pure ()

/-- `Math.min(xfer_size, max_size - bytes_read)`; `none` stands for a `max_size`
of `Infinity`. The loop of `do_upload` evaluates it with `bytes_read` at most
`max_size` only. -/
def bytesToRead (xfer_size : Nat) (max_size : Option Nat) (bytes_read : Nat) : Nat :=
  match max_size with
  | none => xfer_size
  | some m => min xfer_size (m - bytes_read)

/-- `bytes_read < max_size`. -/
def belowMax (bytes_read : Nat) (max_size : Option Nat) : Bool :=
  match max_size with
  | none => true
  | some m => bytes_read < m

/-- The `do ... while` loop of `do_upload`, entered with the current
`transaction`, `blocks` and `bytes_read`; returns the final `blocks` and
`bytes_read`. The first argument bounds the number of further iterations. -/
def uploadLoop (d : Device) (xfer_size : Nat) (max_size : Option Nat) :
    Nat → Nat → List (List Nat) → Nat → Run (List (List Nat) × Nat)
  | fuel, transaction, blocks, bytes_read =>
    let bytes_to_read := bytesToRead xfer_size max_size bytes_read
    Run.bind (d.upload bytes_to_read transaction) (fun result =>
      match result with
      | none => Run.throw (.error "TypeError" "Cannot read properties of null")
      | some bytes =>
        let blocks1 := if bytes.length > 0 then blocks ++ [bytes] else blocks
        let bytes_read1 := if bytes.length > 0 then bytes_read + bytes.length else bytes_read
        if belowMax bytes_read1 max_size && bytes.length == bytes_to_read then
          match fuel with
          | 0 => Run.stuck
          | fuel1 + 1 => uploadLoop d xfer_size max_size fuel1 (transaction + 1) blocks1 bytes_read1
        else
          Run.pure (blocks1, bytes_read1))

/-- The step of `do_upload` after the loop: `if (bytes_read === max_size) await
this.abortToIdle()`. -/
def finishUpload (d : Device) (max_size : Option Nat) (bytes_read : Nat) : Run Unit :=
  if max_size = some bytes_read then d.abortToIdle else pure ()

/-- `do_upload(xfer_size, max_size, first_block)`; the value returned is the
content of the `Blob`. `fuel` bounds the iterations of the loop. -/
def do_upload (d : Device) (fuel : Nat) (xfer_size : Nat) (max_size : Option Nat)
    (first_block : Nat) : Run (List Nat) := do
  let (blocks, bytes_read) ← uploadLoop d xfer_size max_size fuel first_block [] 0
  finishUpload d max_size bytes_read
  pure blocks.flatten

end Device

end DFU

namespace JS

/-- Sequencing of outcomes: the second step runs when the first returns. -/
def Outcome.bind {α β : Type} (o : Outcome α) (f : α → Outcome β) : Outcome β :=
  match o with
  | .ok a => f a
  | .throw e => .throw e
  | .stuck => .stuck

end JS

namespace DFU
open JS

/-! ## Discovery (`DFU.findDeviceDfuInterfaces`) -/

/-- The fields of a `USBAlternateInterface` that the engine reads. -/
structure USBAlternateInterface where
  alternateSetting : Nat
  interfaceClass : Nat
  interfaceSubclass : Nat
  interfaceProtocol : Nat
  interfaceName : Option String
  deriving Repr, DecidableEq

/-- A `USBInterface`: its number and its alternate settings. -/
structure USBInterface where
  interfaceNumber : Nat
  alternates : List USBAlternateInterface
  deriving Repr, DecidableEq

/-- A `USBConfiguration`: its value and its interfaces. -/
structure USBConfiguration where
  configurationValue : Nat
  interfaces : List USBInterface
  deriving Repr, DecidableEq

/-- The `settings` object pushed by `findDeviceDfuInterfaces`. -/
structure Settings where
  configuration : USBConfiguration
  «interface» : USBInterface
  alternate : USBAlternateInterface
  name : Option String
  deriving Repr, DecidableEq

/-- `findDeviceDfuInterfaces(device)`, from `device.configurations`: the three
nested `for` loops, each threading the array `interfaces`. -/
def findDeviceDfuInterfaces (configurations : List USBConfiguration) : List Settings :=
  configurations.foldl (fun interfaces conf =>
    conf.interfaces.foldl (fun interfaces intf =>
      intf.alternates.foldl (fun interfaces alt =>
        if alt.interfaceClass = 0xFE ∧ alt.interfaceSubclass = 0x01 ∧
            (alt.interfaceProtocol = 0x01 ∨ alt.interfaceProtocol = 0x02) then
          interfaces ++ [{ configuration := conf, «interface» := intf, alternate := alt,
                           name := alt.interfaceName }]
        else interfaces) interfaces) interfaces) []

/-! ## Descriptor parsing (`DFU.parseSubDescriptors`) -/

/-- A `DataView`: the `byteLength` bytes at `byteOffset` of an `ArrayBuffer`. -/
structure DataView where
  buffer : List Nat
  byteOffset : Nat
  byteLength : Nat
  deriving Repr, DecidableEq

/-- `new DataView(buffer)`: a view of the whole buffer. -/
def DataView.ofBuffer (buffer : List Nat) : DataView :=
  { buffer := buffer, byteOffset := 0, byteLength := buffer.length }

/-- The `RangeError` of a read outside a `DataView`. -/
def rangeError : Thrown := .error "RangeError" "Offset is outside the bounds of the DataView"

/-- `view.getUint8(i)`. -/
def DataView.getUint8 (v : DataView) (i : Nat) : Outcome Nat :=
  if i + 1 ≤ v.byteLength then
    match v.buffer.get? (v.byteOffset + i) with
    | some b => .ok (b % 256)
    | none => .throw rangeError
  else .throw rangeError

/-- `view.getUint16(i, true)`: two bytes, little-endian. -/
def DataView.getUint16LE (v : DataView) (i : Nat) : Outcome Nat :=
  if i + 2 ≤ v.byteLength then
    match v.buffer.get? (v.byteOffset + i), v.buffer.get? (v.byteOffset + i + 1) with
    | some b0, some b1 => .ok (b0 % 256 + 256 * (b1 % 256))
    | _, _ => .throw rangeError
  else .throw rangeError

/-- The object returned by `parseInterfaceDescriptor`, without its array
`descriptors`. -/
structure InterfaceDescriptor where
  bLength : Nat
  bDescriptorType : Nat
  bInterfaceNumber : Nat
  bAlternateSetting : Nat
  bNumEndpoints : Nat
  bInterfaceClass : Nat
  bInterfaceSubClass : Nat
  bInterfaceProtocol : Nat
  iInterface : Nat
  deriving Repr, DecidableEq

/-- The object returned by `parseFunctionalDescriptor`. -/
structure FunctionalDescriptor where
  bLength : Nat
  bDescriptorType : Nat
  bmAttributes : Nat
  wDetachTimeOut : Nat
  wTransferSize : Nat
  bcdDFUVersion : Nat
  deriving Repr, DecidableEq

/-- A descriptor that is not an interface descriptor: a DFU functional
descriptor, or the generic object `{bLength, bDescriptorType, data}`. -/
inductive SubDescriptor where
  | functional (desc : FunctionalDescriptor)
  | generic (bLength bDescriptorType : Nat) (data : DataView)
  deriving Repr, DecidableEq

/-- An entry of the array returned by `parseSubDescriptors`: an interface
descriptor with its array `descriptors`, or another descriptor. -/
inductive Descriptor where
  | «interface» (desc : InterfaceDescriptor) (descriptors : List SubDescriptor)
  | sub (desc : SubDescriptor)
  deriving Repr, DecidableEq

/-- `parseInterfaceDescriptor(data)`; the array `descriptors` starts empty. -/
def parseInterfaceDescriptor (data : DataView) : Outcome InterfaceDescriptor :=
  (data.getUint8 0).bind fun bLength =>
  (data.getUint8 1).bind fun bDescriptorType =>
  (data.getUint8 2).bind fun bInterfaceNumber =>
  (data.getUint8 3).bind fun bAlternateSetting =>
  (data.getUint8 4).bind fun bNumEndpoints =>
  (data.getUint8 5).bind fun bInterfaceClass =>
  (data.getUint8 6).bind fun bInterfaceSubClass =>
  (data.getUint8 7).bind fun bInterfaceProtocol =>
  (data.getUint8 8).bind fun iInterface =>
  .ok { bLength := bLength, bDescriptorType := bDescriptorType,
        bInterfaceNumber := bInterfaceNumber, bAlternateSetting := bAlternateSetting,
        bNumEndpoints := bNumEndpoints, bInterfaceClass := bInterfaceClass,
        bInterfaceSubClass := bInterfaceSubClass, bInterfaceProtocol := bInterfaceProtocol,
        iInterface := iInterface }

/-- `parseFunctionalDescriptor(data)`. -/
def parseFunctionalDescriptor (data : DataView) : Outcome FunctionalDescriptor :=
  (data.getUint8 0).bind fun bLength =>
  (data.getUint8 1).bind fun bDescriptorType =>
  (data.getUint8 2).bind fun bmAttributes =>
  (data.getUint16LE 3).bind fun wDetachTimeOut =>
  (data.getUint16LE 5).bind fun wTransferSize =>
  (data.getUint16LE 7).bind fun bcdDFUVersion =>
  .ok { bLength := bLength, bDescriptorType := bDescriptorType, bmAttributes := bmAttributes,
        wDetachTimeOut := wDetachTimeOut, wTransferSize := wTransferSize,
        bcdDFUVersion := bcdDFUVersion }

/-- The variables of the loop of `parseSubDescriptors`. `currIntf` refers to an
object that is also an entry of `descriptors`: it is kept as the index of that
entry, `none` while it is `undefined`. -/
structure ParseState where
  descriptors : List Descriptor
  currIntf : Option Nat
  inDfuIntf : Bool
  deriving Repr, DecidableEq

/-- `descriptors[i].descriptors.push(child)`. -/
def pushChild : List Descriptor → Nat → SubDescriptor → List Descriptor
  | [], _, _ => []
  | .interface desc children :: rest, 0, child => .interface desc (children ++ [child]) :: rest
  | .sub desc :: rest, 0, _ => .sub desc :: rest
  | entry :: rest, i + 1, child => entry :: pushChild rest i child

/-- One turn of the loop of `parseSubDescriptors`: the new variables and the new
`remainingData`. -/
def parseStep (remainingData : DataView) (st : ParseState) : Outcome (ParseState × DataView) :=
  (remainingData.getUint8 0).bind fun bLength =>
  (remainingData.getUint8 1).bind fun bDescriptorType =>
  let descData := DataView.ofBuffer (remainingData.buffer.take bLength)
  let next := DataView.ofBuffer (remainingData.buffer.drop bLength)
  if bDescriptorType = 4 then
    (parseInterfaceDescriptor descData).bind fun currIntf =>
    .ok ({ descriptors := st.descriptors ++ [.interface currIntf []],
           currIntf := some st.descriptors.length,
           inDfuIntf := currIntf.bInterfaceClass = 0xFE ∧ currIntf.bInterfaceSubClass = 0x01 },
         next)
  else if st.inDfuIntf ∧ bDescriptorType = 0x21 then
    (parseFunctionalDescriptor descData).bind fun funcDesc =>
    let desc := SubDescriptor.functional funcDesc
    match st.currIntf with
    | some i =>
      .ok ({ st with descriptors := pushChild (st.descriptors ++ [.sub desc]) i desc }, next)
    | none => .throw (.error "TypeError" "Cannot read properties of undefined")
  else
    let desc := SubDescriptor.generic bLength bDescriptorType descData
    match st.currIntf with
    | some i =>
      .ok ({ st with descriptors := pushChild (st.descriptors ++ [.sub desc]) i desc }, next)
    | none => .ok ({ st with descriptors := st.descriptors ++ [.sub desc] }, next)

/-- The `while (remainingData.byteLength > 2)` loop of `parseSubDescriptors`; the
first argument bounds the number of iterations. -/
def parseLoop : Nat → DataView → ParseState → Outcome (List Descriptor)
  | fuel, remainingData, st =>
    if remainingData.byteLength > 2 then
      match fuel with
      | 0 => .stuck
      | fuel1 + 1 =>
        match parseStep remainingData st with
        | .ok (st1, next) => parseLoop fuel1 next st1
        | .throw e => .throw e
        | .stuck => .stuck
    else .ok st.descriptors

/-- `parseSubDescriptors(descriptorData)`. `fuel` bounds the iterations of the
loop. -/
def parseSubDescriptors (fuel : Nat) (descriptorData : DataView) : Outcome (List Descriptor) :=
  parseLoop fuel descriptorData { descriptors := [], currIntf := none, inDfuIntf := false }

end DFU

namespace DFUse
open JS

/-! ## Memory map (`DFUse.parseMemoryDescriptor`) -/

/-- A segment of the memory map. -/
structure Segment where
  start : Int
  sectorSize : Int
  «end» : Int
  readable : Bool
  erasable : Bool
  writable : Bool
  deriving Repr, DecidableEq

/-- The value of `memoryInfo`. -/
structure MemoryInfo where
  name : List Char
  segments : List Segment
  deriving Repr, DecidableEq

/-- The table `sectorMultipliers`; `none` stands for `undefined`. -/
def sectorMultipliers (key : List Char) : Option Nat :=
  if key = [' '] then some 1
  else if key = ['B'] then some 1
  else if key = ['K'] then some 1024
  else if key = ['M'] then some 1048576
  else none

/-- `s.charCodeAt(0)`; `none` stands for `NaN`. -/
def charCodeAt0 : List Char → Option Nat
  | [] => none
  | c :: _ => some c.toNat

/-- `\s*`. -/
def ws : Regex := Regex.star (.set .space)

/-- The body shared by both patterns after the leading white space:
`[0-9]+\s*\*\s*[0-9]+\s?[ BKM]\s*[abcdefg]\s*,?\s*`, with the groups numbered
`g1 .. g4` when `capture` is set. -/
def segmentBody (capture : Bool) : Regex :=
  let g (i : Nat) (r : Regex) : Regex := if capture then .group i r else r
  .seq (g 1 (Regex.plus (.set .digit)))
  (.seq ws (.seq (Regex.chr '*') (.seq ws
  (.seq (g 2 (Regex.plus (.set .digit)))
  (.seq (Regex.opt (.set .space))
  (.seq (g 3 (.set (.anyOf [' ', 'B', 'K', 'M'])))
  (.seq ws
  (.seq (g 4 (.set (.anyOf ['a', 'b', 'c', 'd', 'e', 'f', 'g'])))
  (.seq ws (.seq (Regex.opt (Regex.chr ',')) ws))))))))))

/-- The pattern
`/\/\s*(0x[0-9a-fA-F]{1,8})\s*\/(\s*[0-9]+\s*\*\s*[0-9]+\s?[ BKM]\s*[abcdefg]\s*,?\s*)+/g`. -/
def contiguousSegmentRegex : Regex :=
  .seq (Regex.chr '/') (.seq ws
  (.seq (.group 1 (.seq (Regex.chr '0') (.seq (Regex.chr 'x') (.rep (.set .hexDigit) 1 (some 8)))))
  (.seq ws (.seq (Regex.chr '/')
  (Regex.plus (.group 2 (.seq ws (segmentBody false))))))))

/-- The pattern
`/([0-9]+)\s*\*\s*([0-9]+)\s?([ BKM])\s*([abcdefg])\s*,?\s*/g`. -/
def segmentRegex : Regex := segmentBody true

/-- Body of the inner loop: the segment pushed for one match of `segmentRegex`
when the running address is `startAddress`. `none` when an operand is `NaN` or
`undefined`. -/
def makeSegment (startAddress : Int) (segmentMatch : MatchResult) : Option Segment := do
  let sectorCount ← (segmentMatch.cap 1).bind (parseInt · 10)
  let size ← (segmentMatch.cap 2).bind (parseInt · 10)
  let mult ← (segmentMatch.cap 3).bind sectorMultipliers
  let code ← (segmentMatch.cap 4).bind charCodeAt0
  let sectorSize : Int := toDouble ((size : Int) * (mult : Int))
  let properties : Int := (code : Int) - 97 + 1
  some { start := startAddress
         sectorSize := sectorSize
         «end» := toDouble (startAddress + toDouble (sectorSize * (sectorCount : Int)))
         readable := Int.land properties 0x1 != 0
         erasable := Int.land properties 0x2 != 0
         writable := Int.land properties 0x4 != 0 }

/-- The inner loop over the matches of `segmentRegex`: pushes one segment per
match and advances the running address. Returns the segments pushed and the
final running address. -/
def pushSegments : Int → List MatchResult → Option (List Segment)
  | _, [] => some []
  | startAddress, m :: ms => do
    let segment ← makeSegment startAddress m
    let rest ← pushSegments segment.end ms
    some (segment :: rest)

/-- One iteration of the outer loop: the segments of one contiguous block. -/
def blockSegments (contiguousSegmentMatch : MatchResult) : Option (List Segment) := do
  let startAddress ← (contiguousSegmentMatch.cap 1).bind (parseInt · 16)
  let text := contiguousSegmentMatch.text
  let segmentMatches ← execAll segmentRegex text (text.length + 1) 0
  pushSegments startAddress segmentMatches

/-- The outer loop over the matches of `contiguousSegmentRegex`. -/
def allSegments : List MatchResult → Option (List Segment)
  | [] => some []
  | m :: ms => do
    let here ← blockSegments m
    let rest ← allSegments ms
    some (here ++ rest)

/-- `DFUse.parseMemoryDescriptor(desc)`. -/
def parseMemoryDescriptor (desc : List Char) : Outcome MemoryInfo :=
  match startsWith '@' desc, indexOf '/' desc with
  | true, some nameEndIndex =>
    let name := trim (substring desc 1 nameEndIndex)
    let segmentString := substringFrom desc nameEndIndex
    match (execAll contiguousSegmentRegex segmentString (segmentString.length + 1) 0).bind
        allSegments with
    | some segments => .ok { name := name, segments := segments }
    | none => .stuck
  | _, _ => .throw (newError ("Not a DfuSe memory descriptor: \"" ++ String.mk desc ++ "\""))

/-! ## `DFUse.Device` -/

def GET_COMMANDS : Nat := 0x00
def SET_ADDRESS : Nat := 0x21
def ERASE_SECTOR : Nat := 0x41

/-- The fields of a DfuSe session: those of `DFU.Device`, the memory map
(`null` when the interface has no name) and the start address (`NaN` when not
set, here `none`). -/
structure Device extends DFU.Device where
  memoryInfo : Option MemoryInfo
  startAddress : Option Int

/-- The constructor: the memory map is parsed from `settings.name` when there
is a non-empty name. -/
def Device.create (device : DFU.USBDevice) (interfaceNumber : Nat) (name : Option (List Char)) :
    Outcome Device :=
  match name with
  | none => .ok { device_ := device, intfNumber := interfaceNumber, memoryInfo := none,
                  startAddress := none }
  | some [] => .ok { device_ := device, intfNumber := interfaceNumber, memoryInfo := none,
                     startAddress := none }
  | some (c :: cs) =>
    match parseMemoryDescriptor (c :: cs) with
    | .ok info => .ok { device_ := device, intfNumber := interfaceNumber, memoryInfo := some info,
                        startAddress := none }
    | .throw e => .throw e
    | .stuck => .stuck

/-- Runs a computation without effects inside a session. -/
def liftOutcome {α : Type} (o : Outcome α) : DFU.Run α := fun tr => (tr, o)

/-- `n.toString(16)`. -/
def toHex (n : Int) : String :=
  (if n < 0 then "-" else "") ++ String.mk (Nat.toDigits 16 n.natAbs)

namespace Device

/-- The table `commandNames`. -/
def commandNames (command : Nat) : String :=
  if command = 0x00 then "GET_COMMANDS"
  else if command = 0x21 then "SET_ADDRESS"
  else if command = 0x41 then "ERASE_SECTOR"
  else "undefined"

/-- `DataView.setUint32(_, param, true)`: the four bytes written. -/
def uint32LE (param : Int) : List Nat :=
  let v := (param % 4294967296).toNat
  [v % 256, v / 256 % 256, v / 65536 % 256, v / 16777216 % 256]

/-- `dfuseCommand(command, param, len)`; `none` stands for an argument that is
`undefined`. -/
def dfuseCommand (d : Device) (fuel : Nat) (command : Nat) (param : Option Int)
    (len : Option Nat) : DFU.Run Unit := do
  DFU.Run.emit (.dfuseCommand command param len)
  let (param, len) :=
    if param = none ∧ len = none then ((some 0 : Option Int), (some 1 : Option Nat))
    else (param, len)
  match len with
  | none => DFU.Run.throw (.error "RangeError" "Offset is outside the bounds of the DataView")
  | some len =>
    let value : Int := param.getD 0
    if len = 1 then
      sendCommand [command % 256, (value % 256).toNat]
    else if len = 4 then
      sendCommand ((command % 256) :: uint32LE value)
    else
      DFU.Run.throw (newError ("Don\x27t know how to handle data of len " ++ toString len))
where
  /-- The rest of `dfuseCommand` once the payload is built. -/
  sendCommand (payload : List Nat) : DFU.Run Unit := do
    let _ ← DFU.Run.tryCatch (d.toDevice.download payload 0)
      (fun error => DFU.Run.throw (newError ("Error during special DfuSe command " ++
        commandNames command ++ ":" ++ error.toString)))
    let status ← d.toDevice.poll_until fuel (fun state => state != DFU.dfuDNBUSY)
    if status.status ≠ DFU.STATUS_OK then
      DFU.Run.throw (newError ("Special DfuSe command " ++ commandNames command ++ " failed"))
    else pure ()

/-- `getSegment(addr)`; `ok none` stands for `null`. -/
def getSegment (d : Device) (addr : Int) : Outcome (Option Segment) :=
  match d.memoryInfo with
  | none => .throw (newError "No memory map information available")
  | some info => .ok (info.segments.find? (fun segment => segment.start ≤ addr && addr < segment.end))

/-- The optional `segment` argument once resolved: throws when it is `null`. -/
def resolveSegment (d : Device) (addr : Int) (segment : Option (Option Segment)) :
    Outcome Segment :=
  let found : Outcome (Option Segment) :=
    match segment with
    | none => d.getSegment addr
    | some s => .ok s
  match found with
  | .ok (some s) => .ok s
  | .ok none => .throw (newError ("Address " ++ toHex addr ++ " outside of memory map"))
  | .throw e => .throw e
  | .stuck => .stuck

/-- `getSectorStart(addr, segment)`; the outer `none` stands for an omitted
argument. Division by a zero sector size gives `NaN`, here `stuck`. -/
def getSectorStart (d : Device) (addr : Int) (segment : Option (Option Segment)) : Outcome Int :=
  match d.resolveSegment addr segment with
  | .ok s =>
    if s.sectorSize = 0 then .stuck
    else
      let sectorIndex := floorDiv (toDouble (addr - s.start)) s.sectorSize
      .ok (toDouble (s.start + toDouble (sectorIndex * s.sectorSize)))
  | .throw e => .throw e
  | .stuck => .stuck

/-- `getSectorEnd(addr, segment)`. -/
def getSectorEnd (d : Device) (addr : Int) (segment : Option (Option Segment)) : Outcome Int :=
  match d.resolveSegment addr segment with
  | .ok s =>
    if s.sectorSize = 0 then .stuck
    else
      let sectorIndex := floorDiv (toDouble (addr - s.start)) s.sectorSize
      .ok (toDouble (s.start + toDouble (toDouble (sectorIndex + 1) * s.sectorSize)))
  | .throw e => .throw e
  | .stuck => .stuck

/-- The head of the loop body of `erase`: `if (segment.end <= addr) segment =
this.getSegment(addr)`, then the first use of `segment`, which throws when the
segment found is `null`. -/
def reresolve (d : Device) (addr : Int) (segment : Segment) : DFU.Run Segment :=
  if segment.end ≤ addr then
    match d.getSegment addr with
    | .ok (some s) => pure s
    | .ok none => DFU.Run.throw (.error "TypeError" "Cannot read properties of null")
    | .throw e => DFU.Run.throw e
    | .stuck => DFU.Run.stuck
  else pure segment

/-- The `while (addr < endAddr)` loop of `erase`, with the current `addr` and
`segment`; the first argument bounds the number of iterations. -/
def eraseLoop (d : Device) (cmdFuel : Nat) (endAddr : Int) : Nat → Int → Segment → DFU.Run Unit
  | fuel, addr, segment =>
    if addr < endAddr then
      match fuel with
      | 0 => DFU.Run.stuck
      | fuel1 + 1 => do
        let segment ← d.reresolve addr segment
        if !segment.erasable then
          eraseLoop d cmdFuel endAddr fuel1 segment.end segment
        else if segment.sectorSize = 0 then DFU.Run.stuck
        else do
          let sectorIndex := floorDiv (toDouble (addr - segment.start)) segment.sectorSize
          let sectorAddr := toDouble (segment.start + toDouble (sectorIndex * segment.sectorSize))
          d.dfuseCommand cmdFuel ERASE_SECTOR (some sectorAddr) (some 4)
          eraseLoop d cmdFuel endAddr fuel1 (toDouble (sectorAddr + segment.sectorSize)) segment
    else
      pure ()

/-- `erase(startAddr, length)`. `fuel` bounds the iterations of every loop of
the run. -/
def erase (d : Device) (fuel : Nat) (startAddr length : Int) : DFU.Run Unit := do
  let segment ← liftOutcome (d.getSegment startAddr)
  let addr ← liftOutcome (d.getSectorStart startAddr (some segment))
  let endAddr ← liftOutcome (d.getSectorEnd (toDouble (toDouble (startAddr + length) - 1)) none)
  match segment with
  | some segment => eraseLoop d fuel endAddr fuel addr segment
  | none => DFU.Run.throw (.error "TypeError" "Cannot read properties of null")

/-- The loop of `getMaxReadSize` over the remaining segments, with the current
`numBytes`. -/
def maxReadLoop (startAddr : Int) : List Segment → Int → Int
  | [], numBytes => numBytes
  | segment :: rest, numBytes =>
    if segment.start ≤ startAddr && startAddr < segment.end then
      if segment.readable then
        maxReadLoop startAddr rest (toDouble (numBytes + toDouble (segment.end - startAddr)))
      else 0
    else if segment.start = toDouble (startAddr + numBytes) then
      if segment.readable then
        maxReadLoop startAddr rest (toDouble (numBytes + toDouble (segment.end - segment.start)))
      else numBytes
    else maxReadLoop startAddr rest numBytes

/-- `getMaxReadSize(startAddr)`. -/
def getMaxReadSize (d : Device) (startAddr : Int) : Outcome Int :=
  match d.memoryInfo with
  | none => .throw (newError "No memory map information available")
  | some info => .ok (maxReadLoop startAddr info.segments 0)

/-- The start address of `do_download`: `this.startAddress`, or the start of the
first segment when it is `NaN`. -/
def inferStartAddress (d : Device) (info : MemoryInfo) : Outcome Int :=
  match d.startAddress with
  | some startAddress => .ok startAddress
  | none =>
    match info.segments with
    | segment :: _ => .ok segment.start
    | [] => .throw (.error "TypeError" "Cannot read properties of undefined")

/-- The `while (bytes_sent < expected_size)` loop of `do_download`, with the
current `bytes_sent` and `address`; returns the final `bytes_sent`. The first
argument bounds the number of iterations, `cmdFuel` those of each status poll. -/
def downloadLoop (d : Device) (cmdFuel : Nat) (xfer_size : Nat) (data : List Nat) :
    Nat → Nat → Int → DFU.Run Nat
  | fuel, bytes_sent, address =>
    let expected_size := data.length
    if bytes_sent < expected_size then
      match fuel with
      | 0 => DFU.Run.stuck
      | fuel1 + 1 =>
        let bytes_left := expected_size - bytes_sent
        let chunk_size := min bytes_left xfer_size
        DFU.Run.bind
          (DFU.Run.tryCatch
            (DFU.Run.bind (d.dfuseCommand cmdFuel SET_ADDRESS (some address) (some 4)) (fun _ =>
              DFU.Run.bind (d.toDevice.download ((data.drop bytes_sent).take chunk_size) 2)
                (fun bytes_written =>
                  DFU.Run.bind (d.toDevice.poll_until_idle cmdFuel DFU.dfuDNLOAD_IDLE)
                    (fun dfu_status =>
                      DFU.Run.pure (bytes_written, dfu_status,
                        toDouble (address + (chunk_size : Int)))))))
            (fun error =>
              DFU.Run.throw (newError ("Error during DfuSe download: " ++ error.toString))))
          (fun (bytes_written, dfu_status, address1) =>
            if dfu_status.status ≠ DFU.STATUS_OK then
              DFU.Run.throw (newError ("DFU DOWNLOAD failed state=" ++ toString dfu_status.state ++
                ", status=" ++ toString dfu_status.status))
            else
              downloadLoop d cmdFuel xfer_size data fuel1 (bytes_sent + bytes_written) address1)
    else
      DFU.Run.pure bytes_sent

/-- The manifestation step of `do_download`: set the address back to the start,
send an empty block, then wait for `dfuMANIFEST`; an error of that last poll is
logged only. -/
def manifest (d : Device) (fuel : Nat) (startAddress : Int) (manifestationTolerant : Bool) :
    DFU.Run Unit :=
  if manifestationTolerant then
    DFU.Run.bind
      (DFU.Run.tryCatch
        (DFU.Run.bind (d.dfuseCommand fuel SET_ADDRESS (some startAddress) (some 4)) (fun _ =>
          d.toDevice.download [] 2))
        (fun error =>
          DFU.Run.throw (newError ("Error during DfuSe manifestation: " ++ error.toString))))
      (fun _ =>
        DFU.Run.tryCatch
          (DFU.Run.bind (d.toDevice.poll_until fuel (fun state => state == DFU.dfuMANIFEST))
            (fun _ => DFU.Run.pure ()))
          (fun _ => DFU.Run.pure ()))
  else DFU.Run.pure ()

/-- `do_download(xfer_size, data, manifestationTolerant, skipErase)`. `fuel`
bounds the iterations of every loop of the run. -/
def do_download (d : Device) (fuel : Nat) (xfer_size : Nat) (data : List Nat)
    (manifestationTolerant : Bool) (skipErase : Bool) : DFU.Run Unit :=
  match d.memoryInfo with
  | none => DFU.Run.throw (newError "No memory map available")
  | some info =>
    DFU.Run.bind (liftOutcome (inferStartAddress d info)) (fun startAddress =>
      DFU.Run.bind (if skipErase then DFU.Run.pure () else d.erase fuel startAddress data.length)
        (fun _ =>
          DFU.Run.bind (downloadLoop d fuel xfer_size data fuel 0 startAddress) (fun _ =>
            manifest d fuel startAddress manifestationTolerant)))

end Device

end DFUse


/-! # Auxiliary definitions for the statements -/

namespace JS

/-- Relational reading of a greedy quantifier over a body with relation `S`:
zero iterations (allowed once `min` is 0, or when `max` is 0), or one iteration
from the captures with the groups `grp` reset, followed by the rest. -/
inductive RepSem (S : List Char → Captures → List Char → Captures → Prop) (grp : List Nat) :
    Nat → Option Nat → List Char → Captures → List Char → Captures → Prop where
  | done {min : Nat} {max : Option Nat} {x : List Char} {caps : Captures} :
      (min = 0 ∨ max = some 0) → RepSem S grp min max x caps x caps
  | step {min : Nat} {max : Option Nat} {x y z : List Char} {caps caps1 caps2 : Captures} :
      S x (caps.filter (fun p => !grp.contains p.1)) y caps1 →
      RepSem S grp (min - 1) (max.map (· - 1)) y caps1 z caps2 →
      RepSem S grp min max x caps z caps2

/-- Relational reading of a pattern: `Sem r x caps y caps1` when `r` can match
a prefix of `x` leaving `y`, turning the captures `caps` into `caps1`. Every
result of the backtracking matcher is one of these. -/
def Sem : Regex → List Char → Captures → List Char → Captures → Prop
  | .set cs => fun x caps y caps1 => ∃ ch, x = ch :: y ∧ cs.test ch = true ∧ caps1 = caps
  | .seq a b => fun x caps y caps1 => ∃ y0 caps0, Sem a x caps y0 caps0 ∧ Sem b y0 caps0 y caps1
  | .rep r min max => RepSem (Sem r) r.groups min max
  | .group i r => fun x caps y caps1 =>
      ∃ caps0, Sem r x caps y caps0 ∧ caps1 = (i, x.take (x.length - y.length)) :: caps0

end JS


namespace DFU

/-- A device that accepts every request: every transfer out reports all its
bytes written, every `GETSTATUS` read answers status OK in state `state` with
poll timeout 0 (other reads answer one byte, `state`). -/
def acceptingDevice (state : Nat) : USBDevice where
  controlTransferOut := fun _ _ _ _ data =>
    .ok { status := .ok, bytesWritten := (data.getD []).length }
  controlTransferIn := fun _ request _ _ _ =>
    .ok { status := .ok,
          data := some (if request = GETSTATUS then [0, 0, 0, 0, state, 0] else [state]) }
  clearHalt := fun _ _ _ => .ok ()
  reset := fun _ => .ok ()

/-- A `DNLOAD` request on the wire. -/
def Event.isDnload : Event → Bool
  | .controlTransferOut request _ _ _ => request == DNLOAD
  | _ => false

/-- The `DNLOAD` requests the specification expects from a download of `data`
in transfers of `xferSize` bytes: `ceil(len / xferSize)` data blocks numbered
from 0, block `i` holding the bytes from offset `i * xferSize` on, at most
`xferSize` of them, then one empty block with the next number. -/
def expectedDownloadRequests (intfNumber xferSize : Nat) (data : List Nat) : List Event :=
  let n := (data.length + xferSize - 1) / xferSize
  (List.range n).map (fun i =>
      Event.controlTransferOut DNLOAD i intfNumber (some ((data.drop (i * xferSize)).take xferSize)))
    ++ [Event.controlTransferOut DNLOAD n intfNumber (some [])]

/-- Every event a computation appends to the trace satisfies `P`, and the
computation only appends. -/
def Run.Emits {α : Type} (P : Event → Prop) (x : Run α) : Prop :=
  ∀ tr, ∃ evs, (x tr).1 = tr ++ evs ∧ ∀ e ∈ evs, P e

/-- The events of a status poll: `GETSTATUS` reads, halt clearing and sleeps. -/
def Event.isPoll : Event → Prop
  | .controlTransferIn _ _ _ _ => True
  | .clearHalt _ _ => True
  | .sleep _ => True
  | _ => False

/-- The events below `dfuseCommand`: everything but the entry marker. -/
def Event.isWire : Event → Prop
  | .dfuseCommand _ _ _ => False
  | _ => True

/-- A device that accepts every transfer out and answers every transfer in with
the bytes `response`. -/
def answeringDevice (response : List Nat) : USBDevice where
  controlTransferOut := fun _ _ _ _ data =>
    .ok { status := .ok, bytesWritten := (data.getD []).length }
  controlTransferIn := fun _ _ _ _ _ => .ok { status := .ok, data := some response }
  clearHalt := fun _ _ _ => .ok ()
  reset := fun _ => .ok ()

/-- A device whose transfers out all stall. -/
def stallingDevice : USBDevice where
  controlTransferOut := fun _ _ _ _ _ => .ok { status := .stall, bytesWritten := 0 }
  controlTransferIn := fun _ _ _ _ _ => .ok { status := .ok, data := some [] }
  clearHalt := fun _ _ _ => .ok ()
  reset := fun _ => .ok ()

/-- A device in state `dfuERROR` until its status is cleared, and in `dfuIDLE`
from then on: the answer to `GETSTATE` depends on whether a `CLRSTATUS` request
was made before. -/
def recoveringDevice : USBDevice where
  controlTransferOut := fun _ _ _ _ data =>
    .ok { status := .ok, bytesWritten := (data.getD []).length }
  controlTransferIn := fun tr _ _ _ _ =>
    .ok { status := .ok,
          data := some [if tr.any (fun e =>
            match e with
            | .controlTransferOut request _ _ _ => request == CLRSTATUS
            | _ => false) then dfuIDLE else dfuERROR] }
  clearHalt := fun _ _ _ => .ok ()
  reset := fun _ => .ok ()

/-- The `GETSTATUS` request of a session on interface `intf`. -/
def getStatusRequest (intf : Nat) : Event := .controlTransferIn GETSTATUS 0 intf 6

/-- The events of a poll that saw the statuses `seen` and went on after each of
them: for each status, the `GETSTATUS` request it answered, then a sleep of the poll
timeout it reported. -/
def pollEvents (intf : Nat) (seen : List Status) : List Event :=
  (seen.map (fun s => [getStatusRequest intf, Event.sleep s.pollTimeout])).flatten

/-- The device answers the successive `GETSTATUS` requests of a poll that starts
after the history `tr` with the statuses of the list, in order. -/
def AnsweredWith (d : Device) : List Event → List Status → Prop
  | _, [] => True
  | tr, s :: rest =>
    (d.getStatus tr).2 = .ok s ∧
      AnsweredWith d (tr ++ [getStatusRequest d.intfNumber, Event.sleep s.pollTimeout]) rest

/-- A device that is busy, with a poll timeout of 100 ms, until the host has
slept once, and in `dfuDNLOAD_IDLE` with status OK from then on. -/
def busyOnceDevice : USBDevice where
  controlTransferOut := fun _ _ _ _ data =>
    .ok { status := .ok, bytesWritten := (data.getD []).length }
  controlTransferIn := fun tr _ _ _ _ =>
    .ok { status := .ok,
          data := some (if tr.any (fun e =>
            match e with
            | .sleep _ => true
            | _ => false) then [0, 0, 0, 0, dfuDNLOAD_IDLE, 0] else [0, 100, 0, 0, dfuDNBUSY, 0]) }
  clearHalt := fun _ _ _ => .ok ()
  reset := fun _ => .ok ()

/-- An `UPLOAD` request on the wire. -/
def Event.isUpload : Event → Bool
  | .controlTransferIn request _ _ _ => request == UPLOAD
  | _ => false

/-- An `ABORT` request on the wire. -/
def Event.isAbort : Event → Bool
  | .controlTransferOut request _ _ _ => request == ABORT
  | _ => false

/-- What the engine gets from a transfer in made after the history `tr`: the
payload, or `none` when the transfer is rejected, stalls or carries no data. -/
def transferAnswer (dev : USBDevice) (tr : List Event) (request value index length : Nat) :
    Option (List Nat) :=
  match dev.controlTransferIn tr request value index length with
  | .ok r => if r.status = .stall then none else r.data
  | .error _ => none

/-- The answers of the device to the `UPLOAD` requests among the events `evs`
that follow the history `tr`, in order. -/
def uploadAnswers (dev : USBDevice) : List Event → List Event → List (Option (List Nat))
  | _, [] => []
  | tr, e :: evs =>
    match e with
    | .controlTransferIn request value index length =>
      if request = UPLOAD then
        transferAnswer dev tr request value index length :: uploadAnswers dev (tr ++ [e]) evs
      else uploadAnswers dev (tr ++ [e]) evs
    | _ => uploadAnswers dev (tr ++ [e]) evs

/-- The number of bytes the specification has an upload request ask for:
`min(xferSize, maxSize - accumulated)`, with `none` for no limit. -/
def uploadLength (xferSize : Nat) (maxSize : Option Nat) (accumulated : Nat) : Nat :=
  match maxSize with
  | none => xferSize
  | some m => min xferSize (m - accumulated)

/-- The total size of a list of payloads. -/
def totalLength (payloads : List (List Nat)) : Nat := (payloads.map List.length).sum

/-- The `UPLOAD` requests the specification expects when the responses carry
`payloads` and `accumulated` bytes were read before: request `k` has block number
`firstBlock + k` and asks for `min(xferSize, maxSize - bytes accumulated so far)`
bytes. -/
def expectedUploadRequests (intf xferSize : Nat) (maxSize : Option Nat)
    (firstBlock accumulated : Nat) (payloads : List (List Nat)) : List Event :=
  (List.range payloads.length).map (fun k =>
    Event.controlTransferIn UPLOAD (firstBlock + k) intf
      (uploadLength xferSize maxSize (accumulated + totalLength (payloads.take k))))

/-- The accumulated size `accumulated` is below `maxSize`. -/
def BelowMax (accumulated : Nat) (maxSize : Option Nat) : Prop :=
  match maxSize with
  | none => True
  | some m => accumulated < m

instance (accumulated : Nat) (maxSize : Option Nat) : Decidable (BelowMax accumulated maxSize) := by
  cases maxSize <;> unfold BelowMax <;> infer_instance

/-- Every response but the last of `payloads` is as long as requested and leaves the
accumulated size below `maxSize`: no request follows a response shorter than
requested or one that brings the accumulated size to `maxSize`. -/
def UploadGoesOn (xferSize : Nat) (maxSize : Option Nat) : Nat → List (List Nat) → Prop
  | _, [] => True
  | _, [_] => True
  | accumulated, r :: r1 :: rs =>
    r.length = uploadLength xferSize maxSize accumulated ∧
    BelowMax (accumulated + r.length) maxSize ∧
    UploadGoesOn xferSize maxSize (accumulated + r.length) (r1 :: rs)

/-- The responses `payloads` end a transfer: there is at least one, and the last is
the first that is not as long as requested or that brings the accumulated size to
`maxSize`. -/
def UploadStops (xferSize : Nat) (maxSize : Option Nat) : Nat → List (List Nat) → Prop
  | _, [] => False
  | accumulated, [r] =>
    r.length ≠ uploadLength xferSize maxSize accumulated ∨
      ¬ BelowMax (accumulated + r.length) maxSize
  | accumulated, r :: r1 :: rs =>
    r.length = uploadLength xferSize maxSize accumulated ∧
    BelowMax (accumulated + r.length) maxSize ∧
    UploadStops xferSize maxSize (accumulated + r.length) (r1 :: rs)

/-- A device that holds the bytes `content` and answers each `UPLOAD` request of
`length` bytes with the next `length` bytes of it: the offset is the number of bytes
asked for by the `UPLOAD` requests made before. Other reads answer the one byte
`dfuIDLE`. -/
def contentDevice (content : List Nat) : USBDevice where
  controlTransferOut := fun _ _ _ _ data =>
    .ok { status := .ok, bytesWritten := (data.getD []).length }
  controlTransferIn := fun tr request _ _ length =>
    .ok { status := .ok,
          data := some (if request = UPLOAD then
              (content.drop ((tr.map (fun e =>
                match e with
                | .controlTransferIn req _ _ len => if req = UPLOAD then len else 0
                | _ => 0)).sum)).take length
            else [dfuIDLE]) }
  clearHalt := fun _ _ _ => .ok ()
  reset := fun _ => .ok ()

/-- A device that accepts every transfer out but reports one byte written,
whatever the length of the data, and answers every `GETSTATUS` with status OK in
state `dfuDNLOAD_IDLE`. -/
def shortWriteDevice : USBDevice where
  controlTransferOut := fun _ _ _ _ _ => .ok { status := .ok, bytesWritten := 1 }
  controlTransferIn := fun _ request _ _ _ =>
    .ok { status := .ok,
          data := some (if request = GETSTATUS then [0, 0, 0, 0, dfuDNLOAD_IDLE, 0]
            else [dfuDNLOAD_IDLE]) }
  clearHalt := fun _ _ _ => .ok ()
  reset := fun _ => .ok ()

/-- The traversal of a device's tree: every alternate setting with the interface
and the configuration it belongs to, configurations first, then interfaces, then
alternates. -/
def alternatesInOrder (configurations : List USBConfiguration) :
    List (USBConfiguration × USBInterface × USBAlternateInterface) :=
  (configurations.map (fun conf =>
    (conf.interfaces.map (fun intf =>
      intf.alternates.map (fun alt => (conf, intf, alt)))).flatten)).flatten

/-- An alternate setting of the DFU class: class `0xFE`, subclass `0x01`, protocol
`0x01` or `0x02`. -/
def isDfuAlternate (alt : USBAlternateInterface) : Bool :=
  alt.interfaceClass == 0xFE && alt.interfaceSubclass == 0x01 &&
    (alt.interfaceProtocol == 0x01 || alt.interfaceProtocol == 0x02)

/-- The candidate of an alternate setting: its own configuration, interface and
alternate, and the name of the alternate. -/
def settingsOf (t : USBConfiguration × USBInterface × USBAlternateInterface) : Settings :=
  { configuration := t.1, «interface» := t.2.1, alternate := t.2.2,
    name := t.2.2.interfaceName }

/-- The length byte of the bytes of a descriptor. -/
def blockLength (b : List Nat) : Nat := b.getD 0 0

/-- The type byte of the bytes of a descriptor. -/
def blockType (b : List Nat) : Nat := b.getD 1 0

/-- The bytes of an interface descriptor: type 4. -/
def isInterfaceBlock (b : List Nat) : Bool := blockType b == 4

/-- The bytes of an interface descriptor of the DFU class: class `0xFE` at byte 5 and
subclass `0x01` at byte 6. -/
def isDfuInterfaceBlock (b : List Nat) : Bool := b.getD 5 0 == 0xFE && b.getD 6 0 == 0x01

/-- The fields of an interface descriptor, read from its bytes. -/
def decodeInterface (b : List Nat) : InterfaceDescriptor :=
  { bLength := b.getD 0 0, bDescriptorType := b.getD 1 0, bInterfaceNumber := b.getD 2 0,
    bAlternateSetting := b.getD 3 0, bNumEndpoints := b.getD 4 0, bInterfaceClass := b.getD 5 0,
    bInterfaceSubClass := b.getD 6 0, bInterfaceProtocol := b.getD 7 0, iInterface := b.getD 8 0 }

/-- The fields of a DFU functional descriptor, read from its bytes: `bmAttributes` at
byte 2, then three little-endian 16-bit values at bytes 3, 5 and 7. -/
def decodeFunctional (b : List Nat) : FunctionalDescriptor :=
  { bLength := b.getD 0 0, bDescriptorType := b.getD 1 0, bmAttributes := b.getD 2 0,
    wDetachTimeOut := b.getD 3 0 + 256 * b.getD 4 0,
    wTransferSize := b.getD 5 0 + 256 * b.getD 6 0,
    bcdDFUVersion := b.getD 7 0 + 256 * b.getD 8 0 }

/-- The generic node of a descriptor: its length byte, its type byte and its bytes. -/
def genericNode (b : List Nat) : SubDescriptor :=
  .generic (blockLength b) (blockType b) (DataView.ofBuffer b)

/-- The entry expected for a descriptor that is not an interface descriptor: the
typed DFU functional descriptor when its type is `0x21` and the context `dfu` holds,
the generic node otherwise. -/
def expectedSub (dfu : Bool) (b : List Nat) : SubDescriptor :=
  if dfu && blockType b == 0x21 then .functional (decodeFunctional b) else genericNode b

/-- The array expected from a stream of descriptors, `dfu` telling whether the
interface descriptor met last was of the DFU class: one entry per descriptor, and for
each interface descriptor the children are the descriptors that follow it up to the
next interface descriptor. -/
def expectedFlat : Bool → List (List Nat) → List Descriptor
  | _, [] => []
  | dfu, b :: bs =>
    if isInterfaceBlock b then
      Descriptor.interface (decodeInterface b)
          ((bs.takeWhile (fun x => !isInterfaceBlock x)).map (expectedSub (isDfuInterfaceBlock b))) ::
        expectedFlat (isDfuInterfaceBlock b) bs
    else Descriptor.sub (expectedSub dfu b) :: expectedFlat dfu bs

/-- A stream the parser can follow: descriptors `bs` of at least 2 bytes each, whose
first byte is their length, followed by a tail of at most 2 bytes; the last descriptor
may instead declare more bytes than there are, when nothing follows it. More than 2
bytes are left when each descriptor is met. Interface descriptors, and descriptors of
type `0x21` that follow an interface descriptor of the DFU class, have the 9 bytes
their fields are read from. `dfu` tells whether the interface descriptor met last was
of the DFU class. -/
def StreamOK : Bool → List (List Nat) → List Nat → Prop
  | _, [], tail => tail.length ≤ 2
  | dfu, b :: bs, tail =>
    2 ≤ b.length ∧ 2 < b.length + bs.flatten.length + tail.length ∧ (∀ x ∈ b, x < 256) ∧
    (blockLength b = b.length ∨ (bs = [] ∧ tail = [] ∧ b.length ≤ blockLength b)) ∧
    (if isInterfaceBlock b then 9 ≤ b.length ∧ StreamOK (isDfuInterfaceBlock b) bs tail
     else (dfu = true → blockType b = 0x21 → 9 ≤ b.length) ∧ StreamOK dfu bs tail)

/-- The stream is decidable. -/
instance StreamOK.decidable :
    (dfu : Bool) → (bs : List (List Nat)) → (tail : List Nat) → Decidable (StreamOK dfu bs tail)
  | _, [], tail => inferInstanceAs (Decidable (tail.length ≤ 2))
  | dfu, b :: bs, tail =>
    have := StreamOK.decidable (isDfuInterfaceBlock b) bs tail
    have := StreamOK.decidable dfu bs tail
    inferInstanceAs (Decidable (
      2 ≤ b.length ∧ 2 < b.length + bs.flatten.length + tail.length ∧ (∀ x ∈ b, x < 256) ∧
      (blockLength b = b.length ∨ (bs = [] ∧ tail = [] ∧ b.length ≤ blockLength b)) ∧
      (if isInterfaceBlock b then 9 ≤ b.length ∧ StreamOK (isDfuInterfaceBlock b) bs tail
       else (dfu = true → blockType b = 0x21 → 9 ≤ b.length) ∧ StreamOK dfu bs tail)))

/-- A well-formed stream: every descriptor has exactly the length it declares, and
nothing follows the last. -/
def WellFormedStream (bs : List (List Nat)) : Prop :=
  StreamOK false bs [] ∧ ∀ b ∈ bs, blockLength b = b.length

instance (bs : List (List Nat)) : Decidable (WellFormedStream bs) :=
  inferInstanceAs (Decidable (StreamOK false bs [] ∧ ∀ b ∈ bs, blockLength b = b.length))

/-- The length byte and the type byte of an entry. -/
def Descriptor.header : Descriptor → Nat × Nat
  | .interface desc _ => (desc.bLength, desc.bDescriptorType)
  | .sub (.functional desc) => (desc.bLength, desc.bDescriptorType)
  | .sub (.generic bLength bDescriptorType _) => (bLength, bDescriptorType)

/-- The entry is an interface descriptor. -/
def Descriptor.isInterface : Descriptor → Bool
  | .interface _ _ => true
  | .sub _ => false

/-- The number of children of an entry. -/
def Descriptor.childCount : Descriptor → Nat
  | .interface _ descriptors => descriptors.length
  | .sub _ => 0

/-- Whether the interface descriptor that most recently precedes, among the
descriptors `before`, is of the DFU class. -/
def dfuContext (before : List (List Nat)) : Bool :=
  match before.reverse.find? isInterfaceBlock with
  | some b => isDfuInterfaceBlock b
  | none => false

/-- The descriptors of a configuration: an interface of the DFU class with its
functional descriptor, then an interface of the HID class with its HID descriptor, of
type `0x21` too, and an endpoint. -/
def sampleStream : List (List Nat) :=
  [[9, 4, 0, 0, 0, 0xFE, 1, 2, 0], [9, 0x21, 0x0B, 0xFF, 0, 0, 8, 0x1A, 1],
   [9, 4, 1, 0, 1, 3, 0, 0, 0], [9, 0x21, 0x11, 1, 0, 1, 0x22, 63, 0],
   [7, 5, 0x81, 3, 8, 0, 10]]

/-- A buffer whose last descriptor has 2 bytes, a length and a type and nothing else:
an interface descriptor followed by `[2, 0xFF]`. -/
def twoByteLastBuffer : List Nat := [9, 4, 0, 0, 0, 0xFE, 1, 2, 0, 2, 0xFF]

/-- A buffer that ends inside an interface descriptor: a whole interface descriptor,
then the first 4 of the 9 bytes that the next one declares. -/
def truncatedInterfaceBuffer : List Nat := [9, 4, 0, 0, 0, 0xFE, 1, 2, 0, 9, 4, 1, 0]

/-- A stream that ends inside an endpoint descriptor: an interface descriptor, then
the first 4 of the 7 bytes that the endpoint descriptor declares. -/
def truncatedEndpointStream : List (List Nat) := [[9, 4, 0, 0, 0, 0xFE, 1, 2, 0], [7, 5, 0x81, 3]]

end DFU

namespace DFUse
open JS

/-- The invariant of a memory segment in the data model: the sector size is
not negative and the segment is a whole number of sectors long. -/
def Segment.WellFormed (s : Segment) : Prop :=
  0 ≤ s.sectorSize ∧ s.start ≤ s.end ∧ s.sectorSize ∣ s.end - s.start

instance (s : Segment) : Decidable s.WellFormed := by
  unfold Segment.WellFormed; infer_instance

/-- The address `addr` lies inside the segment. -/
def Segment.Contains (s : Segment) (addr : Int) : Prop := s.start ≤ addr ∧ addr < s.end

instance (s : Segment) (addr : Int) : Decidable (s.Contains addr) := by
  unfold Segment.Contains; infer_instance

/-- The number written by a list of digits in the given radix, most significant
digit first. -/
def digitsValue (radix : Nat) (ds : List Char) : Nat :=
  ds.foldl (fun acc c => acc * radix + (digitValue radix c).getD 0) 0

/-- The multiplier of a unit character: `K` is 1024, `M` is 1048576, a blank or
`B` is 1. -/
def unitMultiplier (u : Char) : Nat :=
  if u = 'K' then 1024 else if u = 'M' then 1048576 else 1

/-- The segment the specification expects for a group `count*size unit letter`
placed at `start`: sector size `size x multiplier(unit)`, length
`sectorSize x count`, and flags read from the bits of
`p = code(letter) - code('a') + 1`. -/
def expectedSegment (start : Int) (count size : List Char) (unit letter : Char) : Segment :=
  let sectorSize : Nat := digitsValue 10 size * unitMultiplier unit
  let p : Nat := letter.toNat - 'a'.toNat + 1
  { start := start
    sectorSize := sectorSize
    «end» := start + sectorSize * digitsValue 10 count
    readable := p.testBit 0
    erasable := p.testBit 1
    writable := p.testBit 2 }

/-- The captures of a match of `segmentRegex`: groups 1 to 4 hold the count
digits, the size digits, the unit and the letter. -/
def SegmentCaptures (caps : Captures) : Prop :=
  ∃ d1 d2 u l, d1 ≠ [] ∧ (∀ ch ∈ d1, isDecDigit ch = true) ∧
    d2 ≠ [] ∧ (∀ ch ∈ d2, isDecDigit ch = true) ∧
    u ∈ [' ', 'B', 'K', 'M'] ∧ l ∈ ['a', 'b', 'c', 'd', 'e', 'f', 'g'] ∧
    caps = [(4, [l]), (3, [u]), (2, d2), (1, d1)]

/-- The captures of a match of `contiguousSegmentRegex`: group 1 holds `0x` and
at least one hexadecimal digit. -/
def BlockCaptures (caps : Captures) : Prop :=
  ∃ hex, caps.lookup 1 = some ('0' :: 'x' :: hex) ∧ hex ≠ [] ∧ ∀ ch ∈ hex, isHexDigit ch = true

/-! ## The grammar of memory-map strings -/

/-- A list of white-space characters. -/
def Spaces (w : List Char) : Prop := ∀ ch ∈ w, isJsSpace ch = true

/-- The text of one group `count*size unit letter`, with every optional part
the pattern allows: white space around `*`, one optional white-space character
before the unit, white space before the letter, and white space with an
optional comma after it. White space before the second and later groups of a
block belongs to `sp5` of the group before. -/
structure GroupText where
  count : List Char
  sp1 : List Char
  sp2 : List Char
  size : List Char
  sep : Option Char
  unit : Char
  sp3 : List Char
  letter : Char
  sp4 : List Char
  comma : Bool
  sp5 : List Char
  deriving DecidableEq

/-- The characters of a group. -/
def GroupText.render (g : GroupText) : List Char :=
  g.count ++ (g.sp1 ++ ('*' :: (g.sp2 ++ (g.size ++ (g.sep.toList ++ (g.unit :: (g.sp3 ++
    (g.letter :: (g.sp4 ++ ((if g.comma then [','] else []) ++ g.sp5))))))))))

/-- The parts of a group are what the pattern asks for: digits for the count
and the size, a unit among blank, `B`, `K`, `M`, a letter in `a..g`. -/
def GroupText.WellFormed (g : GroupText) : Prop :=
  g.count ≠ [] ∧ (∀ ch ∈ g.count, isDecDigit ch = true) ∧ Spaces g.sp1 ∧ Spaces g.sp2 ∧
  g.size ≠ [] ∧ (∀ ch ∈ g.size, isDecDigit ch = true) ∧ (∀ ch ∈ g.sep, isJsSpace ch = true) ∧
  g.unit ∈ [' ', 'B', 'K', 'M'] ∧ Spaces g.sp3 ∧
  g.letter ∈ ['a', 'b', 'c', 'd', 'e', 'f', 'g'] ∧ Spaces g.sp4 ∧ Spaces g.sp5

/-- The text of one contiguous block `/ 0xHEX / group group ...`. -/
structure BlockText where
  sp0 : List Char
  hex : List Char
  sp1 : List Char
  sp2 : List Char
  groups : List GroupText
  deriving DecidableEq

/-- The characters of the groups of a block. -/
def renderGroups (gs : List GroupText) : List Char := (gs.map GroupText.render).flatten

/-- The characters of a block. -/
def BlockText.render (b : BlockText) : List Char :=
  '/' :: (b.sp0 ++ ('0' :: 'x' :: (b.hex ++ (b.sp1 ++ ('/' :: (b.sp2 ++ renderGroups b.groups))))))

/-- A block has one to eight hexadecimal digits and at least one group. -/
def BlockText.WellFormed (b : BlockText) : Prop :=
  Spaces b.sp0 ∧ b.hex ≠ [] ∧ b.hex.length ≤ 8 ∧ (∀ ch ∈ b.hex, isHexDigit ch = true) ∧
  Spaces b.sp1 ∧ Spaces b.sp2 ∧ b.groups ≠ [] ∧ ∀ g ∈ b.groups, g.WellFormed

/-- A memory-map string `@name` followed by at least one block. -/
structure DescriptorText where
  name : List Char
  blocks : List BlockText
  deriving DecidableEq

/-- The characters of the blocks of a descriptor. -/
def renderBlocks (bs : List BlockText) : List Char := (bs.map BlockText.render).flatten

/-- The characters of a descriptor. -/
def DescriptorText.render (d : DescriptorText) : List Char :=
  '@' :: (d.name ++ renderBlocks d.blocks)

/-- The name holds no `/` and every block is well formed. -/
def DescriptorText.WellFormed (d : DescriptorText) : Prop :=
  '/' ∉ d.name ∧ d.blocks ≠ [] ∧ ∀ b ∈ d.blocks, b.WellFormed

/-- The groups of a descriptor, in the order they appear in the string. -/
def DescriptorText.groups (d : DescriptorText) : List GroupText :=
  (d.blocks.map BlockText.groups).flatten

/-- The segments expected for the groups of a block laid out from `start`:
each group starts where the group before it ends. -/
def groupSegments : Int → List GroupText → List Segment
  | _, [] => []
  | start, g :: gs =>
    expectedSegment start g.count g.size g.unit g.letter ::
      groupSegments (expectedSegment start g.count g.size g.unit g.letter).end gs

/-- The segments expected for a block. -/
def BlockText.segments (b : BlockText) : List Segment :=
  groupSegments (digitsValue 16 b.hex) b.groups

/-- What may follow a group: nothing, or a character that is neither white
space nor a comma. -/
def GroupEnd (R : List Char) : Prop :=
  ∀ ch t, R = ch :: t → isJsSpace ch = false ∧ ch ≠ ','

/-- What may follow a block: nothing, or the `/` of the next block. -/
def BlockEnd (R : List Char) : Prop := R = [] ∨ ∃ t, R = '/' :: t

/-- The segments expected for a descriptor: those of its blocks, in order. -/
def DescriptorText.segments (d : DescriptorText) : List Segment :=
  (d.blocks.map BlockText.segments).flatten

/-- The segment the code builds for a group placed at `start`: the numbers of
`expectedSegment`, each rounded to the nearest double at the step where the code
computes it. -/
def roundedSegment (start : Int) (count size : List Char) (unit letter : Char) : Segment :=
  let sectorSize : Int :=
    toDouble (((toDoubleNat (digitsValue 10 size) : Nat) : Int) * ((unitMultiplier unit : Nat) : Int))
  let p : Nat := letter.toNat - 'a'.toNat + 1
  { start := start
    sectorSize := sectorSize
    «end» := toDouble (start +
      toDouble (sectorSize * ((toDoubleNat (digitsValue 10 count) : Nat) : Int)))
    readable := p.testBit 0
    erasable := p.testBit 1
    writable := p.testBit 2 }

/-- The segments the code builds for the groups of a block laid out from `start`. -/
def roundedGroupSegments : Int → List GroupText → List Segment
  | _, [] => []
  | start, g :: gs =>
    roundedSegment start g.count g.size g.unit g.letter ::
      roundedGroupSegments (roundedSegment start g.count g.size g.unit g.letter).end gs

/-- The segments the code builds for a block. -/
def BlockText.roundedSegments (b : BlockText) : List Segment :=
  roundedGroupSegments ((toDoubleNat (digitsValue 16 b.hex) : Nat) : Int) b.groups

/-- The segments the code builds for a descriptor: those of its blocks, in order. -/
def DescriptorText.roundedSegments (d : DescriptorText) : List Segment :=
  (d.blocks.map BlockText.roundedSegments).flatten

/-- The numbers of the groups laid out from `start` are below `2^53`: each sector size
`size x multiplier(unit)` and each end address `start + sectorSize x count`, computed
exactly. -/
def GroupsInRange : Int → List GroupText → Prop
  | _, [] => True
  | start, g :: gs =>
    digitsValue 10 g.size * unitMultiplier g.unit < 9007199254740992 ∧
    (expectedSegment start g.count g.size g.unit g.letter).end < 9007199254740992 ∧
    GroupsInRange (expectedSegment start g.count g.size g.unit g.letter).end gs

instance GroupsInRange.decidable :
    (start : Int) → (gs : List GroupText) → Decidable (GroupsInRange start gs)
  | _, [] => inferInstanceAs (Decidable True)
  | start, g :: gs =>
    have := GroupsInRange.decidable (expectedSegment start g.count g.size g.unit g.letter).end gs
    inferInstanceAs (Decidable (
      digitsValue 10 g.size * unitMultiplier g.unit < 9007199254740992 ∧
      (expectedSegment start g.count g.size g.unit g.letter).end < 9007199254740992 ∧
      GroupsInRange (expectedSegment start g.count g.size g.unit g.letter).end gs))

/-- Every number of the memory map that a descriptor text describes is below `2^53`:
the sector sizes and the end addresses of all groups. -/
def DescriptorText.InRange (d : DescriptorText) : Prop :=
  ∀ b ∈ d.blocks, GroupsInRange ((digitsValue 16 b.hex : Nat) : Int) b.groups

instance (d : DescriptorText) : Decidable d.InRange := by
  unfold DescriptorText.InRange; infer_instance

instance (w : List Char) : Decidable (Spaces w) := by
  unfold Spaces; infer_instance

instance (g : GroupText) : Decidable g.WellFormed := by
  unfold GroupText.WellFormed; infer_instance

instance (b : BlockText) : Decidable b.WellFormed := by
  unfold BlockText.WellFormed; infer_instance

instance (d : DescriptorText) : Decidable d.WellFormed := by
  unfold DescriptorText.WellFormed; infer_instance

/-- The string `@Flash/0x08000000/4*016Kg,1*064Kg,7*128Kg` of scenario 1 as a
descriptor text. -/
def scenario1Text : DescriptorText :=
  { name := "Flash".toList,
    blocks := [
      { sp0 := [], hex := "08000000".toList, sp1 := [], sp2 := [],
        groups := [
          { count := ['4'], sp1 := [], sp2 := [], size := "016".toList, sep := none, unit := 'K',
            sp3 := [], letter := 'g', sp4 := [], comma := true, sp5 := [] },
          { count := ['1'], sp1 := [], sp2 := [], size := "064".toList, sep := none, unit := 'K',
            sp3 := [], letter := 'g', sp4 := [], comma := true, sp5 := [] },
          { count := ['7'], sp1 := [], sp2 := [], size := "128".toList, sep := none, unit := 'K',
            sp3 := [], letter := 'g', sp4 := [], comma := false, sp5 := [] }] }] }

/-- A descriptor text with two blocks, white space in every optional place and
every kind of unit: `@ Option bytes /0x1FFF0000 / 1 * 016 Ba` followed by
`/ 0x08000000/2*1Mb 3*002  d,4*5Kg ,`. -/
def spacedText : DescriptorText :=
  { name := " Option bytes ".toList,
    blocks := [
      { sp0 := [], hex := "1FFF0000".toList, sp1 := [' '], sp2 := [' '],
        groups := [
          { count := ['1'], sp1 := [' '], sp2 := [' '], size := "016".toList, sep := some ' ',
            unit := 'B', sp3 := [], letter := 'a', sp4 := [], comma := false, sp5 := [] }] },
      { sp0 := [' '], hex := "08000000".toList, sp1 := [], sp2 := [],
        groups := [
          { count := ['2'], sp1 := [], sp2 := [], size := ['1'], sep := none, unit := 'M',
            sp3 := [], letter := 'b', sp4 := [], comma := false, sp5 := [' '] },
          { count := ['3'], sp1 := [], sp2 := [], size := "002".toList, sep := none, unit := ' ',
            sp3 := [' '], letter := 'd', sp4 := [], comma := true, sp5 := [] },
          { count := ['4'], sp1 := [], sp2 := [], size := ['5'], sep := none, unit := 'K',
            sp3 := [], letter := 'g', sp4 := [' '], comma := true, sp5 := [] }] }] }

/-- The memory map of `@Flash/0x08000000/4*016Kg,1*064Kg,7*128Kg`. -/
def scenario1Map : MemoryInfo :=
  { name := "Flash".toList, segments := [
      { start := 0x08000000, sectorSize := 0x4000, «end» := 0x08010000,
        readable := true, erasable := true, writable := true },
      { start := 0x08010000, sectorSize := 0x10000, «end» := 0x08020000,
        readable := true, erasable := true, writable := true },
      { start := 0x08020000, sectorSize := 0x20000, «end» := 0x08100000,
        readable := true, erasable := true, writable := true }] }

/-- A session on interface 0 of a device that accepts every request, with the
memory map of scenario 1. -/
def scenario1Device : Device :=
  { device_ := DFU.acceptingDevice DFU.dfuDNLOAD_IDLE, intfNumber := 0,
    memoryInfo := some scenario1Map, startAddress := none }

/-- The arguments of the `ERASE_SECTOR` commands entered in a trace, in order. -/
def erasedSectors (tr : List DFU.Event) : List (Option Int) :=
  tr.filterMap (fun e =>
    match e with
    | .dfuseCommand command param _ => if command = ERASE_SECTOR then some param else none
    | _ => none)

/-- The segments of one contiguous block: each satisfies the data-model
invariant and starts where the one before it ends. -/
def ContiguousBlock (segs : List Segment) : Prop :=
  (∀ seg ∈ segs, seg.WellFormed) ∧ List.Chain' (fun s t => t.start = s.end) segs

/-- The address `x` is the start of a sector of an erasable segment of the map,
and that sector overlaps the range `[a, a + len)`: some address `y` lies in both. -/
def ErasableSectorIn (segs : List Segment) (a len x : Int) : Prop :=
  ∃ seg ∈ segs, seg.erasable = true ∧ seg.Contains x ∧ seg.sectorSize ∣ x - seg.start ∧
    ∃ y, x ≤ y ∧ y < x + seg.sectorSize ∧ a ≤ y ∧ y < a + len

/-- What `erase` may add to the trace for the map `segments`: a transfer out is a
`DNLOAD` with block number 0 whose 5 bytes are the command `ERASE_SECTOR` and, in
little-endian order, an address below `2^32` that lies inside an erasable segment of
the map; any other event is allowed. -/
def EraseWire (segments : List Segment) (e : DFU.Event) : Prop :=
  match e with
  | .controlTransferOut request value _ data =>
    request = DFU.DNLOAD ∧ value = 0 ∧ ∃ a : Nat, a < 4294967296 ∧
      data = some [ERASE_SECTOR, a % 256, a / 256 % 256, a / 65536 % 256, a / 16777216 % 256] ∧
      ∃ seg ∈ segments, seg.erasable = true ∧ seg.Contains (a : Int)
  | _ => True

/-- The transfers out of a trace: request, block number and data of each, in order. -/
def transfersOut (tr : List DFU.Event) : List (Nat × Nat × Option (List Nat)) :=
  tr.filterMap (fun e =>
    match e with
    | .controlTransferOut request value _ data => some (request, value, data)
    | _ => none)

/-- A map with a readable segment followed by a segment that is not readable:
the map of `@X/0x1000/1*1Kg,1*1Kb`. -/
def lockedTailMap : MemoryInfo :=
  { name := "X".toList,
    segments := [
      { start := 0x1000, sectorSize := 0x400, «end» := 0x1400,
        readable := true, erasable := true, writable := true },
      { start := 0x1400, sectorSize := 0x400, «end» := 0x1800,
        readable := false, erasable := true, writable := false }] }

/-- A session with the map `lockedTailMap`. -/
def lockedTailDevice : Device :=
  { device_ := DFU.acceptingDevice DFU.dfuDNLOAD_IDLE, intfNumber := 0,
    memoryInfo := some lockedTailMap, startAddress := none }

/-- A session on a device that accepts every request, with the memory map parsed
from `name`. -/
def parsedDevice (name : String) : Outcome Device :=
  Device.create (DFU.acceptingDevice DFU.dfuDNLOAD_IDLE) 0 (some name.toList)

/-- `getMaxReadSize` of the session made from the descriptor `name`. -/
def maxReadSizeOf (name : String) (startAddr : Int) : Outcome Int :=
  match parsedDevice name with
  | .ok d => d.getMaxReadSize startAddr
  | .throw e => .throw e
  | .stuck => .stuck

/-- `getSectorStart(addr)` of the session made from the descriptor `name`. -/
def sectorStartOf (name : String) (addr : Int) : Outcome Int :=
  match parsedDevice name with
  | .ok d => d.getSectorStart addr none
  | .throw e => .throw e
  | .stuck => .stuck

/-- `getSectorEnd(addr)` of the session made from the descriptor `name`. -/
def sectorEndOf (name : String) (addr : Int) : Outcome Int :=
  match parsedDevice name with
  | .ok d => d.getSectorEnd addr none
  | .throw e => .throw e
  | .stuck => .stuck

/-- The segments of the session made from the descriptor `name`. -/
def segmentsOf (name : String) : Option (List Segment) :=
  match parsedDevice name with
  | .ok d => d.memoryInfo.map (fun info => info.segments)
  | _ => none

/-- A DfuSe session on `shortWriteDevice` with the memory map of scenario 1 and no
start address set. -/
def shortWriteSession : Device :=
  { device_ := DFU.shortWriteDevice, intfNumber := 0,
    memoryInfo := some scenario1Map, startAddress := none }

/-- The `SET_ADDRESS` commands and the `DNLOAD` transfers with block number 2 of a
trace, in order. -/
def chunkEvents (tr : List DFU.Event) : List DFU.Event :=
  tr.filter (fun e =>
    match e with
    | .dfuseCommand command _ _ => command == SET_ADDRESS
    | .controlTransferOut request value _ _ => request == DFU.DNLOAD && value == 2
    | _ => false)

/-- The run of `erase(startAddr, length)` by the session made from the descriptor
`name`, with `fuel` as the bound of every loop. -/
def eraseOf (name : String) (fuel : Nat) (startAddr length : Int) :
    List DFU.Event × Outcome Unit :=
  match parsedDevice name with
  | .ok d => d.erase fuel startAddr length []
  | .throw e => ([], .throw e)
  | .stuck => ([], .stuck)

/-- An address is covered by a readable segment of the map. -/
def ReadableAt (segs : List Segment) (a : Int) : Prop :=
  ∃ seg ∈ segs, seg.readable = true ∧ seg.Contains a

end DFUse

/-! # Theorems -/

namespace JS

/-! ## Numbers that are not rounded -/

/-- Below `2^53` nothing is halved. -/
theorem excessBits_of_lt (fuel n : Nat) (h : n < 9007199254740992) : excessBits fuel n = 0 := by
  cases fuel with
  | zero => rfl
  | succ f => rw [excessBits, if_pos h]

/-- Rounding a quotient does not go below its integer part. -/
theorem le_roundHalfEven (num den : Nat) : num / den ≤ roundHalfEven num den := by
  unfold roundHalfEven
  split <;> omega

/-- Rounding a quotient goes at most one above its integer part, and only from the
upper half. -/
theorem roundHalfEven_cases (num den : Nat) :
    roundHalfEven num den = num / den ∨
      (roundHalfEven num den = num / den + 1 ∧ den ≤ 2 * (num % den)) := by
  unfold roundHalfEven
  split
  · rename_i h
    right
    exact ⟨rfl, by rcases h with h | h <;> omega⟩
  · left; rfl

/-- Natural numbers up to `2^53` are doubles. -/
theorem toDoubleNat_of_le (n : Nat) (h : n ≤ 9007199254740992) : toDoubleNat n = n := by
  rcases Nat.lt_or_ge n 9007199254740992 with h1 | h1
  · unfold toDoubleNat
    rw [excessBits_of_lt n n h1]
    unfold roundHalfEven
    rw [if_neg (by omega)]
    simp
  · have : n = 9007199254740992 := by omega
    subst this
    decide

/-- What is left after the halvings, put back in place, is still `2^53` or more. -/
theorem excessBits_floor (fuel : Nat) :
    ∀ n, 9007199254740992 ≤ n →
      9007199254740992 ≤ n / 2 ^ excessBits fuel n * 2 ^ excessBits fuel n := by
  induction fuel with
  | zero =>
    intro n h
    simpa [excessBits] using h
  | succ f ih =>
    intro n h
    rw [excessBits, if_neg (by omega)]
    rcases Nat.lt_or_ge (n / 2) 9007199254740992 with h1 | h1
    · rw [excessBits_of_lt f _ h1]
      simp only [Nat.zero_add, pow_one]
      omega
    · have := ih (n / 2) h1
      have e1 : n / 2 ^ (excessBits f (n / 2) + 1) = n / 2 / 2 ^ excessBits f (n / 2) := by
        rw [pow_succ, Nat.mul_comm, Nat.div_div_eq_div_mul]
      have e2 : n / 2 / 2 ^ excessBits f (n / 2) * 2 ^ (excessBits f (n / 2) + 1) =
          n / 2 / 2 ^ excessBits f (n / 2) * 2 ^ excessBits f (n / 2) * 2 := by
        rw [pow_succ]; ring
      rw [e1, e2]
      omega

/-- The double nearest to a number that is `2^53` or more is `2^53` or more. -/
theorem le_toDoubleNat (n : Nat) (h : 9007199254740992 ≤ n) :
    9007199254740992 ≤ toDoubleNat n := by
  unfold toDoubleNat
  calc 9007199254740992 ≤ n / 2 ^ excessBits n n * 2 ^ excessBits n n := excessBits_floor n n h
    _ ≤ _ := Nat.mul_le_mul_right _ (le_roundHalfEven _ _)

/-- A rounded value below `2^53` was not rounded. -/
theorem toDoubleNat_lt (n : Nat) (h : toDoubleNat n < 9007199254740992) :
    n < 9007199254740992 ∧ toDoubleNat n = n := by
  have h1 : n < 9007199254740992 := by
    by_contra hc
    have := le_toDoubleNat n (by omega)
    omega
  exact ⟨h1, toDoubleNat_of_le n (by omega)⟩

/-- Integers up to `2^53` in magnitude are doubles. -/
theorem toDouble_of_abs_le (n : Int) (h1 : -9007199254740992 ≤ n) (h2 : n ≤ 9007199254740992) :
    toDouble n = n := by
  unfold toDouble
  rw [toDoubleNat_of_le _ (by omega)]
  split <;> omega

/-- Integers from 0 to below `2^53` are doubles. -/
theorem toDouble_of_lt (n : Int) (h1 : 0 ≤ n) (h2 : n < 9007199254740992) : toDouble n = n :=
  toDouble_of_abs_le n (by omega) (by omega)

/-- Rounding keeps the sign. -/
theorem toDouble_nonneg (n : Int) (h : 0 ≤ n) : 0 ≤ toDouble n := by
  unfold toDouble
  rw [if_neg (by omega)]
  exact Int.natCast_nonneg _

/-- A rounded value from 0 to below `2^53` was not rounded. -/
theorem toDouble_lt (n : Int) (h0 : 0 ≤ n) (h : toDouble n < 9007199254740992) :
    n < 9007199254740992 ∧ toDouble n = n := by
  unfold toDouble at h
  rw [if_neg (by omega)] at h
  have := toDoubleNat_lt n.natAbs (by omega)
  have h1 : n < 9007199254740992 := by omega
  exact ⟨h1, toDouble_of_lt n h0 h1⟩

/-- A number that rounds to an integer from 0 to below `2^53` is that integer. -/
theorem toDouble_eq_exact (x m : Int) (hm0 : 0 ≤ m) (hm : m < 9007199254740992)
    (h : toDouble x = m) : x = m := by
  by_cases hx : 0 ≤ x
  · have := (toDouble_lt x hx (by omega)).2
    omega
  · exfalso
    unfold toDouble at h
    rw [if_pos (by omega)] at h
    have h1 : toDoubleNat x.natAbs < 9007199254740992 := by omega
    have h2 := (toDoubleNat_lt _ h1).2
    omega

/-- Enough doublings bring the quotient to `2^52`. -/
theorem deficitBits_spec (fuel : Nat) :
    ∀ num den, den * 4503599627370496 ≤ num * 2 ^ fuel →
      den * 4503599627370496 ≤ num * 2 ^ deficitBits fuel num den := by
  induction fuel with
  | zero =>
    intro num den h
    simpa [deficitBits] using h
  | succ f ih =>
    intro num den h
    rw [deficitBits]
    split
    · rename_i h1
      simpa using h1
    · have := ih (2 * num) den (by rw [pow_succ] at h; nlinarith)
      rw [pow_succ]
      nlinarith

/-- `Math.floor(a / b)` is the integer part of the quotient when `a` is below `2^53`. -/
theorem quotientToInteger_of_lt (a b : Nat) (ha : a < 9007199254740992) (ha0 : 0 < a)
    (hb : 0 < b) : quotientToInteger a b false = a / b := by
  unfold quotientToInteger
  rw [if_neg (by nlinarith)]
  simp only [Bool.false_eq_true, if_false]
  have hfuel : b * 4503599627370496 ≤ a * 2 ^ (b + 52) := by
    have h1 : b < 2 ^ b := Nat.lt_two_pow b
    have h2 : (2 : Nat) ^ (b + 52) = 2 ^ b * 4503599627370496 := by
      rw [pow_add]; norm_num
    rw [h2]
    nlinarith
  have hs := deficitBits_spec (b + 52) a b hfuel
  generalize deficitBits (b + 52) a b = s at hs
  have hX : 0 < 2 ^ s := Nat.pow_pos (by decide)
  generalize hXdef : 2 ^ s = X at hs hX
  have hQ : a * X / b / X = a / b := by
    rw [Nat.div_div_eq_div_mul, Nat.mul_div_mul_right _ _ hX]
  rcases roundHalfEven_cases (a * X) b with h | ⟨h, hR⟩
  · rw [h, hQ]
  · rw [h, Nat.succ_div]
    split
    · rename_i hdvd
      exfalso
      obtain ⟨c, hc⟩ := hdvd
      have hdm := Nat.div_add_mod (a * X) b
      have hmod := Nat.mod_lt (a * X) hb
      generalize a * X / b = Q at hc hdm hQ
      generalize a * X % b = R at hR hdm hmod
      -- `c = a / b + 1`
      have hc1 : c = a / b + 1 := by
        have : (Q + 1) / X = c := by rw [hc, Nat.mul_div_cancel_left _ hX]
        rw [← this, Nat.succ_div, if_pos ⟨c, hc⟩, hQ]
      have hab : a < c * b := by
        rw [hc1]
        have h3 := Nat.div_add_mod a b
        have h4 := Nat.mod_lt a hb
        nlinarith
      have h1 : (a + 1) * X ≤ (Q + 1) * b := by
        have : (a + 1) * X ≤ c * b * X := Nat.mul_le_mul_right _ hab
        calc (a + 1) * X ≤ c * b * X := this
          _ = (Q + 1) * b := by rw [hc]; ring
      nlinarith
    · rw [hQ, Nat.add_zero]

/-- `Math.floor(a / b)` is the integer quotient when `a` is not negative and below `2^53`
and `b` is positive. -/
theorem floorDiv_of_lt (a b : Int) (h0 : 0 ≤ a) (h1 : a < 9007199254740992) (hb : 0 < b) :
    floorDiv a b = Int.fdiv a b := by
  rw [Int.fdiv_eq_ediv _ (le_of_lt hb)]
  unfold floorDiv
  by_cases ha : a = 0
  · rw [if_pos ha, ha]; simp
  · rw [if_neg ha, if_pos (by simp [not_lt.2 h0, not_lt.2 (le_of_lt hb)]),
      quotientToInteger_of_lt _ _ (by omega) (by omega) (by omega)]
    rw [Int.natCast_div, Int.natCast_natAbs, Int.natCast_natAbs, abs_of_nonneg h0,
      abs_of_pos hb]

/-! ## The matcher only returns what the pattern allows -/

theorem repeatMatcher_sound {m : List Char → Captures → Cont → Option MatchState}
    {S : List Char → Captures → List Char → Captures → Prop} {grp : List Nat}
    (hm : ∀ x caps c z, m x caps c = some z → ∃ y caps1, S x caps y caps1 ∧ c y caps1 = some z) :
    ∀ (fuel min : Nat) (max : Option Nat) (x : List Char) (caps : Captures) (c : Cont)
      (z : MatchState), repeatMatcher m grp fuel min max x caps c = some z →
      ∃ y caps1, RepSem S grp min max x caps y caps1 ∧ c y caps1 = some z := by
  intro fuel
  induction fuel with
  | zero => intro min max x caps c z h; simp [repeatMatcher] at h
  | succ fuel ih =>
    intro min max x caps c z h
    unfold repeatMatcher at h
    split at h
    · rename_i hmax
      exact ⟨x, caps, RepSem.done (Or.inr hmax), h⟩
    · simp only at h
      have key : ∀ z, m x (caps.filter (fun p => !grp.contains p.1))
          (fun y caps1 => if min = 0 ∧ y.length = x.length then none
            else repeatMatcher m grp fuel (min - 1) (max.map (· - 1)) y caps1 c) = some z →
          ∃ y caps1, RepSem S grp min max x caps y caps1 ∧ c y caps1 = some z := by
        intro z hz
        obtain ⟨y, caps1, hS, hd⟩ := hm _ _ _ _ hz
        split at hd
        · cases hd
        · obtain ⟨y2, caps2, hR, hc⟩ := ih _ _ _ _ _ _ hd
          exact ⟨y2, caps2, RepSem.step hS hR, hc⟩
      by_cases hmin : min = 0
      · rw [if_neg (by simpa using hmin)] at h
        split at h
        · rename_i z1 hz1
          cases h
          exact key _ hz1
        · exact ⟨x, caps, RepSem.done (Or.inl hmin), h⟩
      · rw [if_pos hmin] at h
        exact key z h

theorem matchRegex_sound (r : Regex) :
    ∀ (x : List Char) (caps : Captures) (c : Cont) (z : MatchState),
      matchRegex r x caps c = some z → ∃ y caps1, Sem r x caps y caps1 ∧ c y caps1 = some z := by
  induction r with
  | set cs =>
    intro x caps c z h
    unfold matchRegex at h
    split at h
    · cases h
    · rename_i ch rest
      split at h
      · rename_i ht
        exact ⟨rest, caps, ⟨ch, rfl, ht, rfl⟩, h⟩
      · cases h
  | seq a b iha ihb =>
    intro x caps c z h
    unfold matchRegex at h
    obtain ⟨y0, caps0, hA, h0⟩ := iha _ _ _ _ h
    obtain ⟨y, caps1, hB, h1⟩ := ihb _ _ _ _ h0
    exact ⟨y, caps1, ⟨y0, caps0, hA, hB⟩, h1⟩
  | rep r min max ih =>
    intro x caps c z h
    unfold matchRegex at h
    exact repeatMatcher_sound ih _ _ _ _ _ _ _ h
  | group i r ih =>
    intro x caps c z h
    unfold matchRegex at h
    obtain ⟨y, caps0, hS, h0⟩ := ih _ _ _ _ h
    exact ⟨y, _, ⟨caps0, hS, rfl⟩, h0⟩

theorem lookup_filter_ne (grp : List Nat) (i : Nat) (hi : i ∉ grp) (caps : Captures) :
    (caps.filter (fun p => !grp.contains p.1)).lookup i = caps.lookup i := by
  induction caps with
  | nil => rfl
  | cons p caps ih =>
    obtain ⟨k, t⟩ := p
    by_cases hk : k ∈ grp
    · have hne : (i == k) = false := by
        simp only [beq_eq_false_iff_ne, ne_eq]
        rintro rfl; exact hi hk
      simpa [List.filter, hk, List.lookup, hne] using ih
    · by_cases hik : i = k
      · subst hik
        simp [List.filter, hk, List.lookup]
      · have hne : (i == k) = false := by simpa using hik
        simpa [List.filter, hk, List.lookup, hne] using ih

/-- A pattern leaves the captures of groups it does not contain untouched, and
what it leaves of the input is a suffix. -/
theorem Sem_frame (r : Regex) :
    ∀ (x : List Char) (caps : Captures) (y : List Char) (caps1 : Captures),
      Sem r x caps y caps1 →
      (∃ pre, x = pre ++ y) ∧ ∀ i, i ∉ r.groups → caps1.lookup i = caps.lookup i := by
  induction r with
  | set cs =>
    rintro x caps y caps1 ⟨ch, rfl, -, rfl⟩
    exact ⟨⟨[ch], rfl⟩, fun _ _ => rfl⟩
  | seq a b iha ihb =>
    rintro x caps y caps1 ⟨y0, caps0, hA, hB⟩
    obtain ⟨⟨p1, rfl⟩, h1⟩ := iha _ _ _ _ hA
    obtain ⟨⟨p2, rfl⟩, h2⟩ := ihb _ _ _ _ hB
    refine ⟨⟨p1 ++ p2, by simp⟩, fun i hi => ?_⟩
    simp only [Regex.groups, List.mem_append, not_or] at hi
    rw [h2 i hi.2, h1 i hi.1]
  | rep r min max ih =>
    intro x caps y caps1 h
    change RepSem (Sem r) r.groups min max x caps y caps1 at h
    induction h with
    | done _ => exact ⟨⟨[], rfl⟩, fun _ _ => rfl⟩
    | step hS _ ih2 =>
      obtain ⟨⟨p1, rfl⟩, h1⟩ := ih _ _ _ _ hS
      obtain ⟨⟨p2, rfl⟩, h2⟩ := ih2
      refine ⟨⟨p1 ++ p2, by simp⟩, fun i hi => ?_⟩
      have hi' : i ∉ r.groups := hi
      rw [h2 i hi, h1 i hi', lookup_filter_ne _ _ hi']
  | group k r ih =>
    rintro x caps y caps1 ⟨caps0, hS, rfl⟩
    obtain ⟨hp, h1⟩ := ih _ _ _ _ hS
    refine ⟨hp, fun i hi => ?_⟩
    simp only [Regex.groups, List.mem_cons, not_or] at hi
    have hne : (i == k) = false := by simpa using hi.1
    simp only [List.lookup, hne]
    exact h1 i hi.2

/-- A quantified character atom consumes a run of characters of the atom and
leaves the captures alone; the run is not empty when at least one iteration is
required. -/
theorem RepSem_set {cs : CharSet} {min : Nat} {max : Option Nat} {x y : List Char}
    {caps caps1 : Captures} (h : RepSem (Sem (.set cs)) [] min max x caps y caps1) :
    caps1 = caps ∧ ∃ pre, x = pre ++ y ∧ (∀ ch ∈ pre, cs.test ch = true) ∧
      (min ≠ 0 → max ≠ some 0 → pre ≠ []) := by
  induction h with
  | done h0 =>
    refine ⟨rfl, [], rfl, by simp, fun h1 h2 => ?_⟩
    rcases h0 with h0 | h0
    exacts [absurd h0 h1, absurd h0 h2]
  | step hS _ ih =>
    obtain ⟨ch, rfl, ht, rfl⟩ := hS
    obtain ⟨rfl, pre, rfl, hpre, -⟩ := ih
    refine ⟨by simp, ch :: pre, rfl, ?_, by simp⟩
    intro c hc
    rcases List.mem_cons.1 hc with rfl | hc
    exacts [ht, hpre c hc]


/-! ## The greedy path of the matcher -/

theorem filter_no_groups (caps : Captures) :
    caps.filter (fun p => !([] : List Nat).contains p.1) = caps := by
  simp

theorem repeatMatcher_set_greedy (cs : CharSet) (y : List Char) (caps : Captures) (c : Cont)
    (z : MatchState) (hstop : ∀ ch t, y = ch :: t → cs.test ch = false)
    (hc : c y caps = some z) :
    ∀ (pre : List Char) (fuel min : Nat) (max : Option Nat),
      (∀ ch ∈ pre, cs.test ch = true) → pre.length + 1 ≤ fuel → min ≤ pre.length →
      (∀ m, max = some m → pre.length ≤ m) →
      repeatMatcher (fun y caps1 c1 => matchRegex (.set cs) y caps1 c1) [] fuel min max
        (pre ++ y) caps c = some z := by
  intro pre
  induction pre with
  | nil =>
    intro fuel min max _ hfuel hmin _
    obtain ⟨fuel, rfl⟩ : ∃ f, fuel = f + 1 := ⟨fuel - 1, by omega⟩
    have hmin0 : min = 0 := by simpa using hmin
    subst hmin0
    unfold repeatMatcher
    split
    · exact hc
    · simp only [List.nil_append, ne_eq, not_true_eq_false, if_false, filter_no_groups]
      have hnone : ∀ d : Cont, matchRegex (.set cs) y caps d = none := by
        intro d
        unfold matchRegex
        cases y with
        | nil => rfl
        | cons ch t => simp [hstop ch t rfl]
      rw [hnone]
      exact hc
  | cons ch pre ih =>
    intro fuel min max hpre hfuel hmin hmax
    obtain ⟨fuel, rfl⟩ : ∃ f, fuel = f + 1 := ⟨fuel - 1, by omega⟩
    have hmax0 : max ≠ some 0 := by
      intro h0
      have := hmax 0 h0
      simp at this
    have hch : cs.test ch = true := hpre ch (List.mem_cons_self _ _)
    have hrec := ih fuel (min - 1) (max.map (· - 1))
      (fun c hc => hpre c (List.mem_cons_of_mem _ hc)) (by simp at hfuel; omega)
      (by simp at hmin; omega)
      (by
        intro m hm
        cases max with
        | none => simp at hm
        | some k =>
          simp only [Option.map_some', Option.some.injEq] at hm
          have := hmax k rfl
          simp at this
          omega)
    unfold repeatMatcher
    rw [if_neg hmax0]
    simp only [filter_no_groups, List.cons_append]
    have hm : matchRegex (.set cs) (ch :: (pre ++ y)) caps
        (fun y1 caps1 => if min = 0 ∧ y1.length = (ch :: (pre ++ y)).length then none
          else repeatMatcher (fun y caps1 c1 => matchRegex (.set cs) y caps1 c1) [] fuel (min - 1)
            (max.map (· - 1)) y1 caps1 c) = some z := by
      unfold matchRegex
      simp only [hch, if_true]
      rw [if_neg (by simp)]
      exact hrec
    rw [hm]
    split <;> rfl

/-- A greedy quantifier over a character atom takes the whole run `pre` when the
continuation accepts what follows. -/
theorem matchRegex_rep_set (cs : CharSet) (min : Nat) (max : Option Nat) (pre y : List Char)
    (caps : Captures) (c : Cont) (z : MatchState)
    (hpre : ∀ ch ∈ pre, cs.test ch = true) (hstop : ∀ ch t, y = ch :: t → cs.test ch = false)
    (hmin : min ≤ pre.length) (hmax : ∀ m, max = some m → pre.length ≤ m)
    (hc : c y caps = some z) :
    matchRegex (.rep (.set cs) min max) (pre ++ y) caps c = some z := by
  unfold matchRegex
  exact repeatMatcher_set_greedy cs y caps c z hstop hc pre _ min max hpre
    (by simp only [List.length_append]; omega) hmin hmax

/-- The optional character atom `cs?`: take the character when the continuation then
succeeds, else go on without it. -/
theorem matchRegex_opt_set (cs : CharSet) (x : List Char) (caps : Captures) (c : Cont) :
    matchRegex (Regex.opt (.set cs)) x caps c =
      match x with
      | [] => c [] caps
      | ch :: rest =>
        if cs.test ch = true then
          match c rest caps with
          | some z => some z
          | none => c (ch :: rest) caps
        else c (ch :: rest) caps := by
  unfold Regex.opt matchRegex
  cases x with
  | nil =>
    simp only [List.length_nil, Nat.zero_add]
    unfold repeatMatcher
    simp [matchRegex]
  | cons ch rest =>
    simp only [List.length_cons, Nat.zero_add]
    unfold repeatMatcher
    simp only [Option.some.injEq, OfNat.ofNat_ne_zero, one_ne_zero, if_false, filter_no_groups,
      ne_eq, not_true_eq_false, true_and, Option.map_some', Nat.sub_self]
    unfold matchRegex
    by_cases ht : cs.test ch = true
    · simp only [ht, if_true]
      rw [if_neg (by simp)]
      unfold repeatMatcher
      simp [Regex.groups]
    · simp only [ht, if_false]
      simp

theorem matchRegex_set_cons (cs : CharSet) (ch : Char) (rest : List Char) (caps : Captures)
    (c : Cont) (h : cs.test ch = true) :
    matchRegex (.set cs) (ch :: rest) caps c = c rest caps := by
  unfold matchRegex
  simp [h]

theorem matchRegex_seq (a b : Regex) (x : List Char) (caps : Captures) (c : Cont) :
    matchRegex (.seq a b) x caps c =
      matchRegex a x caps (fun y caps1 => matchRegex b y caps1 c) := by
  rw [matchRegex]

theorem matchRegex_group (i : Nat) (r : Regex) (x : List Char) (caps : Captures) (c : Cont) :
    matchRegex (.group i r) x caps c =
      matchRegex r x caps (fun y caps1 => c y ((i, x.take (x.length - y.length)) :: caps1)) := by
  rw [matchRegex]

end JS

namespace DFUse
open JS

/-! ## What a match of the two patterns looks like -/

theorem take_consumed (p y : List Char) : (p ++ y).take ((p ++ y).length - y.length) = p := by
  simp

theorem take_consumed_cons (ch : Char) (y : List Char) :
    (ch :: y).take ((ch :: y).length - y.length) = [ch] := take_consumed [ch] y

theorem Sem_set_iff {cs : CharSet} {x y : List Char} {caps caps1 : Captures} :
    Sem (.set cs) x caps y caps1 ↔ ∃ ch, x = ch :: y ∧ cs.test ch = true ∧ caps1 = caps := Iff.rfl

/-- Every match of `segmentRegex`: a run of digits, white space, `*`, ..., with the
four groups captured. -/
theorem segmentBody_sem {x y : List Char} {caps caps1 : Captures}
    (h : Sem (segmentBody true) x caps y caps1) :
    ∃ d1 w rest d2 u l, x = d1 ++ (w ++ '*' :: rest) ∧
      d1 ≠ [] ∧ (∀ ch ∈ d1, isDecDigit ch = true) ∧ (∀ ch ∈ w, isJsSpace ch = true) ∧
      d2 ≠ [] ∧ (∀ ch ∈ d2, isDecDigit ch = true) ∧
      u ∈ [' ', 'B', 'K', 'M'] ∧ l ∈ ['a', 'b', 'c', 'd', 'e', 'f', 'g'] ∧
      caps1 = (4, [l]) :: (3, [u]) :: (2, d2) :: (1, d1) :: caps ∧
      ∃ pre, x = pre ++ y ∧ pre ≠ [] := by
  simp only [segmentBody, if_true, ws, Regex.star, Regex.plus, Regex.opt, Regex.chr, Regex.groups,
    Sem.eq_2, Sem.eq_3, Sem.eq_4] at h
  obtain ⟨y1, c1, ⟨c0, h1, rfl⟩, y2, c2, h2, y3, c3, h3, y4, c4, h4, y5, c5, ⟨c5', h5, rfl⟩,
    y6, c6, h6, y7, c7, ⟨c7', h7, rfl⟩, y8, c8, h8, y9, c9, ⟨c9', h9, rfl⟩,
    y10, c10, h10, y11, c11, h11, h12⟩ := h
  obtain ⟨rfl, d1, rfl, hd1, hne1⟩ := RepSem_set h1
  obtain ⟨rfl, w, rfl, hw, -⟩ := RepSem_set h2
  obtain ⟨ch3, rfl, ht3, rfl⟩ := Sem_set_iff.1 h3
  obtain ⟨rfl, w2, rfl, hw2, -⟩ := RepSem_set h4
  obtain ⟨rfl, d2, rfl, hd2, hne2⟩ := RepSem_set h5
  obtain ⟨rfl, s6, rfl, hs6, -⟩ := RepSem_set h6
  obtain ⟨u, rfl, hu, rfl⟩ := Sem_set_iff.1 h7
  obtain ⟨rfl, w3, rfl, hw3, -⟩ := RepSem_set h8
  obtain ⟨l, rfl, hl, rfl⟩ := Sem_set_iff.1 h9
  obtain ⟨rfl, w4, rfl, hw4, -⟩ := RepSem_set h10
  obtain ⟨rfl, s11, rfl, hs11, -⟩ := RepSem_set h11
  obtain ⟨rfl, w5, rfl, hw5, -⟩ := RepSem_set h12
  have hstar : ch3 = '*' := by simpa [CharSet.test] using ht3
  subst hstar
  refine ⟨d1, w, _, d2, u, l, rfl, hne1 (by decide) (by simp), hd1, hw,
    hne2 (by decide) (by simp), hd2, by simpa [CharSet.test] using hu,
    by simpa [CharSet.test] using hl, ?_, ?_⟩
  · simp only [take_consumed, take_consumed_cons]
  · refine ⟨d1 ++ (w ++ '*' :: (w2 ++ (d2 ++ (s6 ++ u :: (w3 ++ l :: (w4 ++ (s11 ++ w5))))))), ?_, ?_⟩
    · simp
    · have := hne1 (by decide) (by simp)
      simp [this]

theorem Sem_seq_iff {a b : Regex} {x y : List Char} {caps caps1 : Captures} :
    Sem (.seq a b) x caps y caps1 ↔
      ∃ y0 caps0, Sem a x caps y0 caps0 ∧ Sem b y0 caps0 y caps1 := Iff.rfl

theorem Sem_group_iff {i : Nat} {r : Regex} {x y : List Char} {caps caps1 : Captures} :
    Sem (.group i r) x caps y caps1 ↔
      ∃ caps0, Sem r x caps y caps0 ∧ caps1 = (i, x.take (x.length - y.length)) :: caps0 :=
  Iff.rfl

/-- Every match of `contiguousSegmentRegex` is not empty and captures `0x` followed by
at least one hexadecimal digit in group 1. -/
theorem contiguousSegmentRegex_sem {x y : List Char} {caps caps1 : Captures}
    (h : Sem contiguousSegmentRegex x caps y caps1) :
    ∃ hex, caps1.lookup 1 = some ('0' :: 'x' :: hex) ∧ hex ≠ [] ∧
      (∀ ch ∈ hex, isHexDigit ch = true) ∧ ∃ pre, x = pre ++ y ∧ pre ≠ [] := by
  unfold contiguousSegmentRegex at h
  obtain ⟨y1, c1, hA, h⟩ := Sem_seq_iff.1 h
  obtain ⟨y2, c2, hB, h⟩ := Sem_seq_iff.1 h
  obtain ⟨y3, c3, hG, hR⟩ := Sem_seq_iff.1 h
  obtain ⟨ch, rfl, -, rfl⟩ := Sem_set_iff.1 hA
  obtain ⟨⟨p2, rfl⟩, -⟩ := Sem_frame _ _ _ _ _ hB
  obtain ⟨c0, hG1, rfl⟩ := Sem_group_iff.1 hG
  obtain ⟨y4, c4, h0, hG2⟩ := Sem_seq_iff.1 hG1
  obtain ⟨y5, c5, hx, hH⟩ := Sem_seq_iff.1 hG2
  obtain ⟨ch0, rfl, ht0, rfl⟩ := Sem_set_iff.1 h0
  obtain ⟨chx, rfl, htx, rfl⟩ := Sem_set_iff.1 hx
  obtain ⟨rfl, hex, rfl, hhex, hne⟩ := RepSem_set hH
  obtain ⟨⟨p3, rfl⟩, hlook⟩ := Sem_frame _ _ _ _ _ hR
  have e0 : ch0 = '0' := by simpa [CharSet.test, Regex.chr] using ht0
  have ex : chx = 'x' := by simpa [CharSet.test, Regex.chr] using htx
  subst e0 ex
  refine ⟨hex, ?_, hne (by decide) (by simp), hhex, ch :: (p2 ++ ('0' :: 'x' :: (hex ++ p3))),
    by simp, by simp⟩
  rw [hlook 1 (by simp [Regex.groups, segmentBody, ws, Regex.star, Regex.plus, Regex.opt,
    Regex.chr])]
  have : ('0' :: 'x' :: (hex ++ (p3 ++ y))) = ('0' :: 'x' :: hex) ++ (p3 ++ y) := by simp
  rw [this, take_consumed]
  simp [List.lookup]

/-! ## `parseInt` on the captured digits -/

theorem parseDigits_valid (radix : Nat) (ds : List Char)
    (h : ∀ c ∈ ds, (digitValue radix c).isSome = true) (acc : Nat) (seen : Bool) :
    parseDigits radix ds acc seen =
      (ds.foldl (fun a c => a * radix + (digitValue radix c).getD 0) acc, seen || !ds.isEmpty) := by
  induction ds generalizing acc seen with
  | nil => simp [parseDigits]
  | cons c cs ih =>
    have hc := h c (List.mem_cons_self _ _)
    obtain ⟨d, hd⟩ := Option.isSome_iff_exists.1 hc
    simp only [parseDigits, hd, List.foldl_cons, Option.getD_some]
    rw [ih (fun c hc => h c (List.mem_cons_of_mem _ hc))]
    simp

theorem digitValue_dec {c : Char} (h : isDecDigit c = true) : (digitValue 10 c).isSome = true := by
  simp only [isDecDigit, Bool.and_eq_true, decide_eq_true_eq] at h
  simp only [digitValue, h, and_self, if_true, Option.some_bind]
  rw [if_pos (by omega)]
  rfl

theorem digitValue_hex {c : Char} (h : isHexDigit c = true) : (digitValue 16 c).isSome = true := by
  simp only [isHexDigit, isDecDigit, Bool.or_eq_true, Bool.and_eq_true, decide_eq_true_eq] at h
  unfold digitValue
  simp only
  rcases h with (h | h) | h
  · rw [if_pos h]
    simp only [Option.some_bind]
    rw [if_pos (by omega)]; rfl
  · rw [if_neg (by omega), if_pos (by omega)]
    simp only [Option.some_bind]
    rw [if_pos (by omega)]; rfl
  · rw [if_neg (by omega), if_neg (by omega), if_pos (by omega)]
    simp only [Option.some_bind]
    rw [if_pos (by omega)]; rfl

theorem not_space_of_dec {c : Char} (h : isDecDigit c = true) : isJsSpace c = false := by
  simp only [isDecDigit, Bool.and_eq_true, decide_eq_true_eq] at h
  simp only [isJsSpace, Bool.or_eq_false_iff, beq_eq_false_iff_ne, ne_eq, Bool.and_eq_false_imp,
    decide_eq_true_eq, decide_eq_false_iff_not]
  omega

theorem parseInt_dec {ds : List Char} (hne : ds ≠ []) (h : ∀ c ∈ ds, isDecDigit c = true) :
    parseInt ds 10 = some (toDoubleNat (digitsValue 10 ds)) := by
  obtain ⟨c, cs, rfl⟩ := List.exists_cons_of_ne_nil hne
  have hc := not_space_of_dec (h c (List.mem_cons_self _ _))
  unfold parseInt
  simp only [List.dropWhile, hc, show (10 : Nat) ≠ 16 by decide, if_false]
  rw [parseDigits_valid 10 (c :: cs) (fun c hc => digitValue_dec (h c hc))]
  simp [digitsValue]

theorem parseInt_hex {hex : List Char} (hne : hex ≠ []) (h : ∀ c ∈ hex, isHexDigit c = true) :
    parseInt ('0' :: 'x' :: hex) 16 = some (toDoubleNat (digitsValue 16 hex)) := by
  obtain ⟨c, cs, rfl⟩ := List.exists_cons_of_ne_nil hne
  unfold parseInt
  have h0 : isJsSpace '0' = false := by decide
  simp only [List.dropWhile, h0, if_true]
  rw [parseDigits_valid 16 (c :: cs) (fun c hc => digitValue_hex (h c hc))]
  simp [digitsValue]

/-! ## The inner loop never meets `NaN` and both loops end -/

theorem sectorMultipliers_unit {u : Char} (hu : u ∈ [' ', 'B', 'K', 'M']) :
    sectorMultipliers [u] = some (unitMultiplier u) := by
  simp only [List.mem_cons, List.mem_singleton, List.not_mem_nil, or_false] at hu
  rcases hu with rfl | rfl | rfl | rfl <;> decide

theorem flags_of_letter {l : Char} (hl : l ∈ ['a', 'b', 'c', 'd', 'e', 'f', 'g']) :
    (Int.land ((l.toNat : Int) - 97 + 1) 0x1 != 0) = (l.toNat - 'a'.toNat + 1).testBit 0 ∧
    (Int.land ((l.toNat : Int) - 97 + 1) 0x2 != 0) = (l.toNat - 'a'.toNat + 1).testBit 1 ∧
    (Int.land ((l.toNat : Int) - 97 + 1) 0x4 != 0) = (l.toNat - 'a'.toNat + 1).testBit 2 := by
  simp only [List.mem_cons, List.mem_singleton, List.not_mem_nil, or_false] at hl
  rcases hl with rfl | rfl | rfl | rfl | rfl | rfl | rfl <;> decide

/-- The segment built from a match of `segmentRegex` is the expected one. -/
theorem makeSegment_eq (a : Int) (m : MatchResult) {d1 d2 : List Char} {u l : Char}
    (h1 : d1 ≠ []) (hd1 : ∀ ch ∈ d1, isDecDigit ch = true)
    (h2 : d2 ≠ []) (hd2 : ∀ ch ∈ d2, isDecDigit ch = true)
    (hu : u ∈ [' ', 'B', 'K', 'M']) (hl : l ∈ ['a', 'b', 'c', 'd', 'e', 'f', 'g'])
    (hcaps : m.caps = [(4, [l]), (3, [u]), (2, d2), (1, d1)]) :
    makeSegment a m = some (roundedSegment a d1 d2 u l) := by
  obtain ⟨f0, f1, f2⟩ := flags_of_letter hl
  have c1 : m.cap 1 = some d1 := by simp [MatchResult.cap, hcaps, List.lookup]
  have c2 : m.cap 2 = some d2 := by simp [MatchResult.cap, hcaps, List.lookup]
  have c3 : m.cap 3 = some [u] := by simp [MatchResult.cap, hcaps, List.lookup]
  have c4 : m.cap 4 = some [l] := by simp [MatchResult.cap, hcaps, List.lookup]
  unfold makeSegment
  simp only [c1, c2, c3, c4, Option.bind_eq_bind, Option.some_bind, parseInt_dec h1 hd1,
    parseInt_dec h2 hd2, sectorMultipliers_unit hu, charCodeAt0, f0, f1, f2]
  rfl

theorem makeSegment_total (a : Int) (m : MatchResult) (h : SegmentCaptures m.caps) :
    ∃ seg, makeSegment a m = some seg := by
  obtain ⟨d1, d2, u, l, h1, hd1, h2, hd2, hu, hl, hcaps⟩ := h
  exact ⟨_, makeSegment_eq a m h1 hd1 h2 hd2 hu hl hcaps⟩

theorem pushSegments_total (ms : List MatchResult) (h : ∀ m ∈ ms, SegmentCaptures m.caps) :
    ∀ a, ∃ segs, pushSegments a ms = some segs := by
  induction ms with
  | nil => intro a; exact ⟨[], rfl⟩
  | cons m ms ih =>
    intro a
    obtain ⟨seg, hseg⟩ := makeSegment_total a m (h m (List.mem_cons_self _ _))
    obtain ⟨rest, hrest⟩ := ih (fun m hm => h m (List.mem_cons_of_mem _ hm)) seg.end
    exact ⟨seg :: rest, by simp [pushSegments, hseg, hrest]⟩

/-- A match found by `search` ends after the position the search started from and
inside the input, and its captures are those of a match of the pattern. -/
theorem matchAt_spec (re : Regex) (P : Captures → Prop)
    (hre : ∀ x y caps1, Sem re x [] y caps1 → P caps1 ∧ ∃ pre, x = pre ++ y ∧ pre ≠ [])
    (x : List Char) (i : Nat) (m : MatchResult) (h : matchAt re i x = some m) :
    i < m.endIndex ∧ m.endIndex ≤ i + x.length ∧ P m.caps := by
  unfold matchAt at h
  split at h
  · rename_i y caps hm
    obtain ⟨y1, caps1, hS, hc⟩ := matchRegex_sound re _ _ _ _ hm
    simp only [Option.some.injEq, Prod.mk.injEq] at hc
    obtain ⟨rfl, rfl⟩ := hc
    obtain ⟨hP, pre, hpre, hne⟩ := hre _ _ _ hS
    simp only [Option.some.injEq] at h
    subst h
    have hlen : x.length = pre.length + y1.length := by rw [hpre, List.length_append]
    have hpos : 0 < pre.length := List.length_pos.2 hne
    refine ⟨?_, ?_, hP⟩
    · simp only; omega
    · simp only; omega
  · cases h

theorem search_spec (re : Regex) (P : Captures → Prop)
    (hre : ∀ x y caps1, Sem re x [] y caps1 → P caps1 ∧ ∃ pre, x = pre ++ y ∧ pre ≠ []) :
    ∀ (x : List Char) (i : Nat) (m : MatchResult), search re i x = some m →
      i < m.endIndex ∧ m.endIndex ≤ i + x.length ∧ P m.caps := by
  intro x
  induction x with
  | nil =>
    intro i m h
    exact matchAt_spec re P hre [] i m (by simpa [search] using h)
  | cons ch t ih =>
    intro i m h
    unfold search at h
    split at h
    · rename_i m1 hm1
      cases h
      exact matchAt_spec re P hre _ i _ hm1
    · obtain ⟨h1, h2, h3⟩ := ih _ _ h
      refine ⟨by omega, ?_, h3⟩
      simp only [List.length_cons]; omega

/-- The loop over the matches of a pattern whose matches are never empty ends within
its budget. -/
theorem execAll_total (re : Regex) (P : Captures → Prop)
    (hre : ∀ x y caps1, Sem re x [] y caps1 → P caps1 ∧ ∃ pre, x = pre ++ y ∧ pre ≠ [])
    (s : List Char) :
    ∀ (fuel lastIndex : Nat), lastIndex ≤ s.length → s.length + 1 ≤ fuel + lastIndex →
      ∃ ms, execAll re s fuel lastIndex = some ms ∧ ∀ m ∈ ms, P m.caps := by
  intro fuel
  induction fuel with
  | zero => intro lastIndex h1 h2; omega
  | succ fuel ih =>
    intro lastIndex h1 h2
    unfold execAll
    cases hx : exec re s lastIndex with
    | none => exact ⟨[], rfl, by simp⟩
    | some m =>
      unfold exec at hx
      rw [if_neg (by omega)] at hx
      obtain ⟨e1, e2, e3⟩ := search_spec re P hre _ _ _ hx
      simp only [List.length_drop] at e2
      obtain ⟨ms, hms, hP⟩ := ih m.endIndex (by omega) (by omega)
      refine ⟨m :: ms, by simp [hms], ?_⟩
      intro m' hm'
      rcases List.mem_cons.1 hm' with rfl | hm'
      exacts [e3, hP _ hm']

theorem segmentRegex_matches :
    ∀ x y caps1, Sem segmentRegex x [] y caps1 →
      SegmentCaptures caps1 ∧ ∃ pre, x = pre ++ y ∧ pre ≠ [] := by
  intro x y caps1 h
  obtain ⟨d1, w, rest, d2, u, l, -, h1, hd1, -, h2, hd2, hu, hl, hcaps, hpre⟩ := segmentBody_sem h
  exact ⟨⟨d1, d2, u, l, h1, hd1, h2, hd2, hu, hl, hcaps⟩, hpre⟩

theorem contiguousSegmentRegex_matches :
    ∀ x y caps1, Sem contiguousSegmentRegex x [] y caps1 →
      BlockCaptures caps1 ∧ ∃ pre, x = pre ++ y ∧ pre ≠ [] := by
  intro x y caps1 h
  obtain ⟨hex, h1, h2, h3, hpre⟩ := contiguousSegmentRegex_sem h
  exact ⟨⟨hex, h1, h2, h3⟩, hpre⟩

theorem blockSegments_total (m : MatchResult) (h : BlockCaptures m.caps) :
    ∃ segs, blockSegments m = some segs := by
  obtain ⟨hex, h1, h2, h3⟩ := h
  obtain ⟨ms, hms, hP⟩ := execAll_total segmentRegex SegmentCaptures segmentRegex_matches m.text
    (m.text.length + 1) 0 (by omega) (by omega)
  obtain ⟨segs, hsegs⟩ := pushSegments_total ms hP ((toDoubleNat (digitsValue 16 hex) : Nat) : Int)
  refine ⟨segs, ?_⟩
  unfold blockSegments
  simp only [MatchResult.cap, h1, Option.bind_eq_bind, Option.some_bind, parseInt_hex h2 h3, hms]
  exact hsegs

theorem allSegments_total (ms : List MatchResult) (h : ∀ m ∈ ms, BlockCaptures m.caps) :
    ∃ segs, allSegments ms = some segs := by
  induction ms with
  | nil => exact ⟨[], rfl⟩
  | cons m ms ih =>
    obtain ⟨here, hhere⟩ := blockSegments_total m (h m (List.mem_cons_self _ _))
    obtain ⟨rest, hrest⟩ := ih (fun m hm => h m (List.mem_cons_of_mem _ hm))
    exact ⟨here ++ rest, by simp [allSegments, hhere, hrest]⟩

theorem indexOf_append_cons (c : Char) (pre rest : List Char) (h : c ∉ pre) :
    indexOf c (pre ++ c :: rest) = some pre.length := by
  induction pre with
  | nil => simp [indexOf]
  | cons x xs ih =>
    simp only [List.mem_cons, not_or] at h
    simp [indexOf, Ne.symm h.1, ih h.2]

/-- On a string `@` + `pre` + `/` + `rest`, with no `/` in `pre`, the parser returns a
memory map whose name is `pre` trimmed. -/
theorem parseMemoryDescriptor_name (pre rest : List Char) (h : '/' ∉ pre) :
    ∃ segments, parseMemoryDescriptor ('@' :: (pre ++ '/' :: rest)) =
      .ok { name := trim pre, segments := segments } := by
  have hidx : indexOf '/' ('@' :: (pre ++ '/' :: rest)) = some (pre.length + 1) := by
    have := indexOf_append_cons '/' ('@' :: pre) rest (by simp [h])
    simpa using this
  obtain ⟨ms, hms, hP⟩ := execAll_total contiguousSegmentRegex BlockCaptures
    contiguousSegmentRegex_matches (substringFrom ('@' :: (pre ++ '/' :: rest)) (pre.length + 1))
    ((substringFrom ('@' :: (pre ++ '/' :: rest)) (pre.length + 1)).length + 1) 0
    (by omega) (by omega)
  obtain ⟨segs, hsegs⟩ := allSegments_total ms hP
  refine ⟨segs, ?_⟩
  unfold parseMemoryDescriptor
  simp only [startsWith, beq_self_eq_true, hidx, hms, Option.some_bind, hsegs]
  congr 2
  simp [substring]


theorem matchRegex_maybeGroup (capture : Bool) (i : Nat) (r : Regex) (x : List Char)
    (caps : Captures) (c : Cont) :
    matchRegex (if capture = true then .group i r else r) x caps c =
      matchRegex r x caps (fun y caps1 =>
        c y (if capture = true then (i, x.take (x.length - y.length)) :: caps1 else caps1)) := by
  cases capture
  · simp
  · simp [matchRegex_group]

theorem not_dec_of_space {c : Char} (h : isJsSpace c = true) : isDecDigit c = false := by
  cases hd : isDecDigit c with
  | false => rfl
  | true => rw [not_space_of_dec hd] at h; cases h

theorem unit_not_dec {u : Char} (hu : u ∈ [' ', 'B', 'K', 'M']) : isDecDigit u = false := by
  simp only [List.mem_cons, List.mem_singleton, List.not_mem_nil, or_false] at hu
  rcases hu with rfl | rfl | rfl | rfl <;> decide

theorem letter_not_space {l : Char} (hl : l ∈ ['a', 'b', 'c', 'd', 'e', 'f', 'g']) :
    isJsSpace l = false := by
  simp only [List.mem_cons, List.mem_singleton, List.not_mem_nil, or_false] at hl
  rcases hl with rfl | rfl | rfl | rfl | rfl | rfl | rfl <;> decide

theorem letter_not_unit {l : Char} (hl : l ∈ ['a', 'b', 'c', 'd', 'e', 'f', 'g']) :
    (CharSet.anyOf [' ', 'B', 'K', 'M']).test l = false := by
  simp only [List.mem_cons, List.mem_singleton, List.not_mem_nil, or_false] at hl
  rcases hl with rfl | rfl | rfl | rfl | rfl | rfl | rfl <;> decide

theorem unit_test {u : Char} (hu : u ∈ [' ', 'B', 'K', 'M']) :
    (CharSet.anyOf [' ', 'B', 'K', 'M']).test u = true := by
  simp only [List.mem_cons, List.mem_singleton, List.not_mem_nil, or_false] at hu
  rcases hu with rfl | rfl | rfl | rfl <;> decide

theorem letter_test {l : Char} (hl : l ∈ ['a', 'b', 'c', 'd', 'e', 'f', 'g']) :
    (CharSet.anyOf ['a', 'b', 'c', 'd', 'e', 'f', 'g']).test l = true := by
  simp only [List.mem_cons, List.mem_singleton, List.not_mem_nil, or_false] at hl
  rcases hl with rfl | rfl | rfl | rfl | rfl | rfl | rfl <;> decide

theorem space_unit_eq_blank {u : Char} (hu : (CharSet.anyOf [' ', 'B', 'K', 'M']).test u = true)
    (hs : isJsSpace u = true) : u = ' ' := by
  have : u ∈ [' ', 'B', 'K', 'M'] := by simpa [CharSet.test] using hu
  simp only [List.mem_cons, List.mem_singleton, List.not_mem_nil, or_false] at this
  rcases this with rfl | rfl | rfl | rfl
  · rfl
  · exact absurd hs (by decide)
  · exact absurd hs (by decide)
  · exact absurd hs (by decide)

/-- White space before what follows: `\s*` takes all of it. -/
theorem ws_match (w y : List Char) (caps : Captures) (c : Cont) (z : MatchState)
    (hw : Spaces w) (hy : ∀ ch t, y = ch :: t → isJsSpace ch = false)
    (hc : c y caps = some z) : matchRegex ws (w ++ y) caps c = some z :=
  matchRegex_rep_set .space 0 none w y caps c z hw hy (Nat.zero_le _) (by simp) hc

/-- A run of digits before what follows: `[0-9]+` takes all of it. -/
theorem digits_match (ds y : List Char) (caps : Captures) (c : Cont) (z : MatchState)
    (hne : ds ≠ []) (hds : ∀ ch ∈ ds, isDecDigit ch = true)
    (hy : ∀ ch t, y = ch :: t → isDecDigit ch = false)
    (hc : c y caps = some z) :
    matchRegex (Regex.plus (.set .digit)) (ds ++ y) caps c = some z :=
  matchRegex_rep_set .digit 1 none ds y caps c z hds hy (List.length_pos.2 hne) (by simp) hc

/-- The separator, the unit and the white space after it. -/
theorem sep_unit_match (capture : Bool) (sep : Option Char) (unit : Char) (sp3 : List Char)
    (letter : Char) (rest : List Char) (caps : Captures) (K : Cont) (z : MatchState)
    (hsep : ∀ ch ∈ sep, isJsSpace ch = true) (hunit : unit ∈ [' ', 'B', 'K', 'M'])
    (hsp3 : Spaces sp3) (hletter : letter ∈ ['a', 'b', 'c', 'd', 'e', 'f', 'g'])
    (hK : K (letter :: rest) (if capture = true then (3, [unit]) :: caps else caps) = some z) :
    matchRegex (Regex.opt (.set .space)) (sep.toList ++ (unit :: (sp3 ++ (letter :: rest)))) caps
      (fun y caps1 =>
        matchRegex (if capture = true then .group 3 (.set (.anyOf [' ', 'B', 'K', 'M']))
            else .set (.anyOf [' ', 'B', 'K', 'M'])) y caps1
          (fun y caps1 => matchRegex ws y caps1 K)) = some z := by
  have hl : ∀ ch t, letter :: rest = ch :: t → isJsSpace ch = false := by
    intro ch t h
    cases h
    exact letter_not_space hletter
  -- the unit read at the character `unit`, then the white space `sp3`
  have hunitStep : ∀ caps0 : Captures,
      K (letter :: rest) (if capture = true then (3, [unit]) :: caps0 else caps0) = some z →
      matchRegex (if capture = true then .group 3 (.set (.anyOf [' ', 'B', 'K', 'M']))
            else .set (.anyOf [' ', 'B', 'K', 'M'])) (unit :: (sp3 ++ (letter :: rest))) caps0
          (fun y caps1 => matchRegex ws y caps1 K) = some z := by
    intro caps0 h0
    rw [matchRegex_maybeGroup, matchRegex_set_cons _ _ _ _ _ (unit_test hunit)]
    simp only [take_consumed_cons]
    exact ws_match sp3 _ _ K z hsp3 hl h0
  rw [matchRegex_opt_set]
  cases sep with
  | some w =>
    have hw : isJsSpace w = true := hsep w rfl
    simp only [Option.toList, List.singleton_append, CharSet.test, hw, if_true]
    rw [hunitStep caps hK]
  | none =>
    simp only [Option.toList, List.nil_append, CharSet.test]
    by_cases hs : isJsSpace unit = true
    · have hu : unit = ' ' := space_unit_eq_blank (unit_test hunit) hs
      subst hu
      simp only [hs, if_true]
      cases sp3 with
      | nil =>
        simp only [List.nil_append]
        rw [matchRegex_maybeGroup, matchRegex]
        simp only [letter_not_unit hletter, Bool.false_eq_true, if_false]
        exact hunitStep caps hK
      | cons s sp3' =>
        by_cases hsu : (CharSet.anyOf [' ', 'B', 'K', 'M']).test s = true
        · have hs' : s = ' ' :=
            space_unit_eq_blank hsu (hsp3 s (List.mem_cons_self _ _))
          subst hs'
          have : matchRegex (if capture = true then .group 3 (.set (.anyOf [' ', 'B', 'K', 'M']))
              else .set (.anyOf [' ', 'B', 'K', 'M'])) (' ' :: sp3' ++ letter :: rest) caps
              (fun y caps1 => matchRegex ws y caps1 K) = some z := by
            rw [List.cons_append, matchRegex_maybeGroup,
              matchRegex_set_cons _ _ _ _ _ (unit_test hunit)]
            simp only [take_consumed_cons]
            exact ws_match sp3' _ _ K z (fun c hc => hsp3 c (List.mem_cons_of_mem _ hc)) hl hK
          rw [this]
        · have : matchRegex (if capture = true then .group 3 (.set (.anyOf [' ', 'B', 'K', 'M']))
              else .set (.anyOf [' ', 'B', 'K', 'M'])) (s :: sp3' ++ letter :: rest) caps
              (fun y caps1 => matchRegex ws y caps1 K) = none := by
            rw [List.cons_append, matchRegex_maybeGroup, matchRegex]
            simp [hsu]
          rw [this]
          exact hunitStep caps hK
    · simp only [hs, if_false]
      exact hunitStep caps hK

/-- The end of a group: white space, an optional comma, white space. -/
theorem tail_match (sp4 : List Char) (comma : Bool) (sp5 R : List Char) (caps : Captures)
    (c : Cont) (z : MatchState) (h4 : Spaces sp4) (h5 : Spaces sp5) (hR : GroupEnd R)
    (hc : c R caps = some z) :
    matchRegex ws (sp4 ++ ((if comma = true then [','] else []) ++ (sp5 ++ R))) caps
      (fun y caps1 => matchRegex (Regex.opt (Regex.chr ',')) y caps1
        (fun y caps1 => matchRegex ws y caps1 c)) = some z := by
  have hRs : ∀ ch t, R = ch :: t → isJsSpace ch = false := fun ch t h => (hR ch t h).1
  have hlast : matchRegex ws R caps c = some z := by
    have := ws_match [] R caps c z (by simp [Spaces]) hRs hc
    simpa using this
  cases comma with
  | true =>
    simp only [if_true, List.singleton_append]
    refine ws_match sp4 _ caps _ z h4 ?_ ?_
    · intro ch t h
      cases h
      decide
    · simp only [Regex.chr]
      rw [matchRegex_opt_set]
      simp only [CharSet.test, beq_self_eq_true, if_true]
      rw [ws_match sp5 R caps c z h5 hRs hc]
  | false =>
    simp only [Bool.false_eq_true, if_false, List.nil_append]
    rw [← List.append_assoc]
    refine ws_match (sp4 ++ sp5) R caps _ z ?_ hRs ?_
    · intro ch hch
      rcases List.mem_append.1 hch with h | h
      exacts [h4 ch h, h5 ch h]
    · simp only [Regex.chr]
      rw [matchRegex_opt_set]
      cases R with
      | nil => exact hlast
      | cons ch t =>
        have hne : ch ≠ ',' := (hR ch t rfl).2
        simp only [CharSet.test, beq_iff_eq, hne, if_false]
        exact hlast


/-- The pattern of a group matches the text of a well-formed group up to what follows
it, capturing its four parts when the groups are recorded. -/
theorem segmentBody_match (capture : Bool) (g : GroupText) (hg : g.WellFormed) (R : List Char)
    (hR : GroupEnd R) (caps : Captures) (c : Cont) (z : MatchState)
    (hc : c R (if capture = true then
        (4, [g.letter]) :: (3, [g.unit]) :: (2, g.size) :: (1, g.count) :: caps else caps) = some z) :
    matchRegex (segmentBody capture) (g.render ++ R) caps c = some z := by
  obtain ⟨h1, hd1, hs1, hs2, h2, hd2, hsep, hu, hs3, hl, hs4, hs5⟩ := hg
  simp only [segmentBody, GroupText.render, List.append_assoc, List.cons_append, matchRegex_seq]
  rw [matchRegex_maybeGroup]
  refine digits_match g.count _ caps _ z h1 hd1 ?_ ?_
  · intro ch t h
    cases hsp : g.sp1 with
    | nil => rw [hsp] at h; cases h; decide
    | cons a as =>
      rw [hsp] at h; cases h
      exact not_dec_of_space (hs1 ch (by rw [hsp]; exact List.mem_cons_self _ _))
  simp only [take_consumed]
  refine ws_match g.sp1 _ _ _ z hs1 (by intro ch t h; cases h; decide) ?_
  rw [Regex.chr, matchRegex_set_cons _ _ _ _ _ (by decide)]
  refine ws_match g.sp2 _ _ _ z hs2 ?_ ?_
  · intro ch t h
    obtain ⟨a, as, hsz⟩ := List.exists_cons_of_ne_nil h2
    rw [hsz] at h; cases h
    exact not_space_of_dec (hd2 ch (by rw [hsz]; exact List.mem_cons_self _ _))
  rw [matchRegex_maybeGroup]
  refine digits_match g.size _ _ _ z h2 hd2 ?_ ?_
  · intro ch t h
    cases hsp : g.sep with
    | none => rw [hsp] at h; cases h; exact unit_not_dec hu
    | some w =>
      rw [hsp] at h; cases h
      exact not_dec_of_space (hsep ch (by rw [hsp]; rfl))
  simp only [take_consumed]
  refine sep_unit_match capture g.sep g.unit g.sp3 g.letter _ _ _ z hsep hu hs3 hl ?_
  rw [matchRegex_maybeGroup, matchRegex_set_cons _ _ _ _ _ (letter_test hl)]
  simp only [take_consumed_cons]
  refine tail_match g.sp4 g.comma g.sp5 R _ c z hs4 hs5 hR ?_
  cases capture
  · simpa using hc
  · simpa using hc


/-! ## The inner loop on the text of a block -/

/-- The captures of `segmentRegex` on the text of a group. -/
theorem matchAt_group (i : Nat) (g : GroupText) (hg : g.WellFormed) (R : List Char)
    (hR : GroupEnd R) :
    matchAt segmentRegex i (g.render ++ R) =
      some { index := i, text := g.render, endIndex := i + g.render.length,
             caps := [(4, [g.letter]), (3, [g.unit]), (2, g.size), (1, g.count)] } := by
  unfold matchAt
  have h := segmentBody_match true g hg R hR [] (fun y caps => some (y, caps))
    (R, [(4, [g.letter]), (3, [g.unit]), (2, g.size), (1, g.count)]) (by simp)
  unfold segmentRegex
  rw [h]
  simp

theorem matchAt_eq_none {re : Regex} {i : Nat} {x : List Char}
    (h : matchRegex re x [] (fun y caps => some (y, caps)) = none) : matchAt re i x = none := by
  unfold matchAt
  rw [h]

/-- `segmentRegex` does not match where the text does not start with a digit. -/
theorem segmentRegex_fails_of_head (x : List Char)
    (h : ∀ ch t, x = ch :: t → isDecDigit ch = false) :
    matchRegex segmentRegex x [] (fun y caps => some (y, caps)) = none := by
  cases hm : matchRegex segmentRegex x [] (fun y caps => some (y, caps)) with
  | none => rfl
  | some z =>
    exfalso
    obtain ⟨y, caps1, hS, -⟩ := matchRegex_sound _ _ _ _ _ hm
    obtain ⟨d1, w, rest, d2, u, l, hx, h1, hd1, -⟩ := segmentBody_sem hS
    obtain ⟨a, as, rfl⟩ := List.exists_cons_of_ne_nil h1
    have := h a _ hx
    rw [hd1 a (List.mem_cons_self _ _)] at this
    cases this

/-- `segmentRegex` does not match before a `/` that no `*` precedes. -/
theorem segmentRegex_fails_before_slash (a r : List Char) (ha : '*' ∉ a) :
    matchRegex segmentRegex (a ++ '/' :: r) [] (fun y caps => some (y, caps)) = none := by
  cases hm : matchRegex segmentRegex (a ++ '/' :: r) [] (fun y caps => some (y, caps)) with
  | none => rfl
  | some z =>
    exfalso
    obtain ⟨y, caps1, hS, -⟩ := matchRegex_sound _ _ _ _ _ hm
    obtain ⟨d1, w, rest, d2, u, l, hx, h1, hd1, hw, -⟩ := segmentBody_sem hS
    have hx' : a ++ '/' :: r = (d1 ++ w) ++ '*' :: rest := by rw [hx]; simp
    have hdw : ∀ ch ∈ d1 ++ w, ch ≠ '/' := by
      intro ch hch
      rcases List.mem_append.1 hch with h | h
      · intro e; subst e; exact absurd (hd1 _ h) (by decide)
      · intro e; subst e; exact absurd (hw _ h) (by decide)
    rcases List.append_eq_append_iff.1 hx' with ⟨t, ht1, ht2⟩ | ⟨t, ht1, ht2⟩
    · -- `d1 ++ w = a ++ t` and `'/' :: r = t ++ '*' :: rest`
      cases t with
      | nil => simp at ht2
      | cons c t' =>
        simp only [List.cons_append, List.cons.injEq] at ht2
        exact hdw '/' (by rw [ht1, ← ht2.1]; simp) rfl
    · -- `a = (d1 ++ w) ++ t` and `'*' :: rest = t ++ '/' :: r`
      cases t with
      | nil => simp at ht2
      | cons c t' =>
        simp only [List.cons_append, List.cons.injEq] at ht2
        exact ha (by rw [ht1, ← ht2.1]; simp)

theorem search_of_matchAt {re : Regex} {i : Nat} {x : List Char} {m : MatchResult}
    (h : matchAt re i x = some m) : search re i x = some m := by
  cases x with
  | nil => simpa [search] using h
  | cons ch t => simp [search, h]

/-- The search skips a prefix in which no position matches. -/
theorem search_skip (re : Regex) (x : List Char) :
    ∀ (junk : List Char) (i : Nat),
      (∀ p1 p2, junk = p1 ++ p2 → p2 ≠ [] →
        matchRegex re (p2 ++ x) [] (fun y caps => some (y, caps)) = none) →
      search re i (junk ++ x) = search re (i + junk.length) x := by
  intro junk
  induction junk with
  | nil => intro i _; simp
  | cons ch t ih =>
    intro i h
    have h0 := h [] (ch :: t) rfl (by simp)
    have h1 : matchAt re i (ch :: (t ++ x)) = none := matchAt_eq_none h0
    show search re i (ch :: (t ++ x)) = _
    conv_lhs => unfold search
    rw [h1]
    simp only
    rw [ih (i + 1) (fun p1 p2 hp hne => h (ch :: p1) p2 (by rw [hp]; rfl) hne)]
    have e : i + 1 + t.length = i + (ch :: t).length := by
      simp only [List.length_cons]; omega
    rw [e]

theorem groupEnd_renderGroups (gs : List GroupText) (hgs : ∀ g ∈ gs, g.WellFormed)
    (R : List Char) (hR : BlockEnd R) : GroupEnd (renderGroups gs ++ R) := by
  cases gs with
  | nil =>
    simp only [renderGroups, List.map_nil, List.flatten_nil, List.nil_append]
    intro ch t h
    rcases hR with rfl | ⟨t', rfl⟩
    · cases h
    · cases h
      exact ⟨by decide, by decide⟩
  | cons g gs =>
    obtain ⟨h1, hd1, -⟩ := hgs g (List.mem_cons_self _ _)
    obtain ⟨a, as, ha⟩ := List.exists_cons_of_ne_nil h1
    intro ch t h
    simp only [renderGroups, List.map_cons, List.flatten_cons, GroupText.render, ha,
      List.cons_append, List.cons.injEq] at h
    have hdig : isDecDigit ch = true := by
      rw [← h.1]; exact hd1 a (by rw [ha]; exact List.mem_cons_self _ _)
    refine ⟨not_space_of_dec hdig, ?_⟩
    rintro rfl
    exact absurd hdig (by decide)

/-- The loop over the matches of `segmentRegex`, from the end of the text `done`, over
a prefix `junk` in which nothing matches and then the groups `gs`: one match per group,
with the parts of the group as captures. -/
theorem inner_execAll (gs : List GroupText) (hgs : ∀ g ∈ gs, g.WellFormed) :
    ∀ (done junk : List Char) (fuel : Nat), gs.length + 1 ≤ fuel →
      (∀ p1 p2, junk = p1 ++ p2 → p2 ≠ [] →
        matchRegex segmentRegex (p2 ++ renderGroups gs) [] (fun y caps => some (y, caps)) = none) →
      ∃ ms, execAll segmentRegex (done ++ (junk ++ renderGroups gs)) fuel done.length = some ms ∧
        List.Forall₂ (fun m g => m.caps = [(4, [g.letter]), (3, [g.unit]), (2, g.size),
          (1, g.count)]) ms gs := by
  induction gs with
  | nil =>
    intro done junk fuel hfuel hjunk
    obtain ⟨fuel, rfl⟩ : ∃ f, fuel = f + 1 := ⟨fuel - 1, by omega⟩
    refine ⟨[], ?_, List.Forall₂.nil⟩
    unfold execAll exec
    rw [if_neg (by simp)]
    simp only [List.drop_left, renderGroups, List.map_nil, List.flatten_nil]
    have := search_skip segmentRegex [] junk done.length
      (by simpa [renderGroups] using hjunk)
    rw [this]
    simp only [search]
    rw [matchAt_eq_none (segmentRegex_fails_of_head [] (by intro ch t h; cases h))]
  | cons g gs ih =>
    intro done junk fuel hfuel hjunk
    obtain ⟨fuel, rfl⟩ : ∃ f, fuel = f + 1 := ⟨fuel - 1, by omega⟩
    have hg := hgs g (List.mem_cons_self _ _)
    have hgs' : ∀ g ∈ gs, g.WellFormed := fun g hg => hgs g (List.mem_cons_of_mem _ hg)
    have hrg : renderGroups (g :: gs) = g.render ++ renderGroups gs := by
      simp [renderGroups]
    have hend : GroupEnd (renderGroups gs) := by
      have := groupEnd_renderGroups gs hgs' [] (Or.inl rfl)
      simpa using this
    have hm := matchAt_group (done.length + junk.length) g hg (renderGroups gs) hend
    obtain ⟨ms, hms, hF⟩ := ih hgs' (done ++ (junk ++ g.render)) [] fuel (by simp at hfuel; omega)
      (by intro p1 p2 hp hne; simp at hp; exact absurd hp.2 hne)
    refine ⟨{ index := done.length + junk.length, text := g.render,
              endIndex := done.length + junk.length + g.render.length,
              caps := [(4, [g.letter]), (3, [g.unit]), (2, g.size), (1, g.count)] } :: ms, ?_,
      List.Forall₂.cons rfl hF⟩
    unfold execAll exec
    rw [if_neg (by simp)]
    simp only [List.drop_left]
    rw [search_skip segmentRegex _ junk done.length (by rw [hrg] at hjunk ⊢; exact hjunk), hrg,
      search_of_matchAt hm]
    simp only
    have e1 : done ++ (junk ++ (g.render ++ renderGroups gs)) =
        (done ++ (junk ++ g.render)) ++ ([] ++ renderGroups gs) := by simp
    have e2 : done.length + junk.length + g.render.length = (done ++ (junk ++ g.render)).length := by
      simp; omega
    rw [e1, e2, hms]
    rfl


/-! ## The segments of one block -/

theorem pushSegments_groups {ms : List MatchResult} {gs : List GroupText}
    (h : List.Forall₂ (fun m g => m.caps = [(4, [g.letter]), (3, [g.unit]), (2, g.size),
      (1, g.count)]) ms gs) (hgs : ∀ g ∈ gs, g.WellFormed) :
    ∀ start, pushSegments start ms = some (roundedGroupSegments start gs) := by
  induction h with
  | nil => intro start; rfl
  | @cons m g ms gs hm _ ih =>
    intro start
    obtain ⟨h1, hd1, -, -, h2, hd2, -, hu, -, hl, -⟩ := hgs g (List.mem_cons_self _ _)
    have hseg := makeSegment_eq start m h1 hd1 h2 hd2 hu hl hm
    simp only [pushSegments, hseg, Option.bind_eq_bind, Option.some_bind,
      ih (fun g hg => hgs g (List.mem_cons_of_mem _ hg)), roundedGroupSegments]

theorem render_ne_nil (g : GroupText) (hg : g.WellFormed) : g.render ≠ [] := by
  obtain ⟨h1, -⟩ := hg
  obtain ⟨a, as, ha⟩ := List.exists_cons_of_ne_nil h1
  simp [GroupText.render, ha]

theorem length_le_renderGroups (gs : List GroupText) (hgs : ∀ g ∈ gs, g.WellFormed) :
    gs.length ≤ (renderGroups gs).length := by
  induction gs with
  | nil => simp
  | cons g gs ih =>
    have h1 := List.length_pos.2 (render_ne_nil g (hgs g (List.mem_cons_self _ _)))
    have h2 := ih (fun g hg => hgs g (List.mem_cons_of_mem _ hg))
    simp only [renderGroups, List.map_cons, List.flatten_cons, List.length_append,
      List.length_cons] at h2 ⊢
    omega

theorem not_hex_of_space {c : Char} (h : isJsSpace c = true) : isHexDigit c = false := by
  simp only [isJsSpace, Bool.or_eq_true, beq_iff_eq, Bool.and_eq_true, decide_eq_true_eq] at h
  simp only [isHexDigit, isDecDigit, Bool.or_eq_false_iff, Bool.and_eq_false_imp,
    decide_eq_true_eq, decide_eq_false_iff_not]
  omega

theorem star_not_space_mem {w : List Char} (hw : Spaces w) : '*' ∉ w := by
  intro h
  exact absurd (hw _ h) (by decide)

theorem star_not_hex_mem {w : List Char} (hw : ∀ ch ∈ w, isHexDigit ch = true) : '*' ∉ w := by
  intro h
  exact absurd (hw _ h) (by decide)

/-- The text of a block before its first group holds no position where `segmentRegex`
matches. -/
theorem block_prefix_junk (b : BlockText) (hb : b.WellFormed) (G : List Char) :
    ∀ p1 p2, '/' :: (b.sp0 ++ ('0' :: 'x' :: (b.hex ++ (b.sp1 ++ ('/' :: b.sp2))))) = p1 ++ p2 →
      p2 ≠ [] →
      matchRegex segmentRegex (p2 ++ G) [] (fun y caps => some (y, caps)) = none := by
  obtain ⟨h0, -, -, hhex, h1, h2, -⟩ := hb
  intro p1 p2 hp hne
  have hA : '*' ∉ '/' :: (b.sp0 ++ ('0' :: 'x' :: (b.hex ++ b.sp1))) := by
    simp only [List.mem_cons, List.mem_append, not_or]
    exact ⟨by decide, star_not_space_mem h0, by decide, by decide, star_not_hex_mem hhex,
      star_not_space_mem h1⟩
  have hp' : ('/' :: (b.sp0 ++ ('0' :: 'x' :: (b.hex ++ b.sp1)))) ++ ('/' :: b.sp2) = p1 ++ p2 := by
    rw [← hp]; simp
  rcases List.append_eq_append_iff.1 hp' with ⟨t, ht1, ht2⟩ | ⟨t, ht1, ht2⟩
  · -- `p1 = A ++ t`, `'/' :: sp2 = t ++ p2`
    cases t with
    | nil =>
      simp only [List.nil_append] at ht2
      rw [← ht2]
      exact segmentRegex_fails_before_slash [] _ (by simp)
    | cons c t' =>
      simp only [List.cons_append, List.cons.injEq] at ht2
      apply segmentRegex_fails_of_head
      intro ch t h
      obtain ⟨q, qs, hq⟩ := List.exists_cons_of_ne_nil hne
      rw [hq] at h
      simp only [List.cons_append, List.cons.injEq] at h
      have : ch ∈ b.sp2 := by rw [ht2.2, hq, ← h.1]; simp
      exact not_dec_of_space (h2 ch this)
  · -- `A = p1 ++ t`, `p2 = t ++ '/' :: sp2`
    rw [ht2, List.append_assoc]
    apply segmentRegex_fails_before_slash
    intro hmem
    exact hA (by rw [ht1]; exact List.mem_append_right _ hmem)

/-- The segments built from a match of `contiguousSegmentRegex` on the text of a block
are the segments expected for the block. -/
theorem blockSegments_render (m : MatchResult) (b : BlockText) (hb : b.WellFormed)
    (htext : m.text = b.render) (hcap : m.cap 1 = some ('0' :: 'x' :: b.hex)) :
    blockSegments m = some b.roundedSegments := by
  have hjunk := block_prefix_junk b hb (renderGroups b.groups)
  obtain ⟨h0, hne, hlen, hhex, h1, h2, hg, hgs⟩ := hb
  have hrender : b.render =
      [] ++ (('/' :: (b.sp0 ++ ('0' :: 'x' :: (b.hex ++ (b.sp1 ++ ('/' :: b.sp2)))))) ++
        renderGroups b.groups) := by
    simp [BlockText.render]
  obtain ⟨ms, hms, hF⟩ := inner_execAll b.groups hgs []
    ('/' :: (b.sp0 ++ ('0' :: 'x' :: (b.hex ++ (b.sp1 ++ ('/' :: b.sp2))))))
    (b.render.length + 1)
    (by
      have := length_le_renderGroups b.groups hgs
      simp only [BlockText.render, List.length_cons, List.length_append]
      omega)
    hjunk
  unfold blockSegments
  rw [hcap, htext]
  simp only [Option.bind_eq_bind, Option.some_bind, parseInt_hex hne hhex]
  rw [← hrender] at hms
  simp only [List.length_nil] at hms
  rw [hms]
  simp only [Option.some_bind]
  exact pushSegments_groups hF hgs _


/-! ## The outer pattern on the text of a block -/

/-- A quantified character atom on a text that does not start with a character of
the atom: no iteration is possible. -/
theorem matchRegex_rep_set_stop (cs : CharSet) (min : Nat) (y : List Char) (caps : Captures)
    (c : Cont) (hstop : ∀ ch t, y = ch :: t → cs.test ch = false) :
    matchRegex (.rep (.set cs) min none) y caps c = if min = 0 then c y caps else none := by
  have hnone : ∀ (caps0 : Captures) (d : Cont), matchRegex (.set cs) y caps0 d = none := by
    intro caps0 d
    unfold matchRegex
    cases y with
    | nil => rfl
    | cons ch t => simp [hstop ch t rfl]
  unfold matchRegex repeatMatcher
  simp only [reduceCtorEq, if_false, hnone]
  by_cases h : min = 0 <;> simp [h]

/-- The pattern of a group does not match at the end of a block. -/
theorem group_fails_at_blockEnd (R : List Char) (hR : BlockEnd R) (caps : Captures) (d : Cont) :
    matchRegex (.group 2 (.seq ws (segmentBody false))) R caps d = none := by
  have hs : ∀ ch t, R = ch :: t → CharSet.space.test ch = false := by
    intro ch t h
    rcases hR with rfl | ⟨t', rfl⟩
    · cases h
    · cases h; decide
  have hd : ∀ ch t, R = ch :: t → CharSet.digit.test ch = false := by
    intro ch t h
    rcases hR with rfl | ⟨t', rfl⟩
    · cases h
    · cases h; decide
  rw [matchRegex_group, matchRegex_seq, ws, Regex.star, matchRegex_rep_set_stop _ _ _ _ _ hs]
  simp only [if_true, segmentBody, Bool.false_eq_true, if_false, matchRegex_seq, Regex.plus]
  rw [matchRegex_rep_set_stop _ _ _ _ _ hd]
  simp

theorem groups_of_group2 :
    (Regex.group 2 (.seq ws (segmentBody false))).groups = [2] := by
  simp [Regex.groups, segmentBody, ws, Regex.star, Regex.plus, Regex.opt, Regex.chr]

/-- The quantifier `( group )+` of the outer pattern over the groups of a block: it
takes all of them and leaves group 1 as it was. -/
theorem groups_loop (R : List Char) (hR : BlockEnd R) (c : Cont)
    (hc : ∀ caps2, ∃ z, c R caps2 = some z) :
    ∀ (gs : List GroupText), (∀ g ∈ gs, g.WellFormed) →
      ∀ (lead : List Char) (caps : Captures) (min fuel : Nat), Spaces lead →
        (gs = [] → lead = [] ∧ min = 0) → min ≤ 1 →
        (lead ++ (renderGroups gs ++ R)).length + 1 ≤ fuel →
        ∃ caps2, caps2.lookup 1 = caps.lookup 1 ∧
          repeatMatcher (fun y caps1 c1 =>
              matchRegex (.group 2 (.seq ws (segmentBody false))) y caps1 c1)
            (Regex.group 2 (.seq ws (segmentBody false))).groups fuel min none
            (lead ++ (renderGroups gs ++ R)) caps c = c R caps2 := by
  intro gs
  induction gs with
  | nil =>
    intro _ lead caps min fuel _ hnil _ hfuel
    obtain ⟨rfl, rfl⟩ := hnil rfl
    obtain ⟨fuel, rfl⟩ : ∃ f, fuel = f + 1 := ⟨fuel - 1, by omega⟩
    refine ⟨caps, rfl, ?_⟩
    unfold repeatMatcher
    simp only [reduceCtorEq, if_false, renderGroups, List.map_nil, List.flatten_nil,
      List.nil_append, ne_eq, not_true_eq_false, group_fails_at_blockEnd R hR]
  | cons g gs ih =>
    intro hgs lead caps min fuel hlead _ hmin hfuel
    obtain ⟨fuel, rfl⟩ : ∃ f, fuel = f + 1 := ⟨fuel - 1, by omega⟩
    have hg := hgs g (List.mem_cons_self _ _)
    have hgs' : ∀ g ∈ gs, g.WellFormed := fun g hg => hgs g (List.mem_cons_of_mem _ hg)
    have hrg : renderGroups (g :: gs) = g.render ++ renderGroups gs := by
      simp [renderGroups]
    have hgne := List.length_pos.2 (render_ne_nil g hg)
    -- the rest of the loop, after this group
    obtain ⟨caps2, hlook, hrest⟩ := ih hgs' []
      ((2, (lead ++ (g.render ++ (renderGroups gs ++ R))).take
          ((lead ++ (g.render ++ (renderGroups gs ++ R))).length - (renderGroups gs ++ R).length)) ::
        caps.filter (fun p => !(Regex.group 2 (.seq ws (segmentBody false))).groups.contains p.1))
      (min - 1) fuel (by simp [Spaces]) (fun _ => ⟨rfl, by omega⟩) (by omega)
      (by
        simp only [hrg, List.length_append, List.nil_append] at hfuel ⊢
        omega)
    obtain ⟨z, hz⟩ := hc caps2
    refine ⟨caps2, ?_, ?_⟩
    · rw [hlook]
      have h1 : (1 == 2) = false := by decide
      simp only [List.lookup, h1]
      exact lookup_filter_ne _ 1 (by rw [groups_of_group2]; decide) caps
    · have hstep : matchRegex (.group 2 (.seq ws (segmentBody false)))
          (lead ++ (g.render ++ (renderGroups gs ++ R)))
          (caps.filter (fun p => !(Regex.group 2 (.seq ws (segmentBody false))).groups.contains p.1))
          (fun y caps1 =>
            if min = 0 ∧ y.length = (lead ++ (g.render ++ (renderGroups gs ++ R))).length then none
            else repeatMatcher (fun y caps1 c1 =>
                matchRegex (.group 2 (.seq ws (segmentBody false))) y caps1 c1)
              (Regex.group 2 (.seq ws (segmentBody false))).groups fuel (min - 1) none y caps1 c) =
          some z := by
        rw [matchRegex_group, matchRegex_seq]
        refine ws_match lead _ _ _ z hlead ?_ ?_
        · intro ch t h
          obtain ⟨h1, hd1, -⟩ := hg
          obtain ⟨a, as, ha⟩ := List.exists_cons_of_ne_nil h1
          simp only [GroupText.render, ha, List.cons_append, List.cons.injEq] at h
          rw [← h.1]
          exact not_space_of_dec (hd1 a (by rw [ha]; exact List.mem_cons_self _ _))
        · refine segmentBody_match false g hg _
            (groupEnd_renderGroups gs hgs' R hR) _ _ z ?_
          simp only [Bool.false_eq_true, if_false]
          rw [if_neg (by
            simp only [List.length_append]
            omega)]
          simp only [List.nil_append] at hrest
          rw [hrest, hz]
      rw [hrg, List.append_assoc]
      unfold repeatMatcher
      simp only [reduceCtorEq, if_false, Option.map_none']
      rw [hstep, hz]
      split <;> rfl

theorem not_space_zero : isJsSpace '0' = false := by decide

/-- The outer pattern on the text of a block followed by the end of the input or by
the next block: the match is the block, and group 1 is its address. -/
theorem matchAt_block (i : Nat) (b : BlockText) (hb : b.WellFormed) (R : List Char)
    (hR : BlockEnd R) :
    ∃ m, matchAt contiguousSegmentRegex i (b.render ++ R) = some m ∧ m.text = b.render ∧
      m.endIndex = i + b.render.length ∧ m.cap 1 = some ('0' :: 'x' :: b.hex) := by
  obtain ⟨h0, hne, hlen, hhex, h1, h2, hg, hgs⟩ := hb
  obtain ⟨caps2, hlook, hloop⟩ := groups_loop R hR (fun y caps => some (y, caps))
    (fun caps2 => ⟨_, rfl⟩) b.groups hgs b.sp2 [(1, '0' :: 'x' :: b.hex)] 1
    (1 + (b.sp2 ++ (renderGroups b.groups ++ R)).length + 1) h2
    (fun h => absurd h hg) (le_refl _) (by omega)
  have hmatch : matchRegex contiguousSegmentRegex (b.render ++ R) []
      (fun y caps => some (y, caps)) = some (R, caps2) := by
    simp only [contiguousSegmentRegex, BlockText.render, List.append_assoc, List.cons_append,
      matchRegex_seq, Regex.chr]
    rw [matchRegex_set_cons _ _ _ _ _ (by decide)]
    refine ws_match b.sp0 _ _ _ _ h0 (by intro ch t h; cases h; exact not_space_zero) ?_
    rw [matchRegex_group, matchRegex_seq, matchRegex_set_cons _ _ _ _ _ (by decide),
      matchRegex_seq, matchRegex_set_cons _ _ _ _ _ (by decide)]
    refine matchRegex_rep_set .hexDigit 1 (some 8) b.hex _ _ _ _ hhex ?_
      (List.length_pos.2 hne) (by intro m hm; cases hm; exact hlen) ?_
    · intro ch t h
      cases hsp : b.sp1 with
      | nil => rw [hsp] at h; cases h; decide
      | cons a as =>
        rw [hsp] at h; cases h
        exact not_hex_of_space (h1 ch (by rw [hsp]; exact List.mem_cons_self _ _))
    have htake : List.take
        (('0' :: 'x' :: (b.hex ++ (b.sp1 ++ '/' :: (b.sp2 ++ (renderGroups b.groups ++ R))))).length -
          (b.sp1 ++ '/' :: (b.sp2 ++ (renderGroups b.groups ++ R))).length)
        ('0' :: 'x' :: (b.hex ++ (b.sp1 ++ '/' :: (b.sp2 ++ (renderGroups b.groups ++ R))))) =
        '0' :: 'x' :: b.hex :=
      take_consumed ('0' :: 'x' :: b.hex) _
    simp only [htake]
    refine ws_match b.sp1 _ _ _ _ h1 (by intro ch t h; cases h; decide) ?_
    rw [matchRegex_set_cons _ _ _ _ _ (by decide), Regex.plus, matchRegex]
    exact hloop
  refine ⟨_, by unfold matchAt; rw [hmatch], ?_, ?_, ?_⟩
  · simp
  · simp
  · simp only [MatchResult.cap, hlook]
    simp [List.lookup]


/-! ## The parse of a string of the grammar -/

theorem blockEnd_renderBlocks (bs : List BlockText) : BlockEnd (renderBlocks bs) := by
  cases bs with
  | nil => exact Or.inl rfl
  | cons b bs => exact Or.inr ⟨_, rfl⟩

theorem length_le_renderBlocks (bs : List BlockText) : bs.length ≤ (renderBlocks bs).length := by
  induction bs with
  | nil => simp
  | cons b bs ih =>
    simp only [renderBlocks, List.map_cons, List.flatten_cons, List.length_append,
      List.length_cons, BlockText.render] at ih ⊢
    omega

/-- The loop over the matches of `contiguousSegmentRegex` on the blocks of a
descriptor: one match per block. -/
theorem outer_execAll (bs : List BlockText) (hbs : ∀ b ∈ bs, b.WellFormed) :
    ∀ (done : List Char) (fuel : Nat), bs.length + 1 ≤ fuel →
      ∃ ms, execAll contiguousSegmentRegex (done ++ renderBlocks bs) fuel done.length = some ms ∧
        List.Forall₂ (fun m b => m.text = b.render ∧ m.cap 1 = some ('0' :: 'x' :: b.hex))
          ms bs := by
  induction bs with
  | nil =>
    intro done fuel hfuel
    obtain ⟨fuel, rfl⟩ : ∃ f, fuel = f + 1 := ⟨fuel - 1, by omega⟩
    refine ⟨[], ?_, List.Forall₂.nil⟩
    unfold execAll exec
    rw [if_neg (by simp)]
    simp [renderBlocks, search, matchAt, contiguousSegmentRegex, matchRegex_seq, Regex.chr,
      matchRegex]
  | cons b bs ih =>
    intro done fuel hfuel
    obtain ⟨fuel, rfl⟩ : ∃ f, fuel = f + 1 := ⟨fuel - 1, by omega⟩
    have hb := hbs b (List.mem_cons_self _ _)
    have hrb : renderBlocks (b :: bs) = b.render ++ renderBlocks bs := by
      simp [renderBlocks]
    obtain ⟨m, hm, htext, hend, hcap⟩ :=
      matchAt_block done.length b hb (renderBlocks bs) (blockEnd_renderBlocks bs)
    obtain ⟨ms, hms, hF⟩ := ih (fun b hb => hbs b (List.mem_cons_of_mem _ hb))
      (done ++ b.render) fuel (by simp at hfuel; omega)
    refine ⟨m :: ms, ?_, List.Forall₂.cons ⟨htext, hcap⟩ hF⟩
    unfold execAll exec
    rw [if_neg (by simp)]
    simp only [List.drop_left, hrb, search_of_matchAt hm]
    have e1 : done ++ (b.render ++ renderBlocks bs) = (done ++ b.render) ++ renderBlocks bs := by
      simp
    have e2 : m.endIndex = (done ++ b.render).length := by
      rw [hend]; simp
    rw [e1, e2, hms]
    rfl

theorem allSegments_render {ms : List MatchResult} {bs : List BlockText}
    (h : List.Forall₂ (fun m b => m.text = b.render ∧ m.cap 1 = some ('0' :: 'x' :: b.hex)) ms bs)
    (hbs : ∀ b ∈ bs, b.WellFormed) :
    allSegments ms = some (bs.map BlockText.roundedSegments).flatten := by
  induction h with
  | nil => rfl
  | @cons m b ms bs hm _ ih =>
    have h1 := blockSegments_render m b (hbs b (List.mem_cons_self _ _)) hm.1 hm.2
    simp only [allSegments, h1, Option.bind_eq_bind, Option.some_bind,
      ih (fun b hb => hbs b (List.mem_cons_of_mem _ hb)), List.map_cons, List.flatten_cons]

/-- The parse of a well-formed descriptor text: the name trimmed and the segments
built with rounded numbers, one per group, block after block. -/
theorem parseMemoryDescriptor_render (d : DescriptorText) (hd : d.WellFormed) :
    parseMemoryDescriptor d.render =
      .ok { name := trim d.name, segments := d.roundedSegments } := by
  obtain ⟨hname, hne, hbs⟩ := hd
  obtain ⟨b, bs, hblocks⟩ := List.exists_cons_of_ne_nil hne
  have hrb : renderBlocks d.blocks = '/' :: (renderBlocks d.blocks).tail := by
    rw [hblocks]; simp [renderBlocks, BlockText.render]
  have hidx : indexOf '/' d.render = some (d.name.length + 1) := by
    have := indexOf_append_cons '/' ('@' :: d.name) (renderBlocks d.blocks).tail (by simp [hname])
    unfold DescriptorText.render
    rw [hrb]
    simpa using this
  have hsub : substringFrom d.render (d.name.length + 1) = renderBlocks d.blocks := by
    simp [substringFrom, DescriptorText.render]
  have hname' : substring d.render 1 (d.name.length + 1) = d.name := by
    simp [substring, DescriptorText.render]
  obtain ⟨ms, hms, hF⟩ := outer_execAll d.blocks hbs [] ((renderBlocks d.blocks).length + 1)
    (by have := length_le_renderBlocks d.blocks; omega)
  simp only [List.nil_append, List.length_nil] at hms
  unfold parseMemoryDescriptor
  have hstart : startsWith '@' d.render = true := by simp [startsWith, DescriptorText.render]
  rw [hstart, hidx]
  simp only [hsub, hname', hms, Option.some_bind, allSegments_render hF hbs]
  rfl


/-! ## One segment per group, laid out block by block -/

theorem groupSegments_forall₂ (P : Segment → GroupText → Prop)
    (hP : ∀ start g, P (expectedSegment start g.count g.size g.unit g.letter) g) :
    ∀ (gs : List GroupText) (start : Int), List.Forall₂ P (groupSegments start gs) gs := by
  intro gs
  induction gs with
  | nil => intro start; exact List.Forall₂.nil
  | cons g gs ih => intro start; exact List.Forall₂.cons (hP start g) (ih _)

theorem segments_forall₂ (P : Segment → GroupText → Prop)
    (hP : ∀ start g, P (expectedSegment start g.count g.size g.unit g.letter) g)
    (d : DescriptorText) : List.Forall₂ P d.segments d.groups := by
  unfold DescriptorText.segments DescriptorText.groups
  induction d.blocks with
  | nil => exact List.Forall₂.nil
  | cons b bs ih =>
    simp only [List.map_cons, List.flatten_cons]
    exact List.rel_append (groupSegments_forall₂ P hP _ _) ih

theorem groupSegments_layout :
    ∀ (gs : List GroupText) (start : Int),
      (groupSegments start gs).length = gs.length ∧
      (gs ≠ [] → (groupSegments start gs).head?.map Segment.start = some start) ∧
      List.Chain' (fun s t => t.start = s.end) (groupSegments start gs) := by
  intro gs
  induction gs with
  | nil => intro start; simp [groupSegments]
  | cons g gs ih =>
    intro start
    obtain ⟨h1, h2, h3⟩ := ih (expectedSegment start g.count g.size g.unit g.letter).end
    refine ⟨by simp [groupSegments, h1], fun _ => by simp [groupSegments, expectedSegment], ?_⟩
    simp only [groupSegments]
    rw [List.chain'_cons']
    refine ⟨?_, h3⟩
    intro t ht
    cases gs with
    | nil => simp [groupSegments] at ht
    | cons g' gs' =>
      have := h2 (by simp)
      rw [ht] at this
      simpa using this

theorem roundedGroupSegments_forall₂ (P : Segment → GroupText → Prop)
    (hP : ∀ start g, P (roundedSegment start g.count g.size g.unit g.letter) g) :
    ∀ (gs : List GroupText) (start : Int),
      List.Forall₂ P (roundedGroupSegments start gs) gs := by
  intro gs
  induction gs with
  | nil => intro start; exact List.Forall₂.nil
  | cons g gs ih => intro start; exact List.Forall₂.cons (hP start g) (ih _)

theorem roundedSegments_forall₂ (P : Segment → GroupText → Prop)
    (hP : ∀ start g, P (roundedSegment start g.count g.size g.unit g.letter) g)
    (d : DescriptorText) : List.Forall₂ P d.roundedSegments d.groups := by
  unfold DescriptorText.roundedSegments DescriptorText.groups
  induction d.blocks with
  | nil => exact List.Forall₂.nil
  | cons b bs ih =>
    simp only [List.map_cons, List.flatten_cons]
    exact List.rel_append (roundedGroupSegments_forall₂ P hP _ _) ih

theorem roundedGroupSegments_layout :
    ∀ (gs : List GroupText) (start : Int),
      (roundedGroupSegments start gs).length = gs.length ∧
      (gs ≠ [] → (roundedGroupSegments start gs).head?.map Segment.start = some start) ∧
      List.Chain' (fun s t => t.start = s.end) (roundedGroupSegments start gs) := by
  intro gs
  induction gs with
  | nil => intro start; simp [roundedGroupSegments]
  | cons g gs ih =>
    intro start
    obtain ⟨h1, h2, h3⟩ := ih (roundedSegment start g.count g.size g.unit g.letter).end
    refine ⟨by simp [roundedGroupSegments, h1],
      fun _ => by simp [roundedGroupSegments, roundedSegment], ?_⟩
    simp only [roundedGroupSegments]
    rw [List.chain'_cons']
    refine ⟨?_, h3⟩
    intro t ht
    cases gs with
    | nil => simp [roundedGroupSegments] at ht
    | cons g' gs' =>
      have := h2 (by simp)
      rw [ht] at this
      simpa using this

/-- The number written by digits is below the radix to the power of their count. -/
theorem digitsValue_lt (radix : Nat) (hr : 0 < radix) (ds : List Char) :
    digitsValue radix ds < radix ^ ds.length := by
  have key : ∀ (ds : List Char) (acc : Nat),
      ds.foldl (fun acc c => acc * radix + (digitValue radix c).getD 0) acc <
        (acc + 1) * radix ^ ds.length := by
    intro ds
    induction ds with
    | nil => intro acc; simp
    | cons c cs ih =>
      intro acc
      have hd : (digitValue radix c).getD 0 < radix := by
        cases hv : digitValue radix c with
        | none => exact hr
        | some v =>
          unfold digitValue at hv
          simp only [Option.bind_eq_some] at hv
          obtain ⟨a, -, ha⟩ := hv
          split at ha
          · cases ha; assumption
          · cases ha
      rw [List.foldl_cons, List.length_cons, pow_succ]
      calc _ < (acc * radix + (digitValue radix c).getD 0 + 1) * radix ^ cs.length := ih _
        _ ≤ ((acc + 1) * radix) * radix ^ cs.length := by
          apply Nat.mul_le_mul_right
          nlinarith
        _ = (acc + 1) * (radix ^ cs.length * radix) := by ring
  simpa [digitsValue] using key ds 0

/-- The start address of a block, of at most 8 hexadecimal digits, is not rounded. -/
theorem hex_value_exact (b : BlockText) (hb : b.WellFormed) :
    toDoubleNat (digitsValue 16 b.hex) = digitsValue 16 b.hex := by
  obtain ⟨-, -, hlen, -⟩ := hb
  have h1 := digitsValue_lt 16 (by decide) b.hex
  have h2 : 16 ^ b.hex.length ≤ 16 ^ 8 := Nat.pow_le_pow_right (by decide) hlen
  exact toDoubleNat_of_le _ (by norm_num at h2; omega)

theorem unitMultiplier_pos (u : Char) : 0 < unitMultiplier u := by
  unfold unitMultiplier
  split
  · decide
  · split <;> decide

/-- With numbers below `2^53` the segment the code builds is the expected one. -/
theorem roundedSegment_eq (start : Int) (count size : List Char) (unit letter : Char)
    (h0 : 0 ≤ start)
    (hs : digitsValue 10 size * unitMultiplier unit < 9007199254740992)
    (he : (expectedSegment start count size unit letter).end < 9007199254740992) :
    roundedSegment start count size unit letter = expectedSegment start count size unit letter := by
  have hm := unitMultiplier_pos unit
  have hsz : digitsValue 10 size < 9007199254740992 := by nlinarith
  simp only [expectedSegment] at he
  have hp0 : (0 : Int) ≤ ((digitsValue 10 size * unitMultiplier unit : Nat) : Int) *
      ((digitsValue 10 count : Nat) : Int) :=
    mul_nonneg (Int.natCast_nonneg _) (Int.natCast_nonneg _)
  have e1 : toDouble (((digitsValue 10 size : Nat) : Int) * ((unitMultiplier unit : Nat) : Int)) =
      ((digitsValue 10 size * unitMultiplier unit : Nat) : Int) := by
    rw [← Nat.cast_mul]
    exact toDouble_of_lt _ (Int.natCast_nonneg _) (by exact_mod_cast hs)
  have e2 : toDouble (((digitsValue 10 size * unitMultiplier unit : Nat) : Int) *
      ((toDoubleNat (digitsValue 10 count) : Nat) : Int)) =
      ((digitsValue 10 size * unitMultiplier unit : Nat) : Int) *
        ((digitsValue 10 count : Nat) : Int) := by
    by_cases hz : digitsValue 10 size * unitMultiplier unit = 0
    · rw [hz]
      simp only [Nat.cast_zero, zero_mul]
      exact toDouble_of_lt 0 (le_refl _) (by decide)
    · have hprod : digitsValue 10 size * unitMultiplier unit * digitsValue 10 count <
          9007199254740992 := by
        have : (((digitsValue 10 size * unitMultiplier unit * digitsValue 10 count : Nat)) : Int) <
            9007199254740992 := by
          rw [Nat.cast_mul]
          omega
        exact_mod_cast this
      have hc : digitsValue 10 count < 9007199254740992 :=
        lt_of_le_of_lt (Nat.le_mul_of_pos_left _ (Nat.pos_of_ne_zero hz)) hprod
      rw [toDoubleNat_of_le _ (le_of_lt hc)]
      exact toDouble_of_lt _ hp0 (by omega)
  unfold roundedSegment expectedSegment
  simp only [toDoubleNat_of_le _ (le_of_lt hsz), e1, e2]
  rw [toDouble_of_lt _ (by omega) he]

/-- With numbers below `2^53` the segments the code builds for a block are the expected
ones. -/
theorem roundedGroupSegments_eq :
    ∀ (gs : List GroupText) (start : Int), 0 ≤ start → GroupsInRange start gs →
      roundedGroupSegments start gs = groupSegments start gs := by
  intro gs
  induction gs with
  | nil => intro start _ _; rfl
  | cons g gs ih =>
    intro start h0 hr
    obtain ⟨hs, he, hrest⟩ := hr
    have e := roundedSegment_eq start g.count g.size g.unit g.letter h0 hs he
    have hend : 0 ≤ (expectedSegment start g.count g.size g.unit g.letter).end := by
      simp only [expectedSegment]
      have : (0 : Int) ≤ ((digitsValue 10 g.size * unitMultiplier g.unit : Nat) : Int) *
          ((digitsValue 10 g.count : Nat) : Int) :=
        mul_nonneg (Int.natCast_nonneg _) (Int.natCast_nonneg _)
      omega
    simp only [roundedGroupSegments, groupSegments, e, ih _ hend hrest]

/-- With numbers below `2^53` the segments the code builds are the expected ones. -/
theorem roundedSegments_eq (d : DescriptorText) (hd : d.WellFormed) (hr : d.InRange) :
    d.roundedSegments = d.segments := by
  unfold DescriptorText.roundedSegments DescriptorText.segments
  congr 1
  apply List.map_congr_left
  intro b hb
  unfold BlockText.roundedSegments BlockText.segments
  rw [hex_value_exact b (hd.2.2 b hb)]
  exact roundedGroupSegments_eq _ _ (Int.natCast_nonneg _) (hr b hb)

/-- C3, as stated, fails: in `@X/0x1/1*9007199254740992 a` the group has count 1 and
sector size `2^53`, and the segment starts at 1; its end `1 + 2^53` is not a double and
is rounded to `2^53`, so that `end - start` is `2^53 - 1` and not `sectorSize x count`. -/
theorem parseMemoryDescriptor_rounds_segment_end :
    parseMemoryDescriptor "@X/0x1/1*9007199254740992 a".toList =
      .ok { name := "X".toList, segments := [
        { start := 1, sectorSize := 9007199254740992, «end» := 9007199254740992,
          readable := true, erasable := false, writable := false }] } ∧
    (9007199254740992 : Int) - 1 ≠ 9007199254740992 * 1 := by
  decide

/-- C3, amended: for every memory-map string of the grammar whose numbers are below
`2^53` (the sector sizes and the end addresses of its groups),
`parseMemoryDescriptor` returns exactly one segment per group `count*size unit letter`,
in the order of the groups in the string, and the segment of a group has
`sectorSize = size x multiplier(unit)` (blank or `B` is 1, `K` is 1024, `M` is 1048576)
and `end - start = sectorSize x count`. -/
theorem parseMemoryDescriptor_segment_per_group (d : DescriptorText) (hd : d.WellFormed)
    (hr : d.InRange) :
    ∃ info, parseMemoryDescriptor d.render = .ok info ∧
      List.Forall₂ (fun seg g =>
          seg.sectorSize = ((digitsValue 10 g.size * unitMultiplier g.unit : Nat) : Int) ∧
          seg.end - seg.start = seg.sectorSize * ((digitsValue 10 g.count : Nat) : Int))
        info.segments d.groups ∧
      unitMultiplier ' ' = 1 ∧ unitMultiplier 'B' = 1 ∧ unitMultiplier 'K' = 1024 ∧
      unitMultiplier 'M' = 1048576 := by
  refine ⟨_, parseMemoryDescriptor_render d hd, ?_, by decide, by decide, by decide, by decide⟩
  rw [roundedSegments_eq d hd hr]
  apply segments_forall₂
  intro start g
  simp [expectedSegment]

/-- Witness for C3: the descriptor text of scenario 1. -/
theorem parseMemoryDescriptor_segment_per_group_witness :
    scenario1Text.WellFormed ∧ scenario1Text.InRange ∧
    ∃ info, parseMemoryDescriptor scenario1Text.render = .ok info ∧
      List.Forall₂ (fun seg g =>
          seg.sectorSize = ((digitsValue 10 g.size * unitMultiplier g.unit : Nat) : Int) ∧
          seg.end - seg.start = seg.sectorSize * ((digitsValue 10 g.count : Nat) : Int))
        info.segments scenario1Text.groups ∧
      unitMultiplier ' ' = 1 ∧ unitMultiplier 'B' = 1 ∧ unitMultiplier 'K' = 1024 ∧
      unitMultiplier 'M' = 1048576 :=
  ⟨by decide, by decide,
    parseMemoryDescriptor_segment_per_group scenario1Text (by decide) (by decide)⟩

/-- C4: for every memory-map string of the grammar, the segments returned are those of
the blocks in order, and inside each block `startAddr/group,group,...` there is one
segment per group, the first starts at the block's `startAddr` and every later one
starts exactly at the end of the one before it. -/
theorem parseMemoryDescriptor_block_layout (d : DescriptorText) (hd : d.WellFormed) :
    ∃ info, parseMemoryDescriptor d.render = .ok info ∧
      ∃ perBlock : List (List Segment), info.segments = perBlock.flatten ∧
        List.Forall₂ (fun b ss =>
            ss.length = b.groups.length ∧
            ss.head?.map Segment.start = some ((digitsValue 16 b.hex : Nat) : Int) ∧
            List.Chain' (fun s t => t.start = s.end) ss)
          d.blocks perBlock := by
  refine ⟨_, parseMemoryDescriptor_render d hd, d.blocks.map BlockText.roundedSegments, rfl, ?_⟩
  obtain ⟨-, -, hbs⟩ := hd
  rw [List.forall₂_map_right_iff]
  apply List.forall₂_same.2
  intro b hb
  obtain ⟨-, -, -, -, -, -, hg, -⟩ := hbs b hb
  obtain ⟨h1, h2, h3⟩ :=
    roundedGroupSegments_layout b.groups ((toDoubleNat (digitsValue 16 b.hex) : Nat) : Int)
  refine ⟨h1, ?_, h3⟩
  rw [← hex_value_exact b (hbs b hb)]
  exact h2 hg

/-- Witness for C4: a descriptor text with two blocks and white space in the optional
places. -/
theorem parseMemoryDescriptor_block_layout_witness :
    spacedText.WellFormed ∧
    ∃ info, parseMemoryDescriptor spacedText.render = .ok info ∧
      ∃ perBlock : List (List Segment), info.segments = perBlock.flatten ∧
        List.Forall₂ (fun b ss =>
            ss.length = b.groups.length ∧
            ss.head?.map Segment.start = some ((digitsValue 16 b.hex : Nat) : Int) ∧
            List.Chain' (fun s t => t.start = s.end) ss)
          spacedText.blocks perBlock :=
  ⟨by decide, parseMemoryDescriptor_block_layout spacedText (by decide)⟩

/-- C5: for every memory-map string of the grammar and every group of it, with letter
`L` in `a..g` and `p = code(L) - code('a') + 1`, the segment of the group has
`readable` = bit 0 of `p`, `erasable` = bit 1 of `p` and `writable` = bit 2 of `p`; so
`a` is read-only, `b` erase-only, `d` write-only and `g` has all three. -/
theorem parseMemoryDescriptor_flags (d : DescriptorText) (hd : d.WellFormed) :
    ∃ info, parseMemoryDescriptor d.render = .ok info ∧
      List.Forall₂ (fun seg g =>
          seg.readable = (g.letter.toNat - 'a'.toNat + 1).testBit 0 ∧
          seg.erasable = (g.letter.toNat - 'a'.toNat + 1).testBit 1 ∧
          seg.writable = (g.letter.toNat - 'a'.toNat + 1).testBit 2 ∧
          (g.letter = 'a' → seg.readable = true ∧ seg.erasable = false ∧ seg.writable = false) ∧
          (g.letter = 'b' → seg.readable = false ∧ seg.erasable = true ∧ seg.writable = false) ∧
          (g.letter = 'd' → seg.readable = false ∧ seg.erasable = false ∧ seg.writable = true) ∧
          (g.letter = 'g' → seg.readable = true ∧ seg.erasable = true ∧ seg.writable = true))
        info.segments d.groups := by
  refine ⟨_, parseMemoryDescriptor_render d hd, ?_⟩
  apply roundedSegments_forall₂
  intro start g
  refine ⟨rfl, rfl, rfl, ?_, ?_, ?_, ?_⟩ <;>
  · intro h
    simp only [roundedSegment, h]
    decide

/-- Witness for C5: a descriptor text whose groups have the letters `a`, `b`, `d` and
`g`. -/
theorem parseMemoryDescriptor_flags_witness :
    spacedText.WellFormed ∧
    ∃ info, parseMemoryDescriptor spacedText.render = .ok info ∧
      List.Forall₂ (fun seg g =>
          seg.readable = (g.letter.toNat - 'a'.toNat + 1).testBit 0 ∧
          seg.erasable = (g.letter.toNat - 'a'.toNat + 1).testBit 1 ∧
          seg.writable = (g.letter.toNat - 'a'.toNat + 1).testBit 2 ∧
          (g.letter = 'a' → seg.readable = true ∧ seg.erasable = false ∧ seg.writable = false) ∧
          (g.letter = 'b' → seg.readable = false ∧ seg.erasable = true ∧ seg.writable = false) ∧
          (g.letter = 'd' → seg.readable = false ∧ seg.erasable = false ∧ seg.writable = true) ∧
          (g.letter = 'g' → seg.readable = true ∧ seg.erasable = true ∧ seg.writable = true))
        info.segments spacedText.groups :=
  ⟨by decide, parseMemoryDescriptor_flags spacedText (by decide)⟩

/-- The two sample descriptor texts are the strings they stand for, and the parser run
on those strings returns the expected segments. -/
theorem sample_texts_check :
    scenario1Text.render = "@Flash/0x08000000/4*016Kg,1*064Kg,7*128Kg".toList ∧
    spacedText.render =
      "@ Option bytes /0x1FFF0000 / 1 * 016 Ba/ 0x08000000/2*1Mb 3*002  d,4*5Kg ,".toList ∧
    scenario1Text.segments = scenario1Map.segments ∧
    parseMemoryDescriptor
        "@ Option bytes /0x1FFF0000 / 1 * 016 Ba/ 0x08000000/2*1Mb 3*002  d,4*5Kg ,".toList =
      .ok { name := "Option bytes".toList, segments := spacedText.segments } := by
  refine ⟨by decide, by decide, by decide, by decide⟩


/-! ## Scenario 1: the memory map of `@Flash/0x08000000/4*016Kg,1*064Kg,7*128Kg` -/

/-- Evaluation of the parser on the string of scenario 1. -/
theorem scenario1_eval :
    parseMemoryDescriptor "@Flash/0x08000000/4*016Kg,1*064Kg,7*128Kg".toList =
      .ok { name := "Flash".toList, segments := [
        { start := 0x08000000, sectorSize := 0x4000, «end» := 0x08010000,
          readable := true, erasable := true, writable := true },
        { start := 0x08010000, sectorSize := 0x10000, «end» := 0x08020000,
          readable := true, erasable := true, writable := true },
        { start := 0x08020000, sectorSize := 0x20000, «end» := 0x08100000,
          readable := true, erasable := true, writable := true }] } := by
  decide

/-- C2 (as stated, refuted): the parse of `@Flash/0x08000000/4*016Kg,1*064Kg,7*128Kg`
does not have the segment bounds `[0x08000000,0x08004000)`, `[0x08004000,0x08014000)`,
`[0x08014000,0x08114000)`. -/
theorem parseMemoryDescriptor_scenario1_not_as_stated :
    ¬ ∃ info, parseMemoryDescriptor "@Flash/0x08000000/4*016Kg,1*064Kg,7*128Kg".toList = .ok info ∧
      info.segments.map (fun s => (s.start, s.end, s.sectorSize)) =
        [(0x08000000, 0x08004000, 0x4000), (0x08004000, 0x08014000, 0x10000),
         (0x08014000, 0x08114000, 0x20000)] := by
  rintro ⟨info, h, hm⟩
  rw [scenario1_eval] at h
  cases h
  revert hm
  decide

/-- C2 (amended): `@Flash/0x08000000/4*016Kg,1*064Kg,7*128Kg` parses to the name
`Flash` and exactly three segments, in this order: `[0x08000000,0x08010000)` with
sector size `0x4000`, `[0x08010000,0x08020000)` with sector size `0x10000` and
`[0x08020000,0x08100000)` with sector size `0x20000`, each readable, erasable and
writable. -/
theorem parseMemoryDescriptor_scenario1 :
    parseMemoryDescriptor "@Flash/0x08000000/4*016Kg,1*064Kg,7*128Kg".toList =
      .ok { name := "Flash".toList, segments := [
        { start := 0x08000000, sectorSize := 0x4000, «end» := 0x08010000,
          readable := true, erasable := true, writable := true },
        { start := 0x08010000, sectorSize := 0x10000, «end» := 0x08020000,
          readable := true, erasable := true, writable := true },
        { start := 0x08020000, sectorSize := 0x20000, «end» := 0x08100000,
          readable := true, erasable := true, writable := true }] } :=
  scenario1_eval

/-! ## Rejected descriptors and the region name -/

theorem indexOf_eq_none_iff (c : Char) (s : List Char) : indexOf c s = none ↔ c ∉ s := by
  induction s with
  | nil => simp [indexOf]
  | cons x xs ih =>
    by_cases hx : x = c
    · simp [indexOf, hx]
    · simp [indexOf, hx, ih, Ne.symm hx]

theorem startsWith_eq_true_iff (c : Char) (s : List Char) :
    startsWith c s = true ↔ s.head? = some c := by
  cases s <;> simp [startsWith]

/-- C6: `parseMemoryDescriptor` throws on every string that does not start with `@`
and on every string that contains no `/`; it then returns no memory map (no name and
no segments). -/
theorem parseMemoryDescriptor_throws_without_at_or_slash (desc : List Char)
    (h : desc.head? ≠ some '@' ∨ '/' ∉ desc) :
    parseMemoryDescriptor desc =
        .throw (newError ("Not a DfuSe memory descriptor: \"" ++ String.mk desc ++ "\"")) ∧
      ∀ info, parseMemoryDescriptor desc ≠ .ok info := by
  have key : parseMemoryDescriptor desc =
      .throw (newError ("Not a DfuSe memory descriptor: \"" ++ String.mk desc ++ "\"")) := by
    unfold parseMemoryDescriptor
    rcases h with h | h
    · have h1 : startsWith '@' desc = false := by
        rw [← Bool.not_eq_true, startsWith_eq_true_iff]; exact h
      rw [h1]
    · have h2 : indexOf '/' desc = none := (indexOf_eq_none_iff _ _).2 h
      rw [h2]
      cases startsWith '@' desc <;> rfl
  refine ⟨key, ?_⟩
  intro info hinfo
  rw [key] at hinfo
  cases hinfo

/-- Witness for C6: the string `Flash/0x08000000/1*1Kg`, which lacks the `@`. -/
theorem parseMemoryDescriptor_throws_without_at_or_slash_witness :
    ("Flash/0x08000000/1*1Kg".toList.head? ≠ some '@' ∨ '/' ∉ "Flash/0x08000000/1*1Kg".toList) ∧
    (parseMemoryDescriptor "Flash/0x08000000/1*1Kg".toList =
        .throw (newError ("Not a DfuSe memory descriptor: \"" ++
          String.mk "Flash/0x08000000/1*1Kg".toList ++ "\"")) ∧
      ∀ info, parseMemoryDescriptor "Flash/0x08000000/1*1Kg".toList ≠ .ok info) :=
  ⟨Or.inl (by decide),
   parseMemoryDescriptor_throws_without_at_or_slash _ (Or.inl (by decide))⟩

end DFUse

namespace DFU
open JS

/-! ## Events emitted by a computation -/

theorem Run.Emits.mono {α : Type} {P Q : Event → Prop} {x : Run α} (h : Run.Emits P x)
    (hPQ : ∀ e, P e → Q e) : Run.Emits Q x := by
  intro tr
  obtain ⟨evs, h1, h2⟩ := h tr
  exact ⟨evs, h1, fun e he => hPQ e (h2 e he)⟩

theorem Run.Emits.pure {α : Type} {P : Event → Prop} (a : α) :
    Run.Emits P (Pure.pure a : Run α) := fun tr => ⟨[], by simp [Pure.pure, Run.pure], by simp⟩

theorem Run.Emits.throw {α : Type} {P : Event → Prop} (e : Thrown) :
    Run.Emits P (Run.throw e : Run α) := fun tr => ⟨[], by simp [Run.throw], by simp⟩

theorem Run.Emits.stuck {α : Type} {P : Event → Prop} :
    Run.Emits P (Run.stuck : Run α) := fun tr => ⟨[], by simp [Run.stuck], by simp⟩

theorem Run.Emits.emit {P : Event → Prop} {e : Event} (h : P e) :
    Run.Emits P (Run.emit e) := fun tr => ⟨[e], by simp [Run.emit], by simpa using h⟩

theorem Run.Emits.call {α : Type} {P : Event → Prop} {e : Event} (h : P e)
    (answer : List Event → Except Thrown α) :
    Run.Emits P (Run.call e answer) := fun tr => ⟨[e], by simp [Run.call], by simpa using h⟩

theorem Run.Emits.bind {α β : Type} {P : Event → Prop} {x : Run α} {f : α → Run β}
    (hx : Run.Emits P x) (hf : ∀ a, Run.Emits P (f a)) : Run.Emits P (x >>= f) := by
  intro tr
  obtain ⟨evs, h1, h2⟩ := hx tr
  show ∃ evs, (Run.bind x f tr).1 = tr ++ evs ∧ _
  unfold Run.bind
  rcases hx' : x tr with ⟨tr1, o⟩
  rw [hx'] at h1
  simp only at h1
  cases o with
  | ok a =>
    obtain ⟨evs2, h3, h4⟩ := hf a tr1
    refine ⟨evs ++ evs2, ?_, ?_⟩
    · subst h1; rw [h3, List.append_assoc]
    · intro e he
      rcases List.mem_append.1 he with he | he
      exacts [h2 e he, h4 e he]
  | throw e => exact ⟨evs, h1, h2⟩
  | stuck => exact ⟨evs, h1, h2⟩

theorem Run.Emits.tryCatch {α : Type} {P : Event → Prop} {x : Run α} {h : Thrown → Run α}
    (hx : Run.Emits P x) (hh : ∀ e, Run.Emits P (h e)) : Run.Emits P (Run.tryCatch x h) := by
  intro tr
  obtain ⟨evs, h1, h2⟩ := hx tr
  unfold Run.tryCatch
  rcases hx' : x tr with ⟨tr1, o⟩
  rw [hx'] at h1
  simp only at h1
  cases o with
  | ok a => exact ⟨evs, h1, h2⟩
  | throw e =>
    obtain ⟨evs2, h3, h4⟩ := hh e tr1
    refine ⟨evs ++ evs2, ?_, ?_⟩
    · subst h1; rw [h3, List.append_assoc]
    · intro e he
      rcases List.mem_append.1 he with he | he
      exacts [h2 e he, h4 e he]
  | stuck => exact ⟨evs, h1, h2⟩

/-- Sequencing when the first computation only returns values that satisfy `R`. -/
theorem Run.Emits.bind_of {α β : Type} {P : Event → Prop} {x : Run α}
    {f : α → Run β} (R : α → Prop) (hx : Run.Emits P x)
    (hR : ∀ tr a, (x tr).2 = .ok a → R a) (hf : ∀ a, R a → Run.Emits P (f a)) :
    Run.Emits P (x >>= f) := by
  intro tr
  obtain ⟨evs, h1, h2⟩ := hx tr
  show ∃ evs, (Run.bind x f tr).1 = tr ++ evs ∧ _
  unfold Run.bind
  rcases hx' : x tr with ⟨tr1, o⟩
  rw [hx'] at h1
  simp only at h1
  cases o with
  | ok a =>
    obtain ⟨evs2, h3, h4⟩ := hf a (hR tr a (by rw [hx'])) tr1
    refine ⟨evs ++ evs2, ?_, ?_⟩
    · subst h1; rw [h3, List.append_assoc]
    · intro e he
      rcases List.mem_append.1 he with he | he
      exacts [h2 e he, h4 e he]
  | throw e => exact ⟨evs, h1, h2⟩
  | stuck => exact ⟨evs, h1, h2⟩

theorem Event.isPoll.isWire {e : Event} (h : e.isPoll) : e.isWire := by
  cases e <;> simp_all [Event.isPoll, Event.isWire]

namespace Device

theorem requestIn_emits (d : Device) (bRequest wLength wValue : Nat) :
    Run.Emits Event.isPoll (d.requestIn bRequest wLength wValue) := by
  unfold requestIn
  refine Run.Emits.bind (Run.Emits.call (by simp [Event.isPoll]) _) (fun result => ?_)
  split
  · exact Run.Emits.bind (Run.Emits.call (by simp [Event.isPoll]) _) (fun _ => Run.Emits.throw _)
  · exact Run.Emits.pure _

theorem requestOut_emits (d : Device) (bRequest : Nat) (data : Option (List Nat)) (wValue : Nat) :
    Run.Emits Event.isWire (d.requestOut bRequest data wValue) := by
  unfold requestOut
  refine Run.Emits.bind (Run.Emits.call (by simp [Event.isWire]) _) (fun result => ?_)
  split
  · exact Run.Emits.bind (Run.Emits.call (by simp [Event.isWire]) _) (fun _ => Run.Emits.throw _)
  · exact Run.Emits.pure _

/-- The events of `requestOut`. -/
theorem requestOut_emits_of {P : Event → Prop} (d : Device) (bRequest : Nat)
    (data : Option (List Nat)) (wValue : Nat)
    (h1 : P (.controlTransferOut bRequest wValue d.intfNumber data))
    (h2 : P (.clearHalt .out d.intfNumber)) :
    Run.Emits P (d.requestOut bRequest data wValue) := by
  unfold requestOut
  refine Run.Emits.bind (Run.Emits.call h1 _) (fun result => ?_)
  split
  · exact Run.Emits.bind (Run.Emits.call h2 _) (fun _ => Run.Emits.throw _)
  · exact Run.Emits.pure _

theorem getStatus_emits (d : Device) : Run.Emits Event.isPoll d.getStatus := by
  unfold getStatus
  refine Run.Emits.bind (Run.Emits.tryCatch (requestIn_emits _ _ _ _)
    (fun _ => Run.Emits.throw _)) (fun data => ?_)
  intro tr
  exact ⟨[], by simp, by simp⟩

theorem pollLoop_emits (d : Device) (p : Nat → Bool) (fuel : Nat) (st : Status) :
    Run.Emits Event.isPoll (pollLoop d p fuel st) := by
  induction fuel generalizing st with
  | zero =>
    unfold pollLoop
    split
    · exact Run.Emits.stuck
    · exact Run.Emits.pure _
  | succ n ih =>
    unfold pollLoop
    split
    · exact Run.Emits.bind (Run.Emits.emit (by simp [Event.isPoll]))
        (fun _ => Run.Emits.bind (getStatus_emits d) (fun next => ih next))
    · exact Run.Emits.pure _

theorem poll_until_emits (d : Device) (fuel : Nat) (p : Nat → Bool) :
    Run.Emits Event.isPoll (d.poll_until fuel p) := by
  unfold poll_until
  exact Run.Emits.bind (getStatus_emits d) (fun st => pollLoop_emits d p fuel st)

end Device

end DFU

namespace DFUse
open JS


theorem split_at_first (c : Char) (t : List Char) (h : c ∈ t) :
    ∃ rest, t = t.takeWhile (fun x => x != c) ++ c :: rest ∧ c ∉ t.takeWhile (fun x => x != c) := by
  induction t with
  | nil => simp at h
  | cons x xs ih =>
    by_cases hx : x = c
    · subst hx
      exact ⟨xs, by simp [List.takeWhile], by simp [List.takeWhile]⟩
    · have hmem : c ∈ xs := by
        rcases List.mem_cons.1 h with h | h
        · exact absurd h.symm hx
        · exact h
      obtain ⟨rest, h1, h2⟩ := ih hmem
      refine ⟨rest, ?_, ?_⟩
      · have : (x != c) = true := by simpa using hx
        simp only [List.takeWhile, this, List.cons_append]
        rw [← h1]
      · have : (x != c) = true := by simpa using hx
        simp only [List.takeWhile, this, List.mem_cons, not_or]
        exact ⟨Ne.symm hx, h2⟩

/-- C7 (as stated, refuted): for `@ Flash /0x08000000/1*1Kg` the name returned is not
the text between the leading `@` and the first `/` (which is ` Flash `, with the
blanks). -/
theorem parseMemoryDescriptor_name_not_verbatim :
    ¬ ∃ info, parseMemoryDescriptor "@ Flash /0x08000000/1*1Kg".toList = .ok info ∧
      info.name = ("@ Flash /0x08000000/1*1Kg".toList.drop 1).takeWhile (fun x => x != '/') := by
  have h : parseMemoryDescriptor "@ Flash /0x08000000/1*1Kg".toList =
      .ok { name := "Flash".toList, segments := [
        { start := 0x08000000, sectorSize := 0x400, «end» := 0x08000400,
          readable := true, erasable := true, writable := true }] } := by
    decide
  rintro ⟨info, hinfo, hname⟩
  rw [h] at hinfo
  cases hinfo
  revert hname
  decide

/-- C7 (amended): for every string that starts with `@` and contains a `/`, the parser
returns a memory map, and its region name is the text between the leading `@` and the
first `/` of the string with leading and trailing white space removed. -/
theorem parseMemoryDescriptor_name_trimmed (desc : List Char) (hat : desc.head? = some '@')
    (hslash : '/' ∈ desc) :
    ∃ info, parseMemoryDescriptor desc = .ok info ∧
      info.name = trim ((desc.drop 1).takeWhile (fun x => x != '/')) := by
  obtain ⟨t, rfl⟩ : ∃ t, desc = '@' :: t := by
    cases desc with
    | nil => simp at hat
    | cons x xs => simp at hat; exact ⟨xs, by rw [hat]⟩
  have hmem : '/' ∈ t := by
    rcases List.mem_cons.1 hslash with h | h
    · exact absurd h (by decide)
    · exact h
  obtain ⟨rest, h1, h2⟩ := split_at_first '/' t hmem
  obtain ⟨segments, hseg⟩ := parseMemoryDescriptor_name _ rest h2
  rw [← h1] at hseg
  exact ⟨_, hseg, rfl⟩

/-- Witness for C7: the string `@ Flash /0x08000000/1*1Kg`. -/
theorem parseMemoryDescriptor_name_trimmed_witness :
    "@ Flash /0x08000000/1*1Kg".toList.head? = some '@' ∧
    '/' ∈ "@ Flash /0x08000000/1*1Kg".toList ∧
    ∃ info, parseMemoryDescriptor "@ Flash /0x08000000/1*1Kg".toList = .ok info ∧
      info.name = trim (("@ Flash /0x08000000/1*1Kg".toList.drop 1).takeWhile (fun x => x != '/')) :=
  ⟨by decide, by decide,
   parseMemoryDescriptor_name_trimmed "@ Flash /0x08000000/1*1Kg".toList (by decide) (by decide)⟩

/-! ## Well-formed segments and sector bounds -/

theorem makeSegment_spec {a : Int} {m : MatchResult} {seg : Segment}
    (h : makeSegment a m = some seg) (h0 : 0 ≤ a) (hb : seg.end < 9007199254740992) :
    seg.start = a ∧ seg.WellFormed ∧ 0 ≤ seg.end := by
  unfold makeSegment at h
  simp only [Option.bind_eq_bind, Option.bind_eq_some, Option.some.injEq] at h
  obtain ⟨count, -, size, -, mult, -, code, -, rfl⟩ := h
  simp only at hb
  have hss : 0 ≤ toDouble ((size : Int) * (mult : Int)) :=
    toDouble_nonneg _ (mul_nonneg (Int.natCast_nonneg _) (Int.natCast_nonneg _))
  have hp : 0 ≤ toDouble ((size : Int) * (mult : Int)) * (count : Int) :=
    mul_nonneg hss (Int.natCast_nonneg _)
  have hrp := toDouble_nonneg _ hp
  obtain ⟨h1, e1⟩ := toDouble_lt _ (by omega) hb
  obtain ⟨h2, e2⟩ := toDouble_lt _ hp (by omega)
  refine ⟨rfl, ⟨hss, ?_, ?_⟩, ?_⟩
  · show a ≤ toDouble (a + toDouble (toDouble ((size : Int) * (mult : Int)) * (count : Int)))
    rw [e1, e2]; omega
  · show toDouble ((size : Int) * (mult : Int)) ∣
      toDouble (a + toDouble (toDouble ((size : Int) * (mult : Int)) * (count : Int))) - a
    rw [e1, e2]; simp
  · show 0 ≤ toDouble (a + toDouble (toDouble ((size : Int) * (mult : Int)) * (count : Int)))
    rw [e1, e2]; omega

theorem pushSegments_wellFormed {ms : List MatchResult} {a : Int} {segs : List Segment}
    (h : pushSegments a ms = some segs) (h0 : 0 ≤ a)
    (hb : ∀ seg ∈ segs, seg.end < 9007199254740992) :
    ∀ seg ∈ segs, seg.WellFormed ∧ 0 ≤ seg.start := by
  induction ms generalizing a segs with
  | nil =>
    simp only [pushSegments, Option.some.injEq] at h
    subst h; simp
  | cons m ms ih =>
    simp only [pushSegments, Option.bind_eq_bind, Option.bind_eq_some, Option.some.injEq] at h
    obtain ⟨seg, hseg, rest, hrest, rfl⟩ := h
    obtain ⟨hs, hwf, hend⟩ := makeSegment_spec hseg h0 (hb seg (List.mem_cons_self _ _))
    intro s hs'
    rcases List.mem_cons.1 hs' with rfl | hs'
    · exact ⟨hwf, by rw [hs]; exact h0⟩
    · exact ih hrest hend (fun t ht => hb t (List.mem_cons_of_mem _ ht)) s hs'

theorem allSegments_wellFormed {ms : List MatchResult} {segs : List Segment}
    (h : allSegments ms = some segs) (hb : ∀ seg ∈ segs, seg.end < 9007199254740992) :
    ∀ seg ∈ segs, seg.WellFormed ∧ 0 ≤ seg.start := by
  induction ms generalizing segs with
  | nil =>
    simp only [allSegments, Option.some.injEq] at h
    subst h; simp
  | cons m ms ih =>
    simp only [allSegments, Option.bind_eq_bind, Option.bind_eq_some, Option.some.injEq] at h
    obtain ⟨here, hhere, rest, hrest, rfl⟩ := h
    intro s hs
    rcases List.mem_append.1 hs with hs | hs
    · unfold blockSegments at hhere
      simp only [Option.bind_eq_bind, Option.bind_eq_some] at hhere
      obtain ⟨a, -, sm, -, hpush⟩ := hhere
      exact pushSegments_wellFormed hpush (Int.natCast_nonneg _)
        (fun t ht => hb t (List.mem_append_left _ ht)) s hs
    · exact ih hrest (fun t ht => hb t (List.mem_append_right _ ht)) s hs

/-- Every segment produced by the parser, when the segments end below `2^53`, satisfies
the data-model invariant and starts at an address that is not negative. -/
theorem parseMemoryDescriptor_wellFormed {desc : List Char} {info : MemoryInfo}
    (h : parseMemoryDescriptor desc = .ok info)
    (hb : ∀ seg ∈ info.segments, seg.end < 9007199254740992) :
    ∀ seg ∈ info.segments, seg.WellFormed ∧ 0 ≤ seg.start := by
  unfold parseMemoryDescriptor at h
  split at h
  · simp only at h
    split at h
    · rename_i segments hsegs
      cases h
      simp only [Option.bind_eq_some] at hsegs
      obtain ⟨ms, -, hall⟩ := hsegs
      exact allSegments_wellFormed hall hb
    · cases h
  · cases h

theorem find_contains {segs : List Segment} {addr : Int}
    (h : ∃ seg ∈ segs, seg.Contains addr) :
    ∃ seg, segs.find? (fun segment => segment.start ≤ addr && addr < segment.end) = some seg ∧
      seg ∈ segs ∧ seg.Contains addr := by
  obtain ⟨s0, hs0, hc⟩ := h
  cases hf : segs.find? (fun segment => decide (segment.start ≤ addr) && decide (addr < segment.end)) with
  | none =>
    rw [List.find?_eq_none] at hf
    have := hf s0 hs0
    simp [Segment.Contains] at hc this
    exact absurd hc.2 (not_lt.2 (this hc.1))
  | some seg =>
    refine ⟨seg, rfl, List.mem_of_find?_eq_some hf, ?_⟩
    have := List.find?_some hf
    simpa [Segment.Contains] using this

/-- Sector arithmetic inside a well-formed segment that contains `addr`. -/
theorem sector_bounds {seg : Segment} {addr : Int} (hwf : seg.WellFormed)
    (hc : seg.Contains addr) :
    0 < seg.sectorSize ∧
    seg.start ≤ seg.start + Int.fdiv (addr - seg.start) seg.sectorSize * seg.sectorSize ∧
    seg.start + Int.fdiv (addr - seg.start) seg.sectorSize * seg.sectorSize ≤ addr ∧
    addr < seg.start + (Int.fdiv (addr - seg.start) seg.sectorSize + 1) * seg.sectorSize := by
  obtain ⟨h0, h1, h2⟩ := hwf
  obtain ⟨c1, c2⟩ := hc
  have hpos : 0 < seg.sectorSize := by
    rcases eq_or_lt_of_le h0 with h | h
    · rw [← h] at h2
      have := zero_dvd_iff.1 h2
      omega
    · exact h
  rw [Int.fdiv_eq_ediv _ h0]
  have hnn : 0 ≤ addr - seg.start := by omega
  have e1 := Int.ediv_mul_le (addr - seg.start) (ne_of_gt hpos)
  have e2 := Int.lt_ediv_add_one_mul_self (addr - seg.start) hpos
  have e3 : 0 ≤ (addr - seg.start) / seg.sectorSize * seg.sectorSize :=
    mul_nonneg (Int.ediv_nonneg hnn h0) h0
  refine ⟨hpos, by omega, by omega, by omega⟩

/-- A sector that starts inside a segment ends inside it. -/
theorem sector_within_segment {seg : Segment} {x : Int} (hwf : seg.WellFormed)
    (hc : seg.Contains x) (hal : seg.sectorSize ∣ x - seg.start) :
    0 < seg.sectorSize ∧ x + seg.sectorSize ≤ seg.end := by
  obtain ⟨hpos, -, -, -⟩ := sector_bounds hwf hc
  have hd : seg.sectorSize ∣ seg.end - x := by
    have := Int.dvd_sub hwf.2.2 hal
    have e : seg.end - seg.start - (x - seg.start) = seg.end - x := by omega
    rwa [e] at this
  have := Int.le_of_dvd (by have := hc.2; omega) hd
  exact ⟨hpos, by omega⟩

/-- Two multiples of `ss` are not less than `ss` apart unless equal. -/
theorem aligned_gap {ss x y : Int} (hx : ss ∣ x) (hy : ss ∣ y) (h1 : x < y) (h2 : y < x + ss) :
    False := by
  have hd : ss ∣ y - x := Int.dvd_sub hy hx
  have := Int.le_of_dvd (by omega) hd
  omega

/-- Inside a well-formed segment that starts at an address that is not negative and
ends below `2^53`, the sector arithmetic of the code is not rounded. -/
theorem sector_exact {seg : Segment} {addr : Int} (hwf : seg.WellFormed)
    (hc : seg.Contains addr) (h0 : 0 ≤ seg.start) (hb : seg.end < 9007199254740992) :
    floorDiv (toDouble (addr - seg.start)) seg.sectorSize =
      Int.fdiv (addr - seg.start) seg.sectorSize ∧
    toDouble (seg.start +
        toDouble (Int.fdiv (addr - seg.start) seg.sectorSize * seg.sectorSize)) =
      seg.start + Int.fdiv (addr - seg.start) seg.sectorSize * seg.sectorSize ∧
    toDouble (seg.start +
        toDouble (toDouble (Int.fdiv (addr - seg.start) seg.sectorSize + 1) * seg.sectorSize)) =
      seg.start + (Int.fdiv (addr - seg.start) seg.sectorSize + 1) * seg.sectorSize ∧
    toDouble (seg.start + Int.fdiv (addr - seg.start) seg.sectorSize * seg.sectorSize +
        seg.sectorSize) =
      seg.start + Int.fdiv (addr - seg.start) seg.sectorSize * seg.sectorSize +
        seg.sectorSize := by
  obtain ⟨hpos, b1, b2, b3⟩ := sector_bounds hwf hc
  have hal : seg.sectorSize ∣
      seg.start + Int.fdiv (addr - seg.start) seg.sectorSize * seg.sectorSize - seg.start := by
    simp
  have hcs : seg.Contains
      (seg.start + Int.fdiv (addr - seg.start) seg.sectorSize * seg.sectorSize) :=
    ⟨b1, by have := hc.2; omega⟩
  obtain ⟨-, hend⟩ := sector_within_segment hwf hcs hal
  have hc1 := hc.1
  have hc2 := hc.2
  have hidx : 0 ≤ Int.fdiv (addr - seg.start) seg.sectorSize := by
    rw [Int.fdiv_eq_ediv _ (le_of_lt hpos)]
    exact Int.ediv_nonneg (by omega) (le_of_lt hpos)
  have hq := floorDiv_of_lt (addr - seg.start) seg.sectorSize (by omega) (by omega) hpos
  generalize Int.fdiv (addr - seg.start) seg.sectorSize = idx at *
  have hprod : 0 ≤ idx * seg.sectorSize := mul_nonneg hidx (le_of_lt hpos)
  have hidx1 : idx + 1 ≤ (idx + 1) * seg.sectorSize := by nlinarith
  have e1 : (idx + 1) * seg.sectorSize = idx * seg.sectorSize + seg.sectorSize := by ring
  refine ⟨?_, ?_, ?_, ?_⟩
  · rw [toDouble_of_lt (addr - seg.start) (by omega) (by omega)]
    exact hq
  · rw [toDouble_of_lt (idx * seg.sectorSize) hprod (by omega),
      toDouble_of_lt (seg.start + idx * seg.sectorSize) (by omega) (by omega)]
  · rw [toDouble_of_lt (idx + 1) (by omega) (by omega),
      toDouble_of_lt ((idx + 1) * seg.sectorSize) (by omega) (by omega),
      toDouble_of_lt (seg.start + (idx + 1) * seg.sectorSize) (by omega) (by omega)]
  · exact toDouble_of_lt (seg.start + idx * seg.sectorSize + seg.sectorSize) (by omega)
      (by omega)

/-- `getSectorStart` and `getSectorEnd` of an address inside a well-formed segment of
the map that ends below `2^53`. -/
theorem Device.sector_of_contained (d : Device) (info : MemoryInfo)
    (hmap : d.memoryInfo = some info) {seg : Segment} {addr : Int}
    (hfind : info.segments.find? (fun segment => segment.start ≤ addr && addr < segment.end) =
      some seg)
    (hwf : seg.WellFormed) (hc : seg.Contains addr) (h0 : 0 ≤ seg.start)
    (hb : seg.end < 9007199254740992) :
    d.getSegment addr = .ok (some seg) ∧
    d.getSectorStart addr none =
      .ok (seg.start + Int.fdiv (addr - seg.start) seg.sectorSize * seg.sectorSize) ∧
    d.getSectorEnd addr none =
      .ok (seg.start + (Int.fdiv (addr - seg.start) seg.sectorSize + 1) * seg.sectorSize) := by
  obtain ⟨hpos, -⟩ := sector_bounds hwf hc
  obtain ⟨x1, x2, x3, -⟩ := sector_exact hwf hc h0 hb
  have hseg : d.getSegment addr = .ok (some seg) := by
    unfold Device.getSegment; rw [hmap]; simp only [hfind]
  refine ⟨hseg, ?_, ?_⟩
  · unfold Device.getSectorStart Device.resolveSegment
    simp only [hseg, if_neg (ne_of_gt hpos), x1, x2]
  · unfold Device.getSectorEnd Device.resolveSegment
    simp only [hseg, if_neg (ne_of_gt hpos), x1, x3]

set_option maxRecDepth 8000 in
/-- C8, as stated, fails: the map parsed from `@X/0x1/1*9007199254740992 a` has one
segment, from 1, with sector size `2^53`, whose end `1 + 2^53` is rounded to `2^53`.
For the address 5 inside it `getSectorStart` is 1 and `getSectorEnd` is `2^53`: they are
`2^53 - 1` apart, which is not the sector size. -/
theorem sector_length_differs_from_sector_size :
    segmentsOf "@X/0x1/1*9007199254740992 a" = some [
      { start := 1, sectorSize := 9007199254740992, «end» := 9007199254740992,
        readable := true, erasable := false, writable := false }] ∧
    sectorStartOf "@X/0x1/1*9007199254740992 a" 5 = .ok 1 ∧
    sectorEndOf "@X/0x1/1*9007199254740992 a" 5 = .ok 9007199254740992 ∧
    (9007199254740992 : Int) - 1 ≠ 9007199254740992 := by
  decide

/-- C8, amended: on a memory map produced by `parseMemoryDescriptor` whose segments end
below `2^53`, for every address inside one of its segments, `getSegment` resolves a
segment that contains the address, and `getSectorStart(addr) <= addr <
getSectorEnd(addr)` with `getSectorEnd(addr) - getSectorStart(addr)` equal to the sector
size of that segment. -/
theorem sector_start_le_addr_lt_sector_end (d : Device) (desc : List Char) (info : MemoryInfo)
    (addr : Int) (hparse : parseMemoryDescriptor desc = .ok info)
    (hbound : ∀ seg ∈ info.segments, seg.end < 9007199254740992)
    (hmap : d.memoryInfo = some info) (hin : ∃ seg ∈ info.segments, seg.Contains addr) :
    ∃ seg s e, d.getSegment addr = .ok (some seg) ∧ seg ∈ info.segments ∧ seg.Contains addr ∧
      d.getSectorStart addr none = .ok s ∧ d.getSectorEnd addr none = .ok e ∧
      s ≤ addr ∧ addr < e ∧ e - s = seg.sectorSize := by
  obtain ⟨seg, hfind, hmem, hc⟩ := find_contains hin
  obtain ⟨hwf, h0⟩ := parseMemoryDescriptor_wellFormed hparse hbound seg hmem
  obtain ⟨hpos, b1, b2, b3⟩ := sector_bounds hwf hc
  obtain ⟨hseg, hs, he⟩ :=
    Device.sector_of_contained d info hmap hfind hwf hc h0 (hbound seg hmem)
  exact ⟨seg, _, _, hseg, hmem, hc, hs, he, b2, b3, by ring⟩


/-! ## `erase` only erases erasable sectors -/

theorem liftOutcome_emits {α : Type} {P : DFU.Event → Prop} (o : Outcome α) :
    DFU.Run.Emits P (liftOutcome o) := fun tr => ⟨[], by simp [liftOutcome], by simp⟩

theorem Device.sendCommand_emits (d : Device) (fuel command : Nat) (payload : List Nat) :
    DFU.Run.Emits DFU.Event.isWire (Device.dfuseCommand.sendCommand d fuel command payload) := by
  unfold Device.dfuseCommand.sendCommand
  refine DFU.Run.Emits.bind (DFU.Run.Emits.tryCatch (DFU.Device.requestOut_emits _ _ _ _)
    (fun _ => DFU.Run.Emits.throw _)) (fun _ => ?_)
  refine DFU.Run.Emits.bind ((DFU.Device.poll_until_emits _ _ _).mono
    (fun e he => he.isWire)) (fun st => ?_)
  split
  · exact DFU.Run.Emits.throw _
  · exact DFU.Run.Emits.pure _

/-- A `dfuseCommand` adds its entry marker and, after it, USB requests only. -/
theorem Device.dfuseCommand_emits (d : Device) (fuel command : Nat) (param : Option Int)
    (len : Option Nat) :
    DFU.Run.Emits (fun e => e.isWire ∨ e = .dfuseCommand command param len)
      (d.dfuseCommand fuel command param len) := by
  unfold Device.dfuseCommand
  refine DFU.Run.Emits.bind (DFU.Run.Emits.emit (Or.inr rfl)) (fun _ => ?_)
  split
  rename_i param1 len1 _
  split
  · exact DFU.Run.Emits.throw _
  · simp only
    split
    · exact (Device.sendCommand_emits _ _ _ _).mono (fun e he => Or.inl he)
    · split
      · exact (Device.sendCommand_emits _ _ _ _).mono (fun e he => Or.inl he)
      · exact DFU.Run.Emits.throw _

theorem Device.reresolve_spec (d : Device) (info : MemoryInfo) (hmap : d.memoryInfo = some info)
    (addr : Int) (segment : Segment) (hseg : segment ∈ info.segments)
    (hstart : segment.start ≤ addr) (tr : List DFU.Event) :
    (d.reresolve addr segment tr).1 = tr ∧
      ∀ s, (d.reresolve addr segment tr).2 = .ok s → s ∈ info.segments ∧ s.Contains addr := by
  unfold Device.reresolve
  split
  · unfold Device.getSegment
    rw [hmap]
    simp only
    cases hf : info.segments.find? (fun segment => decide (segment.start ≤ addr) && decide (addr < segment.end)) with
    | none => exact ⟨rfl, fun s hs => by cases hs⟩
    | some s0 =>
      refine ⟨rfl, fun s hs => ?_⟩
      have : s0 = s := by
        simpa [Pure.pure, DFU.Run.pure] using hs
      subst this
      have h1 := List.find?_some hf
      exact ⟨List.mem_of_find?_eq_some hf, by simpa [Segment.Contains] using h1⟩
  · refine ⟨rfl, fun s hs => ?_⟩
    have : segment = s := by
      simpa [Pure.pure, DFU.Run.pure] using hs
    subst this
    exact ⟨hseg, hstart, by omega⟩

/-- The four bytes that `setUint32` writes for an address from 0 to below `2^32`. -/
theorem Device.uint32LE_of_range (a : Nat) (h : a < 4294967296) :
    Device.uint32LE (a : Int) = [a % 256, a / 256 % 256, a / 65536 % 256, a / 16777216 % 256] := by
  have h1 : ((a : Int) % 4294967296).toNat = a := by omega
  simp [Device.uint32LE, h1]

/-- The events of the rest of `dfuseCommand`: the `DNLOAD` of the payload with block
number 0, and no other transfer out. -/
theorem Device.sendCommand_wire (d : Device) (fuel command : Nat) (payload : List Nat)
    (P : DFU.Event → Prop)
    (h1 : P (.controlTransferOut DFU.DNLOAD 0 d.intfNumber (some payload)))
    (h2 : ∀ e, e.isPoll → P e) :
    DFU.Run.Emits P (Device.dfuseCommand.sendCommand d fuel command payload) := by
  unfold Device.dfuseCommand.sendCommand
  refine DFU.Run.Emits.bind (DFU.Run.Emits.tryCatch
    (DFU.Device.requestOut_emits_of d.toDevice _ _ _ h1 (h2 _ trivial))
    (fun _ => DFU.Run.Emits.throw _)) (fun _ => ?_)
  refine DFU.Run.Emits.bind ((DFU.Device.poll_until_emits _ _ _).mono h2) (fun st => ?_)
  split
  · exact DFU.Run.Emits.throw _
  · exact DFU.Run.Emits.pure _

/-- The events of `dfuseCommand(ERASE_SECTOR, a, 4)` for an address `a` from 0 to below
`2^32`: the transfer out carries the command byte and the four bytes of `a`. -/
theorem Device.eraseCommand_wire (d : Device) (fuel : Nat) (a : Nat) (h : a < 4294967296)
    (P : DFU.Event → Prop)
    (h0 : P (.dfuseCommand ERASE_SECTOR (some (a : Int)) (some 4)))
    (h1 : P (.controlTransferOut DFU.DNLOAD 0 d.intfNumber
      (some [ERASE_SECTOR, a % 256, a / 256 % 256, a / 65536 % 256, a / 16777216 % 256])))
    (h2 : ∀ e, e.isPoll → P e) :
    DFU.Run.Emits P (d.dfuseCommand fuel ERASE_SECTOR (some (a : Int)) (some 4)) := by
  unfold Device.dfuseCommand
  refine DFU.Run.Emits.bind (DFU.Run.Emits.emit h0) (fun _ => ?_)
  simp only [reduceCtorEq, false_and, if_false, Option.getD_some]
  rw [if_neg (by decide), if_pos trivial, Device.uint32LE_of_range a h]
  exact Device.sendCommand_wire d fuel _ _ P h1 h2

theorem Device.eraseLoop_wire (d : Device) (info : MemoryInfo) (hmap : d.memoryInfo = some info)
    (hwf : ∀ seg ∈ info.segments, seg.WellFormed)
    (hrange : ∀ seg ∈ info.segments, 0 ≤ seg.start ∧ seg.end ≤ 4294967296)
    (cmdFuel : Nat) (endAddr : Int) (fuel : Nat) :
    ∀ (addr : Int) (segment : Segment), segment ∈ info.segments → segment.start ≤ addr →
      DFU.Run.Emits (EraseWire info.segments) (d.eraseLoop cmdFuel endAddr fuel addr segment) := by
  induction fuel with
  | zero =>
    intro addr segment _ _
    unfold Device.eraseLoop
    split
    · exact DFU.Run.Emits.stuck
    · exact DFU.Run.Emits.pure _
  | succ n ih =>
    intro addr segment hseg hstart
    unfold Device.eraseLoop
    split
    · simp only
      refine DFU.Run.Emits.bind_of (fun s => s ∈ info.segments ∧ s.Contains addr) ?_ ?_ ?_
      · intro tr
        exact ⟨[], by simp [(Device.reresolve_spec d info hmap addr segment hseg hstart tr).1],
          by simp⟩
      · intro tr s hs
        exact (Device.reresolve_spec d info hmap addr segment hseg hstart tr).2 s hs
      · intro s ⟨hs, hc⟩
        split
        · exact ih _ _ hs (le_of_lt (lt_of_le_of_lt hc.1 hc.2))
        · rename_i hera
          split
          · exact DFU.Run.Emits.stuck
          · obtain ⟨hpos, b1, b2, b3⟩ := sector_bounds (hwf s hs) hc
            obtain ⟨r0, r1⟩ := hrange s hs
            obtain ⟨x1, x2, -, x4⟩ := sector_exact (hwf s hs) hc r0 (by omega)
            have hc2 := hc.2
            simp only [x1, x2, x4]
            obtain ⟨a, ha⟩ : ∃ a : Nat,
                s.start + Int.fdiv (addr - s.start) s.sectorSize * s.sectorSize = (a : Int) :=
              ⟨_, (Int.toNat_of_nonneg (by omega)).symm⟩
            rw [ha] at b1 b2 ⊢
            refine DFU.Run.Emits.bind
              (Device.eraseCommand_wire d cmdFuel a (by omega) _ trivial ?_ ?_) (fun _ => ?_)
            · exact ⟨rfl, rfl, a, by omega, rfl, s, hs, by simpa using hera, b1, by omega⟩
            · intro e he
              cases e <;> trivial
            · exact ih _ _ hs (by omega)
    · exact DFU.Run.Emits.pure _

theorem Device.erase_wire (d : Device) (info : MemoryInfo) (hmap : d.memoryInfo = some info)
    (hwf : ∀ seg ∈ info.segments, seg.WellFormed)
    (hrange : ∀ seg ∈ info.segments, 0 ≤ seg.start ∧ seg.end ≤ 4294967296)
    (fuel : Nat) (startAddr length : Int) :
    DFU.Run.Emits (EraseWire info.segments) (d.erase fuel startAddr length) := by
  unfold Device.erase
  refine DFU.Run.Emits.bind_of (fun s => d.getSegment startAddr = .ok s) (liftOutcome_emits _)
    (fun tr a h => by simpa [liftOutcome] using h) (fun segment hsegment => ?_)
  refine DFU.Run.Emits.bind_of (fun a => d.getSectorStart startAddr (some segment) = .ok a)
    (liftOutcome_emits _) (fun tr a h => by simpa [liftOutcome] using h) (fun addr haddr => ?_)
  refine DFU.Run.Emits.bind (liftOutcome_emits _) (fun endAddr => ?_)
  split
  · rename_i seg
    have hfind : seg ∈ info.segments ∧ seg.Contains startAddr := by
      unfold Device.getSegment at hsegment
      rw [hmap] at hsegment
      simp only [Outcome.ok.injEq] at hsegment
      have h1 := List.find?_some hsegment
      exact ⟨List.mem_of_find?_eq_some hsegment, by simpa [Segment.Contains] using h1⟩
    obtain ⟨hpos, b1, b2, b3⟩ := sector_bounds (hwf seg hfind.1) hfind.2
    obtain ⟨r0, r1⟩ := hrange seg hfind.1
    obtain ⟨x1, x2, -, -⟩ := sector_exact (hwf seg hfind.1) hfind.2 r0 (by omega)
    have : addr = seg.start + Int.fdiv (startAddr - seg.start) seg.sectorSize * seg.sectorSize := by
      unfold Device.getSectorStart Device.resolveSegment at haddr
      simp only [if_neg (ne_of_gt hpos), Outcome.ok.injEq, x1, x2] at haddr
      exact haddr.symm
    exact Device.eraseLoop_wire d info hmap hwf hrange _ _ _ _ _ hfind.1 (by omega)
  · exact DFU.Run.Emits.throw _

set_option maxRecDepth 8000 in
/-- C9, as stated, fails: the address of an `ERASE_SECTOR` command goes out in 4 bytes,
modulo `2^32`. On the map parsed from `@X/0xFFFFF000/2*4Kg`, whose one segment runs
from `0xFFFFF000` to `0x100001000`, `erase(0xFFFFF000, 0x2000)` sends the commands for
the sectors at `0xFFFFF000` and at `0x100000000`; the second carries the address 0,
which lies in no segment of the map. -/
theorem erase_address_wraps_at_32_bits :
    segmentsOf "@X/0xFFFFF000/2*4Kg" = some [
      { start := 0xFFFFF000, sectorSize := 0x1000, «end» := 0x100001000,
        readable := true, erasable := true, writable := true }] ∧
    transfersOut (eraseOf "@X/0xFFFFF000/2*4Kg" 8 0xFFFFF000 0x2000).1 =
      [(DFU.DNLOAD, 0, some [ERASE_SECTOR, 0x00, 0xF0, 0xFF, 0xFF]),
       (DFU.DNLOAD, 0, some [ERASE_SECTOR, 0, 0, 0, 0])] ∧
    ¬ (({ start := 0xFFFFF000, sectorSize := 0x1000, «end» := 0x100001000,
          readable := true, erasable := true, writable := true } : Segment).Contains 0) := by
  decide

/-- C9, amended: `erase` never issues an `ERASE_SECTOR` command for a non-erasable
sector when the map lies in the 32-bit address space. For every memory map whose
segments satisfy the data-model invariant, start at 0 or above and end at `2^32` or
below, every `startAddr` and `length`, every device and every bound on the length of
the run, each transfer out sent during `erase(startAddr, length)` is a `DNLOAD` with
block number 0 whose payload is the byte `ERASE_SECTOR` followed by the four
little-endian bytes of an address that lies inside an erasable segment of the map. -/
theorem erase_commands_hit_erasable_segments (d : Device) (info : MemoryInfo)
    (hmap : d.memoryInfo = some info) (hwf : ∀ seg ∈ info.segments, seg.WellFormed)
    (hrange : ∀ seg ∈ info.segments, 0 ≤ seg.start ∧ seg.end ≤ 4294967296)
    (fuel : Nat) (startAddr length : Int) (request value index : Nat)
    (data : Option (List Nat))
    (hsent : DFU.Event.controlTransferOut request value index data ∈
      (d.erase fuel startAddr length []).1) :
    request = DFU.DNLOAD ∧ value = 0 ∧ ∃ a : Nat, a < 4294967296 ∧
      data = some [ERASE_SECTOR, a % 256, a / 256 % 256, a / 65536 % 256, a / 16777216 % 256] ∧
      ∃ seg ∈ info.segments, seg.erasable = true ∧ seg.Contains (a : Int) := by
  obtain ⟨evs, h1, h2⟩ := Device.erase_wire d info hmap hwf hrange fuel startAddr length []
  rw [h1, List.nil_append] at hsent
  exact h2 _ hsent

end DFUse

namespace DFU
open JS

/-! ## Generic download: the `DNLOAD` requests of `do_download` -/

theorem Run.bind_ok {α β : Type} {x : Run α} {f : α → Run β} {tr tr1 : List Event} {a : α}
    (h : x tr = (tr1, .ok a)) : (x >>= f) tr = f a tr1 := by
  show Run.bind x f tr = _
  unfold Run.bind
  rw [h]

theorem Run.tryCatch_ok {α : Type} {x : Run α} {h : Thrown → Run α} {tr tr1 : List Event} {a : α}
    (hx : x tr = (tr1, .ok a)) : Run.tryCatch x h tr = (tr1, .ok a) := by
  unfold Run.tryCatch
  rw [hx]

theorem Run.bind_eq_ok {α β : Type} {x : Run α} {f : α → Run β} {tr tr1 : List Event} {b : β}
    (h : (x >>= f) tr = (tr1, .ok b)) :
    ∃ tr0 a, x tr = (tr0, .ok a) ∧ f a tr0 = (tr1, .ok b) := by
  change Run.bind x f tr = _ at h
  unfold Run.bind at h
  rcases hx : x tr with ⟨tr0, o⟩
  rw [hx] at h
  cases o with
  | ok a => exact ⟨tr0, a, rfl, h⟩
  | throw e => simp at h
  | stuck => simp at h

theorem Run.Emits.filter_eq {α : Type} {P : Event → Prop} {x : Run α} (hx : Run.Emits P x)
    (q : Event → Bool) (hq : ∀ e, P e → q e = false) (tr : List Event) :
    (x tr).1.filter q = tr.filter q := by
  obtain ⟨evs, h1, h2⟩ := hx tr
  rw [h1, List.filter_append]
  have : evs.filter q = [] := by
    rw [List.filter_eq_nil_iff]
    intro e he
    simp [hq e (h2 e he)]
  rw [this, List.append_nil]

namespace Device

theorem pollLoop_mono (d : Device) (p : Nat → Bool) {n : Nat} :
    ∀ {m : Nat} {st : Status} {tr tr1 : List Event} {s : Status},
      pollLoop d p n st tr = (tr1, .ok s) → n ≤ m → pollLoop d p m st tr = (tr1, .ok s) := by
  induction n with
  | zero =>
    intro m st tr tr1 s h _
    unfold pollLoop at h ⊢
    split
    · rename_i hc
      rw [if_pos hc] at h
      simp [Run.stuck] at h
    · rename_i hc
      rw [if_neg hc] at h
      exact h
  | succ n ih =>
    intro m st tr tr1 s h hnm
    obtain ⟨m, rfl⟩ : ∃ m', m = m' + 1 := ⟨m - 1, by omega⟩
    unfold pollLoop at h ⊢
    split
    · rename_i hc
      rw [if_pos hc] at h
      simp only at h ⊢
      obtain ⟨tr0, u, h1, h2⟩ := Run.bind_eq_ok h
      obtain ⟨tr2, next, h3, h4⟩ := Run.bind_eq_ok h2
      rw [Run.bind_ok h1, Run.bind_ok h3]
      exact ih h4 (by omega)
    · rename_i hc
      rw [if_neg hc] at h
      exact h

theorem poll_until_mono (d : Device) (p : Nat → Bool) {n m : Nat} {tr tr1 : List Event}
    {s : Status} (h : d.poll_until n p tr = (tr1, .ok s)) (hnm : n ≤ m) :
    d.poll_until m p tr = (tr1, .ok s) := by
  unfold poll_until at h ⊢
  obtain ⟨tr0, st, h1, h2⟩ := Run.bind_eq_ok h
  rw [Run.bind_ok h1]
  exact pollLoop_mono d p h2 hnm

theorem manifestPoll_emits (d : Device) (pollFuel : Nat) (mt : Bool) :
    Run.Emits (fun e => e.isDnload = false) (manifestPoll d pollFuel mt) := by
  have hpoll : ∀ e : Event, e.isPoll → e.isDnload = false := by
    intro e he
    cases e <;> simp_all [Event.isPoll, Event.isDnload]
  unfold manifestPoll
  split
  · refine Run.Emits.tryCatch ?_ (fun error => ?_)
    · refine Run.Emits.bind ((poll_until_emits _ _ _).mono hpoll) (fun st => ?_)
      split
      · exact Run.Emits.throw _
      · exact Run.Emits.pure _
    · split
      · split
        · exact Run.Emits.pure _
        · exact Run.Emits.throw _
      · exact Run.Emits.throw _
  · exact Run.Emits.tryCatch (Run.Emits.bind ((getStatus_emits _).mono hpoll)
      (fun _ => Run.Emits.pure _)) (fun _ => Run.Emits.pure _)

theorem resetDevice_emits (d : Device) :
    Run.Emits (fun e => e.isDnload = false) (resetDevice d) := by
  unfold resetDevice
  refine Run.Emits.tryCatch (Run.Emits.call (by simp [Event.isDnload]) _) (fun error => ?_)
  split
  · exact Run.Emits.pure _
  · exact Run.Emits.throw _

/-- One accepted `DNLOAD`: the request is recorded and the whole chunk is
reported written. -/
theorem download_accepted (d : Device) (chunk : List Nat) (blockNum : Nat) (tr : List Event)
    (hout : d.device_.controlTransferOut tr DNLOAD blockNum d.intfNumber (some chunk) =
      .ok { status := .ok, bytesWritten := chunk.length }) :
    d.download chunk blockNum tr =
      (tr ++ [.controlTransferOut DNLOAD blockNum d.intfNumber (some chunk)], .ok chunk.length) := by
  unfold download requestOut
  have h1 : Run.call (.controlTransferOut DNLOAD blockNum d.intfNumber (some chunk))
      (fun tr => d.device_.controlTransferOut tr DNLOAD blockNum d.intfNumber (some chunk)) tr =
      (tr ++ [.controlTransferOut DNLOAD blockNum d.intfNumber (some chunk)],
        .ok { status := .ok, bytesWritten := chunk.length }) := by
    simp only [Run.call, hout]
  rw [Run.bind_ok h1]
  simp [Pure.pure, Run.pure]


theorem ceil_div_le {len x i : Nat} (h : (len + x - 1) / x ≤ i) (hx : 1 ≤ x) : len ≤ i * x := by
  have h1 := Nat.div_add_mod (len + x - 1) x
  have h2 := Nat.mod_lt (len + x - 1) (by omega : x > 0)
  have h3 : x * ((len + x - 1) / x) ≤ x * i := Nat.mul_le_mul_left x h
  have h4 : i * x = x * i := Nat.mul_comm _ _
  omega

theorem lt_ceil_div {len x i : Nat} (h : i < (len + x - 1) / x) : i * x < len := by
  have h1 := Nat.div_add_mod (len + x - 1) x
  have h3 : x * (i + 1) ≤ x * ((len + x - 1) / x) := Nat.mul_le_mul_left x h
  have h4 : i * x = x * i := Nat.mul_comm _ _
  have h5 : x * (i + 1) = x * i + x := Nat.mul_succ _ _
  have hx : 0 < x := by
    rcases Nat.eq_zero_or_pos x with h0 | h0
    · subst h0; simp at h
    · exact h0
  omega

/-- The data loop of `do_download` against a device that accepts every block:
from block `i` on, it sends the remaining blocks in order and returns. -/
theorem downloadLoop_run (d : Device) (x : Nat) (data : List Nat) (hx : 1 ≤ x)
    (hout : ∀ tr blockNum chunk,
      d.device_.controlTransferOut tr DNLOAD blockNum d.intfNumber (some chunk) =
        .ok { status := .ok, bytesWritten := chunk.length })
    (hpoll : ∀ tr blockNum chunk, ∃ n tr1 st,
      d.poll_until_idle n dfuDNLOAD_IDLE
          (tr ++ [.controlTransferOut DNLOAD blockNum d.intfNumber (some chunk)]) = (tr1, .ok st) ∧
        st.state = dfuDNLOAD_IDLE ∧ st.status = STATUS_OK) :
    ∀ (k i : Nat) (tr : List Event), (data.length + x - 1) / x - i = k →
      ∃ N tr1, (∀ pf fuel, N ≤ pf → k ≤ fuel →
          downloadLoop d pf x data fuel (min (i * x) data.length) i tr =
            (tr1, .ok (data.length, i + k))) ∧
        tr1.filter Event.isDnload = tr.filter Event.isDnload ++
          (List.range' i k).map (fun j =>
            Event.controlTransferOut DNLOAD j d.intfNumber (some ((data.drop (j * x)).take x))) := by
  intro k
  induction k with
  | zero =>
    intro i tr hk
    have hle : data.length ≤ i * x := ceil_div_le (by omega) hx
    refine ⟨0, tr, ?_, by simp⟩
    intro pf fuel _ _
    unfold downloadLoop
    simp only [Nat.min_eq_right hle, lt_irrefl, if_false, Nat.add_zero]
    rfl
  | succ k ih =>
    intro i tr hk
    have hlt : i * x < data.length := lt_ceil_div (by omega)
    have hbs : min (i * x) data.length = i * x := Nat.min_eq_left (le_of_lt hlt)
    have hchunk : List.take (min (data.length - i * x) x) (List.drop (i * x) data) =
        (data.drop (i * x)).take x := by
      rw [List.take_eq_take]
      simp only [List.length_drop]
      omega
    have hlen : ((data.drop (i * x)).take x).length = min x (data.length - i * x) := by
      simp [List.length_take, List.length_drop]
    obtain ⟨n0, tr0, st, hp, -, hst⟩ := hpoll tr i ((data.drop (i * x)).take x)
    obtain ⟨N, tr1, hrun, hfilter⟩ := ih (i + 1) tr0 (by omega)
    refine ⟨max n0 N, tr1, ?_, ?_⟩
    · intro pf fuel hpf hfuel
      obtain ⟨fuel, rfl⟩ : ∃ f, fuel = f + 1 := ⟨fuel - 1, by omega⟩
      unfold downloadLoop
      simp only [hbs, hlt, if_true, hchunk]
      have hd := download_accepted d ((data.drop (i * x)).take x) i tr (hout _ _ _)
      have hp2 : d.poll_until_idle pf dfuDNLOAD_IDLE
          (tr ++ [.controlTransferOut DNLOAD i d.intfNumber (some ((data.drop (i * x)).take x))]) =
          (tr0, .ok st) := poll_until_mono d _ hp (by omega)
      have hbody : Run.tryCatch
          (do
            let bytes_written ← d.download ((data.drop (i * x)).take x) i
            let dfu_status ← d.poll_until_idle pf dfuDNLOAD_IDLE
            pure (bytes_written, dfu_status))
          (fun error => Run.throw (newError ("Error during DFU download: " ++ error.toString))) tr =
          (tr0, .ok (((data.drop (i * x)).take x).length, st)) := by
        apply Run.tryCatch_ok
        rw [Run.bind_ok hd, Run.bind_ok hp2]
        rfl
      rw [Run.bind_ok hbody]
      simp only [hst, ne_eq, not_true_eq_false, if_false]
      have hnext : i * x + ((data.drop (i * x)).take x).length = min ((i + 1) * x) data.length := by
        rw [hlen, Nat.succ_mul]
        omega
      rw [hnext, hrun pf fuel (by omega) (by omega)]
      congr 3
      omega
    · rw [hfilter]
      have h0 : tr0.filter Event.isDnload =
          (tr ++ [Event.controlTransferOut DNLOAD i d.intfNumber (some ((data.drop (i * x)).take x))]).filter
            Event.isDnload := by
        have := (poll_until_emits d n0 (fun state => state == dfuDNLOAD_IDLE)).filter_eq
          Event.isDnload (by intro e he; cases e <;> simp_all [Event.isPoll, Event.isDnload])
          (tr ++ [Event.controlTransferOut DNLOAD i d.intfNumber (some ((data.drop (i * x)).take x))])
        unfold poll_until_idle at hp
        rw [hp] at this
        exact this
      rw [h0, List.filter_append, List.range'_succ]
      simp [Event.isDnload]

end Device


/-- C1: generic `do_download` against a device that accepts every `DNLOAD` (reporting
the whole chunk written) and whose status poll after each `DNLOAD` ends in
`dfuDNLOAD_IDLE` with status OK. For every payload and every `xferSize >= 1`, once the
loop budget is large enough, the `DNLOAD` requests issued are exactly
`ceil(len / xferSize)` data blocks numbered 0, 1, 2, ... in order, block `i` holding the
next `min(xferSize, remaining)` bytes of the payload, followed by exactly one empty
`DNLOAD` with the next block number, whatever happens during manifestation. -/
theorem do_download_dnload_requests (d : Device) (xferSize : Nat) (data : List Nat)
    (hx : 1 ≤ xferSize)
    (hout : ∀ tr blockNum chunk,
      d.device_.controlTransferOut tr DNLOAD blockNum d.intfNumber (some chunk) =
        .ok { status := .ok, bytesWritten := chunk.length })
    (hpoll : ∀ tr blockNum chunk, ∃ n tr1 st,
      d.poll_until_idle n dfuDNLOAD_IDLE
          (tr ++ [.controlTransferOut DNLOAD blockNum d.intfNumber (some chunk)]) = (tr1, .ok st) ∧
        st.state = dfuDNLOAD_IDLE ∧ st.status = STATUS_OK) :
    ∃ N, ∀ fuel, N ≤ fuel → ∀ manifestationTolerant,
      (d.do_download fuel xferSize data manifestationTolerant []).1.filter Event.isDnload =
        expectedDownloadRequests d.intfNumber xferSize data := by
  obtain ⟨N, tr1, hrun, hfilter⟩ :=
    Device.downloadLoop_run d xferSize data hx hout hpoll _ 0 [] rfl
  refine ⟨max N ((data.length + xferSize - 1) / xferSize), ?_⟩
  intro fuel hfuel mt
  have hloop := hrun fuel fuel (by omega) (by omega)
  simp only [Nat.zero_mul, Nat.zero_min, Nat.zero_add, Nat.sub_zero] at hloop
  unfold Device.do_download
  rw [Run.bind_ok hloop]
  simp only
  have hd := Device.download_accepted d [] ((data.length + xferSize - 1) / xferSize) tr1
    (hout _ _ _)
  have hfinal : Run.tryCatch (d.download [] ((data.length + xferSize - 1) / xferSize))
      (fun error => Run.throw (newError ("Error during final DFU download: " ++ error.toString)))
      tr1 = (tr1 ++ [Event.controlTransferOut DNLOAD ((data.length + xferSize - 1) / xferSize)
        d.intfNumber (some [])], .ok 0) := Run.tryCatch_ok hd
  rw [Run.bind_ok hfinal]
  have hrest : Run.Emits (fun e => e.isDnload = false)
      (Device.manifestPoll d fuel mt >>= fun _ => Device.resetDevice d) :=
    Run.Emits.bind (Device.manifestPoll_emits d fuel mt) (fun _ => Device.resetDevice_emits d)
  have := hrest.filter_eq Event.isDnload (fun e he => he)
    (tr1 ++ [Event.controlTransferOut DNLOAD ((data.length + xferSize - 1) / xferSize)
        d.intfNumber (some [])])
  rw [this, List.filter_append, hfilter]
  simp [expectedDownloadRequests, Event.isDnload, List.range_eq_range']


/-- Witness for C1: the accepting device, 130 bytes and `xferSize` 64 (scenario 2). -/
theorem do_download_dnload_requests_witness :
    (1 ≤ 64) ∧
    (∀ tr blockNum chunk,
      (acceptingDevice dfuDNLOAD_IDLE).controlTransferOut tr DNLOAD blockNum 0 (some chunk) =
        .ok { status := .ok, bytesWritten := chunk.length }) ∧
    (∀ tr blockNum chunk, ∃ n tr1 st,
      Device.poll_until_idle { device_ := acceptingDevice dfuDNLOAD_IDLE, intfNumber := 0 } n
          dfuDNLOAD_IDLE (tr ++ [.controlTransferOut DNLOAD blockNum 0 (some chunk)]) =
            (tr1, .ok st) ∧
        st.state = dfuDNLOAD_IDLE ∧ st.status = STATUS_OK) ∧
    ∃ N, ∀ fuel, N ≤ fuel → ∀ manifestationTolerant,
      (Device.do_download { device_ := acceptingDevice dfuDNLOAD_IDLE, intfNumber := 0 } fuel 64
          (List.replicate 130 0xFF) manifestationTolerant []).1.filter Event.isDnload =
        expectedDownloadRequests 0 64 (List.replicate 130 0xFF) :=
  ⟨by decide, fun _ _ _ => rfl, fun _ _ _ => ⟨0, _, _, rfl, rfl, rfl⟩,
   do_download_dnload_requests { device_ := acceptingDevice dfuDNLOAD_IDLE, intfNumber := 0 } 64
     (List.replicate 130 0xFF) (by decide) (fun _ _ _ => rfl)
     (fun _ _ _ => ⟨0, _, _, rfl, rfl, rfl⟩)⟩

end DFU

namespace DFUse
open JS

/-- Witness for C8: the map of scenario 1 and the address `0x08012345`. -/
theorem sector_start_le_addr_lt_sector_end_witness :
    parseMemoryDescriptor "@Flash/0x08000000/4*016Kg,1*064Kg,7*128Kg".toList = .ok scenario1Map ∧
    (∀ seg ∈ scenario1Map.segments, seg.end < 9007199254740992) ∧
    scenario1Device.memoryInfo = some scenario1Map ∧
    (∃ seg ∈ scenario1Map.segments, seg.Contains 0x08012345) ∧
    ∃ seg s e, scenario1Device.getSegment 0x08012345 = .ok (some seg) ∧
      seg ∈ scenario1Map.segments ∧ seg.Contains 0x08012345 ∧
      scenario1Device.getSectorStart 0x08012345 none = .ok s ∧
      scenario1Device.getSectorEnd 0x08012345 none = .ok e ∧
      s ≤ 0x08012345 ∧ 0x08012345 < e ∧ e - s = seg.sectorSize :=
  ⟨scenario1_eval, by decide, rfl, by decide,
   sector_start_le_addr_lt_sector_end scenario1Device
     "@Flash/0x08000000/4*016Kg,1*064Kg,7*128Kg".toList scenario1Map 0x08012345
     scenario1_eval (by decide) rfl (by decide)⟩

/-- Witness for C9: `erase(0x0800FFFF, 2)` on the map of scenario 1 sends an
`ERASE_SECTOR` for the sector at `0x08010000`, in the bytes `00 00 01 08`. -/
theorem erase_commands_hit_erasable_segments_witness :
    scenario1Device.memoryInfo = some scenario1Map ∧
    (∀ seg ∈ scenario1Map.segments, seg.WellFormed) ∧
    (∀ seg ∈ scenario1Map.segments, 0 ≤ seg.start ∧ seg.end ≤ 4294967296) ∧
    DFU.Event.controlTransferOut DFU.DNLOAD 0 0 (some [ERASE_SECTOR, 0x00, 0x00, 0x01, 0x08]) ∈
      (scenario1Device.erase 4 0x0800FFFF 2 []).1 ∧
    (DFU.DNLOAD = DFU.DNLOAD ∧ 0 = 0 ∧ ∃ a : Nat, a < 4294967296 ∧
      some [ERASE_SECTOR, 0x00, 0x00, 0x01, 0x08] =
        some [ERASE_SECTOR, a % 256, a / 256 % 256, a / 65536 % 256, a / 16777216 % 256] ∧
      ∃ seg ∈ scenario1Map.segments, seg.erasable = true ∧ seg.Contains (a : Int)) :=
  ⟨rfl, by decide, by decide, by decide,
   erase_commands_hit_erasable_segments scenario1Device scenario1Map rfl (by decide)
     (by decide) 4 0x0800FFFF 2 DFU.DNLOAD 0 0 (some [ERASE_SECTOR, 0x00, 0x00, 0x01, 0x08])
     (by decide)⟩

/-! ## `erase` on one contiguous block, for a range that is not empty -/

/-- Segments chained end to start, each with `start ≤ end`, are ordered. -/
theorem chain_pairwise :
    ∀ (l : List Segment), (∀ s ∈ l, s.start ≤ s.end) →
      List.Chain' (fun s t => t.start = s.end) l →
      List.Pairwise (fun s t => s.end ≤ t.start) l := by
  intro l
  induction l with
  | nil => intro _ _; exact List.Pairwise.nil
  | cons s rest ih =>
    intro hwf hch
    have hrest := ih (fun s hs => hwf s (List.mem_cons_of_mem _ hs)) (List.Chain'.tail hch)
    refine List.Pairwise.cons ?_ hrest
    intro t ht
    cases rest with
    | nil => simp at ht
    | cons r rest' =>
      have hr : r.start = s.end := by
        simpa using (List.chain'_cons.1 hch).1
      rcases List.mem_cons.1 ht with rfl | ht'
      · omega
      · have h1 := (List.pairwise_cons.1 hrest).1 t ht'
        have h2 := hwf r (List.mem_cons_of_mem _ (List.mem_cons_self _ _))
        omega

/-- In a contiguous block an address lies inside at most one segment. -/
theorem block_unique {segs : List Segment} (hb : ContiguousBlock segs) :
    ∀ s ∈ segs, ∀ t ∈ segs, ∀ x, s.Contains x → t.Contains x → s = t := by
  intro s hs t ht x hsx htx
  by_contra hne
  have hp := chain_pairwise segs (fun s hs => (hb.1 s hs).2.1) hb.2
  have hsym : Symmetric (fun s t : Segment => s.end ≤ t.start ∨ t.end ≤ s.start) :=
    fun a b h => h.symm
  have hp' : List.Pairwise (fun s t : Segment => s.end ≤ t.start ∨ t.end ≤ s.start) segs :=
    hp.imp (fun h => Or.inl h)
  have := hp'.forall hsym hs ht hne
  obtain ⟨h1, h2⟩ := hsx
  obtain ⟨h3, h4⟩ := htx
  omega

theorem block_covered_from :
    ∀ (l : List Segment), (∀ s ∈ l, s.start ≤ s.end) →
      List.Chain' (fun s t => t.start = s.end) l →
      ∀ q x, (∃ s ∈ l, s.Contains q) → (∀ h ∈ l.head?, h.start ≤ x) → x ≤ q →
        ∃ s ∈ l, s.Contains x := by
  intro l
  induction l with
  | nil => intro _ _ q x hq; simp at hq
  | cons s rest ih =>
    intro hwf hch q x hq hx hxq
    have hsx : s.start ≤ x := hx s (by simp)
    by_cases hlt : x < s.end
    · exact ⟨s, List.mem_cons_self _ _, hsx, hlt⟩
    · obtain ⟨t, ht, htq⟩ := hq
      rcases List.mem_cons.1 ht with rfl | ht'
      · obtain ⟨h1, h2⟩ := htq
        omega
      · obtain ⟨u, hu, hux⟩ := ih (fun s hs => hwf s (List.mem_cons_of_mem _ hs))
          (List.Chain'.tail hch) q x ⟨t, ht', htq⟩
          (by
            intro h hh
            cases rest with
            | nil => simp at hh
            | cons r rest' =>
              simp only [List.head?_cons, Option.mem_def, Option.some.injEq] at hh
              have hr : r.start = s.end := by simpa using (List.chain'_cons.1 hch).1
              rw [← hh]
              omega)
          hxq
        exact ⟨u, List.mem_cons_of_mem _ hu, hux⟩

/-- In a contiguous block the addresses between two addresses inside the map are
inside the map. -/
theorem block_convex :
    ∀ (l : List Segment), (∀ s ∈ l, s.start ≤ s.end) →
      List.Chain' (fun s t => t.start = s.end) l →
      ∀ p q x, (∃ s ∈ l, s.Contains p) → (∃ s ∈ l, s.Contains q) → p ≤ x → x ≤ q →
        ∃ s ∈ l, s.Contains x := by
  intro l
  induction l with
  | nil => intro _ _ p q x hp; simp at hp
  | cons s rest ih =>
    intro hwf hch p q x hp hq hpx hxq
    obtain ⟨t, ht, htp⟩ := hp
    rcases List.mem_cons.1 ht with rfl | ht'
    · exact block_covered_from _ hwf hch q x hq
        (by intro h hh; simp at hh; subst hh; exact le_trans htp.1 hpx) hxq
    · have hord := (List.pairwise_cons.1 (chain_pairwise _ hwf hch)).1
      obtain ⟨u, hu, huq⟩ := hq
      rcases List.mem_cons.1 hu with rfl | hu'
      · have := hord t ht'
        obtain ⟨h1, h2⟩ := htp
        obtain ⟨h3, h4⟩ := huq
        omega
      · obtain ⟨v, hv, hvx⟩ := ih (fun s hs => hwf s (List.mem_cons_of_mem _ hs))
          (List.Chain'.tail hch) p q x ⟨t, ht', htp⟩ ⟨u, hu', huq⟩ hpx hxq
        exact ⟨v, List.mem_cons_of_mem _ hv, hvx⟩

theorem erasedSectors_append (tr1 tr2 : List DFU.Event) :
    erasedSectors (tr1 ++ tr2) = erasedSectors tr1 ++ erasedSectors tr2 := by
  simp [erasedSectors, List.filterMap_append]

theorem erasedSectors_wire (evs : List DFU.Event) (h : ∀ e ∈ evs, e.isWire) :
    erasedSectors evs = [] := by
  unfold erasedSectors
  rw [List.filterMap_eq_nil_iff]
  intro e he
  have := h e he
  cases e <;> simp_all [DFU.Event.isWire]

/-- The trace of one `dfuseCommand`: its entry marker, then USB requests only. -/
theorem Device.dfuseCommand_trace (d : Device) (fuel command : Nat) (param : Option Int)
    (len : Option Nat) (tr : List DFU.Event) :
    ∃ evs, (d.dfuseCommand fuel command param len tr).1 =
        tr ++ (DFU.Event.dfuseCommand command param len :: evs) ∧ ∀ e ∈ evs, e.isWire := by
  have hrest : ∀ (x : DFU.Run Unit), DFU.Run.Emits DFU.Event.isWire x →
      ∃ evs, ((DFU.Run.emit (.dfuseCommand command param len) >>= fun _ => x) tr).1 =
        tr ++ (DFU.Event.dfuseCommand command param len :: evs) ∧ ∀ e ∈ evs, e.isWire := by
    intro x hx
    obtain ⟨evs, h1, h2⟩ := hx (tr ++ [DFU.Event.dfuseCommand command param len])
    refine ⟨evs, ?_, h2⟩
    have he : DFU.Run.emit (.dfuseCommand command param len) tr =
        (tr ++ [DFU.Event.dfuseCommand command param len], .ok ()) := rfl
    rw [DFU.Run.bind_ok he, h1]
    simp
  unfold Device.dfuseCommand
  apply hrest
  split
  rename_i param1 len1 _
  split
  · exact DFU.Run.Emits.throw _
  · simp only
    split
    · exact Device.sendCommand_emits _ _ _ _
    · split
      · exact Device.sendCommand_emits _ _ _ _
      · exact DFU.Run.Emits.throw _

/-- Inside a contiguous block the segment re-resolved at a covered, sector-aligned
address contains that address and keeps it aligned. -/
theorem Device.reresolve_eq (d : Device) (info : MemoryInfo) (hmap : d.memoryInfo = some info)
    (hb : ContiguousBlock info.segments) (addr : Int) (seg : Segment)
    (hseg : seg ∈ info.segments) (hne : seg.start < seg.end) (h1 : seg.start ≤ addr)
    (h2 : addr ≤ seg.end) (hal : seg.sectorSize ∣ addr - seg.start)
    (hcov : ∃ s ∈ info.segments, s.Contains addr) (tr : List DFU.Event) :
    ∃ seg1, d.reresolve addr seg tr = (tr, .ok seg1) ∧ seg1 ∈ info.segments ∧
      seg1.Contains addr ∧ seg1.sectorSize ∣ addr - seg1.start := by
  unfold Device.reresolve
  by_cases hend : seg.end ≤ addr
  · obtain ⟨seg1, hfind, hmem, hc⟩ := find_contains hcov
    have hstart : seg1.start = addr := by
      by_contra hneq
      have hlt : seg1.start < addr := lt_of_le_of_ne hc.1 hneq
      have e1 : seg.Contains (addr - 1) := ⟨by omega, by omega⟩
      have e2 : seg1.Contains (addr - 1) := ⟨by omega, by have := hc.2; omega⟩
      have := block_unique hb seg hseg seg1 hmem (addr - 1) e1 e2
      subst this
      have := hc.2
      omega
    refine ⟨seg1, ?_, hmem, hc, by rw [hstart]; simp⟩
    rw [if_pos hend]
    unfold Device.getSegment
    rw [hmap]
    simp only [hfind]
    rfl
  · refine ⟨seg, ?_, hseg, ⟨h1, by omega⟩, hal⟩
    rw [if_neg hend]
    rfl

/-- The walk of `erase` from `addr` to `endAddr` on a contiguous block, against a
device that accepts every command: it ends, and the sectors it erases are, in
strictly increasing order, the starts of the erasable sectors in `[addr, endAddr)`. -/
theorem Device.eraseLoop_exact (d : Device) (info : MemoryInfo) (hmap : d.memoryInfo = some info)
    (hb : ContiguousBlock info.segments)
    (hrange : ∀ s ∈ info.segments, 0 ≤ s.start ∧ s.end < 9007199254740992)
    (cf : Nat) (endAddr : Int)
    (haccept : ∀ tr a, (d.dfuseCommand cf ERASE_SECTOR (some a) (some 4) tr).2 = .ok ()) :
    ∀ (fuel : Nat) (addr : Int) (seg : Segment) (tr : List DFU.Event),
      (endAddr - addr).toNat ≤ fuel → seg ∈ info.segments → seg.start < seg.end →
      seg.start ≤ addr → addr ≤ seg.end → seg.sectorSize ∣ addr - seg.start →
      (∀ x, addr ≤ x → x < endAddr → ∃ s ∈ info.segments, s.Contains x) →
      ∃ L : List Int, (d.eraseLoop cf endAddr fuel addr seg tr).2 = .ok () ∧
        erasedSectors (d.eraseLoop cf endAddr fuel addr seg tr).1 =
          erasedSectors tr ++ L.map some ∧
        List.Pairwise (· < ·) L ∧
        ∀ x, x ∈ L ↔ (addr ≤ x ∧ x < endAddr ∧ ∃ s ∈ info.segments, s.erasable = true ∧
          s.Contains x ∧ s.sectorSize ∣ x - s.start) := by
  intro fuel
  induction fuel with
  | zero =>
    intro addr seg tr hfuel _ _ _ _ _ _
    have hge : ¬ addr < endAddr := by omega
    refine ⟨[], ?_, ?_, List.Pairwise.nil, ?_⟩
    · unfold Device.eraseLoop; rw [if_neg hge]; rfl
    · unfold Device.eraseLoop; rw [if_neg hge]; simp [Pure.pure, DFU.Run.pure]
    · intro x; simp only [List.not_mem_nil, false_iff]; rintro ⟨h1, h2, -⟩; omega
  | succ f ih =>
    intro addr seg tr hfuel hseg hne h1 h2 hal hcov
    by_cases hlt : addr < endAddr
    · obtain ⟨seg1, hre, hmem, hc, hal1⟩ := Device.reresolve_eq d info hmap hb addr seg hseg hne
        h1 h2 hal (hcov addr (le_refl _) hlt) tr
      have hwf := hb.1 seg1 hmem
      obtain ⟨hpos, -, -, -⟩ := sector_bounds hwf hc
      obtain ⟨x1, x2, -, x4⟩ := sector_exact hwf hc (hrange seg1 hmem).1 (hrange seg1 hmem).2
      have hstep : d.eraseLoop cf endAddr (f + 1) addr seg tr =
          (if (!seg1.erasable) = true then d.eraseLoop cf endAddr f seg1.end seg1
            else if seg1.sectorSize = 0 then DFU.Run.stuck
            else do
              d.dfuseCommand cf ERASE_SECTOR
                (some (seg1.start + Int.fdiv (addr - seg1.start) seg1.sectorSize * seg1.sectorSize))
                (some 4)
              d.eraseLoop cf endAddr f
                (seg1.start + Int.fdiv (addr - seg1.start) seg1.sectorSize * seg1.sectorSize +
                  seg1.sectorSize) seg1) tr := by
        conv_lhs => unfold Device.eraseLoop
        rw [if_pos hlt]
        simp only
        rw [DFU.Run.bind_ok hre]
        simp only [x1, x2, x4]
      rw [hstep]
      by_cases hera : seg1.erasable = true
      · -- an erasable sector: one command, then the next sector
        have hsa : seg1.start + Int.fdiv (addr - seg1.start) seg1.sectorSize * seg1.sectorSize =
            addr := by
          rw [Int.fdiv_eq_ediv _ (le_of_lt hpos), Int.ediv_mul_cancel hal1]
          omega
        have hnext : addr + seg1.sectorSize ≤ seg1.end := by
          have hd : seg1.sectorSize ∣ seg1.end - addr := by
            have := Int.dvd_sub hwf.2.2 hal1
            have e : seg1.end - seg1.start - (addr - seg1.start) = seg1.end - addr := by omega
            rwa [e] at this
          have := Int.le_of_dvd (by have := hc.2; omega) hd
          omega
        simp only [hera, Bool.not_true, Bool.false_eq_true, if_false, if_neg (ne_of_gt hpos), hsa]
        obtain ⟨evs, htr, hwire⟩ := Device.dfuseCommand_trace d cf ERASE_SECTOR (some addr)
          (some 4) tr
        have hcmd : d.dfuseCommand cf ERASE_SECTOR (some addr) (some 4) tr =
            (tr ++ (DFU.Event.dfuseCommand ERASE_SECTOR (some addr) (some 4) :: evs), .ok ()) := by
          rw [← htr, ← haccept tr addr]
        rw [DFU.Run.bind_ok hcmd]
        obtain ⟨L, hok, htrace, hpw, hL⟩ := ih (addr + seg1.sectorSize) seg1
          (tr ++ (DFU.Event.dfuseCommand ERASE_SECTOR (some addr) (some 4) :: evs))
          (by omega) hmem (by have := hc.1; have := hc.2; omega) (by have := hc.1; omega) hnext
          (by
            have e : addr + seg1.sectorSize - seg1.start = (addr - seg1.start) + seg1.sectorSize := by
              omega
            rw [e]
            exact Int.dvd_add hal1 (Int.dvd_refl _))
          (fun x hx1 hx2 => hcov x (by omega) hx2)
        refine ⟨addr :: L, hok, ?_, ?_, ?_⟩
        · rw [htrace, erasedSectors_append]
          have : erasedSectors (DFU.Event.dfuseCommand ERASE_SECTOR (some addr) (some 4) :: evs) =
              [some addr] := by
            have h0 := erasedSectors_wire evs hwire
            simp only [erasedSectors] at h0 ⊢
            simp [List.filterMap_cons, h0]
          rw [this]
          simp
        · refine List.Pairwise.cons ?_ hpw
          intro x hx
          have := ((hL x).1 hx).1
          omega
        · intro x
          simp only [List.mem_cons, hL x]
          constructor
          · rintro (rfl | ⟨hx1, hx2, hx3⟩)
            · exact ⟨le_refl _, hlt, seg1, hmem, hera, hc, hal1⟩
            · exact ⟨by omega, hx2, hx3⟩
          · rintro ⟨hx1, hx2, s, hs, hse, hsc, hsd⟩
            by_cases hxa : x = addr
            · exact Or.inl hxa
            · refine Or.inr ⟨?_, hx2, s, hs, hse, hsc, hsd⟩
              by_contra hcon
              have hx3 : x < addr + seg1.sectorSize := by omega
              have hin : seg1.Contains x := ⟨by have := hc.1; omega, by omega⟩
              have := block_unique hb s hs seg1 hmem x hsc hin
              subst this
              have hd : s.sectorSize ∣ x - addr := by
                have := Int.dvd_sub hsd hal1
                have e : x - s.start - (addr - s.start) = x - addr := by omega
                rwa [e] at this
              have := Int.le_of_dvd (by omega) hd
              omega
      · -- a segment that is not erasable: skipped whole
        have hera' : seg1.erasable = false := by simpa using hera
        simp only [hera', Bool.not_false, if_true]
        obtain ⟨L, hok, htrace, hpw, hL⟩ := ih seg1.end seg1 tr
          (by have := hc.2; omega) hmem (by have := hc.1; have := hc.2; omega) hwf.2.1 (le_refl _)
          hwf.2.2 (fun x hx1 hx2 => hcov x (by have := hc.2; omega) hx2)
        refine ⟨L, hok, htrace, hpw, ?_⟩
        intro x
        rw [hL x]
        constructor
        · rintro ⟨hx1, hx2, hx3⟩
          exact ⟨by have := hc.2; omega, hx2, hx3⟩
        · rintro ⟨hx1, hx2, s, hs, hse, hsc, hsd⟩
          refine ⟨?_, hx2, s, hs, hse, hsc, hsd⟩
          by_contra hcon
          have hin : seg1.Contains x := ⟨by have := hc.1; omega, by omega⟩
          have := block_unique hb s hs seg1 hmem x hsc hin
          subst this
          rw [hse] at hera'
          cases hera'
    · refine ⟨[], ?_, ?_, List.Pairwise.nil, ?_⟩
      · unfold Device.eraseLoop; rw [if_neg hlt]; rfl
      · unfold Device.eraseLoop; rw [if_neg hlt]; simp [Pure.pure, DFU.Run.pure]
      · intro x; simp only [List.not_mem_nil, false_iff]; rintro ⟨h1, h2, -⟩; omega

/-- `erase` on one contiguous block of segments between 0 and `2^53`, for a range of
at least one byte that lies inside the map, against a device that accepts every
command: the run returns, and the
`ERASE_SECTOR` commands it issues are exactly the start addresses of the erasable
sectors that overlap `[startAddr, startAddr + length)`, each once, in strictly
increasing address order. -/
theorem erase_nonempty_range_exact (d : Device) (info : MemoryInfo)
    (hmap : d.memoryInfo = some info) (hb : ContiguousBlock info.segments)
    (hrange : ∀ s ∈ info.segments, 0 ≤ s.start ∧ s.end < 9007199254740992)
    (startAddr length : Int) (hlen : 1 ≤ length)
    (hin1 : ∃ s ∈ info.segments, s.Contains startAddr)
    (hin2 : ∃ s ∈ info.segments, s.Contains (startAddr + length - 1))
    (F : Nat)
    (haccept : ∀ fuel, F ≤ fuel → ∀ tr a,
      (d.dfuseCommand fuel ERASE_SECTOR (some a) (some 4) tr).2 = .ok ()) :
    ∃ N, ∀ fuel, N ≤ fuel →
      ∃ L : List Int, (d.erase fuel startAddr length []).2 = .ok () ∧
        erasedSectors (d.erase fuel startAddr length []).1 = L.map some ∧
        List.Pairwise (· < ·) L ∧
        ∀ x, x ∈ L ↔ ErasableSectorIn info.segments startAddr length x := by
  obtain ⟨seg0, hfind0, hmem0, hc0⟩ := find_contains hin1
  obtain ⟨sege, hfinde, hmeme, hce⟩ := find_contains hin2
  have hwf0 := hb.1 seg0 hmem0
  have hwfe := hb.1 sege hmeme
  obtain ⟨hpos0, a1, a2, a3⟩ := sector_bounds hwf0 hc0
  obtain ⟨hpose, e1, e2, e3⟩ := sector_bounds hwfe hce
  have hseg0 : d.getSegment startAddr = .ok (some seg0) := by
    unfold Device.getSegment; rw [hmap]; simp only [hfind0]
  have hsege : d.getSegment (startAddr + length - 1) = .ok (some sege) := by
    unfold Device.getSegment; rw [hmap]; simp only [hfinde]
  obtain ⟨r0, r1⟩ := hrange seg0 hmem0
  obtain ⟨q0, q1⟩ := hrange sege hmeme
  obtain ⟨y1, y2, -, -⟩ := sector_exact hwf0 hc0 r0 r1
  have hstart : d.getSectorStart startAddr (some (some seg0)) =
      .ok (seg0.start + Int.fdiv (startAddr - seg0.start) seg0.sectorSize * seg0.sectorSize) := by
    unfold Device.getSectorStart Device.resolveSegment
    simp only [if_neg (ne_of_gt hpos0), y1, y2]
  have hend : d.getSectorEnd (startAddr + length - 1) none =
      .ok (sege.start +
        (Int.fdiv (startAddr + length - 1 - sege.start) sege.sectorSize + 1) * sege.sectorSize) :=
    (Device.sector_of_contained d info hmap hfinde hwfe hce q0 q1).2.2
  have hlast : toDouble (toDouble (startAddr + length) - 1) = startAddr + length - 1 := by
    have hc1 := hce.1
    have hc2 := hce.2
    have hwe := hwfe.2.1
    rw [toDouble_of_lt (startAddr + length) (by omega) (by omega),
      toDouble_of_lt (startAddr + length - 1) (by omega) (by omega)]
  -- names for the walk's first address, the start of the last sector and the end address
  generalize hA : seg0.start + Int.fdiv (startAddr - seg0.start) seg0.sectorSize * seg0.sectorSize
    = addr0 at a1 a2 hstart
  have hal0 : seg0.sectorSize ∣ addr0 - seg0.start := by
    rw [← hA]
    simp
  have a4 : startAddr < addr0 + seg0.sectorSize := by
    have e : seg0.start +
        (Int.fdiv (startAddr - seg0.start) seg0.sectorSize + 1) * seg0.sectorSize =
        addr0 + seg0.sectorSize := by
      rw [← hA]; ring
    rw [e] at a3
    exact a3
  generalize hS : sege.start +
    Int.fdiv (startAddr + length - 1 - sege.start) sege.sectorSize * sege.sectorSize = es
    at e1 e2
  have hale : sege.sectorSize ∣ es - sege.start := by
    rw [← hS]
    simp
  have hE : sege.start +
      (Int.fdiv (startAddr + length - 1 - sege.start) sege.sectorSize + 1) * sege.sectorSize =
      es + sege.sectorSize := by
    rw [← hS]; ring
  rw [hE] at e3 hend
  have hce' : sege.Contains es := ⟨e1, by have := hce.2; omega⟩
  have hc0' : seg0.Contains addr0 := ⟨a1, by have := hc0.2; omega⟩
  obtain ⟨-, hendle⟩ := sector_within_segment hwfe hce' hale
  have hwfall : ∀ s ∈ info.segments, s.start ≤ s.end := fun s hs => (hb.1 s hs).2.1
  refine ⟨max F (es + sege.sectorSize - addr0).toNat, ?_⟩
  intro fuel hfuel
  obtain ⟨L, hok, htrace, hpw, hL⟩ := Device.eraseLoop_exact d info hmap hb hrange fuel
    (es + sege.sectorSize) (haccept fuel (le_trans (le_max_left _ _) hfuel)) fuel addr0 seg0 []
    (le_trans (le_max_right _ _) hfuel) hmem0
    (by have := hc0.1; have := hc0.2; omega) a1 (by have := hc0.2; omega) hal0
    (by
      intro x hx1 hx2
      exact block_convex _ hwfall hb.2 addr0 (es + sege.sectorSize - 1) x
        ⟨seg0, hmem0, hc0'⟩ ⟨sege, hmeme, ⟨by omega, by omega⟩⟩ hx1 (by omega))
  have hrun : d.erase fuel startAddr length [] =
      d.eraseLoop fuel (es + sege.sectorSize) fuel addr0 seg0 [] := by
    unfold Device.erase
    have h1 : liftOutcome (d.getSegment startAddr) [] = ([], .ok (some seg0)) := by
      simp [liftOutcome, hseg0]
    have h2 : liftOutcome (d.getSectorStart startAddr (some (some seg0))) [] =
        ([], .ok addr0) := by
      simp [liftOutcome, hstart]
    have h3 : liftOutcome (d.getSectorEnd (startAddr + length - 1) none) [] =
        ([], .ok (es + sege.sectorSize)) := by
      simp [liftOutcome, hend]
    rw [hlast, DFU.Run.bind_ok h1, DFU.Run.bind_ok h2, DFU.Run.bind_ok h3]
  rw [hrun]
  refine ⟨L, hok, by simpa [erasedSectors] using htrace, hpw, ?_⟩
  intro x
  rw [hL x]
  constructor
  · rintro ⟨hx1, hx2, s, hs, hse, hsc, hsd⟩
    obtain ⟨hsp, hsend⟩ := sector_within_segment (hb.1 s hs) hsc hsd
    have k1 : x < startAddr + length ∧ startAddr < x + s.sectorSize := by
      refine ⟨?_, ?_⟩
      · by_contra hcon
        have hin : sege.Contains x := ⟨by omega, by omega⟩
        have := block_unique hb s hs sege hmeme x hsc hin
        subst this
        exact aligned_gap hale hsd (by omega) (by omega)
      · by_contra hcon
        have hin : seg0.Contains x := ⟨by omega, by have := hc0.2; omega⟩
        have := block_unique hb s hs seg0 hmem0 x hsc hin
        subst this
        by_cases hxa : x = addr0
        · omega
        · exact aligned_gap hal0 hsd (by omega) (by omega)
    refine ⟨s, hs, hse, hsc, hsd, max x startAddr, ?_⟩
    rcases le_total x startAddr with h | h
    · rw [max_eq_right h]; omega
    · rw [max_eq_left h]; omega
  · rintro ⟨s, hs, hse, hsc, hsd, y, hy1, hy2, hy3, hy4⟩
    have hx1 : x < startAddr + length := by omega
    have hx2 : startAddr < x + s.sectorSize := by omega
    obtain ⟨hsp, hsend⟩ := sector_within_segment (hb.1 s hs) hsc hsd
    refine ⟨?_, by omega, s, hs, hse, hsc, hsd⟩
    by_contra hcon
    have hin : s.Contains addr0 := ⟨by have := hsc.1; omega, by omega⟩
    have := block_unique hb s hs seg0 hmem0 addr0 hin hc0'
    subst this
    exact aligned_gap hsd hal0 (by omega) (by omega)

/-- The device of scenario 1 accepts every `ERASE_SECTOR` command. -/
theorem scenario1Device_accepts (fuel : Nat) (tr : List DFU.Event) (a : Int) :
    (scenario1Device.dfuseCommand fuel ERASE_SECTOR (some a) (some 4) tr).2 = .ok () := by
  cases fuel <;> simp [Device.dfuseCommand, Device.dfuseCommand.sendCommand, scenario1Device,
    DFU.dfuDNLOAD_IDLE, DFU.dfuDNBUSY, DFU.dfuERROR, DFU.STATUS_OK,
    DFU.acceptingDevice, DFU.Device.download, DFU.Device.requestOut, DFU.Device.poll_until,
    DFU.Device.getStatus, DFU.Device.requestIn, DFU.Device.pollLoop, DFU.Device.decodeStatus,
    DFU.Device.getUint8, DFU.Device.getUint32LE, DFU.Run.tryCatch, DFU.Run.call, DFU.Run.emit,
    DFU.Run.bind, DFU.Run.pure, bind, pure, ERASE_SECTOR]

/-- The theorem above at `erase(0x0800FFFF, 2)` on the map of scenario 1: the two bytes
lie in the last 16 KiB sector and the 64 KiB sector, and these two are erased. -/
theorem erase_nonempty_range_exact_scenario1 :
    (∃ N, ∀ fuel, N ≤ fuel →
      ∃ L : List Int, (scenario1Device.erase fuel 0x0800FFFF 2 []).2 = .ok () ∧
        erasedSectors (scenario1Device.erase fuel 0x0800FFFF 2 []).1 = L.map some ∧
        List.Pairwise (· < ·) L ∧
        ∀ x, x ∈ L ↔ ErasableSectorIn scenario1Map.segments 0x0800FFFF 2 x) ∧
    erasedSectors (scenario1Device.erase 4 0x0800FFFF 2 []).1 =
      [some 0x0800C000, some 0x08010000] :=
  ⟨erase_nonempty_range_exact scenario1Device scenario1Map rfl
    ⟨by decide, by simp [scenario1Map, List.chain'_cons]⟩ (by decide) 0x0800FFFF 2
    (by decide) ⟨_, List.mem_cons_self _ _, by decide⟩
    ⟨_, List.mem_cons_of_mem _ (List.mem_cons_self _ _), by decide⟩ 0
    (fun fuel _ tr a => scenario1Device_accepts fuel tr a), by decide⟩

/-! ## `erase` with length 0 -/

/-- C10 (evaluation at the failing input): on the one-block map of scenario 1 and a
device that accepts every command, `erase(0x08000001, 0)` returns after issuing one
`ERASE_SECTOR` command, for the sector at `0x08000000`, although no sector overlaps the
empty range `[0x08000001, 0x08000001)`; and `erase(0x08000000, 0)`, at the first
address of the map, throws before any request is made. -/
theorem erase_zero_length_erases_a_sector :
    erasedSectors (scenario1Device.erase 4 0x08000001 0 []).1 = [some 0x08000000] ∧
    (scenario1Device.erase 4 0x08000001 0 []).2 = .ok () ∧
    scenario1Device.erase 4 0x08000000 0 [] =
      ([], .throw (newError "Address 7ffffff outside of memory map")) := by
  decide

end DFUse

namespace DFU
open JS

/-! ## Single requests and the decoding of `GETSTATUS` -/

/-- What `requestIn` does when the transfer does not stall. -/
theorem Device.requestIn_ok (d : Device) (bRequest wLength wValue : Nat) (tr : List Event)
    (r : USBInTransferResult) (hst : r.status ≠ .stall)
    (h : d.device_.controlTransferIn tr bRequest wValue d.intfNumber wLength = .ok r) :
    d.requestIn bRequest wLength wValue tr =
      (tr ++ [.controlTransferIn bRequest wValue d.intfNumber wLength], .ok r.data) := by
  simp [Device.requestIn, Run.call, bind, Run.bind, h, hst, pure, Run.pure]

/-- A `requestIn` that returns has made the request and nothing else. -/
theorem Device.requestIn_eq_ok (d : Device) (bRequest wLength wValue : Nat)
    (tr tr1 : List Event) (data : Option (List Nat))
    (h : d.requestIn bRequest wLength wValue tr = (tr1, .ok data)) :
    tr1 = tr ++ [.controlTransferIn bRequest wValue d.intfNumber wLength] := by
  rcases hr : d.device_.controlTransferIn tr bRequest wValue d.intfNumber wLength with e | r
  · simp [Device.requestIn, Run.call, bind, Run.bind, hr] at h
  · by_cases hst : r.status = .stall
    · rcases hc : d.device_.clearHalt
          (tr ++ [.controlTransferIn bRequest wValue d.intfNumber wLength]) .in d.intfNumber
        with e | u <;>
        simp [Device.requestIn, Run.call, bind, Run.bind, hr, hst, hc, Run.throw] at h
    · rw [Device.requestIn_ok d _ _ _ _ r hst hr] at h
      exact (congrArg Prod.fst h).symm

/-- What `requestOut` does when the transfer does not stall. -/
theorem Device.requestOut_ok (d : Device) (bRequest : Nat) (data : Option (List Nat))
    (wValue : Nat) (tr : List Event) (r : USBOutTransferResult) (hst : r.status ≠ .stall)
    (h : d.device_.controlTransferOut tr bRequest wValue d.intfNumber data = .ok r) :
    d.requestOut bRequest data wValue tr =
      (tr ++ [.controlTransferOut bRequest wValue d.intfNumber data], .ok r.bytesWritten) := by
  simp [Device.requestOut, Run.call, bind, Run.bind, h, hst, pure, Run.pure]

/-- What `requestOut` does when the transfer stalls. -/
theorem Device.requestOut_stall (d : Device) (bRequest : Nat) (data : Option (List Nat))
    (wValue : Nat) (tr : List Event) (r : USBOutTransferResult) (hst : r.status = .stall)
    (h : d.device_.controlTransferOut tr bRequest wValue d.intfNumber data = .ok r) :
    (d.requestOut bRequest data wValue tr).1 =
      tr ++ [.controlTransferOut bRequest wValue d.intfNumber data,
        .clearHalt .out d.intfNumber] ∧
    (∃ e, (d.requestOut bRequest data wValue tr).2 = .throw e) ∧
    (d.device_.clearHalt (tr ++ [.controlTransferOut bRequest wValue d.intfNumber data]) .out
        d.intfNumber = .ok () →
      (d.requestOut bRequest data wValue tr).2 = .throw (newError "stall")) := by
  rcases hc : d.device_.clearHalt (tr ++ [.controlTransferOut bRequest wValue d.intfNumber data])
    .out d.intfNumber with e | u
  · simp [Device.requestOut, Run.call, bind, Run.bind, h, hst, hc]
  · simp [Device.requestOut, Run.call, bind, Run.bind, h, hst, hc, Run.throw]

/-- What `requestOut` does when the transfer is rejected. -/
theorem Device.requestOut_error (d : Device) (bRequest : Nat) (data : Option (List Nat))
    (wValue : Nat) (tr : List Event) (e : Thrown)
    (h : d.device_.controlTransferOut tr bRequest wValue d.intfNumber data = .error e) :
    d.requestOut bRequest data wValue tr =
      (tr ++ [.controlTransferOut bRequest wValue d.intfNumber data], .throw e) := by
  simp [Device.requestOut, Run.call, bind, Run.bind, h]

/-- The trace of `requestOut`: the transfer, then at most a `clearHalt`. -/
theorem Device.requestOut_trace (d : Device) (bRequest : Nat) (data : Option (List Nat))
    (wValue : Nat) (tr : List Event) :
    ∃ rest, (d.requestOut bRequest data wValue tr).1 =
        tr ++ .controlTransferOut bRequest wValue d.intfNumber data :: rest ∧
      ∀ e ∈ rest, e.isPoll := by
  rcases h : d.device_.controlTransferOut tr bRequest wValue d.intfNumber data with e | r
  · exact ⟨[], by rw [Device.requestOut_error d _ _ _ _ e h], by simp⟩
  · by_cases hst : r.status = .stall
    · refine ⟨[.clearHalt .out d.intfNumber], ?_, by simp [Event.isPoll]⟩
      rw [(Device.requestOut_stall d _ _ _ _ r hst h).1]
    · exact ⟨[], by rw [Device.requestOut_ok d _ _ _ _ r hst h], by simp⟩

/-- The low 24 bits of a little-endian 32-bit word are its first three bytes. -/
theorem low24_of_word (b1 b2 b3 b4 : Nat) (h1 : b1 < 256) (h2 : b2 < 256) (h3 : b3 < 256) :
    (b1 + 256 * b2 + 65536 * b3 + 16777216 * b4) &&& 0xFFFFFF = b1 + 256 * b2 + 65536 * b3 := by
  have h : (0xFFFFFF : Nat) = 2 ^ 24 - 1 := by norm_num
  rw [h, Nat.and_pow_two_sub_one_eq_mod]
  omega

/-- C11: `getStatus` decodes a 6-byte `GETSTATUS` response `b0..b5` as status `b0`,
poll timeout `b1 + 256*b2 + 65536*b3` and state `b4`; the poll timeout is below
`2^24` and neither `b4` nor `b5` enters it. -/
theorem getStatus_decodes_response (d : Device) (tr : List Event) (st : TransferStatus)
    (b0 b1 b2 b3 b4 b5 : Nat) (h0 : b0 < 256) (h1 : b1 < 256) (h2 : b2 < 256) (h3 : b3 < 256)
    (h4 : b4 < 256) (hst : st ≠ .stall)
    (hresp : d.device_.controlTransferIn tr GETSTATUS 0 d.intfNumber 6 =
      .ok { status := st, data := some [b0, b1, b2, b3, b4, b5] }) :
    d.getStatus tr = (tr ++ [.controlTransferIn GETSTATUS 0 d.intfNumber 6],
      .ok { status := b0, pollTimeout := b1 + 256 * b2 + 65536 * b3, state := b4 }) ∧
    b1 + 256 * b2 + 65536 * b3 < 2 ^ 24 := by
  refine ⟨?_, by omega⟩
  have hreq := Device.requestIn_ok d GETSTATUS 6 0 tr _ hst hresp
  simp only [Device.getStatus, Run.bind, Run.tryCatch, hreq, Device.decodeStatus,
    Device.getUint8, Device.getUint32LE, List.get?]
  simp only [Nat.mod_eq_of_lt h0, Nat.mod_eq_of_lt h1, Nat.mod_eq_of_lt h2, Nat.mod_eq_of_lt h3,
    Nat.mod_eq_of_lt h4, low24_of_word b1 b2 b3 b4 h1 h2 h3]

/-- Scenario 3: the bytes `[0x00, 0x64, 0x00, 0x00, 0x05, 0x00]` decode to status 0,
poll timeout 100 and state 5. -/
theorem getStatus_decodes_response_witness :
    (({ device_ := answeringDevice [0x00, 0x64, 0x00, 0x00, 0x05, 0x00], intfNumber := 0 } :
        Device).getStatus []).2 = .ok { status := 0, pollTimeout := 100, state := 5 } :=
  congrArg Prod.snd (getStatus_decodes_response
    { device_ := answeringDevice [0x00, 0x64, 0x00, 0x00, 0x05, 0x00], intfNumber := 0 } [] .ok
    0x00 0x64 0x00 0x00 0x05 0x00 (by decide) (by decide) (by decide) (by decide) (by decide)
    (by decide) rfl).1

/-- C18: when the `DNLOAD` transfer reports `stall`, `download` calls
`clearHalt("out", intfNumber)` once, right after the transfer, and throws without
another transfer; when the transfer does not stall, `clearHalt` is not called. -/
theorem download_stall_clears_halt_once (d : Device) (data : List Nat) (blockNum : Nat)
    (tr : List Event) :
    (∀ r, d.device_.controlTransferOut tr DNLOAD blockNum d.intfNumber (some data) = .ok r →
      r.status = .stall →
      (d.download data blockNum tr).1 =
        tr ++ [.controlTransferOut DNLOAD blockNum d.intfNumber (some data),
          .clearHalt .out d.intfNumber] ∧
      (∃ e, (d.download data blockNum tr).2 = .throw e) ∧
      (d.device_.clearHalt (tr ++ [.controlTransferOut DNLOAD blockNum d.intfNumber (some data)])
          .out d.intfNumber = .ok () →
        (d.download data blockNum tr).2 = .throw (newError "stall"))) ∧
    ((∀ r, d.device_.controlTransferOut tr DNLOAD blockNum d.intfNumber (some data) = .ok r →
        r.status ≠ .stall) →
      (d.download data blockNum tr).1 =
        tr ++ [.controlTransferOut DNLOAD blockNum d.intfNumber (some data)]) := by
  refine ⟨fun r h hst => Device.requestOut_stall d DNLOAD (some data) blockNum tr r hst h, ?_⟩
  intro hno
  rcases h : d.device_.controlTransferOut tr DNLOAD blockNum d.intfNumber (some data) with e | r
  · exact congrArg Prod.fst (Device.requestOut_error d DNLOAD (some data) blockNum tr e h)
  · exact congrArg Prod.fst (Device.requestOut_ok d DNLOAD (some data) blockNum tr r (hno r h) h)

/-- Scenario 4: a stalled `DNLOAD` on interface 3 is followed by one
`clearHalt("out", 3)` and the error `stall`; an accepted one by no `clearHalt`. -/
theorem download_stall_clears_halt_once_witness :
    ({ device_ := stallingDevice, intfNumber := 3 } : Device).download [1, 2] 0 [] =
      ([.controlTransferOut DNLOAD 0 3 (some [1, 2]), .clearHalt .out 3],
       .throw (newError "stall")) ∧
    (({ device_ := acceptingDevice dfuIDLE, intfNumber := 3 } : Device).download [1, 2] 0 []).1 =
      [.controlTransferOut DNLOAD 0 3 (some [1, 2])] :=
  ⟨Prod.ext
      ((download_stall_clears_halt_once { device_ := stallingDevice, intfNumber := 3 } [1, 2] 0
        []).1 _ rfl rfl).1
      (((download_stall_clears_halt_once { device_ := stallingDevice, intfNumber := 3 } [1, 2] 0
        []).1 _ rfl rfl).2.2 rfl),
   (download_stall_clears_halt_once { device_ := acceptingDevice dfuIDLE, intfNumber := 3 }
      [1, 2] 0 []).2 (by
        intro r h
        cases h
        decide)⟩

/-! ## `abortToIdle` -/

/-- What `getState` returns when the read is answered with at least one byte. -/
theorem Device.getState_ok (d : Device) (tr : List Event) (st : TransferStatus) (s : Nat)
    (more : List Nat) (hst : st ≠ .stall) (hs : s < 256)
    (h : d.device_.controlTransferIn tr GETSTATE 0 d.intfNumber 1 =
      .ok { status := st, data := some (s :: more) }) :
    d.getState tr = (tr ++ [.controlTransferIn GETSTATE 0 d.intfNumber 1], .ok s) := by
  have hreq := Device.requestIn_ok d GETSTATE 1 0 tr _ hst h
  simp [Device.getState, Run.bind, Run.tryCatch, hreq, Device.getUint8, Nat.mod_eq_of_lt hs]

/-- C16: when its requests are answered, `abortToIdle` issues `ABORT` then `GETSTATE`;
it goes on with `CLRSTATUS` and a second `GETSTATE` exactly when the first state read
is `dfuERROR`; and it fails exactly when the last state read is not `dfuIDLE`. -/
theorem abortToIdle_protocol (d : Device) (tr : List Event) (r0 : USBOutTransferResult)
    (st1 : TransferStatus) (s1 : Nat) (more1 : List Nat)
    (hr0 : d.device_.controlTransferOut tr ABORT 0 d.intfNumber none = .ok r0)
    (hr0s : r0.status ≠ .stall)
    (h1 : d.device_.controlTransferIn (tr ++ [.controlTransferOut ABORT 0 d.intfNumber none])
      GETSTATE 0 d.intfNumber 1 = .ok { status := st1, data := some (s1 :: more1) })
    (hst1 : st1 ≠ .stall) (hs1 : s1 < 256) :
    (s1 ≠ dfuERROR →
      d.abortToIdle tr =
        (tr ++ [.controlTransferOut ABORT 0 d.intfNumber none,
                .controlTransferIn GETSTATE 0 d.intfNumber 1],
         if s1 = dfuIDLE then .ok ()
         else .throw (newError "Failed to return to idle state after abort: state undefined"))) ∧
    (s1 = dfuERROR →
      ∀ (r2 : USBOutTransferResult) (st2 : TransferStatus) (s2 : Nat) (more2 : List Nat),
        d.device_.controlTransferOut
          (tr ++ [.controlTransferOut ABORT 0 d.intfNumber none,
                  .controlTransferIn GETSTATE 0 d.intfNumber 1])
          CLRSTATUS 0 d.intfNumber none = .ok r2 →
        r2.status ≠ .stall →
        d.device_.controlTransferIn
          (tr ++ [.controlTransferOut ABORT 0 d.intfNumber none,
                  .controlTransferIn GETSTATE 0 d.intfNumber 1,
                  .controlTransferOut CLRSTATUS 0 d.intfNumber none])
          GETSTATE 0 d.intfNumber 1 = .ok { status := st2, data := some (s2 :: more2) } →
        st2 ≠ .stall → s2 < 256 →
        d.abortToIdle tr =
          (tr ++ [.controlTransferOut ABORT 0 d.intfNumber none,
                  .controlTransferIn GETSTATE 0 d.intfNumber 1,
                  .controlTransferOut CLRSTATUS 0 d.intfNumber none,
                  .controlTransferIn GETSTATE 0 d.intfNumber 1],
           if s2 = dfuIDLE then .ok ()
           else .throw (newError "Failed to return to idle state after abort: state undefined"))) := by
  have hA := Device.requestOut_ok d ABORT none 0 tr r0 hr0s hr0
  have hS := Device.getState_ok d _ st1 s1 more1 hst1 hs1 h1
  have hstart : d.abortToIdle tr =
      ((fun state => ((if state = dfuERROR then (do let _ ← d.clearStatus; d.getState)
          else pure state) >>= fun state =>
        if state ≠ dfuIDLE then
          Run.throw (newError "Failed to return to idle state after abort: state undefined")
        else pure ()) : Nat → Run Unit) s1)
        (tr ++ [.controlTransferOut ABORT 0 d.intfNumber none] ++
          [.controlTransferIn GETSTATE 0 d.intfNumber 1]) := by
    unfold Device.abortToIdle
    rw [Run.bind_ok (show d.abort tr = _ from hA), Run.bind_ok hS]
  refine ⟨?_, ?_⟩
  · intro hne
    rw [hstart]
    simp only [if_neg hne]
    rw [Run.bind_ok (show (pure s1 : Run Nat) _ = (_, .ok s1) from rfl)]
    by_cases hi : s1 = dfuIDLE
    · simp [hi, pure, Run.pure]
    · simp [hi, Run.throw]
  · intro he r2 st2 s2 more2 hc hcs h2 hst2 hs2
    rw [hstart]
    simp only [if_pos he]
    have hC := Device.requestOut_ok d CLRSTATUS none 0 _ r2 hcs
      (show d.device_.controlTransferOut (tr ++ [.controlTransferOut ABORT 0 d.intfNumber none] ++
        [.controlTransferIn GETSTATE 0 d.intfNumber 1]) CLRSTATUS 0 d.intfNumber none = .ok r2 by
        simpa using hc)
    have hS2 := Device.getState_ok d (tr ++ [.controlTransferOut ABORT 0 d.intfNumber none] ++
        [.controlTransferIn GETSTATE 0 d.intfNumber 1] ++
        [.controlTransferOut CLRSTATUS 0 d.intfNumber none]) st2 s2 more2 hst2 hs2
        (by simpa using h2)
    have hboth : (do let _ ← d.clearStatus; d.getState : Run Nat)
        (tr ++ [.controlTransferOut ABORT 0 d.intfNumber none] ++
          [.controlTransferIn GETSTATE 0 d.intfNumber 1]) = _ :=
      (Run.bind_ok (show d.clearStatus _ = _ from hC)).trans hS2
    rw [Run.bind_ok hboth]
    by_cases hi : s2 = dfuIDLE
    · simp [hi, pure, Run.pure]
    · simp [hi, Run.throw]

/-- The two cases of C16: a device already idle, and a device in `dfuERROR` that is
idle once its status is cleared. -/
theorem abortToIdle_protocol_witness :
    ({ device_ := acceptingDevice dfuIDLE, intfNumber := 0 } : Device).abortToIdle [] =
      ([.controlTransferOut ABORT 0 0 none, .controlTransferIn GETSTATE 0 0 1], .ok ()) ∧
    ({ device_ := recoveringDevice, intfNumber := 0 } : Device).abortToIdle [] =
      ([.controlTransferOut ABORT 0 0 none, .controlTransferIn GETSTATE 0 0 1,
        .controlTransferOut CLRSTATUS 0 0 none, .controlTransferIn GETSTATE 0 0 1], .ok ()) :=
  ⟨(abortToIdle_protocol { device_ := acceptingDevice dfuIDLE, intfNumber := 0 } [] _ .ok dfuIDLE
      [] rfl (by decide) rfl (by decide) (by decide)).1 (by decide),
   (abortToIdle_protocol { device_ := recoveringDevice, intfNumber := 0 } [] _ .ok dfuERROR
      [] rfl (by decide) rfl (by decide) (by decide)).2 rfl _ .ok dfuIDLE [] rfl (by decide) rfl
      (by decide) (by decide)⟩

/-! ## `poll_until` -/

/-- A `getStatus` that returns has made one `GETSTATUS` request. -/
theorem Device.getStatus_eq_ok (d : Device) (tr tr1 : List Event) (s : Status)
    (h : d.getStatus tr = (tr1, .ok s)) : tr1 = tr ++ [getStatusRequest d.intfNumber] := by
  unfold Device.getStatus Run.bind Run.tryCatch at h
  rcases hx : d.requestIn GETSTATUS 6 0 tr with ⟨tr0, o⟩
  rw [hx] at h
  cases o with
  | ok data =>
    simp only at h
    have := Device.requestIn_eq_ok d _ _ _ _ _ _ hx
    rw [← (Prod.mk.inj h).1, this]
    rfl
  | throw e => simp [Run.throw] at h
  | stuck => simp at h

/-- One turn of `poll_until`: after a status that does not end the poll, the host
sleeps for the poll timeout of that status and polls again. -/
theorem Device.poll_until_step (d : Device) (p : Nat → Bool) (fuel : Nat) (tr tr1 : List Event)
    (s : Status) (h : d.getStatus tr = (tr1, .ok s)) :
    d.poll_until fuel p tr =
      if p s.state = true ∨ s.state = dfuERROR then (tr1, .ok s)
      else
        match fuel with
        | 0 => (tr1, .stuck)
        | fuel1 + 1 => d.poll_until fuel1 p (tr1 ++ [.sleep s.pollTimeout]) := by
  conv_lhs => unfold Device.poll_until
  rw [Run.bind_ok h, Device.pollLoop.eq_def]
  by_cases hc : p s.state = true ∨ s.state = dfuERROR
  · have : (!p s.state && s.state != dfuERROR) = false := by
      rcases hc with hc | hc <;> simp [hc]
    simp [this, hc, pure, Run.pure]
  · have : (!p s.state && s.state != dfuERROR) = true := by
      simp only [not_or] at hc
      simp [hc.1, hc.2]
    simp only [this, if_true, if_neg hc]
    cases fuel with
    | zero => rfl
    | succ n =>
      simp only
      rw [Run.bind_ok (show Run.emit (.sleep s.pollTimeout) tr1 = (_, .ok ()) from rfl)]
      rfl

/-- A `poll_until` that returns had its first `GETSTATUS` answered. -/
theorem Device.poll_until_first (d : Device) (p : Nat → Bool) (fuel : Nat) (tr tr1 : List Event)
    (st : Status) (h : d.poll_until fuel p tr = (tr1, .ok st)) :
    ∃ tr0 s, d.getStatus tr = (tr0, .ok s) := by
  unfold Device.poll_until at h
  obtain ⟨tr0, s, h1, -⟩ := Run.bind_eq_ok h
  exact ⟨tr0, s, h1⟩

/-- C17: `poll_until(predicate)` returns the status `st` exactly when the device
answers the successive `GETSTATUS` requests with statuses `seen` that neither satisfy
the predicate nor are in `dfuERROR`, and then with `st`, which does one or the other
(a status in `dfuERROR` is returned, not thrown). The trace is then one `GETSTATUS`
per status, each but the last followed by a sleep of the poll timeout that status
reported; nothing follows the request that `st` answered. -/
theorem poll_until_returns_first_match (d : Device) (p : Nat → Bool) (fuel : Nat)
    (tr tr1 : List Event) (st : Status) :
    d.poll_until fuel p tr = (tr1, .ok st) ↔
      ∃ seen : List Status, seen.length ≤ fuel ∧
        tr1 = tr ++ pollEvents d.intfNumber seen ++ [getStatusRequest d.intfNumber] ∧
        AnsweredWith d tr (seen ++ [st]) ∧
        (∀ s ∈ seen, p s.state = false ∧ s.state ≠ dfuERROR) ∧
        (p st.state = true ∨ st.state = dfuERROR) := by
  induction fuel generalizing tr with
  | zero =>
    constructor
    · intro h
      obtain ⟨tr0, s, hs⟩ := Device.poll_until_first d p 0 tr tr1 st h
      have htr0 := Device.getStatus_eq_ok d tr tr0 s hs
      rw [Device.poll_until_step d p 0 tr tr0 s hs] at h
      by_cases hc : p s.state = true ∨ s.state = dfuERROR
      · rw [if_pos hc] at h
        obtain ⟨h1, h2⟩ := Prod.mk.inj h
        cases h2
        refine ⟨[], le_refl _, ?_, ?_, by simp, hc⟩
        · rw [← h1, htr0]; simp [pollEvents]
        · simp [AnsweredWith, hs]
      · rw [if_neg hc] at h
        simp at h
    · rintro ⟨seen, hlen, htr, hans, -, hst⟩
      have : seen = [] := List.eq_nil_of_length_eq_zero (Nat.le_zero.1 hlen)
      subst this
      simp only [List.nil_append, AnsweredWith, and_true] at hans
      rcases hg : d.getStatus tr with ⟨tr0, o⟩
      rw [hg] at hans
      simp only at hans
      subst hans
      have htr0 := Device.getStatus_eq_ok d tr tr0 st hg
      rw [Device.poll_until_step d p 0 tr tr0 st hg, if_pos hst, htr, htr0]
      simp [pollEvents]
  | succ n ih =>
    constructor
    · intro h
      obtain ⟨tr0, s, hs⟩ := Device.poll_until_first d p (n + 1) tr tr1 st h
      have htr0 := Device.getStatus_eq_ok d tr tr0 s hs
      rw [Device.poll_until_step d p (n + 1) tr tr0 s hs] at h
      by_cases hc : p s.state = true ∨ s.state = dfuERROR
      · rw [if_pos hc] at h
        obtain ⟨h1, h2⟩ := Prod.mk.inj h
        cases h2
        refine ⟨[], Nat.zero_le _, ?_, ?_, by simp, hc⟩
        · rw [← h1, htr0]; simp [pollEvents]
        · simp [AnsweredWith, hs]
      · rw [if_neg hc] at h
        simp only at h
        obtain ⟨seen, hlen, htr, hans, hseen, hst⟩ := (ih _).1 h
        simp only [not_or, Bool.not_eq_true] at hc
        refine ⟨s :: seen, by simpa using hlen, ?_, ?_, ?_, hst⟩
        · rw [htr, htr0]; simp [pollEvents]
        · refine ⟨by rw [hs], ?_⟩
          rw [htr0] at hans
          simpa using hans
        · intro x hx
          rcases List.mem_cons.1 hx with rfl | hx
          · exact hc
          · exact hseen x hx
    · rintro ⟨seen, hlen, htr, hans, hseen, hst⟩
      cases seen with
      | nil =>
        simp only [List.nil_append, AnsweredWith, and_true] at hans
        rcases hg : d.getStatus tr with ⟨tr0, o⟩
        rw [hg] at hans
        simp only at hans
        subst hans
        have htr0 := Device.getStatus_eq_ok d tr tr0 st hg
        rw [Device.poll_until_step d p (n + 1) tr tr0 st hg, if_pos hst, htr, htr0]
        simp [pollEvents]
      | cons s seen =>
        obtain ⟨hs, hans⟩ := hans
        rcases hg : d.getStatus tr with ⟨tr0, o⟩
        rw [hg] at hs
        simp only at hs
        subst hs
        have htr0 := Device.getStatus_eq_ok d tr tr0 s hg
        have hc : ¬ (p s.state = true ∨ s.state = dfuERROR) := by
          have := hseen s (List.mem_cons_self _ _)
          simp [this.1, this.2]
        rw [Device.poll_until_step d p (n + 1) tr tr0 s hg, if_neg hc]
        simp only
        refine (ih _).2 ⟨seen, by simpa using hlen, ?_, ?_,
          fun x hx => hseen x (List.mem_cons_of_mem _ hx), hst⟩
        · rw [htr, htr0]; simp [pollEvents]
        · rw [htr0]
          simpa using hans

/-- The device `busyOnceDevice` polled until it leaves `dfuDNBUSY`: one busy status
with a poll timeout of 100 ms, a sleep of 100 ms, then the status returned. -/
theorem poll_until_returns_first_match_witness :
    ({ device_ := busyOnceDevice, intfNumber := 0 } : Device).poll_until 1
        (fun state => state != dfuDNBUSY) [] =
      ([.controlTransferIn GETSTATUS 0 0 6, .sleep 100, .controlTransferIn GETSTATUS 0 0 6],
       .ok { status := 0, pollTimeout := 0, state := dfuDNLOAD_IDLE }) :=
  (poll_until_returns_first_match { device_ := busyOnceDevice, intfNumber := 0 }
    (fun state => state != dfuDNBUSY) 1 [] _ _).2
    ⟨[{ status := 0, pollTimeout := 100, state := dfuDNBUSY }], by decide, rfl,
      ⟨by decide, by decide, trivial⟩, by decide, by decide⟩

end DFU

namespace DFUse
open JS

/-! ## The payload of `dfuseCommand` -/

/-- The trace of the rest of `dfuseCommand` once the payload is built: the
payload goes out as `DNLOAD` block 0, and only status polls follow. -/
theorem Device.sendCommand_trace (d : Device) (fuel command : Nat) (payload : List Nat)
    (tr : List DFU.Event) :
    ∃ rest, (Device.dfuseCommand.sendCommand d fuel command payload tr).1 =
        tr ++ DFU.Event.controlTransferOut DFU.DNLOAD 0 d.intfNumber (some payload) :: rest ∧
      ∀ e ∈ rest, e.isPoll := by
  obtain ⟨r1, h1, hr1⟩ := DFU.Device.requestOut_trace d.toDevice DFU.DNLOAD (some payload) 0 tr
  unfold Device.dfuseCommand.sendCommand
  show ∃ rest, (DFU.Run.bind _ _ tr).1 = _ ∧ _
  unfold DFU.Run.bind DFU.Run.tryCatch DFU.Device.download
  rcases hx : d.toDevice.requestOut DFU.DNLOAD (some payload) 0 tr with ⟨tr1, o⟩
  rw [hx] at h1
  simp only at h1
  subst h1
  cases o with
  | throw e => exact ⟨r1, rfl, hr1⟩
  | stuck => exact ⟨r1, rfl, hr1⟩
  | ok a =>
    simp only
    have hp : DFU.Run.Emits DFU.Event.isPoll
        (d.toDevice.poll_until fuel (fun state => state != DFU.dfuDNBUSY) >>= fun status =>
          if status.status ≠ DFU.STATUS_OK then
            DFU.Run.throw (newError ("Special DfuSe command " ++ Device.commandNames command ++
              " failed"))
          else pure ()) := by
      refine DFU.Run.Emits.bind (DFU.Device.poll_until_emits _ _ _) (fun st => ?_)
      split
      · exact DFU.Run.Emits.throw _
      · exact DFU.Run.Emits.pure _
    obtain ⟨r2, h2, hr2⟩ := hp
      (tr ++ DFU.Event.controlTransferOut DFU.DNLOAD 0 d.intfNumber (some payload) :: r1)
    refine ⟨r1 ++ r2, ?_, ?_⟩
    · rw [show tr ++ DFU.Event.controlTransferOut DFU.DNLOAD 0 d.intfNumber (some payload) ::
          (r1 ++ r2) = (tr ++ DFU.Event.controlTransferOut DFU.DNLOAD 0 d.intfNumber
            (some payload) :: r1) ++ r2 by simp]
      exact h2
    · intro e he
      rcases List.mem_append.1 he with h | h
      · exact hr1 e h
      · exact hr2 e h

/-- The bytes written by `setUint32(1, p, true)` for `p` below `2^32`. -/
theorem Device.uint32LE_of_nat (p : Nat) (hp : p < 2 ^ 32) :
    Device.uint32LE (p : Int) =
      [p % 256, p / 2 ^ 8 % 256, p / 2 ^ 16 % 256, p / 2 ^ 24 % 256] := by
  have h : ((p : Int) % 4294967296).toNat = p := by omega
  simp [Device.uint32LE, h]

/-- C19: `dfuseCommand(command, param, len)` with `len = 4` and `param` below `2^32`
sends the 5 bytes `command`, then `param` in little-endian order; with `len = 1` it
sends the 2 bytes `command`, `param mod 256`; the payload goes out as one `DNLOAD`
with block number 0, followed by status polls only; and with any other `len` the
command throws before anything is sent. -/
theorem dfuseCommand_payload (d : Device) (fuel : Nat) (command : Nat) (hc : command < 256)
    (tr : List DFU.Event) :
    (∀ p : Nat, p < 2 ^ 32 →
      ∃ rest, (d.dfuseCommand fuel command (some (p : Int)) (some 4) tr).1 =
          tr ++ DFU.Event.dfuseCommand command (some (p : Int)) (some 4) ::
            DFU.Event.controlTransferOut DFU.DNLOAD 0 d.intfNumber
              (some [command, p % 256, p / 2 ^ 8 % 256, p / 2 ^ 16 % 256, p / 2 ^ 24 % 256]) ::
            rest ∧
        ∀ e ∈ rest, e.isPoll) ∧
    (∀ p : Nat,
      ∃ rest, (d.dfuseCommand fuel command (some (p : Int)) (some 1) tr).1 =
          tr ++ DFU.Event.dfuseCommand command (some (p : Int)) (some 1) ::
            DFU.Event.controlTransferOut DFU.DNLOAD 0 d.intfNumber (some [command, p % 256]) ::
            rest ∧
        ∀ e ∈ rest, e.isPoll) ∧
    (∀ (param : Option Int) (len : Option Nat), len ≠ some 1 → len ≠ some 4 →
      ¬ (param = none ∧ len = none) →
      (d.dfuseCommand fuel command param len tr).1 =
        tr ++ [DFU.Event.dfuseCommand command param len] ∧
      ∃ e, (d.dfuseCommand fuel command param len tr).2 = .throw e) := by
  have hcm : command % 256 = command := Nat.mod_eq_of_lt hc
  have hstep : ∀ (param : Option Int) (len : Option Nat) (x : DFU.Run Unit),
      (DFU.Run.emit (.dfuseCommand command param len) >>= fun _ => x) tr =
        x (tr ++ [DFU.Event.dfuseCommand command param len]) := fun param len x =>
    DFU.Run.bind_ok (show DFU.Run.emit (.dfuseCommand command param len) tr = (_, .ok ()) from rfl)
  refine ⟨?_, ?_, ?_⟩
  · intro p hp
    obtain ⟨rest, h1, h2⟩ := Device.sendCommand_trace d fuel command
      (command :: Device.uint32LE (p : Int)) (tr ++ [DFU.Event.dfuseCommand command (some (p : Int)) (some 4)])
    refine ⟨rest, ?_, h2⟩
    unfold Device.dfuseCommand
    rw [hstep]
    simp only [Option.getD_some, hcm, reduceCtorEq, and_false, if_false]
    rw [if_neg (by decide), if_pos trivial, h1, Device.uint32LE_of_nat p hp]
    simp
  · intro p
    obtain ⟨rest, h1, h2⟩ := Device.sendCommand_trace d fuel command
      [command, ((p : Int) % 256).toNat] (tr ++ [DFU.Event.dfuseCommand command (some (p : Int)) (some 1)])
    refine ⟨rest, ?_, h2⟩
    unfold Device.dfuseCommand
    rw [hstep]
    simp only [Option.getD_some, hcm, reduceCtorEq, and_false, if_false]
    rw [if_pos trivial, h1]
    have : ((p : Int) % 256).toNat = p % 256 := by omega
    simp [this]
  · intro param len h1 h4 hboth
    unfold Device.dfuseCommand
    rw [hstep]
    simp only [if_neg hboth]
    cases len with
    | none => exact ⟨rfl, _, rfl⟩
    | some n =>
      have hn1 : n ≠ 1 := fun h => h1 (by rw [h])
      have hn4 : n ≠ 4 := fun h => h4 (by rw [h])
      simp only [if_neg hn1, if_neg hn4]
      exact ⟨rfl, _, rfl⟩

/-- `SET_ADDRESS` to `0x08004000` on interface 0: the payload is
`[0x21, 0x00, 0x40, 0x00, 0x08]`. -/
theorem dfuseCommand_payload_witness :
    ∃ rest, (scenario1Device.dfuseCommand 1 SET_ADDRESS (some ((0x08004000 : Nat) : Int))
        (some 4) []).1 =
        [] ++ DFU.Event.dfuseCommand SET_ADDRESS (some ((0x08004000 : Nat) : Int)) (some 4) ::
          DFU.Event.controlTransferOut DFU.DNLOAD 0 scenario1Device.intfNumber
            (some [SET_ADDRESS, 0x08004000 % 256, 0x08004000 / 2 ^ 8 % 256,
              0x08004000 / 2 ^ 16 % 256, 0x08004000 / 2 ^ 24 % 256]) :: rest ∧
      ∀ e ∈ rest, e.isPoll :=
  (dfuseCommand_payload scenario1Device 1 SET_ADDRESS (by decide) []).1 0x08004000 (by decide)

/-! ## `getSegment` and `getMaxReadSize` -/

/-- C13: with a memory map, `getSegment(addr)` returns the first segment of the map,
in map order, with `start ≤ addr < end`, and returns `null` exactly when no segment of
the map contains `addr`. -/
theorem getSegment_first_containing (d : Device) (info : MemoryInfo)
    (hmap : d.memoryInfo = some info) (addr : Int) :
    ∃ r, d.getSegment addr = .ok r ∧
      (∀ s, r = some s ↔ ∃ pre post, info.segments = pre ++ s :: post ∧ s.Contains addr ∧
        ∀ p ∈ pre, ¬ p.Contains addr) ∧
      (r = none ↔ ∀ s ∈ info.segments, ¬ s.Contains addr) := by
  refine ⟨_, by unfold Device.getSegment; rw [hmap], ?_, ?_⟩
  · intro s
    rw [List.find?_eq_some]
    simp only [Segment.Contains, Bool.and_eq_true, decide_eq_true_eq, Bool.not_eq_true',
      Bool.and_eq_false_imp, decide_eq_false_iff_not, not_and]
    constructor
    · rintro ⟨hs, pre, post, h, hp⟩
      exact ⟨pre, post, h, hs, hp⟩
    · rintro ⟨pre, post, h, hs, hp⟩
      exact ⟨hs, pre, post, h, hp⟩
  · rw [List.find?_eq_none]
    simp only [Segment.Contains, Bool.and_eq_true, decide_eq_true_eq, not_and]

/-- On the map of scenario 1, `getSegment(0x08010000)` is the 64 KiB segment. -/
theorem getSegment_first_containing_witness :
    ∃ r, scenario1Device.getSegment 0x08010000 = .ok r ∧
      (∀ s, r = some s ↔ ∃ pre post, scenario1Map.segments = pre ++ s :: post ∧
        s.Contains 0x08010000 ∧ ∀ p ∈ pre, ¬ p.Contains 0x08010000) ∧
      (r = none ↔ ∀ s ∈ scenario1Map.segments, ¬ s.Contains 0x08010000) :=
  getSegment_first_containing scenario1Device scenario1Map rfl 0x08010000

/-- Segments before the first one that matters are skipped by the loop of
`getMaxReadSize` while `numBytes` is 0. -/
theorem maxReadLoop_skip (startAddr : Int) (h0 : 0 ≤ startAddr)
    (hlt : startAddr < 9007199254740992) (rest : List Segment) :
    ∀ (pre : List Segment), (∀ p ∈ pre, ¬ p.Contains startAddr ∧ p.start ≠ startAddr) →
      Device.maxReadLoop startAddr (pre ++ rest) 0 = Device.maxReadLoop startAddr rest 0 := by
  intro pre
  induction pre with
  | nil => intro _; rfl
  | cons p pre ih =>
    intro h
    have hp := h p (List.mem_cons_self _ _)
    have h1 : (decide (p.start ≤ startAddr) && decide (startAddr < p.end)) = false := by
      have := hp.1
      simp only [Segment.Contains] at this
      simpa using this
    have h2 : ¬ p.start = toDouble (startAddr + 0) := by
      rw [Int.add_zero, toDouble_of_lt _ h0 hlt]
      exact hp.2
    show Device.maxReadLoop startAddr (p :: (pre ++ rest)) 0 = _
    rw [Device.maxReadLoop]
    simp only [h1, h2, if_false, Bool.false_eq_true]
    exact ih (fun q hq => h q (List.mem_cons_of_mem _ hq))

/-- C12 (counterexamples): on maps the parser produces, `getMaxReadSize` is not 0 at
an address inside a segment that is not readable when a readable segment listed
earlier overlaps it, and it is 0 at an address inside a readable segment followed by a
segment that is not readable when an empty segment that is not readable is listed
before it at the same address. -/
theorem getMaxReadSize_not_as_stated :
    (segmentsOf "@X/0x1000/1*1Kg,1*1Kb/0x1000/1*1Kb" = some [
        { start := 0x1000, sectorSize := 0x400, «end» := 0x1400,
          readable := true, erasable := true, writable := true },
        { start := 0x1400, sectorSize := 0x400, «end» := 0x1800,
          readable := false, erasable := true, writable := false },
        { start := 0x1000, sectorSize := 0x400, «end» := 0x1400,
          readable := false, erasable := true, writable := false }] ∧
      maxReadSizeOf "@X/0x1000/1*1Kg,1*1Kb/0x1000/1*1Kb" 0x1200 = .ok 0x200) ∧
    (segmentsOf "@X/0x1000/0*1Kb,1*1Kg,1*1Kb" = some [
        { start := 0x1000, sectorSize := 0x400, «end» := 0x1000,
          readable := false, erasable := true, writable := false },
        { start := 0x1000, sectorSize := 0x400, «end» := 0x1400,
          readable := true, erasable := true, writable := true },
        { start := 0x1400, sectorSize := 0x400, «end» := 0x1800,
          readable := false, erasable := true, writable := false }] ∧
      maxReadSizeOf "@X/0x1000/0*1Kb,1*1Kg,1*1Kb" 0x1000 = .ok 0) := by
  decide

set_option maxRecDepth 8000 in
/-- Above `2^53` the sums of `getMaxReadSize` are rounded: on the map parsed from
`@X/0x0/1*9007199254740998 a,1*2 b,1*2 a` the address 3 lies in the readable first
segment, which the second segment, not readable, follows; `S.end - startAddr` is
`2^53 + 3`, and `getMaxReadSize(3)` returns `2^53 + 6`. -/
theorem getMaxReadSize_rounds_above_two_pow_53 :
    segmentsOf "@X/0x0/1*9007199254740998 a,1*2 b,1*2 a" = some [
      { start := 0, sectorSize := 9007199254740998, «end» := 9007199254740998,
        readable := true, erasable := false, writable := false },
      { start := 9007199254740998, sectorSize := 2, «end» := 9007199254741000,
        readable := false, erasable := true, writable := false },
      { start := 9007199254741000, sectorSize := 2, «end» := 9007199254741002,
        readable := true, erasable := false, writable := false }] ∧
    maxReadSizeOf "@X/0x0/1*9007199254740998 a,1*2 b,1*2 a" 3 = .ok 9007199254740998 ∧
    (9007199254740998 : Int) - 3 ≠ 9007199254740998 := by
  decide

/-- C12 (amended): when `S` is the first segment of the map that contains `startAddr`,
`S` lies between 0 and `2^53` (`0 ≤ S.start`, `S.end < 2^53`, so that no address or
length of the computation is rounded) and no segment listed before it starts at
`startAddr`, `getMaxReadSize(startAddr)` returns 0 if `S` is not readable, and
`S.end - startAddr` if `S` is readable and the segment listed next starts at `S.end`
and is not readable. -/
theorem getMaxReadSize_at_first_segment (d : Device) (info : MemoryInfo)
    (hmap : d.memoryInfo = some info) (startAddr : Int) (pre : List Segment) (S : Segment)
    (post : List Segment) (hsegs : info.segments = pre ++ S :: post)
    (hS : S.Contains startAddr) (hlow : 0 ≤ S.start) (hhigh : S.end < 9007199254740992)
    (hpre : ∀ p ∈ pre, ¬ p.Contains startAddr ∧ p.start ≠ startAddr) :
    (S.readable = false → d.getMaxReadSize startAddr = .ok 0) ∧
    (S.readable = true → ∀ (N : Segment) (rest : List Segment), post = N :: rest →
      N.start = S.end → N.readable = false →
      d.getMaxReadSize startAddr = .ok (S.end - startAddr)) := by
  have hin : (decide (S.start ≤ startAddr) && decide (startAddr < S.end)) = true := by
    simp only [Segment.Contains] at hS
    simpa using hS
  have hrun : d.getMaxReadSize startAddr =
      .ok (Device.maxReadLoop startAddr (S :: post) 0) := by
    unfold Device.getMaxReadSize
    rw [hmap]
    simp only [hsegs, maxReadLoop_skip startAddr (by have := hS.1; omega)
      (by have := hS.2; omega) (S :: post) pre hpre]
  refine ⟨?_, ?_⟩
  · intro hr
    rw [hrun, Device.maxReadLoop]
    simp [hin, hr]
  · intro hr N rest hpost hadj hN
    subst hpost
    have hnot : (decide (N.start ≤ startAddr) && decide (startAddr < N.end)) = false := by
      have := hS.2
      simp only [Bool.and_eq_false_imp, decide_eq_true_eq, decide_eq_false_iff_not]
      intro h
      omega
    have hS1 := hS.1
    have hS2 := hS.2
    have e1 : toDouble (0 + toDouble (S.end - startAddr)) = S.end - startAddr := by
      rw [toDouble_of_lt (S.end - startAddr) (by omega) (by omega), Int.zero_add,
        toDouble_of_lt (S.end - startAddr) (by omega) (by omega)]
    have e2 : toDouble (startAddr + (S.end - startAddr)) = S.end := by
      have : startAddr + (S.end - startAddr) = S.end := by omega
      rw [this, toDouble_of_lt S.end (by omega) hhigh]
    rw [hrun, Device.maxReadLoop]
    simp only [hin, hr, if_true, e1]
    rw [Device.maxReadLoop]
    simp only [hnot, Bool.false_eq_true, if_false, e2, if_pos hadj, hN]

/-- The amended statement on the map of `@X/0x1000/1*1Kg,1*1Kb`: 0x200 bytes can be
read from 0x1200, none from 0x1500. -/
theorem getMaxReadSize_at_first_segment_witness :
    lockedTailDevice.getMaxReadSize 0x1200 = .ok (0x1400 - 0x1200) ∧
    lockedTailDevice.getMaxReadSize 0x1500 = .ok 0 :=
  ⟨(getMaxReadSize_at_first_segment lockedTailDevice lockedTailMap rfl 0x1200 [] _ _ rfl
      (by decide) (by decide) (by decide) (by simp)).2 rfl _ _ rfl rfl rfl,
   (getMaxReadSize_at_first_segment lockedTailDevice lockedTailMap rfl 0x1500 [_] _ [] rfl
      (by decide) (by decide) (by decide) (by decide)).1 rfl⟩

end DFUse

namespace DFU
open JS

/-! ## `do_upload` -/

/-- The answers over a trace in two parts. -/
theorem uploadAnswers_append (dev : USBDevice) (evs1 evs2 : List Event) :
    ∀ tr, uploadAnswers dev tr (evs1 ++ evs2) =
      uploadAnswers dev tr evs1 ++ uploadAnswers dev (tr ++ evs1) evs2 := by
  induction evs1 with
  | nil => intro tr; simp [uploadAnswers]
  | cons e evs ih =>
    intro tr
    have h : tr ++ e :: evs = tr ++ [e] ++ evs := by simp
    have ih1 := ih (tr ++ [e])
    cases e
    case controlTransferIn request value index length =>
      show uploadAnswers dev tr (_ :: (evs ++ evs2)) = _
      simp only [uploadAnswers]
      split <;> simp only [h, ih1, List.cons_append]
    all_goals
      show uploadAnswers dev tr (_ :: (evs ++ evs2)) = _
      simp only [uploadAnswers]
      rw [h, ih1]

/-- Events without an `UPLOAD` request carry no answer. -/
theorem uploadAnswers_of_no_upload (dev : USBDevice) (evs : List Event)
    (h : ∀ e ∈ evs, e.isUpload = false) : ∀ tr, uploadAnswers dev tr evs = [] := by
  induction evs with
  | nil => intro tr; rfl
  | cons e evs ih =>
    intro tr
    have he := h e (List.mem_cons_self _ _)
    have ih1 := ih (fun x hx => h x (List.mem_cons_of_mem _ hx)) (tr ++ [e])
    cases e <;> simp only [uploadAnswers, ih1]
    rename_i request value index length
    have : ¬ request = UPLOAD := by simpa [Event.isUpload] using he
    simp [this]

/-- No response, no request. -/
theorem expectedUploadRequests_nil (intf xfer : Nat) (max : Option Nat) (t a : Nat) :
    expectedUploadRequests intf xfer max t a [] = [] := rfl

/-- The expected requests, one response at a time. -/
theorem expectedUploadRequests_cons (intf xfer : Nat) (max : Option Nat) (t a : Nat)
    (r : List Nat) (rs : List (List Nat)) :
    expectedUploadRequests intf xfer max t a (r :: rs) =
      Event.controlTransferIn UPLOAD t intf (uploadLength xfer max a) ::
        expectedUploadRequests intf xfer max (t + 1) (a + r.length) rs := by
  unfold expectedUploadRequests
  rw [List.length_cons, List.range_succ_eq_map, List.map_cons, List.map_map]
  refine congrArg₂ _ ?_ ?_
  · simp [totalLength]
  · apply List.map_congr_left
    intro k _
    simp only [Function.comp, List.take_succ_cons, totalLength, List.map_cons, List.sum_cons]
    congr 1
    · omega
    · congr 1
      omega

/-- What `requestIn` does when the transfer is rejected. -/
theorem Device.requestIn_error (d : Device) (bRequest wLength wValue : Nat) (tr : List Event)
    (e : Thrown)
    (h : d.device_.controlTransferIn tr bRequest wValue d.intfNumber wLength = .error e) :
    d.requestIn bRequest wLength wValue tr =
      (tr ++ [.controlTransferIn bRequest wValue d.intfNumber wLength], .throw e) := by
  simp [Device.requestIn, Run.call, bind, Run.bind, h]

/-- What `requestIn` does when the transfer stalls. -/
theorem Device.requestIn_stall (d : Device) (bRequest wLength wValue : Nat) (tr : List Event)
    (r : USBInTransferResult) (hst : r.status = .stall)
    (h : d.device_.controlTransferIn tr bRequest wValue d.intfNumber wLength = .ok r) :
    ∃ e, d.requestIn bRequest wLength wValue tr =
      (tr ++ [.controlTransferIn bRequest wValue d.intfNumber wLength,
        .clearHalt .in d.intfNumber], .throw e) := by
  rcases hc : d.device_.clearHalt (tr ++ [.controlTransferIn bRequest wValue d.intfNumber wLength])
    .in d.intfNumber with e | u
  · exact ⟨e, by simp [Device.requestIn, Run.call, bind, Run.bind, h, hst, hc]⟩
  · exact ⟨newError "stall", by
      simp [Device.requestIn, Run.call, bind, Run.bind, h, hst, hc, Run.throw]⟩

/-- The loop of `do_upload` when the request is not answered with a payload: it
throws after the request, and at most a `clearHalt` follows the request. -/
theorem Device.uploadLoop_unanswered (d : Device) (xfer : Nat) (max : Option Nat)
    (fuel t : Nat) (blocks : List (List Nat)) (a : Nat) (tr : List Event)
    (h : transferAnswer d.device_ tr UPLOAD t d.intfNumber (uploadLength xfer max a) = none) :
    ∃ rest, (d.uploadLoop xfer max fuel t blocks a tr).1 =
        tr ++ Event.controlTransferIn UPLOAD t d.intfNumber (uploadLength xfer max a) :: rest ∧
      (rest = [] ∨ rest = [.clearHalt .in d.intfNumber]) ∧
      ∃ e, (d.uploadLoop xfer max fuel t blocks a tr).2 = .throw e := by
  have hlen : Device.bytesToRead xfer max a = uploadLength xfer max a := rfl
  unfold transferAnswer at h
  rcases hr : d.device_.controlTransferIn tr UPLOAD t d.intfNumber (uploadLength xfer max a)
    with e | r
  · have hreq := Device.requestIn_error d UPLOAD (uploadLength xfer max a) t tr e hr
    refine ⟨[], ?_, Or.inl rfl, e, ?_⟩ <;>
      · rw [Device.uploadLoop.eq_def]
        simp only [Device.upload, Run.bind, hlen, hreq]
  · rw [hr] at h
    simp only at h
    by_cases hst : r.status = .stall
    · obtain ⟨e, hreq⟩ := Device.requestIn_stall d UPLOAD (uploadLength xfer max a) t tr r hst hr
      refine ⟨[.clearHalt .in d.intfNumber], ?_, Or.inr rfl, e, ?_⟩ <;>
        · rw [Device.uploadLoop.eq_def]
          simp only [Device.upload, Run.bind, hlen, hreq]
    · rw [if_neg hst] at h
      have hreq := Device.requestIn_ok d UPLOAD (uploadLength xfer max a) t tr r hst hr
      refine ⟨[], ?_, Or.inl rfl, .error "TypeError" "Cannot read properties of null", ?_⟩ <;>
        · rw [Device.uploadLoop.eq_def]
          simp only [Device.upload, Run.bind, hlen, hreq, h]
          rfl

/-- The loop of `do_upload` when the request is answered with the payload `bytes`:
it goes on with the next block when the payload is as long as requested and the size
read is still below the limit, and returns otherwise. -/
theorem Device.uploadLoop_answered (d : Device) (xfer : Nat) (max : Option Nat)
    (fuel t : Nat) (blocks : List (List Nat)) (a : Nat) (tr : List Event) (bytes : List Nat)
    (h : transferAnswer d.device_ tr UPLOAD t d.intfNumber (uploadLength xfer max a) =
      some bytes) :
    d.uploadLoop xfer max fuel t blocks a tr =
      if BelowMax (a + bytes.length) max ∧ bytes.length = uploadLength xfer max a then
        match fuel with
        | 0 => (tr ++ [.controlTransferIn UPLOAD t d.intfNumber (uploadLength xfer max a)],
            .stuck)
        | fuel1 + 1 =>
          d.uploadLoop xfer max fuel1 (t + 1)
            (if bytes.length > 0 then blocks ++ [bytes] else blocks) (a + bytes.length)
            (tr ++ [.controlTransferIn UPLOAD t d.intfNumber (uploadLength xfer max a)])
      else
        (tr ++ [.controlTransferIn UPLOAD t d.intfNumber (uploadLength xfer max a)],
          .ok (if bytes.length > 0 then blocks ++ [bytes] else blocks, a + bytes.length)) := by
  unfold transferAnswer at h
  rcases hr : d.device_.controlTransferIn tr UPLOAD t d.intfNumber (uploadLength xfer max a)
    with e | r
  · rw [hr] at h; simp at h
  · rw [hr] at h
    simp only at h
    by_cases hst : r.status = .stall
    · rw [if_pos hst] at h; simp at h
    · rw [if_neg hst] at h
      have hreq := Device.requestIn_ok d UPLOAD (uploadLength xfer max a) t tr r hst hr
      have ha : (if bytes.length > 0 then a + bytes.length else a) = a + bytes.length := by
        split
        · rfl
        · omega
      have hb : Device.belowMax (a + bytes.length) max = true ↔
          BelowMax (a + bytes.length) max := by
        cases max <;> simp [Device.belowMax, BelowMax]
      conv_lhs => rw [Device.uploadLoop.eq_def]
      have hlen : Device.bytesToRead xfer max a = uploadLength xfer max a := rfl
      simp only [Device.upload, Run.bind, hlen, hreq, h, ha]
      by_cases hc : BelowMax (a + bytes.length) max ∧ bytes.length = uploadLength xfer max a
      · have : (Device.belowMax (a + bytes.length) max &&
            bytes.length == uploadLength xfer max a) = true := by
          rw [Bool.and_eq_true]
          exact ⟨hb.2 hc.1, beq_iff_eq.2 hc.2⟩
        rw [if_pos hc, if_pos this]
        cases fuel <;> rfl
      · have : ¬ (Device.belowMax (a + bytes.length) max &&
            bytes.length == uploadLength xfer max a) = true := by
          intro hh
          simp only [Bool.and_eq_true, beq_iff_eq] at hh
          exact hc ⟨hb.1 hh.1, hh.2⟩
        rw [if_neg hc, if_neg this]
        rfl

/-- The answer to an `UPLOAD` request at the head of a trace. -/
theorem uploadAnswers_cons_upload (dev : USBDevice) (tr evs : List Event) (t i l : Nat) :
    uploadAnswers dev tr (Event.controlTransferIn UPLOAD t i l :: evs) =
      transferAnswer dev tr UPLOAD t i l ::
        uploadAnswers dev (tr ++ [Event.controlTransferIn UPLOAD t i l]) evs := by
  simp [uploadAnswers]

/-- Pushing a block that is not empty appends its bytes to the content. -/
theorem flatten_push (blocks : List (List Nat)) (bytes : List Nat) :
    (if bytes.length > 0 then blocks ++ [bytes] else blocks).flatten = blocks.flatten ++ bytes := by
  split
  · simp
  · have : bytes = [] := List.eq_nil_of_length_eq_zero (by omega)
    simp [this]

/-- A run of the loop of `do_upload`, from any state: the requests it makes, the
answers it gets and how it ends. -/
theorem Device.uploadLoop_run (d : Device) (xfer : Nat) (max : Option Nat) :
    ∀ (fuel t : Nat) (blocks : List (List Nat)) (a : Nat) (tr : List Event),
      ∃ evs, (d.uploadLoop xfer max fuel t blocks a tr).1 = tr ++ evs ∧
        (∀ e ∈ evs, e.isAbort = false) ∧
        uploadAnswers d.device_ tr evs ≠ [] ∧
        evs.filter Event.isUpload = expectedUploadRequests d.intfNumber xfer max t a
          ((uploadAnswers d.device_ tr evs).map (fun x => x.getD [])) ∧
        (∀ x ∈ (uploadAnswers d.device_ tr evs).dropLast, x ≠ none) ∧
        UploadGoesOn xfer max a ((uploadAnswers d.device_ tr evs).map (fun x => x.getD [])) ∧
        ((d.uploadLoop xfer max fuel t blocks a tr).2 = .stuck ∨
         ((∃ e, (d.uploadLoop xfer max fuel t blocks a tr).2 = .throw e) ∧
            (uploadAnswers d.device_ tr evs).getLast? = some none) ∨
         (∃ blocks1, (d.uploadLoop xfer max fuel t blocks a tr).2 =
              .ok (blocks1, a + totalLength
                ((uploadAnswers d.device_ tr evs).map (fun x => x.getD []))) ∧
            blocks1.flatten = blocks.flatten ++
              ((uploadAnswers d.device_ tr evs).map (fun x => x.getD [])).flatten ∧
            (∀ x ∈ uploadAnswers d.device_ tr evs, x ≠ none) ∧
            UploadStops xfer max a
              ((uploadAnswers d.device_ tr evs).map (fun x => x.getD [])))) := by
  intro fuel
  induction fuel with
  | zero =>
    intro t blocks a tr
    rcases hans : transferAnswer d.device_ tr UPLOAD t d.intfNumber (uploadLength xfer max a)
      with _ | bytes
    · obtain ⟨rest, h1, h2, e, h3⟩ := Device.uploadLoop_unanswered d xfer max 0 t blocks a tr hans
      have hA : uploadAnswers d.device_ tr
          (Event.controlTransferIn UPLOAD t d.intfNumber (uploadLength xfer max a) :: rest) =
          [none] := by
        rw [uploadAnswers_cons_upload, hans]
        rcases h2 with rfl | rfl <;> simp [uploadAnswers]
      refine ⟨_, h1, ?_, ?_, ?_, ?_, ?_, Or.inr (Or.inl ⟨⟨e, h3⟩, ?_⟩)⟩
      · rcases h2 with rfl | rfl <;> simp [Event.isAbort]
      · rw [hA]; simp
      · rw [hA]
        rcases h2 with rfl | rfl <;>
          simp [Event.isUpload, UPLOAD, expectedUploadRequests_cons, expectedUploadRequests_nil]
      · rw [hA]; simp
      · rw [hA]; simp [UploadGoesOn]
      · rw [hA]; rfl
    · have hA : uploadAnswers d.device_ tr
          [Event.controlTransferIn UPLOAD t d.intfNumber (uploadLength xfer max a)] =
          [some bytes] := by
        rw [uploadAnswers_cons_upload, hans]
        simp [uploadAnswers]
      have hrun := Device.uploadLoop_answered d xfer max 0 t blocks a tr bytes hans
      refine ⟨[Event.controlTransferIn UPLOAD t d.intfNumber (uploadLength xfer max a)], ?_, ?_,
        ?_, ?_, ?_, ?_, ?_⟩
      · rw [hrun]; split <;> rfl
      · simp [Event.isAbort]
      · rw [hA]; simp
      · rw [hA]
        simp [Event.isUpload, UPLOAD, expectedUploadRequests_cons, expectedUploadRequests_nil]
      · rw [hA]; simp
      · rw [hA]; simp [UploadGoesOn]
      · rw [hA, hrun]
        by_cases hc : BelowMax (a + bytes.length) max ∧ bytes.length = uploadLength xfer max a
        · rw [if_pos hc]; exact Or.inl rfl
        · rw [if_neg hc]
          refine Or.inr (Or.inr ⟨_, ?_, by rw [flatten_push], by simp, ?_⟩)
          · simp [totalLength]
          · simp only [List.map_cons, List.map_nil, Option.getD_some, UploadStops]
            by_cases hl : bytes.length = uploadLength xfer max a
            · exact Or.inr (fun hb => hc ⟨hb, hl⟩)
            · exact Or.inl hl
  | succ n ih =>
    intro t blocks a tr
    rcases hans : transferAnswer d.device_ tr UPLOAD t d.intfNumber (uploadLength xfer max a)
      with _ | bytes
    · obtain ⟨rest, h1, h2, e, h3⟩ :=
        Device.uploadLoop_unanswered d xfer max (n + 1) t blocks a tr hans
      have hA : uploadAnswers d.device_ tr
          (Event.controlTransferIn UPLOAD t d.intfNumber (uploadLength xfer max a) :: rest) =
          [none] := by
        rw [uploadAnswers_cons_upload, hans]
        rcases h2 with rfl | rfl <;> simp [uploadAnswers]
      refine ⟨_, h1, ?_, ?_, ?_, ?_, ?_, Or.inr (Or.inl ⟨⟨e, h3⟩, ?_⟩)⟩
      · rcases h2 with rfl | rfl <;> simp [Event.isAbort]
      · rw [hA]; simp
      · rw [hA]
        rcases h2 with rfl | rfl <;>
          simp [Event.isUpload, UPLOAD, expectedUploadRequests_cons, expectedUploadRequests_nil]
      · rw [hA]; simp
      · rw [hA]; simp [UploadGoesOn]
      · rw [hA]; rfl
    · have hrun := Device.uploadLoop_answered d xfer max (n + 1) t blocks a tr bytes hans
      by_cases hc : BelowMax (a + bytes.length) max ∧ bytes.length = uploadLength xfer max a
      · rw [if_pos hc] at hrun
        simp only at hrun
        obtain ⟨evs, h1, h2, h3, h4, h5, h6, h7⟩ := ih (t + 1)
          (if bytes.length > 0 then blocks ++ [bytes] else blocks) (a + bytes.length)
          (tr ++ [Event.controlTransferIn UPLOAD t d.intfNumber (uploadLength xfer max a)])
        have hA : uploadAnswers d.device_ tr
            (Event.controlTransferIn UPLOAD t d.intfNumber (uploadLength xfer max a) :: evs) =
            some bytes :: uploadAnswers d.device_
              (tr ++ [Event.controlTransferIn UPLOAD t d.intfNumber (uploadLength xfer max a)])
              evs := by
          rw [uploadAnswers_cons_upload, hans]
        generalize uploadAnswers d.device_
          (tr ++ [Event.controlTransferIn UPLOAD t d.intfNumber (uploadLength xfer max a)])
          evs = answers at h3 h4 h5 h6 h7 hA
        obtain ⟨x, xs, rfl⟩ := List.exists_cons_of_ne_nil h3
        refine ⟨Event.controlTransferIn UPLOAD t d.intfNumber (uploadLength xfer max a) :: evs,
          ?_, ?_, ?_, ?_, ?_, ?_, ?_⟩
        · rw [hrun, h1]; simp
        · intro e he
          rcases List.mem_cons.1 he with rfl | he
          · rfl
          · exact h2 e he
        · rw [hA]; simp
        · rw [hA, List.filter_cons_of_pos (by simp [Event.isUpload]), h4]
          simp only [List.map_cons, Option.getD_some, expectedUploadRequests_cons]
        · rw [hA]
          intro y hy
          simp only [List.dropLast_cons₂, List.mem_cons] at hy
          rcases hy with rfl | hy
          · simp
          · exact h5 y hy
        · rw [hA]
          simp only [List.map_cons, Option.getD_some, UploadGoesOn]
          exact ⟨hc.2, hc.1, by simpa using h6⟩
        · rw [hA, hrun]
          rcases h7 with h7 | ⟨h7, h8⟩ | ⟨blocks1, h7, h8, h9, h10⟩
          · exact Or.inl h7
          · exact Or.inr (Or.inl ⟨h7, by simpa using h8⟩)
          · refine Or.inr (Or.inr ⟨blocks1, ?_, ?_, ?_, ?_⟩)
            · rw [h7]
              simp [totalLength, Nat.add_assoc]
            · rw [h8, flatten_push]
              simp
            · intro y hy
              rcases List.mem_cons.1 hy with rfl | hy
              · simp
              · exact h9 y hy
            · simp only [List.map_cons, Option.getD_some, UploadStops]
              exact ⟨hc.2, hc.1, by simpa using h10⟩
      · rw [if_neg hc] at hrun
        have hA : uploadAnswers d.device_ tr
            [Event.controlTransferIn UPLOAD t d.intfNumber (uploadLength xfer max a)] =
            [some bytes] := by
          rw [uploadAnswers_cons_upload, hans]
          simp [uploadAnswers]
        refine ⟨[Event.controlTransferIn UPLOAD t d.intfNumber (uploadLength xfer max a)], ?_,
          ?_, ?_, ?_, ?_, ?_, ?_⟩
        · rw [hrun]
        · simp [Event.isAbort]
        · rw [hA]; simp
        · rw [hA]
          simp [Event.isUpload, UPLOAD, expectedUploadRequests_cons, expectedUploadRequests_nil]
        · rw [hA]; simp
        · rw [hA]; simp [UploadGoesOn]
        · rw [hA, hrun]
          refine Or.inr (Or.inr ⟨_, ?_, by rw [flatten_push], by simp, ?_⟩)
          · simp [totalLength]
          · simp only [List.map_cons, List.map_nil, Option.getD_some, UploadStops]
            by_cases hl : bytes.length = uploadLength xfer max a
            · exact Or.inr (fun hb => hc ⟨hb, hl⟩)
            · exact Or.inl hl

/-- The events of `requestIn`. -/
theorem Device.requestIn_emits_of {P : Event → Prop} (d : Device) (bRequest wLength wValue : Nat)
    (h1 : P (.controlTransferIn bRequest wValue d.intfNumber wLength))
    (h2 : P (.clearHalt .in d.intfNumber)) :
    Run.Emits P (d.requestIn bRequest wLength wValue) := by
  unfold Device.requestIn
  refine Run.Emits.bind (Run.Emits.call h1 _) (fun result => ?_)
  split
  · exact Run.Emits.bind (Run.Emits.call h2 _) (fun _ => Run.Emits.throw _)
  · exact Run.Emits.pure _

/-- The events of `getState`. -/
theorem Device.getState_emits_of {P : Event → Prop} (d : Device)
    (h1 : P (.controlTransferIn GETSTATE 0 d.intfNumber 1))
    (h2 : P (.clearHalt .in d.intfNumber)) : Run.Emits P d.getState := by
  unfold Device.getState
  refine Run.Emits.bind (Run.Emits.tryCatch (Device.requestIn_emits_of d _ _ _ h1 h2)
    (fun _ => Run.Emits.throw _)) (fun data => ?_)
  intro tr
  exact ⟨[], by simp, by simp⟩

/-- The trace of `requestOut`: the transfer, followed by a `clearHalt` when it
stalls. -/
theorem Device.requestOut_trace_halt (d : Device) (bRequest : Nat) (data : Option (List Nat))
    (wValue : Nat) (tr : List Event) :
    ∃ rest, (d.requestOut bRequest data wValue tr).1 =
        tr ++ .controlTransferOut bRequest wValue d.intfNumber data :: rest ∧
      (rest = [] ∨ rest = [.clearHalt .out d.intfNumber]) := by
  rcases h : d.device_.controlTransferOut tr bRequest wValue d.intfNumber data with e | r
  · exact ⟨[], by rw [Device.requestOut_error d _ _ _ _ e h], Or.inl rfl⟩
  · by_cases hst : r.status = .stall
    · refine ⟨[.clearHalt .out d.intfNumber], ?_, Or.inr rfl⟩
      rw [(Device.requestOut_stall d _ _ _ _ r hst h).1]
    · exact ⟨[], by rw [Device.requestOut_ok d _ _ _ _ r hst h], Or.inl rfl⟩

/-- The trace of `abortToIdle`: it starts with the `ABORT` request, and no `UPLOAD`
request follows. -/
theorem Device.abortToIdle_trace (d : Device) (tr : List Event) :
    ∃ rest, (d.abortToIdle tr).1 = tr ++ Event.controlTransferOut ABORT 0 d.intfNumber none :: rest ∧
      ∀ e ∈ rest, e.isUpload = false := by
  have hS : Run.Emits (fun e => e.isUpload = false) d.getState :=
    Device.getState_emits_of d (by simp [Event.isUpload, GETSTATE, UPLOAD]) rfl
  have hrest : Run.Emits (fun e => e.isUpload = false)
      (d.getState >>= fun state =>
        (if state = dfuERROR then (do let _ ← d.clearStatus; d.getState) else pure state) >>=
          fun state =>
          if state ≠ dfuIDLE then
            Run.throw (newError "Failed to return to idle state after abort: state undefined")
          else pure ()) := by
    refine Run.Emits.bind hS (fun state => Run.Emits.bind ?_ (fun state => ?_))
    · split
      · exact Run.Emits.bind (Device.requestOut_emits_of d _ _ _ rfl rfl) (fun _ => hS)
      · exact Run.Emits.pure _
    · split
      · exact Run.Emits.throw _
      · exact Run.Emits.pure _
  obtain ⟨r1, h1, hr1⟩ := Device.requestOut_trace_halt d ABORT none 0 tr
  unfold Device.abortToIdle
  show ∃ rest, (Run.bind d.abort _ tr).1 = _ ∧ _
  unfold Run.bind Device.abort
  rcases hx : d.requestOut ABORT none 0 tr with ⟨tr1, o⟩
  rw [hx] at h1
  simp only at h1
  subst h1
  have hp : ∀ e ∈ r1, e.isUpload = false := by
    rcases hr1 with rfl | rfl <;> simp [Event.isUpload]
  cases o with
  | throw e => exact ⟨r1, rfl, hp⟩
  | stuck => exact ⟨r1, rfl, hp⟩
  | ok a =>
    simp only
    obtain ⟨r2, h2, hr2⟩ := hrest (tr ++ Event.controlTransferOut ABORT 0 d.intfNumber none :: r1)
    refine ⟨r1 ++ r2, ?_, ?_⟩
    · rw [show tr ++ Event.controlTransferOut ABORT 0 d.intfNumber none :: (r1 ++ r2) =
          (tr ++ Event.controlTransferOut ABORT 0 d.intfNumber none :: r1) ++ r2 by simp]
      exact h2
    · intro e he
      rcases List.mem_append.1 he with h | h
      · exact hp e h
      · exact hr2 e h

/-- Sequencing after a computation that throws. -/
theorem Run.bind_throw {α β : Type} {x : Run α} {f : α → Run β} {tr tr1 : List Event}
    {e : Thrown} (h : x tr = (tr1, .throw e)) : (x >>= f) tr = (tr1, .throw e) := by
  show Run.bind x f tr = _
  unfold Run.bind
  rw [h]

/-- Sequencing after a computation that is stuck. -/
theorem Run.bind_stuck {α β : Type} {x : Run α} {f : α → Run β} {tr tr1 : List Event}
    (h : x tr = (tr1, .stuck)) : (x >>= f) tr = (tr1, .stuck) := by
  show Run.bind x f tr = _
  unfold Run.bind
  rw [h]

/-- How `do_upload` ends once its loop has returned. -/
theorem Device.do_upload_of_loop_ok (d : Device) (fuel xfer : Nat) (max : Option Nat)
    (first : Nat) (tr tr1 : List Event) (blocks : List (List Nat)) (n : Nat)
    (h : d.uploadLoop xfer max fuel first [] 0 tr = (tr1, .ok (blocks, n))) :
    (max ≠ some n → d.do_upload fuel xfer max first tr = (tr1, .ok blocks.flatten)) ∧
    (max = some n → (d.do_upload fuel xfer max first tr).1 = (d.abortToIdle tr1).1 ∧
      ∀ blob, (d.do_upload fuel xfer max first tr).2 = .ok blob → blob = blocks.flatten) := by
  have hrun : d.do_upload fuel xfer max first tr =
      (d.finishUpload max n >>= fun _ => (pure blocks.flatten : Run (List Nat))) tr1 := by
    unfold Device.do_upload
    rw [Run.bind_ok h]
  refine ⟨?_, ?_⟩
  · intro hm
    rw [hrun]
    have : d.finishUpload max n tr1 = (tr1, .ok ()) := by
      unfold Device.finishUpload
      rw [if_neg hm]
      rfl
    rw [Run.bind_ok this]
    rfl
  · intro hm
    rw [hrun]
    have hf : d.finishUpload max n = d.abortToIdle := by
      unfold Device.finishUpload
      rw [if_pos hm]
    rw [hf]
    rcases hy : d.abortToIdle tr1 with ⟨tr2, o2⟩
    cases o2 with
    | ok u =>
      rw [Run.bind_ok hy]
      refine ⟨rfl, fun blob hb => ?_⟩
      simp only [pure, Run.pure, Outcome.ok.injEq] at hb
      exact hb.symm
    | throw e =>
      rw [Run.bind_throw hy]
      exact ⟨rfl, fun blob hb => by simp at hb⟩
    | stuck =>
      rw [Run.bind_stuck hy]
      exact ⟨rfl, fun blob hb => by simp at hb⟩

/-- A throw inside the loop ends `do_upload`. -/
theorem Device.do_upload_of_loop_throw (d : Device) (fuel xfer : Nat) (max : Option Nat)
    (first : Nat) (tr tr1 : List Event) (e : Thrown)
    (h : d.uploadLoop xfer max fuel first [] 0 tr = (tr1, .throw e)) :
    d.do_upload fuel xfer max first tr = (tr1, .throw e) := by
  unfold Device.do_upload
  rw [Run.bind_throw h]

/-- A loop out of budget leaves `do_upload` stuck. -/
theorem Device.do_upload_of_loop_stuck (d : Device) (fuel xfer : Nat) (max : Option Nat)
    (first : Nat) (tr tr1 : List Event)
    (h : d.uploadLoop xfer max fuel first [] 0 tr = (tr1, .stuck)) :
    d.do_upload fuel xfer max first tr = (tr1, .stuck) := by
  unfold Device.do_upload
  rw [Run.bind_stuck h]

/-- The loop of `do_upload` only runs out of budget after `fuel + 1` requests, each
answered with a payload as long as requested that leaves the size read below the
limit. -/
theorem Device.uploadLoop_stuck (d : Device) (xfer : Nat) (max : Option Nat) :
    ∀ (fuel t : Nat) (blocks : List (List Nat)) (a : Nat) (tr : List Event),
      (d.uploadLoop xfer max fuel t blocks a tr).2 = .stuck →
      ∃ evs, (d.uploadLoop xfer max fuel t blocks a tr).1 = tr ++ evs ∧
        (uploadAnswers d.device_ tr evs).length = fuel + 1 ∧
        (∀ x ∈ uploadAnswers d.device_ tr evs, x ≠ none) ∧
        BelowMax (a + totalLength ((uploadAnswers d.device_ tr evs).map (fun x => x.getD [])))
          max := by
  intro fuel
  induction fuel with
  | zero =>
    intro t blocks a tr hs
    rcases hans : transferAnswer d.device_ tr UPLOAD t d.intfNumber (uploadLength xfer max a)
      with _ | bytes
    · obtain ⟨rest, h1, h2, e, h3⟩ := Device.uploadLoop_unanswered d xfer max 0 t blocks a tr hans
      rw [h3] at hs
      cases hs
    · have hrun := Device.uploadLoop_answered d xfer max 0 t blocks a tr bytes hans
      have hA : uploadAnswers d.device_ tr
          [Event.controlTransferIn UPLOAD t d.intfNumber (uploadLength xfer max a)] =
          [some bytes] := by
        rw [uploadAnswers_cons_upload, hans]
        simp [uploadAnswers]
      by_cases hc : BelowMax (a + bytes.length) max ∧ bytes.length = uploadLength xfer max a
      · rw [if_pos hc] at hrun
        refine ⟨[Event.controlTransferIn UPLOAD t d.intfNumber (uploadLength xfer max a)], ?_, ?_,
          ?_, ?_⟩
        · rw [hrun]
        · rw [hA]; rfl
        · rw [hA]; simp
        · rw [hA]
          simpa [totalLength] using hc.1
      · rw [if_neg hc] at hrun
        rw [hrun] at hs
        cases hs
  | succ n ih =>
    intro t blocks a tr hs
    rcases hans : transferAnswer d.device_ tr UPLOAD t d.intfNumber (uploadLength xfer max a)
      with _ | bytes
    · obtain ⟨rest, h1, h2, e, h3⟩ :=
        Device.uploadLoop_unanswered d xfer max (n + 1) t blocks a tr hans
      rw [h3] at hs
      cases hs
    · have hrun := Device.uploadLoop_answered d xfer max (n + 1) t blocks a tr bytes hans
      by_cases hc : BelowMax (a + bytes.length) max ∧ bytes.length = uploadLength xfer max a
      · rw [if_pos hc] at hrun
        simp only at hrun
        rw [hrun] at hs
        obtain ⟨evs, h1, h2, h3, h4⟩ := ih (t + 1)
          (if bytes.length > 0 then blocks ++ [bytes] else blocks) (a + bytes.length)
          (tr ++ [Event.controlTransferIn UPLOAD t d.intfNumber (uploadLength xfer max a)]) hs
        have hA : uploadAnswers d.device_ tr
            (Event.controlTransferIn UPLOAD t d.intfNumber (uploadLength xfer max a) :: evs) =
            some bytes :: uploadAnswers d.device_
              (tr ++ [Event.controlTransferIn UPLOAD t d.intfNumber (uploadLength xfer max a)])
              evs := by
          rw [uploadAnswers_cons_upload, hans]
        refine ⟨Event.controlTransferIn UPLOAD t d.intfNumber (uploadLength xfer max a) :: evs,
          ?_, ?_, ?_, ?_⟩
        · rw [hrun, h1]; simp
        · rw [hA, List.length_cons, h2]
        · rw [hA]
          intro x hx
          rcases List.mem_cons.1 hx with rfl | hx
          · simp
          · exact h3 x hx
        · rw [hA]
          simpa [totalLength, Nat.add_assoc] using h4
      · rw [if_neg hc] at hrun
        rw [hrun] at hs
        cases hs

/-- With a limit `m`, transfers that are not empty and a budget of at least the bytes
still to read, the loop of `do_upload` ends. -/
theorem Device.uploadLoop_ends (d : Device) (xfer m : Nat) (hx : 0 < xfer) :
    ∀ (fuel t : Nat) (blocks : List (List Nat)) (a : Nat) (tr : List Event),
      m - a ≤ fuel → (d.uploadLoop xfer (some m) fuel t blocks a tr).2 ≠ .stuck := by
  intro fuel
  induction fuel with
  | zero =>
    intro t blocks a tr hf hs
    obtain ⟨evs, -, h2, -, h4⟩ := Device.uploadLoop_stuck d xfer (some m) 0 t blocks a tr hs
    simp only [BelowMax] at h4
    omega
  | succ n ih =>
    intro t blocks a tr hf hs
    rcases hans : transferAnswer d.device_ tr UPLOAD t d.intfNumber
      (uploadLength xfer (some m) a) with _ | bytes
    · obtain ⟨rest, h1, h2, e, h3⟩ :=
        Device.uploadLoop_unanswered d xfer (some m) (n + 1) t blocks a tr hans
      rw [h3] at hs
      cases hs
    · have hrun := Device.uploadLoop_answered d xfer (some m) (n + 1) t blocks a tr bytes hans
      by_cases hc : BelowMax (a + bytes.length) (some m) ∧
          bytes.length = uploadLength xfer (some m) a
      · rw [if_pos hc] at hrun
        simp only at hrun
        rw [hrun] at hs
        have hlen : 0 < bytes.length := by
          have h1 := hc.1
          have h2 := hc.2
          simp only [BelowMax] at h1
          simp only [uploadLength] at h2
          omega
        have h1 := hc.1
        simp only [BelowMax] at h1
        exact ih _ _ _ _ (by omega) hs
      · rw [if_neg hc] at hrun
        rw [hrun] at hs
        cases hs

/-- A computation that always ends: it returns or throws from every trace. -/
theorem Run.bind_not_stuck {α β : Type} (x : Run α) (f : α → Run β)
    (hx : ∀ tr, (x tr).2 ≠ .stuck) (hf : ∀ a tr, (f a tr).2 ≠ .stuck) :
    ∀ tr, ((x >>= f) tr).2 ≠ .stuck := by
  intro tr
  rcases h : x tr with ⟨tr1, o⟩
  cases o with
  | ok a => rw [Run.bind_ok h]; exact hf a tr1
  | throw e => rw [Run.bind_throw h]; simp
  | stuck => exact absurd (by rw [h]) (hx tr)

/-- A `try` block ends when its body and its handler end. -/
theorem Run.tryCatch_not_stuck {α : Type} (x : Run α) (h : Thrown → Run α)
    (hx : ∀ tr, (x tr).2 ≠ .stuck) (hh : ∀ e tr, (h e tr).2 ≠ .stuck) :
    ∀ tr, (Run.tryCatch x h tr).2 ≠ .stuck := by
  intro tr
  unfold Run.tryCatch
  rcases hr : x tr with ⟨tr1, o⟩
  cases o with
  | ok a => simp
  | throw e => exact hh e tr1
  | stuck => exact absurd (by rw [hr]) (hx tr)

/-- A request to the device ends. -/
theorem Run.call_not_stuck {α : Type} (e : Event) (answer : List Event → Except Thrown α) :
    ∀ tr, (Run.call e answer tr).2 ≠ .stuck := by
  intro tr
  unfold Run.call
  cases answer tr <;> simp

/-- `requestOut` ends. -/
theorem Device.requestOut_not_stuck (d : Device) (bRequest : Nat) (data : Option (List Nat))
    (wValue : Nat) : ∀ tr, (d.requestOut bRequest data wValue tr).2 ≠ .stuck := by
  unfold Device.requestOut
  refine Run.bind_not_stuck _ _ (Run.call_not_stuck _ _) (fun r => ?_)
  split
  · exact Run.bind_not_stuck _ _ (Run.call_not_stuck _ _) (fun _ tr => by simp [Run.throw])
  · intro tr; simp [pure, Run.pure]

/-- `requestIn` ends. -/
theorem Device.requestIn_not_stuck (d : Device) (bRequest wLength wValue : Nat) :
    ∀ tr, (d.requestIn bRequest wLength wValue tr).2 ≠ .stuck := by
  unfold Device.requestIn
  refine Run.bind_not_stuck _ _ (Run.call_not_stuck _ _) (fun r => ?_)
  split
  · exact Run.bind_not_stuck _ _ (Run.call_not_stuck _ _) (fun _ tr => by simp [Run.throw])
  · intro tr; simp [pure, Run.pure]

/-- `getState` ends. -/
theorem Device.getState_not_stuck (d : Device) : ∀ tr, (d.getState tr).2 ≠ .stuck := by
  unfold Device.getState
  refine Run.bind_not_stuck _ _
    (Run.tryCatch_not_stuck _ _ (Device.requestIn_not_stuck d _ _ _)
      (fun _ tr => by simp [Run.throw])) (fun data tr => ?_)
  unfold Device.getUint8
  cases data with
  | none => simp
  | some bytes =>
    show (match bytes.get? 0 with
      | some b => Outcome.ok (b % 256)
      | none => Outcome.throw (.error "RangeError" "Offset is outside the bounds of the DataView")) ≠ .stuck
    cases bytes.get? 0 <;> simp

/-- `abortToIdle` ends. -/
theorem Device.abortToIdle_not_stuck (d : Device) : ∀ tr, (d.abortToIdle tr).2 ≠ .stuck := by
  unfold Device.abortToIdle
  refine Run.bind_not_stuck _ _ (Device.requestOut_not_stuck d _ _ _) (fun _ => ?_)
  refine Run.bind_not_stuck _ _ (Device.getState_not_stuck d) (fun state => ?_)
  refine Run.bind_not_stuck _ _ ?_ (fun state tr => ?_)
  · split
    · exact Run.bind_not_stuck _ _ (Device.requestOut_not_stuck d _ _ _)
        (fun _ => Device.getState_not_stuck d)
    · intro tr; simp [pure, Run.pure]
  · split <;> simp [Run.throw, pure, Run.pure]

/-- When the loop of `do_upload` has ended, `do_upload` ends. -/
theorem Device.do_upload_not_stuck_of_loop (d : Device) (fuel xfer : Nat) (max : Option Nat)
    (first : Nat) (tr : List Event)
    (h : (d.uploadLoop xfer max fuel first [] 0 tr).2 ≠ .stuck) :
    (d.do_upload fuel xfer max first tr).2 ≠ .stuck := by
  rcases hx : d.uploadLoop xfer max fuel first [] 0 tr with ⟨tr1, o⟩
  cases o with
  | stuck => exact absurd (by rw [hx]) h
  | throw e => rw [Device.do_upload_of_loop_throw d fuel xfer max first tr _ e hx]; simp
  | ok res =>
    obtain ⟨blocks, n⟩ := res
    unfold Device.do_upload
    rw [Run.bind_ok hx]
    refine Run.bind_not_stuck _ _ ?_ (fun _ tr => by simp [pure, Run.pure]) tr1
    unfold Device.finishUpload
    split
    · exact Device.abortToIdle_not_stuck d
    · intro tr; simp [pure, Run.pure]

/-- C14: for every device behaviour, the `UPLOAD` requests of `do_upload` are numbered
`firstBlock`, `firstBlock + 1`, ... and each asks for `min(xferSize, maxSize - bytes
accumulated so far)` bytes; every request but the last was answered with a payload as
long as requested that left the accumulated size below `maxSize`; when the run
returns, the last response is the first that is not as long as requested or that
brings the size to `maxSize`, and the data returned is the concatenation of the
payloads in request order. The run does return: it only exceeds a budget of `fuel`
iterations after `fuel + 1` requests that were each answered in full below `maxSize`,
which a budget of `maxSize` iterations excludes when `xferSize` is positive; and when
every request was answered and the size read differs from `maxSize`, so that no abort
follows, the run returns the concatenation of the payloads. -/
theorem do_upload_requests_and_data (d : Device) (fuel xfer : Nat) (max : Option Nat)
    (first : Nat) (tr : List Event) :
    ∃ evs, (d.do_upload fuel xfer max first tr).1 = tr ++ evs ∧
      evs.filter Event.isUpload = expectedUploadRequests d.intfNumber xfer max first 0
        ((uploadAnswers d.device_ tr evs).map (fun x => x.getD [])) ∧
      (∀ x ∈ (uploadAnswers d.device_ tr evs).dropLast, x ≠ none) ∧
      UploadGoesOn xfer max 0 ((uploadAnswers d.device_ tr evs).map (fun x => x.getD [])) ∧
      (∀ blob, (d.do_upload fuel xfer max first tr).2 = .ok blob →
        (∀ x ∈ uploadAnswers d.device_ tr evs, x ≠ none) ∧
        UploadStops xfer max 0 ((uploadAnswers d.device_ tr evs).map (fun x => x.getD [])) ∧
        blob = ((uploadAnswers d.device_ tr evs).map (fun x => x.getD [])).flatten) ∧
      ((d.do_upload fuel xfer max first tr).2 = .stuck →
        (uploadAnswers d.device_ tr evs).length = fuel + 1 ∧
        (∀ x ∈ uploadAnswers d.device_ tr evs, x ≠ none) ∧
        BelowMax (totalLength ((uploadAnswers d.device_ tr evs).map (fun x => x.getD []))) max) ∧
      (∀ m, max = some m → 0 < xfer → m ≤ fuel →
        (d.do_upload fuel xfer max first tr).2 ≠ .stuck) ∧
      ((∀ x ∈ uploadAnswers d.device_ tr evs, x ≠ none) →
        (d.do_upload fuel xfer max first tr).2 ≠ .stuck →
        max ≠ some (totalLength ((uploadAnswers d.device_ tr evs).map (fun x => x.getD []))) →
        (d.do_upload fuel xfer max first tr).2 =
          .ok ((uploadAnswers d.device_ tr evs).map (fun x => x.getD [])).flatten) := by
  have hB : ∀ m, max = some m → 0 < xfer → m ≤ fuel →
      (d.do_upload fuel xfer max first tr).2 ≠ .stuck := by
    intro m hm hx hf
    subst hm
    exact Device.do_upload_not_stuck_of_loop d fuel xfer (some m) first tr
      (Device.uploadLoop_ends d xfer m hx fuel first [] 0 tr (by omega))
  obtain ⟨evs, h1, h2, h3, h4, h5, h6, h7⟩ := Device.uploadLoop_run d xfer max fuel first [] 0 tr
  rcases hx : d.uploadLoop xfer max fuel first [] 0 tr with ⟨tr1, o⟩
  have hx2 : (d.uploadLoop xfer max fuel first [] 0 tr).2 = o := by rw [hx]
  have hx1 : (d.uploadLoop xfer max fuel first [] 0 tr).1 = tr1 := by rw [hx]
  rw [hx] at h1 h7
  simp only at h1 h7
  subst h1
  cases o with
  | stuck =>
    obtain ⟨evs1, g1, g2, g3, g4⟩ :=
      Device.uploadLoop_stuck d xfer max fuel first [] 0 tr hx2
    rw [hx1] at g1
    have hev : evs1 = evs := (List.append_cancel_left g1).symm
    subst hev
    rw [Device.do_upload_of_loop_stuck d fuel xfer max first tr _ hx]
    rw [Device.do_upload_of_loop_stuck d fuel xfer max first tr _ hx] at hB
    exact ⟨evs1, rfl, h4, h5, h6, fun blob hb => by simp at hb,
      fun _ => ⟨g2, g3, by simpa using g4⟩, hB, fun _ hs => (hs rfl).elim⟩
  | throw e =>
    rw [Device.do_upload_of_loop_throw d fuel xfer max first tr _ e hx]
    refine ⟨evs, rfl, h4, h5, h6, fun blob hb => by simp at hb, fun hs => by simp at hs,
      fun _ _ _ _ => by simp, fun hall _ _ => ?_⟩
    rcases h7 with h7 | ⟨-, h8⟩ | ⟨blocks1, h7, -⟩
    · simp at h7
    · exact ((hall none (List.mem_of_mem_getLast? h8)) rfl).elim
    · simp at h7
  | ok res =>
    obtain ⟨blocks, bytes_read⟩ := res
    have hns : (d.do_upload fuel xfer max first tr).2 ≠ .stuck :=
      Device.do_upload_not_stuck_of_loop d fuel xfer max first tr (by rw [hx2]; simp)
    rcases h7 with h7 | ⟨⟨e, h7⟩, -⟩ | ⟨blocks1, h7, h8, h9, h10⟩
    · simp at h7
    · simp at h7
    · simp only [Outcome.ok.injEq, Prod.mk.injEq] at h7
      obtain ⟨rfl, rfl⟩ := h7
      obtain ⟨hne, heq⟩ := Device.do_upload_of_loop_ok d fuel xfer max first tr _ _ _ hx
      have hflat : blocks.flatten =
          ((uploadAnswers d.device_ tr evs).map (fun x => x.getD [])).flatten := by
        rw [h8]; simp
      by_cases hm : max = some
          (0 + totalLength ((uploadAnswers d.device_ tr evs).map (fun x => x.getD [])))
      · obtain ⟨hfst, hblob⟩ := heq hm
        obtain ⟨rest, hr, hp⟩ := Device.abortToIdle_trace d (tr ++ evs)
        have hp1 : ∀ e ∈ Event.controlTransferOut ABORT 0 d.intfNumber none :: rest,
            e.isUpload = false := by
          intro e he
          rcases List.mem_cons.1 he with rfl | he
          · rfl
          · exact hp e he
        have hA : uploadAnswers d.device_ tr
            (evs ++ Event.controlTransferOut ABORT 0 d.intfNumber none :: rest) =
            uploadAnswers d.device_ tr evs := by
          rw [uploadAnswers_append, uploadAnswers_of_no_upload _ _ hp1]
          simp
        have hF : (evs ++ Event.controlTransferOut ABORT 0 d.intfNumber none :: rest).filter
            Event.isUpload = evs.filter Event.isUpload := by
          rw [List.filter_append]
          have : (Event.controlTransferOut ABORT 0 d.intfNumber none :: rest).filter
              Event.isUpload = [] := by
            rw [List.filter_eq_nil_iff]
            intro e he
            simp [hp1 e he]
          rw [this, List.append_nil]
        refine ⟨evs ++ Event.controlTransferOut ABORT 0 d.intfNumber none :: rest, ?_, ?_, ?_,
          ?_, ?_, fun hs => (hns hs).elim, hB, ?_⟩
        · rw [hfst, hr]; simp
        · rw [hA, hF]; exact h4
        · rw [hA]; exact h5
        · rw [hA]; exact h6
        · intro blob hb
          rw [hA]
          exact ⟨h9, h10, (hblob blob hb).trans hflat⟩
        · intro _ _ hmax
          rw [hA] at hmax
          exact (hmax (by simpa using hm)).elim
      · rw [hne hm] at hB ⊢
        refine ⟨evs, rfl, h4, h5, h6, fun blob hb => ⟨h9, h10, ?_⟩, fun hs => by simp at hs,
          hB, fun _ _ _ => by rw [hflat]⟩
        simp only [Outcome.ok.injEq] at hb
        rw [← hb, hflat]

/-- C15: an `ABORT` request in a run of `do_upload` comes after the last `UPLOAD`
request and only when the number of bytes read equals `maxSize`; and when every
`UPLOAD` request was answered, `ABORT` is sent exactly when the number of bytes read
equals `maxSize`: a transfer that ends by a short read below `maxSize` sends no
`ABORT`, and one that reaches `maxSize` does send it. With a positive `xferSize`, a
budget of `maxSize` iterations is enough for the run to end. -/
theorem do_upload_abort_iff (d : Device) (fuel xfer : Nat) (max : Option Nat)
    (first : Nat) (tr : List Event) :
    ∃ evs, (d.do_upload fuel xfer max first tr).1 = tr ++ evs ∧
      (∀ pre post e, evs = pre ++ e :: post → e.isAbort = true →
        (∀ x ∈ post, x.isUpload = false) ∧
        max = some (totalLength ((uploadAnswers d.device_ tr pre).map (fun x => x.getD [])))) ∧
      ((∀ x ∈ uploadAnswers d.device_ tr evs, x ≠ none) →
        ((∃ e ∈ evs, e.isAbort = true) ↔
          max = some (totalLength
            ((uploadAnswers d.device_ tr evs).map (fun x => x.getD []))))) ∧
      (∀ m, max = some m → 0 < xfer → m ≤ fuel →
        (d.do_upload fuel xfer max first tr).2 ≠ .stuck) := by
  have hB : ∀ m, max = some m → 0 < xfer → m ≤ fuel →
      (d.do_upload fuel xfer max first tr).2 ≠ .stuck := by
    intro m hm hx hf
    subst hm
    exact Device.do_upload_not_stuck_of_loop d fuel xfer (some m) first tr
      (Device.uploadLoop_ends d xfer m hx fuel first [] 0 tr (by omega))
  obtain ⟨evs, h1, h2, h3, h4, h5, h6, h7⟩ := Device.uploadLoop_run d xfer max fuel first [] 0 tr
  have hnoabort : ∀ pre post e, evs = pre ++ e :: post → e.isAbort = true → False := by
    intro pre post e he ha
    have := h2 e (by rw [he]; simp)
    rw [ha] at this
    exact Bool.noConfusion this
  have hnone : ¬ ∃ e ∈ evs, e.isAbort = true := by
    rintro ⟨e, he, ha⟩
    have := h2 e he
    rw [ha] at this
    exact Bool.noConfusion this
  rcases hx : d.uploadLoop xfer max fuel first [] 0 tr with ⟨tr1, o⟩
  rw [hx] at h1 h7
  simp only at h1 h7
  subst h1
  cases o with
  | stuck =>
    obtain ⟨evs1, g1, g2, g3, g4⟩ :=
      Device.uploadLoop_stuck d xfer max fuel first [] 0 tr (by rw [hx])
    rw [hx] at g1
    have hev : evs1 = evs := (List.append_cancel_left g1).symm
    subst hev
    rw [Device.do_upload_of_loop_stuck d fuel xfer max first tr _ hx]
    rw [Device.do_upload_of_loop_stuck d fuel xfer max first tr _ hx] at hB
    refine ⟨evs1, rfl, fun pre post e he ha => (hnoabort pre post e he ha).elim,
      fun _ => ⟨fun h => (hnone h).elim, fun h => ?_⟩, hB⟩
    rw [h] at g4
    simp only [BelowMax, Nat.zero_add] at g4
    omega
  | throw e =>
    rw [Device.do_upload_of_loop_throw d fuel xfer max first tr _ e hx]
    refine ⟨evs, rfl, fun pre post e he ha => (hnoabort pre post e he ha).elim, fun hall => ?_,
      fun _ _ _ _ => by simp⟩
    rcases h7 with h7 | ⟨-, h8⟩ | ⟨blocks1, h7, -⟩
    · simp at h7
    · have := hall none (List.mem_of_mem_getLast? h8)
      exact (this rfl).elim
    · simp at h7
  | ok res =>
    obtain ⟨blocks, bytes_read⟩ := res
    rcases h7 with h7 | ⟨⟨e, h7⟩, -⟩ | ⟨blocks1, h7, h8, h9, h10⟩
    · simp at h7
    · simp at h7
    · simp only [Outcome.ok.injEq, Prod.mk.injEq, Nat.zero_add] at h7
      obtain ⟨rfl, rfl⟩ := h7
      obtain ⟨hne, heq⟩ := Device.do_upload_of_loop_ok d fuel xfer max first tr _ _ _ hx
      by_cases hm : max = some (totalLength ((uploadAnswers d.device_ tr evs).map
          (fun x => x.getD [])))
      · obtain ⟨hfst, -⟩ := heq hm
        obtain ⟨rest, hr, hp⟩ := Device.abortToIdle_trace d (tr ++ evs)
        have hA : ∀ l, (∀ e ∈ l, e.isUpload = false) →
            uploadAnswers d.device_ tr (evs ++ l) = uploadAnswers d.device_ tr evs := by
          intro l hl
          rw [uploadAnswers_append, uploadAnswers_of_no_upload _ l hl]
          simp
        have hp1 : ∀ e ∈ Event.controlTransferOut ABORT 0 d.intfNumber none :: rest,
            e.isUpload = false := by
          intro e he
          rcases List.mem_cons.1 he with rfl | he
          · rfl
          · exact hp e he
        refine ⟨evs ++ Event.controlTransferOut ABORT 0 d.intfNumber none :: rest, ?_, ?_, ?_,
          hB⟩
        · rw [hfst, hr]; simp
        · intro pre post e he ha
          have hsplit : ∃ mid, pre = evs ++ mid ∧
              Event.controlTransferOut ABORT 0 d.intfNumber none :: rest = mid ++ e :: post := by
            rcases List.append_eq_append_iff.1 he with ⟨a', h1', h2'⟩ | ⟨c', h1', h2'⟩
            · exact ⟨a', h1', h2'⟩
            · cases c' with
              | nil =>
                simp only [List.nil_append, List.append_nil] at h1' h2'
                exact ⟨[], by simp [h1'], by simpa using h2'.symm⟩
              | cons y ys =>
                simp only [List.cons_append, List.cons.injEq] at h2'
                exfalso
                exact hnoabort pre ys e (by rw [h1', h2'.1]) ha
          obtain ⟨mid, hpre, hmid⟩ := hsplit
          have hmidp : ∀ x ∈ mid, x.isUpload = false := by
            intro x hx
            exact hp1 x (by rw [hmid]; simp [hx])
          refine ⟨?_, ?_⟩
          · intro x hx
            exact hp1 x (by rw [hmid]; simp [hx])
          · rw [hpre, hA mid hmidp]
            exact hm
        · intro _
          rw [hA _ hp1]
          exact ⟨fun _ => hm, fun _ =>
            ⟨Event.controlTransferOut ABORT 0 d.intfNumber none, by simp, rfl⟩⟩
      · rw [hne hm] at hB ⊢
        refine ⟨evs, rfl, fun pre post e he ha => (hnoabort pre post e he ha).elim, ?_, hB⟩
        intro _
        exact ⟨fun h => (hnone h).elim, fun h => (hm h).elim⟩

set_option smartUnfolding false in
/-- Two runs of `do_upload` with 4-byte transfers and a limit of 10 bytes, on
interface 0: from a device holding 12 bytes the requests ask for 4, 4 and 2 bytes and
an `ABORT` follows; from a device holding 6 bytes the second response is short and no
`ABORT` is sent. -/
theorem do_upload_samples :
    ({ device_ := contentDevice [1, 2, 3, 4, 5, 6, 7, 8, 9, 10, 11, 12], intfNumber := 0 } :
        Device).do_upload 5 4 (some 10) 0 [] =
      ([.controlTransferIn UPLOAD 0 0 4, .controlTransferIn UPLOAD 1 0 4,
        .controlTransferIn UPLOAD 2 0 2, .controlTransferOut ABORT 0 0 none,
        .controlTransferIn GETSTATE 0 0 1],
       .ok [1, 2, 3, 4, 5, 6, 7, 8, 9, 10]) ∧
    ({ device_ := contentDevice [1, 2, 3, 4, 5, 6], intfNumber := 0 } :
        Device).do_upload 5 4 (some 10) 0 [] =
      ([.controlTransferIn UPLOAD 0 0 4, .controlTransferIn UPLOAD 1 0 4],
       .ok [1, 2, 3, 4, 5, 6]) := by
  decide

end DFU

namespace DFUse
open JS

/-! ## `do_download` with addresses -/

/-- C20 (evaluation at the failing input): on a device that reports one byte written
for each transfer, `do_download` of the 3 bytes `[10, 11, 12]` in transfers of 2 bytes
sends the chunk that starts at offset 1 of the payload after `SET_ADDRESS` to the
start address plus 2, and the chunk that starts at offset 2 after `SET_ADDRESS` to the
start address plus 4. -/
theorem do_download_address_drifts_after_short_write :
    chunkEvents (shortWriteSession.do_download 4 2 [10, 11, 12] false true []).1 =
      [.dfuseCommand SET_ADDRESS (some 0x08000000) (some 4),
       .controlTransferOut DFU.DNLOAD 2 0 (some [10, 11]),
       .dfuseCommand SET_ADDRESS (some 0x08000002) (some 4),
       .controlTransferOut DFU.DNLOAD 2 0 (some [11, 12]),
       .dfuseCommand SET_ADDRESS (some 0x08000004) (some 4),
       .controlTransferOut DFU.DNLOAD 2 0 (some [12])] ∧
    (shortWriteSession.do_download 4 2 [10, 11, 12] false true []).2 = .ok () := by
  decide

end DFUse

namespace DFUse
open JS

/-! ## Sectors, gaps and readable bytes on parsed maps -/

set_option maxRecDepth 8000 in
/-- C26, as stated, fails: the map parsed from `@X/0x1/4*4503599627370497 a` has one
segment, from 1, with sector size `2^52 + 1`. For the address `2^53 + 4` inside it the
sector index is 2 and the sector start `1 + 2 * (2^52 + 1) = 2^53 + 3` is rounded to
`2^53 + 4`: `getSectorStart` returns `2^53 + 4`, and `2^53 + 4 - 1` is not a multiple
of the sector size. -/
theorem sector_start_not_aligned_above_two_pow_53 :
    segmentsOf "@X/0x1/4*4503599627370497 a" = some [
      { start := 1, sectorSize := 4503599627370497, «end» := 18014398509481988,
        readable := true, erasable := false, writable := false }] ∧
    sectorStartOf "@X/0x1/4*4503599627370497 a" 9007199254740996 = .ok 9007199254740996 ∧
    ((9007199254740996 : Int) - 1) % 4503599627370497 ≠ 0 := by
  decide

/-- C26, amended: on a memory map produced by `parseMemoryDescriptor` whose segments
end below `2^53`, for every address inside a segment, with `S = getSegment(addr)`:
`S.start <= getSectorStart(addr)`, `getSectorEnd(addr) <= S.end`, and
`getSectorStart(addr) - S.start` is a multiple of `S.sectorSize`. -/
theorem sectors_inside_segment (d : Device) (desc : List Char) (info : MemoryInfo)
    (addr : Int) (hparse : parseMemoryDescriptor desc = .ok info)
    (hbound : ∀ seg ∈ info.segments, seg.end < 9007199254740992)
    (hmap : d.memoryInfo = some info) (hin : ∃ seg ∈ info.segments, seg.Contains addr) :
    ∃ S s e, d.getSegment addr = .ok (some S) ∧
      d.getSectorStart addr none = .ok s ∧ d.getSectorEnd addr none = .ok e ∧
      S.start ≤ s ∧ e ≤ S.end ∧ S.sectorSize ∣ s - S.start := by
  obtain ⟨seg, hfind, hmem, hc⟩ := find_contains hin
  obtain ⟨hwf, h0⟩ := parseMemoryDescriptor_wellFormed hparse hbound seg hmem
  obtain ⟨hpos, b1, b2, b3⟩ := sector_bounds hwf hc
  obtain ⟨hseg, hs, he⟩ :=
    Device.sector_of_contained d info hmap hfind hwf hc h0 (hbound seg hmem)
  have hal : seg.sectorSize ∣
      seg.start + Int.fdiv (addr - seg.start) seg.sectorSize * seg.sectorSize - seg.start := by
    simp
  have hcs : seg.Contains
      (seg.start + Int.fdiv (addr - seg.start) seg.sectorSize * seg.sectorSize) :=
    ⟨b1, by have := hc.2; omega⟩
  obtain ⟨-, hend⟩ := sector_within_segment hwf hcs hal
  refine ⟨seg, seg.start + Int.fdiv (addr - seg.start) seg.sectorSize * seg.sectorSize,
    seg.start + (Int.fdiv (addr - seg.start) seg.sectorSize + 1) * seg.sectorSize,
    hseg, hs, he, b1, ?_, hal⟩
  have e : seg.start + (Int.fdiv (addr - seg.start) seg.sectorSize + 1) * seg.sectorSize =
      seg.start + Int.fdiv (addr - seg.start) seg.sectorSize * seg.sectorSize +
        seg.sectorSize := by ring
  rw [e]
  exact hend

/-- Witness for C26: the map of scenario 1 and the address `0x08012345`. -/
theorem sectors_inside_segment_witness :
    (∀ seg ∈ scenario1Map.segments, seg.end < 9007199254740992) ∧
    ∃ S s e, scenario1Device.getSegment 0x08012345 = .ok (some S) ∧
      scenario1Device.getSectorStart 0x08012345 none = .ok s ∧
      scenario1Device.getSectorEnd 0x08012345 none = .ok e ∧
      S.start ≤ s ∧ e ≤ S.end ∧ S.sectorSize ∣ s - S.start :=
  ⟨by decide, sectors_inside_segment scenario1Device
    "@Flash/0x08000000/4*016Kg,1*064Kg,7*128Kg".toList scenario1Map 0x08012345
    scenario1_eval (by decide) rfl (by decide)⟩

/-- C27 (evaluation at the failing input): on the map parsed from
`@X/0x1000/1*4Kg/0x3000/1*4Kg`, whose two segments leave the addresses from `0x2000`
to `0x2FFF` unmapped, and a device that accepts every command, `erase(0x1000, 0x2001)`
starts and ends inside segments, erases the sector at `0x1000`, then resolves `0x2000`
to no segment and throws the `TypeError` of reading a property of `null`. -/
theorem erase_dereferences_null_in_gap :
    segmentsOf "@X/0x1000/1*4Kg/0x3000/1*4Kg" = some [
      { start := 0x1000, sectorSize := 0x1000, «end» := 0x2000,
        readable := true, erasable := true, writable := true },
      { start := 0x3000, sectorSize := 0x1000, «end» := 0x4000,
        readable := true, erasable := true, writable := true }] ∧
    erasedSectors (eraseOf "@X/0x1000/1*4Kg/0x3000/1*4Kg" 8 0x1000 0x2001).1 = [some 0x1000] ∧
    (eraseOf "@X/0x1000/1*4Kg/0x3000/1*4Kg" 8 0x1000 0x2001).2 =
      .throw (.error "TypeError" "Cannot read properties of null") := by
  decide

/-- C28 (counterexample): on the map parsed from `@X/0x1000/1*1Kg/0x1000/1*1Kg`, which
lists the segment `[0x1000, 0x1400)` twice, `getMaxReadSize(0x1200)` is `0x400`
although no segment contains `0x1400`, which is less than `0x1200 + 0x400`. -/
theorem getMaxReadSize_counts_overlap_twice :
    segmentsOf "@X/0x1000/1*1Kg/0x1000/1*1Kg" = some [
      { start := 0x1000, sectorSize := 0x400, «end» := 0x1400,
        readable := true, erasable := true, writable := true },
      { start := 0x1000, sectorSize := 0x400, «end» := 0x1400,
        readable := true, erasable := true, writable := true }] ∧
    maxReadSizeOf "@X/0x1000/1*1Kg/0x1000/1*1Kg" 0x1200 = .ok 0x400 ∧
    (0x1200 : Int) ≤ 0x1400 ∧ (0x1400 : Int) < 0x1200 + 0x400 ∧
    ¬ ∃ seg ∈ ([
      { start := 0x1000, sectorSize := 0x400, «end» := 0x1400,
        readable := true, erasable := true, writable := true },
      { start := 0x1000, sectorSize := 0x400, «end» := 0x1400,
        readable := true, erasable := true, writable := true }] : List Segment),
      seg.Contains 0x1400 := by
  decide

set_option maxRecDepth 8000 in
/-- Above `2^53` the sum of `getMaxReadSize` is rounded: on the map parsed from
`@X/0x0/1*9007199254740998 a`, one readable segment from 0 to `2^53 + 6`,
`getMaxReadSize(3)` is `2^53 + 4`, so that the range reported from 3 ends at `2^53 + 7`
and holds the address `2^53 + 6`, which the segment does not contain. -/
theorem getMaxReadSize_rounds_past_segment_end :
    segmentsOf "@X/0x0/1*9007199254740998 a" = some [
      { start := 0, sectorSize := 9007199254740998, «end» := 9007199254740998,
        readable := true, erasable := false, writable := false }] ∧
    maxReadSizeOf "@X/0x0/1*9007199254740998 a" 3 = .ok 9007199254740996 ∧
    (3 : Int) ≤ 9007199254740998 ∧ (9007199254740998 : Int) < 3 + 9007199254740996 ∧
    ¬ ({ start := 0, sectorSize := 9007199254740998, «end» := 9007199254740998,
         readable := true, erasable := false, writable := false } : Segment).Contains
        9007199254740998 := by
  decide

/-- The loop of `getMaxReadSize` keeps the bytes counted inside readable segments, as
long as the segments lie between 0 and `2^53`, at most one of the segments still to
come contains `startAddr` and none does once bytes are counted. -/
theorem maxReadLoop_readable (segs : List Segment) (startAddr : Int) :
    ∀ (rest : List Segment) (n : Int),
      (∀ s ∈ rest, s ∈ segs ∧ s.start ≤ s.end ∧ 0 ≤ s.start ∧ s.end < 9007199254740992) →
      0 ≤ n → (n = 0 ∨ (0 ≤ startAddr ∧ startAddr + n < 9007199254740992)) →
      (∀ a, startAddr ≤ a → a < startAddr + n → ReadableAt segs a) →
      (n = 0 ∨ ∀ s ∈ rest, ¬ s.Contains startAddr) →
      (rest.filter (fun s => decide (s.Contains startAddr))).length ≤ 1 →
      0 ≤ Device.maxReadLoop startAddr rest n ∧
      ∀ a, startAddr ≤ a → a < startAddr + Device.maxReadLoop startAddr rest n →
        ReadableAt segs a := by
  intro rest
  induction rest with
  | nil =>
    intro n _ hn _ hcov _ _
    exact ⟨hn, hcov⟩
  | cons s rest ih =>
    intro n hmem hn hinv hcov hdis huniq
    obtain ⟨hs1, hs2, hs3, hs4⟩ := hmem s (List.mem_cons_self _ _)
    have hrest : ∀ t ∈ rest,
        t ∈ segs ∧ t.start ≤ t.end ∧ 0 ≤ t.start ∧ t.end < 9007199254740992 :=
      fun t ht => hmem t (List.mem_cons_of_mem _ ht)
    rw [Device.maxReadLoop]
    by_cases hc : s.Contains startAddr
    · have hin : (decide (s.start ≤ startAddr) && decide (startAddr < s.end)) = true := by
        simp only [Segment.Contains] at hc
        simpa using hc
      have hn0 : n = 0 := by
        rcases hdis with h | h
        · exact h
        · exact absurd hc (h s (List.mem_cons_self _ _))
      have hnone : ∀ t ∈ rest, ¬ t.Contains startAddr := by
        intro t ht htc
        have h1 : (List.filter (fun s => decide (s.Contains startAddr)) (s :: rest)).length =
            (List.filter (fun s => decide (s.Contains startAddr)) rest).length + 1 := by
          rw [List.filter_cons_of_pos (by simpa using hc)]
          rfl
        have h2 : 0 < (List.filter (fun s => decide (s.Contains startAddr)) rest).length :=
          List.length_pos_of_mem (List.mem_filter.2 ⟨ht, by simpa using htc⟩)
        omega
      have hc1 := hc.1
      have hc2 := hc.2
      have e : toDouble (n + toDouble (s.end - startAddr)) = s.end - startAddr := by
        rw [hn0, toDouble_of_lt (s.end - startAddr) (by omega) (by omega), Int.zero_add,
          toDouble_of_lt (s.end - startAddr) (by omega) (by omega)]
      simp only [hin, if_true, e]
      by_cases hr : s.readable = true
      · simp only [hr, if_true]
        refine ih _ hrest (by omega) (Or.inr ⟨by omega, by omega⟩) ?_ (Or.inr hnone) ?_
        · intro a ha1 ha2
          exact ⟨s, hs1, hr, ⟨by omega, by omega⟩⟩
        · have : List.filter (fun s => decide (s.Contains startAddr)) rest = [] := by
            rw [List.filter_eq_nil_iff]
            intro t ht
            simpa using hnone t ht
          rw [this]
          simp
      · simp only [hr, Bool.false_eq_true, if_false]
        exact ⟨le_refl _, fun a ha1 ha2 => by omega⟩
    · have hin : (decide (s.start ≤ startAddr) && decide (startAddr < s.end)) = false := by
        simp only [Segment.Contains] at hc
        simpa using hc
      have huniq' : (rest.filter (fun s => decide (s.Contains startAddr))).length ≤ 1 := by
        rw [List.filter_cons_of_neg (by simpa using hc)] at huniq
        exact huniq
      have hdis' : ∀ m : Int, (n = 0 → m = 0) →
          (m = 0 ∨ ∀ t ∈ rest, ¬ t.Contains startAddr) := by
        intro m hm
        rcases hdis with h | h
        · exact Or.inl (hm h)
        · exact Or.inr (fun t ht => h t (List.mem_cons_of_mem _ ht))
      simp only [hin, Bool.false_eq_true, if_false]
      by_cases hadj : s.start = toDouble (startAddr + n)
      · rw [if_pos hadj]
        have hex : startAddr + n = s.start :=
          toDouble_eq_exact (startAddr + n) s.start hs3 (by omega) hadj.symm
        have hst : 0 ≤ startAddr := by
          rcases hinv with h | h
          · omega
          · exact h.1
        have e : toDouble (n + toDouble (s.end - s.start)) = n + (s.end - s.start) := by
          rw [toDouble_of_lt (s.end - s.start) (by omega) (by omega),
            toDouble_of_lt (n + (s.end - s.start)) (by omega) (by omega)]
        by_cases hr : s.readable = true
        · simp only [hr, if_true, e]
          refine ih _ hrest (by omega) (Or.inr ⟨hst, by omega⟩) ?_ (hdis' _ ?_) huniq'
          · intro a ha1 ha2
            by_cases hlt : a < startAddr + n
            · exact hcov a ha1 hlt
            · exact ⟨s, hs1, hr, ⟨by omega, by omega⟩⟩
          · intro h0
            have h1 : ¬ (s.start ≤ startAddr ∧ startAddr < s.end) := hc
            have : s.end ≤ s.start := by
              by_contra hcon
              exact h1 ⟨by omega, by omega⟩
            omega
        · simp only [hr, Bool.false_eq_true, if_false]
          exact ⟨hn, hcov⟩
      · rw [if_neg hadj]
        exact ih _ hrest hn hinv hcov (hdis' _ id) huniq'

/-- C28 (amended): on a memory map whose segments satisfy the invariant of the data
model and lie between 0 and `2^53` (`0 ≤ start`, `end < 2^53`, so that no address or
length of the computation is rounded), and of which at most one contains `startAddr`,
every address `a` with `startAddr <= a < startAddr + getMaxReadSize(startAddr)` lies
inside a readable segment of the map. -/
theorem getMaxReadSize_reports_readable_bytes (d : Device) (info : MemoryInfo)
    (hmap : d.memoryInfo = some info) (hwf : ∀ seg ∈ info.segments, seg.WellFormed)
    (hrange : ∀ seg ∈ info.segments, 0 ≤ seg.start ∧ seg.end < 9007199254740992)
    (startAddr : Int)
    (huniq : (info.segments.filter (fun s => decide (s.Contains startAddr))).length ≤ 1) :
    ∃ n, d.getMaxReadSize startAddr = .ok n ∧
      ∀ a, startAddr ≤ a → a < startAddr + n →
        ∃ seg ∈ info.segments, seg.readable = true ∧ seg.Contains a := by
  refine ⟨_, by unfold Device.getMaxReadSize; rw [hmap], ?_⟩
  exact (maxReadLoop_readable info.segments startAddr info.segments 0
    (fun s hs => ⟨hs, (hwf s hs).2.1, hrange s hs⟩) (le_refl _) (Or.inl rfl)
    (fun a h1 h2 => by omega) (Or.inl rfl) huniq).2

/-- The amended statement on the map of `@X/0x1000/1*1Kg,1*1Kb`, from `0x1200`: the
`0x200` bytes reported lie in the readable segment. -/
theorem getMaxReadSize_reports_readable_bytes_witness :
    ∃ n, lockedTailDevice.getMaxReadSize 0x1200 = .ok n ∧
      ∀ a, (0x1200 : Int) ≤ a → a < 0x1200 + n →
        ∃ seg ∈ lockedTailMap.segments, seg.readable = true ∧ seg.Contains a :=
  getMaxReadSize_reports_readable_bytes lockedTailDevice lockedTailMap rfl (by decide)
    (by decide) 0x1200 (by decide)

end DFUse

namespace DFU
open JS

/-! ## Discovery and descriptor parsing -/

/-- A byte read from a view of a whole buffer. -/
theorem DataView.getUint8_ofBuffer (buf : List Nat) (i : Nat) (hi : i < buf.length)
    (hb : buf.getD i 0 < 256) :
    (DataView.ofBuffer buf).getUint8 i = .ok (buf.getD i 0) := by
  have h1 : buf.getD i 0 = buf.get ⟨i, hi⟩ := by
    rw [List.getD_eq_getElem _ _ hi]
    rfl
  unfold DataView.getUint8 DataView.ofBuffer
  simp only [Nat.zero_add]
  rw [if_pos (by omega), List.get?_eq_get hi]
  show Outcome.ok (buf.get ⟨i, hi⟩ % 256) = _
  rw [← h1, Nat.mod_eq_of_lt hb]

/-- A read past the end of a view of a whole buffer. -/
theorem DataView.getUint8_ofBuffer_out (buf : List Nat) (i : Nat) (hi : buf.length ≤ i) :
    (DataView.ofBuffer buf).getUint8 i = .throw rangeError := by
  unfold DataView.getUint8 DataView.ofBuffer
  simp only
  rw [if_neg (by omega)]

/-- The bytes of a buffer of bytes are below 256. -/
theorem getD_lt_of_bytes (buf : List Nat) (i : Nat) (hb : ∀ x ∈ buf, x < 256) :
    buf.getD i 0 < 256 := by
  by_cases hi : i < buf.length
  · rw [List.getD_eq_getElem _ _ hi]
    exact hb _ (List.getElem_mem _)
  · rw [List.getD_eq_default _ _ (by omega)]
    omega

/-- A little-endian 16-bit value read from a view of a whole buffer. -/
theorem DataView.getUint16LE_ofBuffer (buf : List Nat) (i : Nat) (hi : i + 1 < buf.length)
    (hb : ∀ x ∈ buf, x < 256) :
    (DataView.ofBuffer buf).getUint16LE i = .ok (buf.getD i 0 + 256 * buf.getD (i + 1) 0) := by
  have hi0 : i < buf.length := by omega
  have h1 : buf.getD i 0 = buf.get ⟨i, hi0⟩ := by
    rw [List.getD_eq_getElem _ _ hi0]
    rfl
  have h2 : buf.getD (i + 1) 0 = buf.get ⟨i + 1, hi⟩ := by
    rw [List.getD_eq_getElem _ _ hi]
    rfl
  unfold DataView.getUint16LE DataView.ofBuffer
  simp only [Nat.zero_add]
  rw [if_pos (by omega), List.get?_eq_get hi0, List.get?_eq_get hi]
  show Outcome.ok (buf.get ⟨i, hi0⟩ % 256 + 256 * (buf.get ⟨i + 1, hi⟩ % 256)) = _
  rw [← h1, ← h2, Nat.mod_eq_of_lt (getD_lt_of_bytes buf _ hb),
    Nat.mod_eq_of_lt (getD_lt_of_bytes buf _ hb)]

/-- `parseInterfaceDescriptor` on the 9 bytes or more of a descriptor. -/
theorem parseInterfaceDescriptor_ofBuffer (b : List Nat) (h9 : 9 ≤ b.length)
    (hb : ∀ x ∈ b, x < 256) :
    parseInterfaceDescriptor (DataView.ofBuffer b) = .ok (decodeInterface b) := by
  unfold parseInterfaceDescriptor
  simp only [DataView.getUint8_ofBuffer b 0 (by omega) (getD_lt_of_bytes b _ hb),
    DataView.getUint8_ofBuffer b 1 (by omega) (getD_lt_of_bytes b _ hb),
    DataView.getUint8_ofBuffer b 2 (by omega) (getD_lt_of_bytes b _ hb),
    DataView.getUint8_ofBuffer b 3 (by omega) (getD_lt_of_bytes b _ hb),
    DataView.getUint8_ofBuffer b 4 (by omega) (getD_lt_of_bytes b _ hb),
    DataView.getUint8_ofBuffer b 5 (by omega) (getD_lt_of_bytes b _ hb),
    DataView.getUint8_ofBuffer b 6 (by omega) (getD_lt_of_bytes b _ hb),
    DataView.getUint8_ofBuffer b 7 (by omega) (getD_lt_of_bytes b _ hb),
    DataView.getUint8_ofBuffer b 8 (by omega) (getD_lt_of_bytes b _ hb), Outcome.bind]
  rfl

/-- `parseFunctionalDescriptor` on the 9 bytes or more of a descriptor. -/
theorem parseFunctionalDescriptor_ofBuffer (b : List Nat) (h9 : 9 ≤ b.length)
    (hb : ∀ x ∈ b, x < 256) :
    parseFunctionalDescriptor (DataView.ofBuffer b) = .ok (decodeFunctional b) := by
  unfold parseFunctionalDescriptor
  simp only [DataView.getUint8_ofBuffer b 0 (by omega) (getD_lt_of_bytes b _ hb),
    DataView.getUint8_ofBuffer b 1 (by omega) (getD_lt_of_bytes b _ hb),
    DataView.getUint8_ofBuffer b 2 (by omega) (getD_lt_of_bytes b _ hb),
    DataView.getUint16LE_ofBuffer b 3 (by omega) hb,
    DataView.getUint16LE_ofBuffer b 5 (by omega) hb,
    DataView.getUint16LE_ofBuffer b 7 (by omega) hb, Outcome.bind]
  rfl

/-- `descriptors[i].descriptors.push(child)` when entry `i` is an interface
descriptor. -/
theorem pushChild_append (pre : List Descriptor) (c : InterfaceDescriptor)
    (kids : List SubDescriptor) (rest : List Descriptor) (child : SubDescriptor) :
    pushChild (pre ++ Descriptor.interface c kids :: rest) pre.length child =
      pre ++ Descriptor.interface c (kids ++ [child]) :: rest := by
  induction pre with
  | nil => rfl
  | cons x pre ih =>
    show pushChild (x :: (pre ++ _)) (pre.length + 1) child = _
    rw [pushChild, ih]
    rfl

/-- The buffer of a view of a whole buffer. -/
theorem DataView.ofBuffer_buffer (buf : List Nat) : (DataView.ofBuffer buf).buffer = buf := rfl

/-- The header bytes, the payload and the rest, when the buffer starts with a descriptor
that has its declared length, or that declares more bytes than there are. -/
theorem block_framing (b rest : List Nat) (h2 : 2 ≤ b.length) (hb : ∀ x ∈ b, x < 256)
    (hlen : blockLength b = b.length ∨ (rest = [] ∧ b.length ≤ blockLength b)) :
    (DataView.ofBuffer (b ++ rest)).getUint8 0 = .ok (blockLength b) ∧
    (DataView.ofBuffer (b ++ rest)).getUint8 1 = .ok (blockType b) ∧
    (b ++ rest).take (blockLength b) = b ∧ (b ++ rest).drop (blockLength b) = rest := by
  have g0 : (b ++ rest).getD 0 0 = b.getD 0 0 := by
    rw [List.getD_eq_getElem _ _ (by rw [List.length_append]; omega),
      List.getD_eq_getElem _ _ (show 0 < b.length by omega), List.getElem_append_left]
  have g1 : (b ++ rest).getD 1 0 = b.getD 1 0 := by
    rw [List.getD_eq_getElem _ _ (by rw [List.length_append]; omega),
      List.getD_eq_getElem _ _ (show 1 < b.length by omega), List.getElem_append_left]
  refine ⟨?_, ?_, ?_, ?_⟩
  · rw [DataView.getUint8_ofBuffer _ 0 (by rw [List.length_append]; omega)
      (by rw [g0]; exact getD_lt_of_bytes b _ hb), g0]
    rfl
  · rw [DataView.getUint8_ofBuffer _ 1 (by rw [List.length_append]; omega)
      (by rw [g1]; exact getD_lt_of_bytes b _ hb), g1]
    rfl
  · rcases hlen with h | ⟨h, h1⟩
    · rw [h, List.take_left]
    · subst h
      rw [List.append_nil, List.take_of_length_le h1]
  · rcases hlen with h | ⟨h, h1⟩
    · rw [h, List.drop_left]
    · subst h
      rw [List.append_nil, List.drop_of_length_le h1]

/-- One turn of the loop on an interface descriptor. -/
theorem parseStep_interface (b rest : List Nat) (st : ParseState) (h9 : 9 ≤ b.length)
    (hb : ∀ x ∈ b, x < 256)
    (hlen : blockLength b = b.length ∨ (rest = [] ∧ b.length ≤ blockLength b))
    (hi : isInterfaceBlock b = true) :
    parseStep (DataView.ofBuffer (b ++ rest)) st =
      .ok ({ descriptors := st.descriptors ++ [Descriptor.interface (decodeInterface b) []],
             currIntf := some st.descriptors.length,
             inDfuIntf := isDfuInterfaceBlock b }, DataView.ofBuffer rest) := by
  obtain ⟨f0, f1, f2, f3⟩ := block_framing b rest (by omega) hb hlen
  have ht : blockType b = 4 := by simpa [isInterfaceBlock] using hi
  unfold parseStep
  rw [f0, f1]
  simp only [Outcome.bind, DataView.ofBuffer_buffer]
  rw [f2, f3, if_pos ht, parseInterfaceDescriptor_ofBuffer b h9 hb]
  simp only [decodeInterface, isDfuInterfaceBlock, Bool.decide_and]
  rfl

/-- One turn of the loop on a descriptor that is not an interface descriptor, after
an interface descriptor was met. -/
theorem parseStep_sub_some (b rest : List Nat) (st : ParseState) (i : Nat) (h2 : 2 ≤ b.length)
    (hb : ∀ x ∈ b, x < 256)
    (hlen : blockLength b = b.length ∨ (rest = [] ∧ b.length ≤ blockLength b))
    (hi : isInterfaceBlock b = false)
    (h9 : st.inDfuIntf = true → blockType b = 0x21 → 9 ≤ b.length)
    (hc : st.currIntf = some i) :
    parseStep (DataView.ofBuffer (b ++ rest)) st =
      .ok ({ descriptors :=
               pushChild (st.descriptors ++ [Descriptor.sub (expectedSub st.inDfuIntf b)]) i
                 (expectedSub st.inDfuIntf b),
             currIntf := st.currIntf, inDfuIntf := st.inDfuIntf }, DataView.ofBuffer rest) := by
  obtain ⟨f0, f1, f2, f3⟩ := block_framing b rest h2 hb hlen
  have ht : ¬ blockType b = 4 := by simpa [isInterfaceBlock] using hi
  unfold parseStep
  rw [f0, f1]
  simp only [Outcome.bind, DataView.ofBuffer_buffer]
  rw [f2, f3, if_neg ht]
  by_cases hd : st.inDfuIntf = true ∧ blockType b = 0x21
  · rw [if_pos hd, parseFunctionalDescriptor_ofBuffer b (h9 hd.1 hd.2) hb]
    simp only [hc, expectedSub, hd.1, hd.2, Bool.true_and, beq_self_eq_true, if_true]
  · rw [if_neg hd]
    have he : expectedSub st.inDfuIntf b = genericNode b := by
      unfold expectedSub
      rw [if_neg]
      simpa using hd
    simp only [hc, he, genericNode]

/-- One turn of the loop on a descriptor that is not an interface descriptor, before
any interface descriptor was met. -/
theorem parseStep_sub_none (b rest : List Nat) (st : ParseState) (h2 : 2 ≤ b.length)
    (hb : ∀ x ∈ b, x < 256)
    (hlen : blockLength b = b.length ∨ (rest = [] ∧ b.length ≤ blockLength b))
    (hi : isInterfaceBlock b = false)
    (hd : st.inDfuIntf = false) (hc : st.currIntf = none) :
    parseStep (DataView.ofBuffer (b ++ rest)) st =
      .ok ({ st with descriptors := st.descriptors ++ [Descriptor.sub (genericNode b)] },
        DataView.ofBuffer rest) := by
  obtain ⟨f0, f1, f2, f3⟩ := block_framing b rest h2 hb hlen
  have ht : ¬ blockType b = 4 := by simpa [isInterfaceBlock] using hi
  unfold parseStep
  rw [f0, f1]
  simp only [Outcome.bind, DataView.ofBuffer_buffer]
  rw [f2, f3, if_neg ht, if_neg (by simp [hd])]
  simp only [hc, genericNode]

/-- The loop stops when at most 2 bytes remain. -/
theorem parseLoop_done (fuel : Nat) (buf : List Nat) (st : ParseState) (h : buf.length ≤ 2) :
    parseLoop fuel (DataView.ofBuffer buf) st = .ok st.descriptors := by
  rw [parseLoop.eq_def]
  simp only [DataView.ofBuffer]
  rw [if_neg (by omega)]

/-- The loop takes a turn when more than 2 bytes remain. -/
theorem parseLoop_turn (fuel : Nat) (buf : List Nat) (st st1 : ParseState) (next : DataView)
    (h : 2 < buf.length) (hs : parseStep (DataView.ofBuffer buf) st = .ok (st1, next)) :
    parseLoop (fuel + 1) (DataView.ofBuffer buf) st = parseLoop fuel next st1 := by
  rw [parseLoop.eq_def]
  simp only [hs]
  rw [if_pos (by simpa [DataView.ofBuffer] using h)]

/-- The loop on a stream, after an interface descriptor was met: the entries of the
descriptors that follow are appended to the array, and those up to the next interface
descriptor are appended to the children of the current interface descriptor. -/
theorem parseLoop_stream_some (bs : List (List Nat)) :
    ∀ (fuel : Nat) (tail : List Nat) (st : ParseState) (pre : List Descriptor)
      (c : InterfaceDescriptor) (kids : List SubDescriptor) (rest : List Descriptor),
      StreamOK st.inDfuIntf bs tail → bs.length ≤ fuel → st.currIntf = some pre.length →
      st.descriptors = pre ++ Descriptor.interface c kids :: rest →
      parseLoop fuel (DataView.ofBuffer (bs.flatten ++ tail)) st =
        .ok (pre ++ Descriptor.interface c
              (kids ++ (bs.takeWhile (fun x => !isInterfaceBlock x)).map
                (expectedSub st.inDfuIntf)) ::
            (rest ++ expectedFlat st.inDfuIntf bs)) := by
  induction bs with
  | nil =>
    intro fuel tail st pre c kids rest hok _ _ hd
    rw [List.flatten_nil, List.nil_append, parseLoop_done fuel tail st hok, hd]
    simp [expectedFlat]
  | cons b bs ih =>
    intro fuel tail st pre c kids rest hok hfuel hc hd
    obtain ⟨h2, h3, hb, hlen, hrest⟩ := hok
    obtain ⟨fuel1, rfl⟩ : ∃ k, fuel = k + 1 := ⟨fuel - 1, by simp at hfuel; omega⟩
    have hfuel1 : bs.length ≤ fuel1 := by simpa using hfuel
    have hlen1 : blockLength b = b.length ∨ (bs.flatten ++ tail = [] ∧ b.length ≤ blockLength b) := by
      rcases hlen with h | ⟨h, h1, h4⟩
      · exact Or.inl h
      · exact Or.inr ⟨by simp [h, h1], h4⟩
    have hbuf : 2 < (b ++ (bs.flatten ++ tail)).length := by
      simp only [List.length_append]
      omega
    rw [List.flatten_cons, List.append_assoc]
    by_cases hi : isInterfaceBlock b = true
    · rw [if_pos hi] at hrest
      rw [parseLoop_turn fuel1 _ st _ _ hbuf
        (parseStep_interface b _ st hrest.1 hb hlen1 hi)]
      rw [ih fuel1 tail
        { descriptors := st.descriptors ++ [Descriptor.interface (decodeInterface b) []],
          currIntf := some st.descriptors.length, inDfuIntf := isDfuInterfaceBlock b }
        st.descriptors (decodeInterface b) [] [] hrest.2 hfuel1 rfl rfl]
      simp only [hd, List.takeWhile_cons, hi, Bool.not_true, Bool.false_eq_true, if_false,
        List.map_nil, List.append_nil, List.nil_append, expectedFlat, if_true,
        List.append_assoc, List.cons_append]
    · have hi0 : isInterfaceBlock b = false := by simpa using hi
      rw [if_neg hi] at hrest
      rw [parseLoop_turn fuel1 _ st _ _ hbuf
        (parseStep_sub_some b _ st pre.length h2 hb hlen1 hi0 hrest.1 hc)]
      have hpush : pushChild (st.descriptors ++ [Descriptor.sub (expectedSub st.inDfuIntf b)])
          pre.length (expectedSub st.inDfuIntf b) =
          pre ++ Descriptor.interface c (kids ++ [expectedSub st.inDfuIntf b]) ::
            (rest ++ [Descriptor.sub (expectedSub st.inDfuIntf b)]) := by
        rw [hd, List.append_assoc, List.cons_append, pushChild_append]
      rw [ih fuel1 tail
        { descriptors :=
            pushChild (st.descriptors ++ [Descriptor.sub (expectedSub st.inDfuIntf b)])
              pre.length (expectedSub st.inDfuIntf b),
          currIntf := st.currIntf, inDfuIntf := st.inDfuIntf }
        pre c (kids ++ [expectedSub st.inDfuIntf b])
        (rest ++ [Descriptor.sub (expectedSub st.inDfuIntf b)]) hrest.2 hfuel1 hc hpush]
      simp only [List.takeWhile_cons, hi0, Bool.not_false, if_true, List.map_cons,
        expectedFlat, Bool.false_eq_true, if_false, List.append_assoc, List.cons_append,
        List.nil_append, List.singleton_append]

/-- The loop on a stream, before any interface descriptor was met. -/
theorem parseLoop_stream_none (bs : List (List Nat)) :
    ∀ (fuel : Nat) (tail : List Nat) (st : ParseState),
      StreamOK false bs tail → bs.length ≤ fuel → st.currIntf = none → st.inDfuIntf = false →
      parseLoop fuel (DataView.ofBuffer (bs.flatten ++ tail)) st =
        .ok (st.descriptors ++ expectedFlat false bs) := by
  induction bs with
  | nil =>
    intro fuel tail st hok _ _ _
    rw [List.flatten_nil, List.nil_append, parseLoop_done fuel tail st hok]
    simp [expectedFlat]
  | cons b bs ih =>
    intro fuel tail st hok hfuel hc hdfu
    obtain ⟨h2, h3, hb, hlen, hrest⟩ := hok
    obtain ⟨fuel1, rfl⟩ : ∃ k, fuel = k + 1 := ⟨fuel - 1, by simp at hfuel; omega⟩
    have hfuel1 : bs.length ≤ fuel1 := by simpa using hfuel
    have hlen1 : blockLength b = b.length ∨ (bs.flatten ++ tail = [] ∧ b.length ≤ blockLength b) := by
      rcases hlen with h | ⟨h, h1, h4⟩
      · exact Or.inl h
      · exact Or.inr ⟨by simp [h, h1], h4⟩
    have hbuf : 2 < (b ++ (bs.flatten ++ tail)).length := by
      simp only [List.length_append]
      omega
    rw [List.flatten_cons, List.append_assoc]
    by_cases hi : isInterfaceBlock b = true
    · rw [if_pos hi] at hrest
      rw [parseLoop_turn fuel1 _ st _ _ hbuf
        (parseStep_interface b _ st hrest.1 hb hlen1 hi)]
      rw [parseLoop_stream_some bs fuel1 tail
        { descriptors := st.descriptors ++ [Descriptor.interface (decodeInterface b) []],
          currIntf := some st.descriptors.length, inDfuIntf := isDfuInterfaceBlock b }
        st.descriptors (decodeInterface b) [] [] hrest.2 hfuel1 rfl rfl]
      simp only [List.nil_append, expectedFlat, hi, if_true]
    · have hi0 : isInterfaceBlock b = false := by simpa using hi
      rw [if_neg hi] at hrest
      rw [parseLoop_turn fuel1 _ st _ _ hbuf
        (parseStep_sub_none b _ st h2 hb hlen1 hi0 hdfu hc)]
      rw [ih fuel1 tail
        { descriptors := st.descriptors ++ [Descriptor.sub (genericNode b)],
          currIntf := st.currIntf, inDfuIntf := st.inDfuIntf } hrest.2 hfuel1 hc hdfu]
      simp only [expectedFlat, hi0, Bool.false_eq_true, if_false, expectedSub, Bool.false_and,
        List.append_assoc, List.singleton_append]

/-- `parseSubDescriptors` on a stream the parser can follow. -/
theorem parseSubDescriptors_stream (bs : List (List Nat)) (tail : List Nat) (fuel : Nat)
    (hok : StreamOK false bs tail) (hfuel : bs.length ≤ fuel) :
    parseSubDescriptors fuel (DataView.ofBuffer (bs.flatten ++ tail)) =
      .ok (expectedFlat false bs) := by
  unfold parseSubDescriptors
  rw [parseLoop_stream_none bs fuel tail _ hok hfuel rfl rfl]
  rfl

/-- The settings object of an alternate setting met in the traversal. -/
theorem findDfu_alternates (conf : USBConfiguration) (intf : USBInterface)
    (alts : List USBAlternateInterface) (acc : List Settings) :
    alts.foldl (fun interfaces alt =>
        if alt.interfaceClass = 0xFE ∧ alt.interfaceSubclass = 0x01 ∧
            (alt.interfaceProtocol = 0x01 ∨ alt.interfaceProtocol = 0x02) then
          interfaces ++ [{ configuration := conf, «interface» := intf, alternate := alt,
                           name := alt.interfaceName }]
        else interfaces) acc =
      acc ++ ((alts.map (fun alt => (conf, intf, alt))).filter
        (fun t => isDfuAlternate t.2.2)).map settingsOf := by
  induction alts generalizing acc with
  | nil => simp
  | cons alt alts ih =>
    rw [List.foldl_cons, ih]
    by_cases h : alt.interfaceClass = 0xFE ∧ alt.interfaceSubclass = 0x01 ∧
        (alt.interfaceProtocol = 0x01 ∨ alt.interfaceProtocol = 0x02)
    · have h1 : isDfuAlternate alt = true := by
        simp only [isDfuAlternate, Bool.and_eq_true, Bool.or_eq_true, beq_iff_eq]
        exact ⟨⟨h.1, h.2.1⟩, h.2.2⟩
      rw [if_pos h, List.map_cons, List.filter_cons_of_pos (by exact h1), List.map_cons,
        List.append_assoc]
      rfl
    · have h1 : ¬ isDfuAlternate alt = true := by
        simp only [isDfuAlternate, Bool.and_eq_true, Bool.or_eq_true, beq_iff_eq]
        exact fun h2 => h ⟨h2.1.1, h2.1.2, h2.2⟩
      rw [if_neg h, List.map_cons, List.filter_cons_of_neg (by exact h1)]

/-- The settings objects of the alternate settings of the interfaces of a
configuration. -/
theorem findDfu_interfaces (conf : USBConfiguration) (intfs : List USBInterface)
    (acc : List Settings) :
    intfs.foldl (fun interfaces intf =>
      intf.alternates.foldl (fun interfaces alt =>
        if alt.interfaceClass = 0xFE ∧ alt.interfaceSubclass = 0x01 ∧
            (alt.interfaceProtocol = 0x01 ∨ alt.interfaceProtocol = 0x02) then
          interfaces ++ [{ configuration := conf, «interface» := intf, alternate := alt,
                           name := alt.interfaceName }]
        else interfaces) interfaces) acc =
      acc ++ (((intfs.map (fun intf =>
        intf.alternates.map (fun alt => (conf, intf, alt)))).flatten).filter
        (fun t => isDfuAlternate t.2.2)).map settingsOf := by
  induction intfs generalizing acc with
  | nil => simp
  | cons intf intfs ih =>
    rw [List.foldl_cons, ih, findDfu_alternates]
    simp only [List.map_cons, List.flatten_cons, List.filter_append, List.map_append,
      List.append_assoc]

/-- The settings objects of the alternate settings of a list of configurations. -/
theorem findDfu_configurations (confs : List USBConfiguration) (acc : List Settings) :
    confs.foldl (fun interfaces conf =>
      conf.interfaces.foldl (fun interfaces intf =>
        intf.alternates.foldl (fun interfaces alt =>
          if alt.interfaceClass = 0xFE ∧ alt.interfaceSubclass = 0x01 ∧
              (alt.interfaceProtocol = 0x01 ∨ alt.interfaceProtocol = 0x02) then
            interfaces ++ [{ configuration := conf, «interface» := intf, alternate := alt,
                             name := alt.interfaceName }]
          else interfaces) interfaces) interfaces) acc =
      acc ++ ((alternatesInOrder confs).filter (fun t => isDfuAlternate t.2.2)).map
        settingsOf := by
  induction confs generalizing acc with
  | nil => simp [alternatesInOrder]
  | cons conf confs ih =>
    rw [List.foldl_cons, ih, findDfu_interfaces]
    simp only [alternatesInOrder, List.map_cons, List.flatten_cons, List.filter_append,
      List.map_append, List.append_assoc]

/-- C21: `findDeviceDfuInterfaces` returns, in the order of the traversal
(configurations, then interfaces, then alternates), one candidate for each alternate
setting with class `0xFE`, subclass `0x01` and protocol `0x01` or `0x02`, and none for
another alternate; each candidate carries its own configuration, interface and
alternate, and the interface name of the alternate. -/
theorem findDeviceDfuInterfaces_candidates (configurations : List USBConfiguration) :
    findDeviceDfuInterfaces configurations =
      ((alternatesInOrder configurations).filter (fun t =>
          t.2.2.interfaceClass = 0xFE ∧ t.2.2.interfaceSubclass = 0x01 ∧
            (t.2.2.interfaceProtocol = 0x01 ∨ t.2.2.interfaceProtocol = 0x02))).map
        (fun t => { configuration := t.1, «interface» := t.2.1, alternate := t.2.2,
                    name := t.2.2.interfaceName }) := by
  unfold findDeviceDfuInterfaces
  rw [findDfu_configurations, List.nil_append]
  have hf : (fun t : USBConfiguration × USBInterface × USBAlternateInterface =>
      isDfuAlternate t.2.2) = (fun t => decide (t.2.2.interfaceClass = 0xFE ∧
        t.2.2.interfaceSubclass = 0x01 ∧
          (t.2.2.interfaceProtocol = 0x01 ∨ t.2.2.interfaceProtocol = 0x02))) := by
    funext t
    simp only [isDfuAlternate, Bool.decide_and, Bool.decide_or, Bool.and_assoc]
    rfl
  rw [hf]
  rfl

/-- The header of the entry expected for a descriptor that is not an interface
descriptor. -/
theorem expectedSub_header (dfu : Bool) (b : List Nat) :
    (Descriptor.sub (expectedSub dfu b)).header = (blockLength b, blockType b) := by
  unfold expectedSub
  split <;> rfl

/-- The expected array has the headers of the descriptors, in order. -/
theorem expectedFlat_header (bs : List (List Nat)) (dfu : Bool) :
    (expectedFlat dfu bs).map Descriptor.header = bs.map (fun b => (blockLength b, blockType b)) := by
  induction bs generalizing dfu with
  | nil => rfl
  | cons b bs ih =>
    unfold expectedFlat
    split
    · rw [List.map_cons, List.map_cons, ih]
      rfl
    · rw [List.map_cons, List.map_cons, ih, expectedSub_header]

/-- The expected array has an interface entry exactly at the interface descriptors. -/
theorem expectedFlat_isInterface (bs : List (List Nat)) (dfu : Bool) :
    (expectedFlat dfu bs).map Descriptor.isInterface = bs.map isInterfaceBlock := by
  induction bs generalizing dfu with
  | nil => rfl
  | cons b bs ih =>
    unfold expectedFlat
    by_cases h : isInterfaceBlock b = true
    · rw [if_pos h, List.map_cons, List.map_cons, ih, h]
      rfl
    · rw [if_neg h, List.map_cons, List.map_cons, ih]
      simp only [Bool.not_eq_true] at h
      rw [h]
      rfl

/-- The entries of the expected array up to the first interface entry. -/
theorem expectedFlat_takeWhile (bs : List (List Nat)) (dfu : Bool) :
    (expectedFlat dfu bs).takeWhile (fun d => !d.isInterface) =
      ((bs.takeWhile (fun b => !isInterfaceBlock b)).map (expectedSub dfu)).map Descriptor.sub := by
  induction bs with
  | nil => rfl
  | cons b bs ih =>
    unfold expectedFlat
    by_cases h : isInterfaceBlock b = true
    · rw [if_pos h, List.takeWhile_cons_of_neg (by simp [Descriptor.isInterface]),
        List.takeWhile_cons_of_neg (by simp [h])]
      rfl
    · rw [if_neg h, List.takeWhile_cons_of_pos (by simp [Descriptor.isInterface]), ih,
        List.takeWhile_cons_of_pos (by simpa using h), List.map_cons, List.map_cons]

/-- In the expected array the children of an interface entry are the entries after it,
up to the next interface entry. -/
theorem expectedFlat_children (bs : List (List Nat)) :
    ∀ (dfu : Bool) (pre : List Descriptor) (c : InterfaceDescriptor) (kids : List SubDescriptor)
      (post : List Descriptor),
      expectedFlat dfu bs = pre ++ Descriptor.interface c kids :: post →
      kids.map Descriptor.sub = post.takeWhile (fun d => !d.isInterface) := by
  induction bs with
  | nil =>
    intro dfu pre c kids post h
    simp [expectedFlat] at h
  | cons b bs ih =>
    intro dfu pre c kids post h
    unfold expectedFlat at h
    cases pre with
    | nil =>
      by_cases hi : isInterfaceBlock b = true
      · rw [if_pos hi, List.nil_append] at h
        injection h with h1 h2
        injection h1 with h3 h4
        rw [← h2, ← h4, expectedFlat_takeWhile]
      · rw [if_neg hi, List.nil_append] at h
        injection h with h1 h2
        cases h1
    | cons x pre =>
      by_cases hi : isInterfaceBlock b = true
      · rw [if_pos hi, List.cons_append] at h
        injection h with h1 h2
        exact ih _ pre c kids post h2
      · rw [if_neg hi, List.cons_append] at h
        injection h with h1 h2
        exact ih _ pre c kids post h2

/-- In the expected array the child counts add up to the number of descriptors that
are not interface descriptors and follow the first interface descriptor. -/
theorem expectedFlat_childCount (bs : List (List Nat)) (dfu : Bool) :
    ((expectedFlat dfu bs).map Descriptor.childCount).sum =
      ((bs.dropWhile (fun b => !isInterfaceBlock b)).filter
        (fun b => !isInterfaceBlock b)).length := by
  induction bs generalizing dfu with
  | nil => rfl
  | cons b bs ih =>
    unfold expectedFlat
    by_cases hi : isInterfaceBlock b = true
    · rw [if_pos hi, List.map_cons, List.sum_cons, ih]
      simp only [Descriptor.childCount, List.length_map, List.dropWhile_cons, hi, Bool.not_true,
        Bool.false_eq_true, if_false, List.filter_cons_of_neg, not_false_eq_true]
      conv_rhs => rw [← List.takeWhile_append_dropWhile (fun b => !isInterfaceBlock b) bs]
      rw [List.filter_append, List.length_append]
      congr 1
      rw [List.filter_eq_self.mpr]
      intro a ha
      exact @List.mem_takeWhile_imp _ (fun b => !isInterfaceBlock b) _ _ ha
    · rw [if_neg hi, List.map_cons, List.sum_cons, ih]
      simp only [Bool.not_eq_true] at hi
      simp [Descriptor.childCount, List.dropWhile_cons, hi]

/-- The entries of the expected array after a prefix of the descriptors. -/
theorem expectedFlat_drop (pre bs : List (List Nat)) (dfu : Bool) :
    (expectedFlat dfu (pre ++ bs)).drop pre.length =
      expectedFlat (match pre.reverse.find? isInterfaceBlock with
        | some x => isDfuInterfaceBlock x
        | none => dfu) bs := by
  induction pre generalizing dfu with
  | nil => rfl
  | cons x pre ih =>
    rw [List.cons_append, expectedFlat, List.reverse_cons, List.find?_append]
    by_cases hi : isInterfaceBlock x = true
    · rw [if_pos hi, List.length_cons, List.drop_succ_cons, ih]
      cases hf : List.find? isInterfaceBlock pre.reverse with
      | none => simp [hi]
      | some y => simp
    · rw [if_neg hi, List.length_cons, List.drop_succ_cons, ih]
      cases hf : List.find? isInterfaceBlock pre.reverse with
      | none => simp [hi]
      | some y => simp

/-- The entry of the expected array for a descriptor that is not an interface
descriptor. -/
theorem expectedFlat_get (pre post : List (List Nat)) (b : List Nat)
    (hi : isInterfaceBlock b = false) :
    (expectedFlat false (pre ++ b :: post)).get? pre.length =
      some (Descriptor.sub (expectedSub (dfuContext pre) b)) := by
  have h := expectedFlat_drop pre (b :: post) false
  rw [List.get?_eq_getElem?, ← List.head?_drop, h, expectedFlat, if_neg (by simp [hi])]
  rfl

/-- C22, as stated, fails: when the last descriptor of the stream has 2 bytes, the
loop stops before it, because it runs only while more than 2 bytes remain. The buffer
of an interface descriptor followed by the descriptor `[2, 0xFF]` gives one entry, the
interface with no child, for two descriptors. -/
theorem parseSubDescriptors_skips_two_byte_last_descriptor :
    parseSubDescriptors 11 (DataView.ofBuffer twoByteLastBuffer) =
      .ok [Descriptor.interface
        { bLength := 9, bDescriptorType := 4, bInterfaceNumber := 0, bAlternateSetting := 0,
          bNumEndpoints := 0, bInterfaceClass := 0xFE, bInterfaceSubClass := 1,
          bInterfaceProtocol := 2, iInterface := 0 } []] := by
  decide

/-- C22, amended: on a well-formed stream of descriptors of which the last has at least
3 bytes, `parseSubDescriptors` returns an array
with one entry per descriptor, in the order of the bytes; the children of each interface
entry are exactly the entries that follow it up to the next interface entry, whatever
their type; and the child counts add up to the number of descriptors that are not
interface descriptors and follow the first interface descriptor. -/
theorem parseSubDescriptors_flattening_rule (bs : List (List Nat)) (fuel : Nat)
    (hwf : WellFormedStream bs) (hfuel : bs.length ≤ fuel) :
    ∃ flat, parseSubDescriptors fuel (DataView.ofBuffer bs.flatten) = .ok flat ∧
      flat = expectedFlat false bs ∧
      flat.map Descriptor.header = bs.map (fun b => (blockLength b, blockType b)) ∧
      flat.map Descriptor.isInterface = bs.map isInterfaceBlock ∧
      (∀ pre c kids post, flat = pre ++ Descriptor.interface c kids :: post →
        kids.map Descriptor.sub = post.takeWhile (fun d => !d.isInterface)) ∧
      (flat.map Descriptor.childCount).sum =
        ((bs.dropWhile (fun b => !isInterfaceBlock b)).filter
          (fun b => !isInterfaceBlock b)).length := by
  refine ⟨expectedFlat false bs, ?_, rfl, expectedFlat_header bs false,
    expectedFlat_isInterface bs false, expectedFlat_children bs false,
    expectedFlat_childCount bs false⟩
  have h := parseSubDescriptors_stream bs [] fuel hwf.1 hfuel
  rw [List.append_nil] at h
  exact h

/-- The flattening rule on the descriptors of a configuration with two interfaces. -/
theorem parseSubDescriptors_flattening_rule_witness :
    WellFormedStream sampleStream ∧
    ∃ flat, parseSubDescriptors 5 (DataView.ofBuffer sampleStream.flatten) = .ok flat ∧
      flat = expectedFlat false sampleStream ∧
      flat.map Descriptor.header = sampleStream.map (fun b => (blockLength b, blockType b)) ∧
      flat.map Descriptor.isInterface = sampleStream.map isInterfaceBlock ∧
      (∀ pre c kids post, flat = pre ++ Descriptor.interface c kids :: post →
        kids.map Descriptor.sub = post.takeWhile (fun d => !d.isInterface)) ∧
      (flat.map Descriptor.childCount).sum =
        ((sampleStream.dropWhile (fun b => !isInterfaceBlock b)).filter
          (fun b => !isInterfaceBlock b)).length :=
  ⟨by decide, parseSubDescriptors_flattening_rule sampleStream 5 (by decide) (by decide)⟩

/-- The array returned for the descriptors of a configuration with two interfaces: the
descriptor of type `0x21` is typed under the interface of the DFU class and generic
under the other, and each interface entry has the entries that follow it as children. -/
theorem parseSubDescriptors_sample :
    parseSubDescriptors 5 (DataView.ofBuffer sampleStream.flatten) =
      .ok [
        Descriptor.interface
          { bLength := 9, bDescriptorType := 4, bInterfaceNumber := 0, bAlternateSetting := 0,
            bNumEndpoints := 0, bInterfaceClass := 0xFE, bInterfaceSubClass := 1,
            bInterfaceProtocol := 2, iInterface := 0 }
          [.functional { bLength := 9, bDescriptorType := 0x21, bmAttributes := 0x0B,
                         wDetachTimeOut := 255, wTransferSize := 2048,
                         bcdDFUVersion := 0x011A }],
        Descriptor.sub
          (.functional { bLength := 9, bDescriptorType := 0x21, bmAttributes := 0x0B,
                         wDetachTimeOut := 255, wTransferSize := 2048,
                         bcdDFUVersion := 0x011A }),
        Descriptor.interface
          { bLength := 9, bDescriptorType := 4, bInterfaceNumber := 1, bAlternateSetting := 0,
            bNumEndpoints := 1, bInterfaceClass := 3, bInterfaceSubClass := 0,
            bInterfaceProtocol := 0, iInterface := 0 }
          [.generic 9 0x21 (DataView.ofBuffer [9, 0x21, 0x11, 1, 0, 1, 0x22, 63, 0]),
           .generic 7 5 (DataView.ofBuffer [7, 5, 0x81, 3, 8, 0, 10])],
        Descriptor.sub
          (.generic 9 0x21 (DataView.ofBuffer [9, 0x21, 0x11, 1, 0, 1, 0x22, 63, 0])),
        Descriptor.sub (.generic 7 5 (DataView.ofBuffer [7, 5, 0x81, 3, 8, 0, 10]))] := by
  decide

/-- C23, as stated, fails: on a buffer that ends inside an interface descriptor, which
declares 9 bytes where 4 remain, `parseSubDescriptors` raises a `RangeError` and does
not return the interface descriptor parsed before. -/
theorem parseSubDescriptors_throws_on_truncated_interface :
    parseSubDescriptors 13 (DataView.ofBuffer truncatedInterfaceBuffer) = .throw rangeError := by
  decide

/-- C23, amended: on descriptors that have their declared length, followed by a tail
of at most 2 bytes, or with a last descriptor that declares more bytes than remain,
where interface descriptors, and descriptors of type `0x21` under an interface of the
DFU class, have at least the 9 bytes that are read from them, `parseSubDescriptors`
returns the entries of all these descriptors and raises no error. -/
theorem parseSubDescriptors_tolerates_tail (bs : List (List Nat)) (tail : List Nat)
    (fuel : Nat) (hok : StreamOK false bs tail) (hfuel : bs.length ≤ fuel) :
    parseSubDescriptors fuel (DataView.ofBuffer (bs.flatten ++ tail)) =
      .ok (expectedFlat false bs) :=
  parseSubDescriptors_stream bs tail fuel hok hfuel

/-- A stream that ends inside an endpoint descriptor is parsed without an error. -/
theorem parseSubDescriptors_tolerates_tail_witness :
    StreamOK false truncatedEndpointStream [] ∧
    parseSubDescriptors 2 (DataView.ofBuffer (truncatedEndpointStream.flatten ++ [])) =
      .ok (expectedFlat false truncatedEndpointStream) :=
  ⟨by decide, parseSubDescriptors_tolerates_tail truncatedEndpointStream [] 2 (by decide)
    (by decide)⟩

/-- C24: in a well-formed stream, a descriptor of type `0x21` gets the typed entry,
with `bmAttributes` from byte 2 and `wDetachTimeOut`, `wTransferSize`, `bcdDFUVersion`
as little-endian 16-bit values from bytes 3, 5 and 7, when the interface descriptor
that most recently precedes it has class `0xFE` and subclass `0x01`; otherwise it gets
the generic entry of its length, its type and its bytes. In both cases the entry is in
the returned array, at the position of the descriptor. -/
theorem parseSubDescriptors_functional_iff_dfu_interface (pre post : List (List Nat))
    (b : List Nat) (fuel : Nat) (hwf : WellFormedStream (pre ++ b :: post))
    (hfuel : (pre ++ b :: post).length ≤ fuel) (hb : blockType b = 0x21) :
    ∃ flat, parseSubDescriptors fuel (DataView.ofBuffer (pre ++ b :: post).flatten) = .ok flat ∧
      flat.get? pre.length = some (Descriptor.sub
        (if dfuContext pre = true then
          SubDescriptor.functional
            { bLength := b.getD 0 0, bDescriptorType := b.getD 1 0, bmAttributes := b.getD 2 0,
              wDetachTimeOut := b.getD 3 0 + 256 * b.getD 4 0,
              wTransferSize := b.getD 5 0 + 256 * b.getD 6 0,
              bcdDFUVersion := b.getD 7 0 + 256 * b.getD 8 0 }
        else SubDescriptor.generic (b.getD 0 0) (b.getD 1 0) (DataView.ofBuffer b))) := by
  have h := parseSubDescriptors_stream (pre ++ b :: post) [] fuel hwf.1 hfuel
  rw [List.append_nil] at h
  refine ⟨_, h, ?_⟩
  rw [expectedFlat_get pre post b (by simp [isInterfaceBlock, hb])]
  unfold expectedSub
  simp only [hb, beq_self_eq_true, Bool.and_true]
  rfl

/-- The functional descriptor that follows the interface of the DFU class in the sample
stream is typed. -/
theorem parseSubDescriptors_functional_iff_dfu_interface_witness :
    WellFormedStream ([[9, 4, 0, 0, 0, 0xFE, 1, 2, 0]] ++
      [9, 0x21, 0x0B, 0xFF, 0, 0, 8, 0x1A, 1] :: [[7, 5, 0x81, 3, 8, 0, 10]]) ∧
    ∃ flat, parseSubDescriptors 3 (DataView.ofBuffer ([[9, 4, 0, 0, 0, 0xFE, 1, 2, 0]] ++
        [9, 0x21, 0x0B, 0xFF, 0, 0, 8, 0x1A, 1] :: [[7, 5, 0x81, 3, 8, 0, 10]]).flatten) =
        .ok flat ∧
      flat.get? 1 = some (Descriptor.sub
        (SubDescriptor.functional
            { bLength := 9, bDescriptorType := 0x21, bmAttributes := 0x0B,
              wDetachTimeOut := 255, wTransferSize := 2048, bcdDFUVersion := 0x011A })) :=
  ⟨by decide, parseSubDescriptors_functional_iff_dfu_interface [[9, 4, 0, 0, 0, 0xFE, 1, 2, 0]]
    [[7, 5, 0x81, 3, 8, 0, 10]] [9, 0x21, 0x0B, 0xFF, 0, 0, 8, 0x1A, 1] 3 (by decide)
    (by decide) (by decide)⟩

/-- The loop on three zero bytes never stops: the descriptor of length 0 is met again
at every turn. -/
theorem parseLoop_zero_length (fuel : Nat) :
    ∀ st : ParseState, st.currIntf = none →
      parseLoop fuel (DataView.ofBuffer [0, 0, 0]) st = .stuck := by
  induction fuel with
  | zero =>
    intro st _
    rfl
  | succ fuel ih =>
    intro st hc
    have hs : parseStep (DataView.ofBuffer [0, 0, 0]) st =
        .ok ({ descriptors := st.descriptors ++
                [Descriptor.sub (SubDescriptor.generic 0 0 (DataView.ofBuffer []))],
               currIntf := st.currIntf, inDfuIntf := st.inDfuIntf },
             DataView.ofBuffer [0, 0, 0]) := by
      simp [parseStep, DataView.getUint8, DataView.ofBuffer, Outcome.bind, hc]
    rw [parseLoop_turn fuel _ st _ _ (by decide) hs]
    exact ih _ hc

/-- C25 fails on a buffer of three zero bytes: the length byte 0 makes every turn of the
loop leave `remainingData` as it is, so that no number of iterations lets
`parseSubDescriptors` return. -/
theorem parseSubDescriptors_zero_length_never_returns (fuel : Nat) :
    parseSubDescriptors fuel (DataView.ofBuffer [0, 0, 0]) = .stuck :=
  parseLoop_zero_length fuel _ rfl

end DFU
